import Mathlib

/-!
# QIC archive recovery: bit stream, LZ77 decompressor, byte view and catalog tree

A shallow embedding of `compression.cpp`, `mapped_file.h` and `directory.cpp`.
Bytes are natural numbers below 256, machine integers are natural numbers reduced
modulo `2 ^ w` where the source's type is `w` bits wide, and a pointer to an entry of
the catalog vector is the index of that entry (`none` is `nullptr`).

The reduction modulo `2 ^ w` is written wherever a value of the input can reach the bound:
the accumulators of `get_next_bits`, the `uint32_t` length of `get_length`, and the sum
`offset + size` of `SafeArray::get`. Bit positions, window indices and loop counters stay
below the size of the data in memory (a buffer has fewer than `2 ^ 61` bytes, a catalog
fewer than `2 ^ 31` entries) and are plain natural numbers. A fallible function returns
an `Option`, `none` being `return false` or a null pointer; after a failed read the
caller leaves the stream, so the stream is not returned with `none`.
-/

namespace QIC

/-! ## Loops under an iteration budget -/

/-- Result of a `while (true)` loop of the source run under an iteration budget. -/
inductive Run (α : Type) where
  /-- The loop was left by a `return`, with the given result. -/
  | done (a : α) : Run α
  /-- The budget ran out while the loop was still running. -/
  | more : Run α
  deriving DecidableEq, Repr

/-! ## `BitStream` (compression.cpp, lines 36-89) -/

/-- The class `BitStream`: the byte buffer (`m_size` is its length) and the current bit
position `m_bit_pos`. -/
structure BitStream where
  m_buffer : List Nat
  m_bit_pos : Nat
  deriving DecidableEq, Repr

/-- The field `m_size`: the number of bytes of the buffer. -/
def BitStream.m_size (s : BitStream) : Nat := s.m_buffer.length

/-- The constructor `BitStream(buffer, buffer_size)`: the cursor starts at bit 0. -/
def BitStream.create (buffer : List Nat) : BitStream := ⟨buffer, 0⟩

/-- The method `BitStream::get_next_bit`: `none` is `return false` (the cursor is then left
where it was), `some (bit, s')` is `return true` with `*bit` and the advanced stream. -/
def BitStream.get_next_bit (s : BitStream) : Option (Nat × BitStream) :=
  if s.m_bit_pos ≥ s.m_size * 8 then
    none
  else
    let byte_index := s.m_bit_pos / 8
    let bit_index := s.m_bit_pos % 8
    some ((s.m_buffer.getD byte_index 0 >>> (7 - bit_index)) &&& 0x01,
          { s with m_bit_pos := s.m_bit_pos + 1 })

/-- The body of the `for` loop of `get_next_bits<T>` for a `T` of `w` bits, run `count`
times from the accumulator `out`. -/
def BitStream.get_next_bits_loop (w : Nat) : Nat → Nat → BitStream → Option (Nat × BitStream)
  | 0, out, s => some (out, s)
  | count + 1, out, s =>
    match s.get_next_bit with
    | none => none
    | some (bit, s') => get_next_bits_loop w count (((out <<< 1) ||| bit) % 2 ^ w) s'

/-- The method `BitStream::get_next_bits<T>` where `T` is an unsigned type of `w` bits. -/
def BitStream.get_next_bits (w : Nat) (s : BitStream) (count : Nat) : Option (Nat × BitStream) :=
  if count > w then none else BitStream.get_next_bits_loop w count 0 s

/-- The method `BitStream::get_next_byte`, that is `get_next_bits<uint8_t>(byte, 8)`. -/
def BitStream.get_next_byte (s : BitStream) : Option (Nat × BitStream) :=
  s.get_next_bits 8 8

/-- The number of bits between the cursor and the end of the buffer. -/
def BitStream.bits_left (s : BitStream) : Nat := s.m_size * 8 - s.m_bit_pos

/-! ## `get_offset` and `get_length` (compression.cpp, lines 91-138) -/

/-- The function `get_offset`; the offset is a `uint16_t`. -/
def get_offset (stream : BitStream) : Option (Nat × BitStream) :=
  match stream.get_next_bit with
  | none => none
  | some (is_7bit, s1) =>
    if is_7bit ≠ 0 then s1.get_next_bits 16 7 else s1.get_next_bits 16 11

/-- The `while (true)` loop of `get_length` over 4-bit groups; `length` is a `uint32_t`.
The inner `none` is `return false`. -/
def get_length_loop : Nat → Nat → BitStream → Run (Option (Nat × BitStream))
  | 0, _, _ => Run.more
  | fuel + 1, length, s =>
    match s.get_next_bits 8 4 with
    | none => Run.done none
    | some (nibble, s') =>
      if nibble < 15 then
        Run.done (some ((length + (nibble + 2)) % 2 ^ 32, s'))
      else
        get_length_loop fuel ((length + 15) % 2 ^ 32) s'

/-- The function `get_length`: the `for` loop over two 2-bit groups, unrolled, and then
the `while (true)` loop, which is given one iteration per remaining bit and one more. -/
def get_length (stream : BitStream) : Run (Option (Nat × BitStream)) :=
  match stream.get_next_bits 8 2 with
  | none => Run.done none
  | some (nibble, s1) =>
    if nibble < 3 then
      Run.done (some ((0 + (nibble + 2)) % 2 ^ 32, s1))
    else
      match s1.get_next_bits 8 2 with
      | none => Run.done none
      | some (nibble2, s2) =>
        if nibble2 < 3 then
          Run.done (some (((0 + 3) % 2 ^ 32 + (nibble2 + 2)) % 2 ^ 32, s2))
        else
          get_length_loop (s2.bits_left + 1) (((0 + 3) % 2 ^ 32 + 3) % 2 ^ 32) s2

/-! ## `HistoryBuffer` (compression.cpp, lines 140-183) -/

/-- The class `HistoryBuffer`: the window `m_history`, the output vector `m_out` it appends
to, and the write index `m_offset`. -/
structure HistoryBuffer where
  m_history : List Nat
  m_out : List Nat
  m_offset : Nat
  deriving DecidableEq, Repr

/-- The constructor `HistoryBuffer(out)`: `m_history.resize(2048)` gives 2048 zero bytes. -/
def HistoryBuffer.create (out : List Nat) : HistoryBuffer :=
  ⟨List.replicate 2048 0, out, 0⟩

/-- The method `HistoryBuffer::flush`: `m_history[0 .. m_offset)` is pushed to `m_out`
in index order, then `m_offset = 0`. -/
def HistoryBuffer.flush (h : HistoryBuffer) : HistoryBuffer :=
  { h with m_out := h.m_out ++ h.m_history.take h.m_offset, m_offset := 0 }

/-- The statement `m_history[m_offset++] = byte`. -/
def HistoryBuffer.store (h : HistoryBuffer) (byte : Nat) : HistoryBuffer :=
  { h with m_history := h.m_history.set h.m_offset byte, m_offset := h.m_offset + 1 }

/-- The statement `if (m_offset == m_history.size()) flush();`. -/
def HistoryBuffer.flush_if_full (h : HistoryBuffer) : HistoryBuffer :=
  if h.m_offset = h.m_history.length then h.flush else h

/-- The method `HistoryBuffer::put(uint8_t byte)`. -/
def HistoryBuffer.put (h : HistoryBuffer) (byte : Nat) : HistoryBuffer :=
  h.flush_if_full.store byte

/-- The method `HistoryBuffer::put(const size_t offset, size_t length)`: the loop
`while (length-- > 0)` runs `length` times. -/
def HistoryBuffer.put_ref (offset : Nat) : Nat → HistoryBuffer → HistoryBuffer
  | 0, h => h
  | length + 1, h =>
    let h1 := h.flush_if_full
    let index := if h1.m_offset ≥ offset then h1.m_offset - offset
                 else h1.m_offset + 2048 - offset
    put_ref offset length (h1.store (h1.m_history.getD (index % 2048) 0))

/-! ## `SafeArray` (mapped_file.h, lines 34-74) -/

/-- The class `SafeArray`: a view of `m_size` bytes. The bytes are kept as a list, `m_size`
is their number, and a pointer into the view is the offset it points at. -/
structure SafeArray where
  m_buffer : List Nat
  deriving DecidableEq, Repr

/-- The method `SafeArray::size`. -/
def SafeArray.size (a : SafeArray) : Nat := a.m_buffer.length

/-- The method `SafeArray::get(size_t offset, size_t size)`: `none` is `nullptr`, and
`some offset` is the pointer `m_buffer + offset`. The sum `offset + size` is computed in
`size_t`, that is modulo `2 ^ 64`. -/
def SafeArray.get (a : SafeArray) (offset size : Nat) : Option Nat :=
  if (offset + size) % 2 ^ 64 > a.size then none else some offset

/-- The method `SafeArray::get<T>(size_t offset)` for a type `T` with `sizeof(T) = sizeof_T`. -/
def SafeArray.get_typed (a : SafeArray) (sizeof_T : Nat) (offset : Nat) : Option Nat :=
  if (offset + sizeof_T) % 2 ^ 64 > a.size then none else some offset

/-! ## `decompress` (compression.cpp, lines 185-232) -/

/-- The `while (true)` loop of `decompress`. The result is the returned boolean and the
history buffer at that `return`. -/
def decompress_loop : Nat → BitStream → HistoryBuffer → Run (Bool × HistoryBuffer)
  | 0, _, _ => Run.more
  | fuel + 1, stream, history =>
    match stream.get_next_bit with
    | none => Run.done (false, history)
    | some (is_compressed, s1) =>
      if is_compressed ≠ 0 then
        match get_offset s1 with
        | none => Run.done (false, history)
        | some (offset, s2) =>
          if offset = 0 then
            Run.done (true, history)
          else
            match get_length s2 with
            | Run.more => Run.more
            | Run.done none => Run.done (false, history)
            | Run.done (some (length, s3)) =>
              decompress_loop fuel s3 (history.put_ref offset length)
      else
        match s1.get_next_byte with
        | none => Run.done (false, history)
        | some (byte, s2) => decompress_loop fuel s2 (history.put byte)

/-- The function `decompress(in, out)`: the returned boolean and the output vector after
the call. The stream is created over the whole view returned by `in->get(0, in->size())`;
the loop is given one iteration per input bit and one more; whichever `return` leaves
the function, the destructor of `history` flushes the window into `out`. -/
def decompress (input : SafeArray) (out : List Nat) : Run (Bool × List Nat) :=
  let history := HistoryBuffer.create out
  match input.get 0 input.size with
  | none => Run.done (false, history.flush.m_out)
  | some _ =>
    match decompress_loop (input.size * 8 + 1) (BitStream.create input.m_buffer) history with
    | Run.more => Run.more
    | Run.done (b, history') => Run.done (b, history'.flush.m_out)

/-! ## The token view of `decompress` -/

/-- A token of the compressed stream that produces output: a literal byte or a
back-reference with its decoded offset and length. -/
inductive Token where
  | literal (byte : Nat) : Token
  | backref (offset length : Nat) : Token
  deriving DecidableEq, Repr

/-- What one iteration of the loop of `decompress` reads from the stream. -/
inductive Step where
  /-- A token was read; the stream continues at `s`. -/
  | token (t : Token) (s : BitStream) : Step
  /-- A token with the flag bit set and offset 0: `return true`. -/
  | terminator : Step
  /-- One of the reads returned false: `return false`. -/
  | exhausted : Step
  deriving DecidableEq, Repr

/-- The reads of one iteration of the loop of `decompress`, in the order of the source. -/
def next_token (stream : BitStream) : Run Step :=
  match stream.get_next_bit with
  | none => Run.done Step.exhausted
  | some (is_compressed, s1) =>
    if is_compressed ≠ 0 then
      match get_offset s1 with
      | none => Run.done Step.exhausted
      | some (offset, s2) =>
        if offset = 0 then
          Run.done Step.terminator
        else
          match get_length s2 with
          | Run.more => Run.more
          | Run.done none => Run.done Step.exhausted
          | Run.done (some (length, s3)) => Run.done (Step.token (Token.backref offset length) s3)
    else
      match s1.get_next_byte with
      | none => Run.done Step.exhausted
      | some (byte, s2) => Run.done (Step.token (Token.literal byte) s2)

/-- The tokens read by the loop of `decompress` before it returns, the stream at the token
on which it returns, and whether that token is the terminator (`true`) or a failed read
(`false`). -/
def read_tokens : Nat → BitStream → Run (List Token × BitStream × Bool)
  | 0, _ => Run.more
  | fuel + 1, s =>
    match next_token s with
    | Run.more => Run.more
    | Run.done Step.exhausted => Run.done ([], s, false)
    | Run.done Step.terminator => Run.done ([], s, true)
    | Run.done (Step.token t s') =>
      match read_tokens fuel s' with
      | Run.more => Run.more
      | Run.done (ts, sl, b) => Run.done (t :: ts, sl, b)

/-- The tokens of an input of `decompress`, with the budget that `decompress` uses. -/
def tokens_of (input : SafeArray) : Run (List Token × BitStream × Bool) :=
  read_tokens (input.size * 8 + 1) (BitStream.create input.m_buffer)

/-- What a token does to the history buffer in the loop of `decompress`. -/
def HistoryBuffer.apply (h : HistoryBuffer) : Token → HistoryBuffer
  | Token.literal byte => h.put byte
  | Token.backref offset length => h.put_ref offset length

/-- The number of bytes a token produces. -/
def Token.size : Token → Nat
  | Token.literal _ => 1
  | Token.backref _ length => length

/-- The groups of `k` bits read by `get_next_bits<uint8_t>` from `s` on are `n` groups
equal to `v`; the result is the stream after them. -/
def skip_groups (k v : Nat) : Nat → BitStream → Option BitStream
  | 0, s => some s
  | n + 1, s =>
    match s.get_next_bits 8 k with
    | none => none
    | some (g, s') => if g = v then skip_groups k v n s' else none

/-! ## The reference LZ77 expansion -/

/-- Reference copy of a back-reference over an unbounded output: `length` times, append
the byte located `offset` positions before the current end of the output. -/
def lz77_copy (offset : Nat) : Nat → List Nat → List Nat
  | 0, acc => acc
  | length + 1, acc => lz77_copy offset length (acc ++ [acc.getD (acc.length - offset) 0])

/-- Reference LZ77 expansion of a token list over an unbounded output list. -/
def lz77_expand : List Token → List Nat → List Nat
  | [], acc => acc
  | Token.literal byte :: ts, acc => lz77_expand ts (acc ++ [byte])
  | Token.backref offset length :: ts, acc => lz77_expand ts (lz77_copy offset length acc)

/-- Every back-reference of the token list has an offset that is at most the number of
bytes produced before it, `produced` bytes having been produced before the list. -/
def offsets_within : List Token → Nat → Prop
  | [], _ => True
  | Token.literal _ :: ts, produced => offsets_within ts (produced + 1)
  | Token.backref offset length :: ts, produced =>
    offset ≤ produced ∧ offsets_within ts (produced + length)

/-! ## Writing bits most-significant-bit first -/

/-- The `n` low bits of `v`, most significant first. -/
def bits_msb : Nat → Nat → List Nat
  | 0, _ => []
  | n + 1, v => (v / 2 ^ n % 2) :: bits_msb n v

/-- The byte whose bits, most significant first, are the bits `8 * i .. 8 * i + 7` of the
bit list (absent bits are 0). -/
def pack_byte (bits : List Nat) (i : Nat) : Nat :=
  bits.getD (8 * i) 0 * 128 + bits.getD (8 * i + 1) 0 * 64 + bits.getD (8 * i + 2) 0 * 32
    + bits.getD (8 * i + 3) 0 * 16 + bits.getD (8 * i + 4) 0 * 8 + bits.getD (8 * i + 5) 0 * 4
    + bits.getD (8 * i + 6) 0 * 2 + bits.getD (8 * i + 7) 0

/-- The byte buffer that holds a bit list written most-significant-bit first, the last
byte padded with zero bits. -/
def pack_bits (bits : List Nat) : List Nat :=
  (List.range ((bits.length + 7) / 8)).map (pack_byte bits)

/-- The bits of a sequence of writes `(N, v)` made back to back. -/
def write_all : List (Nat × Nat) → List Nat
  | [] => []
  | (n, v) :: ws => bits_msb n v ++ write_all ws

/-- Successive calls of `get_next_bits<T>` (`T` of `w` bits) with the given counts: the
values read, in order, and the stream after them; `none` when one of the calls fails. -/
def read_all (w : Nat) : List Nat → BitStream → Option (List Nat × BitStream)
  | [], s => some ([], s)
  | n :: ns, s =>
    match s.get_next_bits w n with
    | none => none
    | some (v, s') =>
      match read_all w ns s' with
      | none => none
      | some (vs, s'') => some (v :: vs, s'')

/-- Successive calls of `get_next_bit`: the bits read, and `none` when one of them fails. -/
def read_bits : Nat → BitStream → Option (List Nat × BitStream)
  | 0, s => some ([], s)
  | n + 1, s =>
    match s.get_next_bit with
    | none => none
    | some (b, s') =>
      match read_bits n s' with
      | none => none
      | some (bs, s'') => some (b :: bs, s'')

/-! ## The catalog tree (main.h, lines 37-69, directory.cpp, lines 104-145) -/

/-- The struct `tm` of the C library, as `get_time` fills it: `ret = {0}` clears every
field. -/
structure tm where
  tm_sec : Int := 0
  tm_min : Int := 0
  tm_hour : Int := 0
  tm_mday : Int := 0
  tm_mon : Int := 0
  tm_year : Int := 0
  tm_wday : Int := 0
  tm_yday : Int := 0
  tm_isdst : Int := 0
  deriving DecidableEq, Repr

/-- The struct `parsed_dir_entry_t`. The pointer `parent` is the index, in the vector of
entries, of the entry it points at, and `none` is `nullptr`. -/
structure parsed_dir_entry_t where
  long_name : String := ""
  short_name : String := ""
  qic_path : String := ""
  is_dir : Bool := false
  is_empty_dir : Bool := false
  is_last_entry : Bool := false
  is_dir_end : Bool := false
  parent : Option Nat := none
  dir1_offset : Nat := 0
  dir_data_length : Nat := 0
  path_len : Nat := 0
  file_size : Nat := 0
  mtime : tm := {}
  atime : tm := {}
  deriving DecidableEq, Repr

/-- The local state of `reconstruct_tree`: `current_parent`, the stack of deques of
pending parents (the head of the list is the top of the stack, the head of a deque is
its front) and the flag `first`. -/
structure TreeState where
  current_parent : Option Nat
  stack : List (List (Option Nat))
  first : Bool
  deriving DecidableEq, Repr

/-- The state of `reconstruct_tree` before the loop: one deque holding `nullptr`. -/
def TreeState.init : TreeState := ⟨none, [[none]], true⟩

/-- The block `if (first) { ... }` of the loop of `reconstruct_tree`. `none` stands for
undefined behaviour: `top()` of an empty stack or `front()` of an empty deque. -/
def reconstruct_first (st : TreeState) : Option TreeState :=
  if st.first then
    match st.stack with
    | [] => none
    | top :: below =>
      match top with
      | [] => none
      | front :: top' =>
        let stack' := if top'.isEmpty then below else top' :: below
        some ⟨front, [] :: stack', false⟩
  else
    some st

/-- The statement `if (has_children) stack.top()->push_back(current_entry)` for the entry
of index `i`. -/
def reconstruct_push (st : TreeState) (i : Nat) (has_children : Bool) : Option TreeState :=
  if has_children then
    match st.stack with
    | [] => none
    | top :: below => some { st with stack := (top ++ [some i]) :: below }
  else
    some st

/-- The block `if (current_entry->is_last_entry) { ... }`. -/
def reconstruct_last (st : TreeState) (is_last_entry : Bool) : Option TreeState :=
  if is_last_entry then
    match st.stack with
    | [] => none
    | top :: below =>
      some { st with first := true, stack := if top.length = 0 then below else top :: below }
  else
    some st

/-- The loop of `reconstruct_tree` from index `i` on, over the entries not yet visited:
the visited entries with their `parent` written. -/
def reconstruct_loop : List parsed_dir_entry_t → Nat → TreeState → Option (List parsed_dir_entry_t)
  | [], _, _ => some []
  | current_entry :: rest, i, st =>
    match reconstruct_first st with
    | none => none
    | some st1 =>
      let has_children := current_entry.is_dir && !current_entry.is_empty_dir
      match reconstruct_push st1 i has_children with
      | none => none
      | some st2 =>
        match reconstruct_last st2 current_entry.is_last_entry with
        | none => none
        | some st3 =>
          match reconstruct_loop rest (i + 1) st3 with
          | none => none
          | some visited => some ({ current_entry with parent := st1.current_parent } :: visited)

/-- The function `reconstruct_tree(dirs)`: the vector after the call, or `none` when the
call runs into undefined behaviour. -/
def reconstruct_tree (dirs : List parsed_dir_entry_t) : Option (List parsed_dir_entry_t) :=
  reconstruct_loop dirs 0 TreeState.init

/-- The parents, by index, that `reconstruct_tree` writes. -/
def parents_of (dirs : List parsed_dir_entry_t) : Option (List (Option Nat)) :=
  (reconstruct_tree dirs).map (List.map parsed_dir_entry_t.parent)

/-- The entry reached from the entry of index `i` by following `parent` `n` times, or
`none` when a null parent (or an index outside the list) is met before. -/
def ancestor (parents : List (Option Nat)) : Nat → Nat → Option Nat
  | 0, i => some i
  | n + 1, i =>
    match parents.getD i none with
    | none => none
    | some p => ancestor parents n p

/-- The flags `(is_dir, is_empty_dir, is_last_entry)` of the 13 entries of `test()` in
test.cpp. -/
def test_flags : List (Bool × Bool × Bool) :=
  [(true, false, true), (true, false, false), (false, false, false), (true, false, true),
   (true, false, false), (true, false, true), (false, false, true), (true, true, false),
   (true, false, false), (true, false, true), (false, false, true), (false, false, true),
   (false, false, true)]

/-- The names of the 13 entries of `test()` in test.cpp. -/
def test_names : List String :=
  ["", "COMEXE", "config.sys", "TEXT", "STUFF", "LANGUAGE", "stuff.dat", "APL", "C", "BASIC",
   "hello.c", "mortgage.bas", "readme.txt"]

/-- The vector `entries` of `test()` in test.cpp. -/
def test_entries : List parsed_dir_entry_t :=
  (test_names.zip test_flags).map fun x =>
    { long_name := x.1, short_name := x.1, is_dir := x.2.1, is_empty_dir := x.2.2.1,
      is_last_entry := x.2.2.2, parent := none }

/-- The array `compressed` of `test_decompress()` in test.cpp. -/
def test_compressed : SafeArray :=
  ⟨[0x20, 0x90, 0x88, 0x38, 0x1C, 0x21, 0xE2, 0x5C, 0x15, 0x80]⟩

/-! ## Definitions used in the statements and the proofs -/

/-- Bit `k` of the stream over `buf`, as `get_next_bit` computes it. -/
def bit_at (buf : List Nat) (k : Nat) : Nat :=
  (buf.getD (k / 8) 0 >>> (7 - k % 8)) &&& 0x01

/-- The value of the `n` bits of `buf` from bit `p` on, the first bit being the highest. -/
def bits_val (buf : List Nat) : Nat → Nat → Nat
  | _, 0 => 0
  | p, n + 1 => bit_at buf p * 2 ^ n + bits_val buf (p + 1) n

/-- The number of bytes a token list produces. -/
def produced_size (ts : List Token) : Nat := (ts.map Token.size).sum

/-- The window has its 2048 bytes and the write index is inside it (or just past it). -/
def HistoryBuffer.wf (h : HistoryBuffer) : Prop :=
  h.m_history.length = 2048 ∧ h.m_offset ≤ 2048

/-- The number of literal tokens of a token list. -/
def literal_count : List Token → Nat
  | [] => 0
  | Token.literal _ :: ts => literal_count ts + 1
  | Token.backref _ _ :: ts => literal_count ts

/-- The sum of the decoded lengths of the back-reference tokens of a token list. -/
def backref_length_sum : List Token → Nat
  | [] => 0
  | Token.literal _ :: ts => backref_length_sum ts
  | Token.backref _ length :: ts => backref_length_sum ts + length

/-- The tokens `ts` are read one after the other from `s` on, by the reads of the loop of
`decompress`, and the stream is then at `sl`. -/
def reads_to : BitStream → List Token → BitStream → Prop
  | s, [], sl => sl = s
  | s, t :: ts, sl => ∃ s', next_token s = Run.done (Step.token t s') ∧ reads_to s' ts sl

/-- The shape of the groups read by `get_length` from `s`. -/
inductive LengthCode (s : BitStream) : Option (Nat × BitStream) → Prop where
  | fail1 : s.bits_left < 2 → LengthCode s none
  | short (v : Nat) (s1 : BitStream) :
      s.get_next_bits 8 2 = some (v, s1) → v < 3 → LengthCode s (some (v + 2, s1))
  | fail2 (s1 : BitStream) :
      s.get_next_bits 8 2 = some (3, s1) → s1.bits_left < 2 → LengthCode s none
  | medium (v : Nat) (s1 s2 : BitStream) :
      s.get_next_bits 8 2 = some (3, s1) → s1.get_next_bits 8 2 = some (v, s2) → v < 3 →
      LengthCode s (some (5 + v, s2))
  | fail3 (k : Nat) (s1 s2 s3 : BitStream) :
      s.get_next_bits 8 2 = some (3, s1) → s1.get_next_bits 8 2 = some (3, s2) →
      skip_groups 4 15 k s2 = some s3 → s3.bits_left < 4 → LengthCode s none
  | long (k v : Nat) (s1 s2 s3 s4 : BitStream) :
      s.get_next_bits 8 2 = some (3, s1) → s1.get_next_bits 8 2 = some (3, s2) →
      skip_groups 4 15 k s2 = some s3 → s3.get_next_bits 8 4 = some (v, s4) → v < 15 →
      LengthCode s (some ((8 + 15 * k + v) % 2 ^ 32, s4))

/-- The token at `s` is a terminator: its flag bit is set and its offset decodes to 0. -/
def terminator_at (s : BitStream) : Prop :=
  ∃ f s1 s2, s.get_next_bit = some (f, s1) ∧ f ≠ 0 ∧ get_offset s1 = some (0, s2)

/-- The bits run out inside the length field that starts at `s`: in the first 2-bit group,
in the second one (the first being 3), or in a 4-bit group (both 2-bit groups being 3 and
all the 4-bit groups before it being 15). -/
def length_exhausted (s : BitStream) : Prop :=
  s.bits_left < 2 ∨
  (∃ s1, s.get_next_bits 8 2 = some (3, s1) ∧ s1.bits_left < 2) ∨
  (∃ s1 s2 k s3, s.get_next_bits 8 2 = some (3, s1) ∧ s1.get_next_bits 8 2 = some (3, s2) ∧
    skip_groups 4 15 k s2 = some s3 ∧ s3.bits_left < 4)

/-- The bits run out inside the offset field that starts at `s`: in the `is_7bit` bit or
in the 7 or 11 bits that follow it. -/
def offset_exhausted (s : BitStream) : Prop :=
  s.bits_left = 0 ∨
  ∃ g s1, s.get_next_bit = some (g, s1) ∧ s1.bits_left < (if g ≠ 0 then 7 else 11)

/-- The bits run out inside the token that starts at `s`: in its flag bit, in its literal
byte, in its offset field or in its length field. -/
def field_exhausted (s : BitStream) : Prop :=
  s.bits_left = 0 ∨
  (∃ f s1, s.get_next_bit = some (f, s1) ∧ f = 0 ∧ s1.bits_left < 8) ∨
  (∃ f s1, s.get_next_bit = some (f, s1) ∧ f ≠ 0 ∧ offset_exhausted s1) ∨
  (∃ f s1 offset s2, s.get_next_bit = some (f, s1) ∧ f ≠ 0 ∧
    get_offset s1 = some (offset, s2) ∧ offset ≠ 0 ∧ length_exhausted s2)

/-- Every pending parent of the stack satisfies `P`. -/
def stack_all (P : Option Nat → Prop) (stack : List (List (Option Nat))) : Prop :=
  ∀ d ∈ stack, ∀ p ∈ d, P p

/-- The state of `reconstruct_tree` after the block `if (first)` of the first iteration. -/
def TreeState.started : TreeState := ⟨none, [[]], false⟩

/-- No entry of `l` before index `j` that is at or after index `a` has `is_last_entry`. -/
def no_last_between (l : List parsed_dir_entry_t) (a j : Nat) : Prop :=
  ∀ k e, a ≤ k → k < j → l[k]? = some e → e.is_last_entry = false

/-- The pending parent `p` is an entry before index `i` for which `G` holds. -/
def good_parent (G : Nat → Prop) (i : Nat) (p : Option Nat) : Prop :=
  ∃ j, p = some j ∧ j < i ∧ G j

/-- The parents that `test()` in test.cpp asserts, by index. -/
def test_parents : List (Option Nat) :=
  [none, some 0, some 0, some 0, some 1, some 1, some 4, some 5, some 5, some 5, some 8,
   some 9, some 3]

/-- The vector `entries` of `test()` with the asserted parents written. -/
def test_result : List parsed_dir_entry_t :=
  List.zipWith (fun e p => { e with parent := p }) test_entries test_parents

/-- The history buffer `h` of a call of `decompress` that started with the output `out0`
and has produced the bytes `produced` so far: the part of `produced` before the window is
in `m_out` after `out0`, and each of the last 2048 bytes produced, of index `j`, is in the
window at index `j % 2048`. -/
def ring_inv (h : HistoryBuffer) (out0 produced : List Nat) : Prop :=
  h.m_history.length = 2048 ∧
  h.m_offset ≤ 2048 ∧
  h.m_offset ≤ produced.length ∧
  (produced.length - h.m_offset) % 2048 = 0 ∧
  h.m_out = out0 ++ produced.take (produced.length - h.m_offset) ∧
  ∀ j, j < produced.length → produced.length ≤ j + 2048 →
    h.m_history.getD (j % 2048) 0 = produced.getD j 0

/-- Every back-reference of the token list has an offset in 1..2047. -/
def offsets_in_window : List Token → Prop
  | [] => True
  | Token.literal _ :: ts => offsets_in_window ts
  | Token.backref offset _ :: ts => 1 ≤ offset ∧ offset ≤ 2047 ∧ offsets_in_window ts

/-! ## Calls that read memory -/

/-- Result of a call of the source that reads memory through pointers. -/
inductive Exec (α : Type) where
  /-- The call returned, with the given results. -/
  | ret (a : α) : Exec α
  /-- The call read through a null pointer or outside the bytes of the view: undefined
  behaviour. -/
  | undefined : Exec α
  /-- The iteration budget of a loop ran out. -/
  | more : Exec α
  deriving DecidableEq, Repr

/-- The `n` bytes that a pointer `ptr` into the view points at, or `none` when they are not
all inside the view (reading them is then undefined behaviour). -/
def SafeArray.deref (a : SafeArray) (ptr n : Nat) : Option (List Nat) :=
  if ptr + n ≤ a.size then some ((a.m_buffer.drop ptr).take n) else none

/-- The value of an unsigned little-endian integer given by its bytes. -/
def le_uint : List Nat → Nat
  | [] => 0
  | b :: bs => b + 256 * le_uint bs

/-- The unsigned little-endian field of `n` bytes at offset `off` of a packed record. -/
def le_field (record : List Nat) (off n : Nat) : Nat :=
  le_uint ((record.drop off).take n)

/-! ## Records of qic.h -/

/-- The constant `SEG_SZ`. -/
def SEG_SZ : Nat := 29696

/-- The constant `RAW_SEG`. -/
def RAW_SEG : Nat := 0x8000

/-- The flag `SUBDIR`. -/
def SUBDIR : Nat := 0x1

/-- The flag `EMPTYDIR`. -/
def EMPTYDIR : Nat := 0x2

/-- The flag `DIRLAST`. -/
def DIRLAST : Nat := 0x8

/-- The flag `DIREND`. -/
def DIREND : Nat := 0x30

/-- The signature `DAT_SIG`. -/
def DAT_SIG : Nat := 0x33CC33CC

/-- The signature `EDAT_SIG`. -/
def EDAT_SIG : Nat := 0x66996699

/-- The size of the packed struct `cseg_head_t`: one `uint64_t`. -/
def sizeof_cseg_head_t : Nat := 8

/-- The size of the packed struct `cframe_head_t`: one `uint16_t`. -/
def sizeof_cframe_head_t : Nat := 2

/-- The size of the packed struct `ms_dir_fixed_t`, field by field in declaration order:
`rec_len`, `ndx[2]`, `path_len`, `unknww1`, `flag`, `unknww2`, `file_len`, `unknwb1[20]`,
`attrib`, `unknwb2[3]`, `c_datetime`, `unknwl1`, `a_datetime`, `unknwl2`, `m_datetime`,
`unknwl3`, `nm_len`. -/
def sizeof_ms_dir_fixed_t : Nat :=
  2 + 2 * 4 + 2 + 2 + 1 + 2 + 4 + 20 + 1 + 3 + 4 + 4 + 4 + 4 + 4 + 4 + 2

/-- The size of the packed struct `ms_dir_fixed2_t`, field by field: `unkwn1[13]`, `var1`,
`var2`, `nm_len`. -/
def sizeof_ms_dir_fixed2_t : Nat := 13 + 4 + 4 + 2

/-- The fields of `ms_dir_fixed_t` that the program reads. -/
structure ms_dir_fixed_t where
  rec_len : Nat
  path_len : Nat
  flag : Nat
  file_len : Nat
  c_datetime : Nat
  a_datetime : Nat
  m_datetime : Nat
  nm_len : Nat
  deriving DecidableEq, Repr

/-- The struct `ms_dir_fixed_t` seen through a pointer to its 71 bytes: every field is at
the offset that the packed declaration gives it and has the range of its type. -/
def ms_dir_fixed_t.of_bytes (b : List Nat) : ms_dir_fixed_t :=
  { rec_len := le_field b 0 2 % 2 ^ 16,
    path_len := le_field b 10 2 % 2 ^ 16,
    flag := le_field b 14 1 % 2 ^ 8,
    file_len := le_field b 17 4 % 2 ^ 32,
    c_datetime := le_field b 45 4 % 2 ^ 32,
    a_datetime := le_field b 53 4 % 2 ^ 32,
    m_datetime := le_field b 61 4 % 2 ^ 32,
    nm_len := le_field b 69 2 % 2 ^ 16 }

/-- The fields of `ms_dir_fixed2_t` that the program reads. -/
structure ms_dir_fixed2_t where
  nm_len : Nat
  deriving DecidableEq, Repr

/-- The struct `ms_dir_fixed2_t` seen through a pointer to its 23 bytes. -/
def ms_dir_fixed2_t.of_bytes (b : List Nat) : ms_dir_fixed2_t :=
  { nm_len := le_field b 21 2 % 2 ^ 16 }

/-! ## `utf16_to_utf8` and `get_time` (utils.cpp) -/

/-- The 16-bit units of a byte buffer read as `char16_t` (little-endian); an odd last byte
is left out. -/
def utf16_units : List Nat → List Nat
  | lo :: hi :: rest => (lo + 256 * hi) :: utf16_units rest
  | _ => []

/-- The bytes of a buffer of 16-bit units. -/
def utf16_bytes : List Nat → List Nat
  | [] => []
  | u :: rest => (u % 256) :: (u / 256) :: utf16_bytes rest

/-- Modelled from the spec: the conversion `std::wstring_convert<std::codecvt_utf8_utf16<
char16_t>>::to_bytes` of the C++ library, which is not part of the repository ("UTF-16 LE
to UTF-8 conversion is standard"). The result is the list of the code points of the UTF-8
string, and `none` when the conversion throws: a unit outside a surrogate pair is its own
code point, a high surrogate followed by a low one is one code point, anything else is
malformed. -/
def utf16_convert : List Nat → Option (List Char)
  | [] => some []
  | [u] =>
    if u < 0xD800 ∨ 0xE000 ≤ u then some [Char.ofNat u] else none
  | u :: l :: rest =>
    if u < 0xD800 ∨ 0xE000 ≤ u then
      (utf16_convert (l :: rest)).map (fun cs => Char.ofNat u :: cs)
    else if u < 0xDC00 ∧ 0xDC00 ≤ l ∧ l < 0xE000 then
      (utf16_convert rest).map
        (fun cs => Char.ofNat (0x10000 + (u - 0xD800) * 0x400 + (l - 0xDC00)) :: cs)
    else none

/-- The function `utf16_to_utf8(buffer, size_in_bytes)` on the bytes that `buffer` points
at: the empty string for an odd size and when the conversion throws. -/
def utf16_to_utf8 (bytes : List Nat) : String :=
  if bytes.length % 2 ≠ 0 then ""
  else
    match utf16_convert (utf16_units bytes) with
    | some cs => String.mk cs
    | none => ""

/-- The value given to `day` in the `do` loop of `get_time` for the year `yr`. -/
def get_time_day (yr : Nat) : Nat :=
  if yr % 100 = 0 ∨ yr % 4 ≠ 0 then 365 else 366

/-- The value given to `lpyr` in the `do` loop of `get_time` for the year `yr`. -/
def get_time_lpyr (yr : Nat) : Nat :=
  if yr % 100 = 0 ∨ yr % 4 ≠ 0 then 0 else 1

/-- The `do { ... } while (date > day)` loop of `get_time`: the values of `yr`, `date`,
`day` and `lpyr` when the loop is left. An iteration that is followed by another one
takes at least 365 from `date`, so that `fuel` bounds the number of iterations: the loop
needs no budget. `yr` is a `uint16_t`. -/
def get_time_years : (fuel yr date : Nat) → date ≤ 365 * fuel + 365 → Nat × Nat × Nat × Nat
  | fuel, yr, date, h =>
    if date > get_time_day yr then
      -- yr++; date -= day;
      if hc : date - get_time_day yr > get_time_day yr then
        match fuel, h with
        | 0, h => absurd h (by
            have hge : 365 ≤ get_time_day yr := by unfold get_time_day; split <;> omega
            omega)
        | fuel + 1, h =>
          get_time_years fuel ((yr + 1) % 2 ^ 16) (date - get_time_day yr)
            (by
              have hge : 365 ≤ get_time_day yr := by unfold get_time_day; split <;> omega
              omega)
      else
        ((yr + 1) % 2 ^ 16, date - get_time_day yr, get_time_day yr, get_time_lpyr yr)
    else
      (yr, date, get_time_day yr, get_time_lpyr yr)

/-- The loop `while (mon < 12)` of `get_time` over the remaining entries of `mondays`:
the values of `mon` and `day` when the loop is left. -/
def get_time_months : List Nat → Nat → Nat → Nat × Nat
  | [], mon, day => (mon, day)
  | m :: ms, mon, day => if m ≥ day then (mon, day) else get_time_months ms (mon + 1) (day - m)

/-- The array `mondays` of `get_time` as it is initialised. -/
def mondays : List Nat := [31, 28, 31, 30, 31, 30, 31, 31, 31, 30, 31, 31]

/-- The function `get_time(date)`; `BASEYR` is 1970 and `day` is a `uint16_t`. The
statement `mondays[1] += lpyr` precedes the loop over the months. -/
def get_time (date : Nat) : tm :=
  let sec := date % 60
  let date := date / 60
  let min := date % 60
  let date := date / 60
  let hour := date % 24
  let date := date / 24
  match get_time_years date 1970 date (by omega) with
  | (yr, date, _, lpyr) =>
    let day := date % 2 ^ 16
    match get_time_months (mondays.set 1 (mondays.getD 1 0 + lpyr)) 0 day with
    | (mon, day) =>
      { tm_mday := day, tm_mon := mon + 1, tm_year := (yr : Int) - 1900,
        tm_hour := hour, tm_min := min, tm_sec := sec }

/-! ## `read_dir_entry` and `read_dir_entries` (directory.cpp, lines 30-102) -/

/-- The two blocks `if (len > 0) { get the name; convert it; offset += len; }` of
`read_dir_entry`: the cursor and the name after the block, `none` when `get` returns null.
`name` is the name that the entry had before the block. -/
def read_name (buffer : SafeArray) (offset len : Nat) (name : String) :
    Exec (Option (Nat × String)) :=
  if len > 0 then
    match buffer.get offset len with
    | none => Exec.ret none
    | some name_ptr =>
      match buffer.deref name_ptr len with
      | none => Exec.undefined
      | some bytes => Exec.ret (some ((offset + len) % 2 ^ 64, utf16_to_utf8 bytes))
  else
    Exec.ret (some (offset, name))

/-- The function `read_dir_entry(buffer, offset, entry)`: `ret none` is `return false`, and
`ret (some (offset, entry))` is `return true` with the cursor and the entry after the
call. The cursor is a `size_t`. -/
def read_dir_entry (buffer : SafeArray) (offset : Nat) (entry : parsed_dir_entry_t) :
    Exec (Option (Nat × parsed_dir_entry_t)) :=
  let dir1_offset := offset
  match buffer.get_typed sizeof_ms_dir_fixed_t offset with
  | none => Exec.ret none
  | some d1_ptr =>
    let offset := (offset + sizeof_ms_dir_fixed_t) % 2 ^ 64
    match buffer.deref d1_ptr sizeof_ms_dir_fixed_t with
    | none => Exec.undefined
    | some d1_bytes =>
      let d1 := ms_dir_fixed_t.of_bytes d1_bytes
      match read_name buffer offset d1.nm_len entry.long_name with
      | Exec.undefined => Exec.undefined
      | Exec.more => Exec.more
      | Exec.ret none => Exec.ret none
      | Exec.ret (some (offset, long_name)) =>
        match buffer.get_typed sizeof_ms_dir_fixed2_t offset with
        | none => Exec.ret none
        | some d2_ptr =>
          let offset := (offset + sizeof_ms_dir_fixed2_t) % 2 ^ 64
          match buffer.deref d2_ptr sizeof_ms_dir_fixed2_t with
          | none => Exec.undefined
          | some d2_bytes =>
            let d2 := ms_dir_fixed2_t.of_bytes d2_bytes
            let dos_len := if d2.nm_len = 0 then d1.nm_len else d2.nm_len
            match read_name buffer offset dos_len entry.short_name with
            | Exec.undefined => Exec.undefined
            | Exec.more => Exec.more
            | Exec.ret none => Exec.ret none
            | Exec.ret (some (offset, short_name)) =>
              Exec.ret (some (offset,
                { entry with
                  long_name := long_name
                  short_name := short_name
                  is_dir := d1.flag &&& SUBDIR ≠ 0
                  is_empty_dir := d1.flag &&& EMPTYDIR ≠ 0
                  is_last_entry := d1.flag &&& DIRLAST ≠ 0
                  is_dir_end := d1.flag &&& DIREND ≠ 0
                  dir1_offset := dir1_offset
                  dir_data_length := (offset + 2 ^ 64 - dir1_offset) % 2 ^ 64
                  path_len := d1.path_len
                  file_size := d1.file_len
                  mtime := get_time d1.m_datetime
                  atime := get_time d1.a_datetime }))

/-- The loop of `read_dir_entries`: the returned boolean and the vector `dirs` at the
`return`. Every iteration declares a new `entry`. -/
def read_dir_entries_loop :
    Nat → SafeArray → Nat → List parsed_dir_entry_t → Exec (Bool × List parsed_dir_entry_t)
  | 0, _, _, _ => Exec.more
  | fuel + 1, buffer, offset, dirs =>
    match read_dir_entry buffer offset {} with
    | Exec.undefined => Exec.undefined
    | Exec.more => Exec.more
    | Exec.ret none => Exec.ret (false, dirs)
    | Exec.ret (some (offset', entry)) =>
      if entry.is_dir_end then
        Exec.ret (true, dirs ++ [entry])
      else
        read_dir_entries_loop fuel buffer offset' (dirs ++ [entry])

/-- The function `read_dir_entries(buffer, dirs)`; the loop is given one iteration per
byte of the buffer and one more. -/
def read_dir_entries (buffer : SafeArray) (dirs : List parsed_dir_entry_t) :
    Exec (Bool × List parsed_dir_entry_t) :=
  read_dir_entries_loop (buffer.size + 1) buffer 0 dirs

/-! ## The record at a cursor -/

/-- The first fixed part of the record at the cursor `c`. -/
def record_d1 (buffer : SafeArray) (c : Nat) : ms_dir_fixed_t :=
  ms_dir_fixed_t.of_bytes ((buffer.m_buffer.drop c).take sizeof_ms_dir_fixed_t)

/-- The second fixed part of the record at the cursor `c`: it follows the long name. -/
def record_d2 (buffer : SafeArray) (c : Nat) : ms_dir_fixed2_t :=
  ms_dir_fixed2_t.of_bytes
    ((buffer.m_buffer.drop (c + sizeof_ms_dir_fixed_t + (record_d1 buffer c).nm_len)).take
      sizeof_ms_dir_fixed2_t)

/-- The length `dos_len` of the record at the cursor `c`. -/
def record_dos_len (buffer : SafeArray) (c : Nat) : Nat :=
  if (record_d2 buffer c).nm_len = 0 then (record_d1 buffer c).nm_len
  else (record_d2 buffer c).nm_len

/-- The number of bytes of the record at the cursor `c`. -/
def record_length (buffer : SafeArray) (c : Nat) : Nat :=
  sizeof_ms_dir_fixed_t + (record_d1 buffer c).nm_len + sizeof_ms_dir_fixed2_t +
    record_dos_len buffer c

/-- The buffer holds a complete record at the cursor `c`: both fixed parts and both names
are inside the buffer. -/
def record_fits (buffer : SafeArray) (c : Nat) : Prop :=
  c + sizeof_ms_dir_fixed_t ≤ buffer.size ∧
  c + sizeof_ms_dir_fixed_t + (record_d1 buffer c).nm_len + sizeof_ms_dir_fixed2_t ≤ buffer.size ∧
  c + record_length buffer c ≤ buffer.size

/-- The `n` bytes of the view from the offset `start` on. -/
def SafeArray.slice (a : SafeArray) (start n : Nat) : List Nat :=
  (a.m_buffer.drop start).take n

/-- The entry that `read_dir_entry` builds from the record at the cursor `c`, `entry` being
the entry before the call. -/
def record_entry (buffer : SafeArray) (c : Nat) (entry : parsed_dir_entry_t) :
    parsed_dir_entry_t :=
  { entry with
    long_name :=
      if (record_d1 buffer c).nm_len > 0 then
        utf16_to_utf8 (buffer.slice (c + sizeof_ms_dir_fixed_t) (record_d1 buffer c).nm_len)
      else entry.long_name
    short_name :=
      if record_dos_len buffer c > 0 then
        utf16_to_utf8 (buffer.slice
          (c + sizeof_ms_dir_fixed_t + (record_d1 buffer c).nm_len + sizeof_ms_dir_fixed2_t)
          (record_dos_len buffer c))
      else entry.short_name
    is_dir := (record_d1 buffer c).flag &&& SUBDIR ≠ 0
    is_empty_dir := (record_d1 buffer c).flag &&& EMPTYDIR ≠ 0
    is_last_entry := (record_d1 buffer c).flag &&& DIRLAST ≠ 0
    is_dir_end := (record_d1 buffer c).flag &&& DIREND ≠ 0
    dir1_offset := c
    dir_data_length := record_length buffer c
    path_len := (record_d1 buffer c).path_len
    file_size := (record_d1 buffer c).file_len
    mtime := get_time (record_d1 buffer c).m_datetime
    atime := get_time (record_d1 buffer c).a_datetime }

/-- The 98 bytes of a record with the long name `A` (`nm_len = 2`), `nm_len2 = 0`, followed
by the two bytes of `B`; its flag is `DIREND`. -/
def record_A_B : List Nat :=
  List.replicate 14 0 ++ [0x30] ++ List.replicate 54 0 ++ [2, 0] ++ [0x41, 0] ++
    List.replicate 23 0 ++ [0x42, 0]

/-- The entries `es` are the records that lie one after the other in the buffer from the
cursor `o` on, and the cursor after them is `o'`. -/
def records_from (buffer : SafeArray) : Nat → List parsed_dir_entry_t → Nat → Prop
  | o, [], o' => o' = o
  | o, e :: es, o' =>
    record_fits buffer o ∧ e = record_entry buffer o {} ∧
      records_from buffer (o + record_length buffer o) es o'

/-- The record `record_A_B` with the flag 0 instead of `DIREND`, followed by
`record_A_B`. -/
def two_records : List Nat :=
  List.replicate 69 0 ++ [2, 0] ++ [0x41, 0] ++ List.replicate 23 0 ++ [0x42, 0] ++ record_A_B

/-! ## The flags that `reconstruct_tree` reads -/

/-- The flags `(is_dir, is_empty_dir, is_last_entry)` of an entry list. -/
def flags_of (dirs : List parsed_dir_entry_t) : List (Bool × Bool × Bool) :=
  dirs.map fun e => (e.is_dir, e.is_empty_dir, e.is_last_entry)

/-- The loop of `reconstruct_tree` run on the flags alone: the parents by index. -/
def parents_loop : List (Bool × Bool × Bool) → Nat → TreeState → Option (List (Option Nat))
  | [], _, _ => some []
  | f :: rest, i, st =>
    match reconstruct_first st with
    | none => none
    | some st1 =>
      match reconstruct_push st1 i (f.1 && !f.2.1) with
      | none => none
      | some st2 =>
        match reconstruct_last st2 f.2.2 with
        | none => none
        | some st3 =>
          match parents_loop rest (i + 1) st3 with
          | none => none
          | some visited => some (st1.current_parent :: visited)

/-! ## `read_catalog` and `read_data_segment` (data_reader.cpp) -/

/-- The read `frame_head->segment_size` of the 16-bit field of the `cframe_head_t` that
`frame_head` points at; `frame_head` is the unchecked result of `get<cframe_head_t>`.
`none` is undefined behaviour: the pointer is null, or the two bytes are not inside the
view. -/
def cframe_head_segment_size (file : SafeArray) (frame_head : Option Nat) : Option Nat :=
  match frame_head with
  | none => none
  | some ptr =>
    match file.deref ptr sizeof_cframe_head_t with
    | none => none
    | some bytes => some (le_uint bytes % 2 ^ 16)

/-- The loop `while (size > 0)` of `read_catalog`: the returned boolean and the vector
`buffer` at the `return`. `start_offset` and `size` are `size_t`. On the 16 bits of
`segment_size`, the mask `~RAW_SEG` is `0xFFFF - RAW_SEG`. -/
def read_catalog_loop : Nat → SafeArray → Nat → Nat → List Nat → Exec (Bool × List Nat)
  | 0, _, _, _, _ => Exec.more
  | fuel + 1, file, start_offset, size, buffer =>
    if size > 0 then
      match file.get_typed sizeof_cseg_head_t start_offset with
      | none => Exec.ret (false, buffer)
      | some _ =>
        let start_offset := (start_offset + sizeof_cseg_head_t) % 2 ^ 64
        let frame_head := file.get_typed sizeof_cframe_head_t start_offset
        match cframe_head_segment_size file frame_head with
        | none => Exec.undefined
        | some raw =>
          let compressed : Bool := raw &&& RAW_SEG = 0
          if compressed then
            Exec.ret (false, buffer)
          else
            let segment_size := raw &&& (0xFFFF - RAW_SEG)
            let start_offset := (start_offset + sizeof_cframe_head_t) % 2 ^ 64
            match file.get start_offset segment_size with
            | none => Exec.ret (false, buffer)
            | some data =>
              match file.deref data segment_size with
              | none => Exec.undefined
              | some bytes =>
                read_catalog_loop fuel file ((start_offset + segment_size) % 2 ^ 64)
                  ((size + 2 ^ 64 - segment_size) % 2 ^ 64) (buffer ++ bytes)
    else
      Exec.ret (true, buffer)

/-- The function `read_catalog(file, start_offset, size, buffer)`; the loop is given one
iteration per byte of the file and two more. -/
def read_catalog (file : SafeArray) (start_offset size : Nat) (buffer : List Nat) :
    Exec (Bool × List Nat) :=
  read_catalog_loop (file.size + 2) file start_offset size buffer

/-- The loop `while (true)` of `read_data_segment`: the returned boolean and the vector
`buffer` at the `return`. The counters `total_read` and `segments_read` are never read and
are left out. A compressed segment is decompressed from the view
`SafeArray::create(data, segment_size)`. -/
def read_data_segment_loop : Nat → SafeArray → Nat → List Nat → Exec (Bool × List Nat)
  | 0, _, _, _ => Exec.more
  | fuel + 1, file, start_offset, buffer =>
    match file.get_typed sizeof_cseg_head_t start_offset with
    | none => Exec.ret (false, buffer)
    | some _ =>
      let start_offset := (start_offset + sizeof_cseg_head_t) % 2 ^ 64
      let frame_head := file.get_typed sizeof_cframe_head_t start_offset
      match cframe_head_segment_size file frame_head with
      | none => Exec.undefined
      | some raw =>
        let compressed : Bool := raw &&& RAW_SEG = 0
        let segment_size := raw &&& (0xFFFF - RAW_SEG)
        if segment_size = 0 then
          Exec.ret (true, buffer)
        else
          let start_offset := (start_offset + sizeof_cframe_head_t) % 2 ^ 64
          match file.get start_offset segment_size with
          | none => Exec.ret (false, buffer)
          | some data =>
            match file.deref data segment_size with
            | none => Exec.undefined
            | some bytes =>
              if compressed then
                match decompress ⟨bytes⟩ buffer with
                | Run.more => Exec.more
                | Run.done (false, buffer') => Exec.ret (false, buffer')
                | Run.done (true, buffer') =>
                  read_data_segment_loop fuel file ((start_offset + segment_size) % 2 ^ 64)
                    buffer'
              else
                read_data_segment_loop fuel file ((start_offset + segment_size) % 2 ^ 64)
                  (buffer ++ bytes)

/-- The function `read_data_segment(file, start_offset, buffer)`; the loop is given one
iteration per byte of the file and two more. -/
def read_data_segment (file : SafeArray) (start_offset : Nat) (buffer : List Nat) :
    Exec (Bool × List Nat) :=
  read_data_segment_loop (file.size + 2) file start_offset buffer

/-! ## Regions of segments -/

/-- The value of the field `segment_size` of the frame header at the position `p`. -/
def frame_raw (file : SafeArray) (p : Nat) : Nat :=
  le_uint (file.slice p sizeof_cframe_head_t) % 2 ^ 16

/-- The payloads of consecutive raw segments, the frame header of the first one at the
position `p`: every frame header has the bit `RAW_SEG` set, its payload follows it inside
the file, and the next frame header stands 8 bytes after the payload. -/
def raw_frames_from (file : SafeArray) : Nat → List (List Nat) → Prop
  | _, [] => True
  | p, payload :: rest =>
    p + 2 + payload.length ≤ file.size ∧
    frame_raw file p = RAW_SEG + payload.length ∧
    payload.length < RAW_SEG ∧
    payload = file.slice (p + 2) payload.length ∧
    raw_frames_from file (p + 2 + payload.length + 8) rest

/-- A segment of a data region as the specification describes it: the 8 bytes of its
`cseg_head_t`, whether the bit `0x8000` of its frame header is set, and its payload. -/
structure data_segment where
  head : List Nat
  raw : Bool
  payload : List Nat
  deriving DecidableEq, Repr

/-- The two bytes of a 16-bit little-endian value. -/
def le16 (v : Nat) : List Nat := [v % 256, v / 256 % 256]

/-- The bytes of a segment: header, frame header, payload. -/
def data_segment.bytes (s : data_segment) : List Nat :=
  s.head ++ le16 (s.payload.length + if s.raw then 0x8000 else 0) ++ s.payload

/-- A segment whose header has 8 bytes and whose payload has between 1 and `0x7FFF`
bytes. -/
def data_segment.well_formed (s : data_segment) : Prop :=
  s.head.length = 8 ∧ 0 < s.payload.length ∧ s.payload.length ≤ 0x7FFF

instance (s : data_segment) : Decidable s.well_formed := by
  unfold data_segment.well_formed
  infer_instance

/-- The bytes of a data region as the specification describes it: the segments, then a
header and a frame header of the value `end_raw`. -/
def data_region_bytes (segs : List data_segment) (end_head : List Nat) (end_raw : Nat) :
    List Nat :=
  (segs.map data_segment.bytes).flatten ++ (end_head ++ le16 end_raw)

/-- The output that the specification gives for the segments of a data region: the payload
of a raw segment verbatim, the decompression of the payload of a compressed one; `none`
when a decompression does not succeed. -/
def data_region_output : List data_segment → List Nat → Option (List Nat)
  | [], buffer => some buffer
  | s :: rest, buffer =>
    if s.raw then
      data_region_output rest (buffer ++ s.payload)
    else
      match decompress ⟨s.payload⟩ buffer with
      | Run.done (true, buffer') => data_region_output rest buffer'
      | _ => none

/-- The region of the witness of C15: a raw segment with the payload 1, 2, 3 and a
compressed segment with the bytes of `test_compressed`. -/
def test_segments : List data_segment :=
  [⟨List.replicate 8 0, true, [1, 2, 3]⟩, ⟨List.replicate 8 0, false, test_compressed.m_buffer⟩]

/-- A catalog region of two raw segments with the payloads 1, 2, 3 and 4, 5. -/
def test_catalog : SafeArray :=
  ⟨List.replicate 8 0 ++ [3, 0x80, 1, 2, 3] ++ List.replicate 8 0 ++ [2, 0x80, 4, 5]⟩

/-! ## `search_binary_substring` (utils.cpp, lines 50-71) -/

/-- Modelled from the spec: the call `std::search(it, end, searcher)` of the C++ library
with a searcher for `needle`, on the range that holds the bytes `range` and starts at the
position `it`: the position of the first occurrence of `needle` in the range, and the
position of its end when there is none. -/
def std_search (needle : List Nat) : List Nat → Nat → Nat
  | [], it => it
  | b :: rest, it =>
    if (b :: rest).take needle.length = needle then it else std_search needle rest (it + 1)

/-- The loop `while (it != end)` of `search_binary_substring`; `it` is the position
`it - haystack`. -/
def search_binary_substring_loop (haystack needle : List Nat) :
    Nat → Nat → List Nat → Exec (List Nat)
  | 0, _, _ => Exec.more
  | fuel + 1, it, occurrences =>
    if it ≠ haystack.length then
      let it := std_search needle (haystack.drop it) it
      if it ≠ haystack.length then
        search_binary_substring_loop haystack needle fuel (it + 1) (occurrences ++ [it])
      else
        search_binary_substring_loop haystack needle fuel it occurrences
    else
      Exec.ret occurrences

/-- The function `search_binary_substring(haystack, haystack_size, needle, needle_size)`;
the loop is given one iteration per byte of the haystack and two more. -/
def search_binary_substring (haystack needle : List Nat) : Exec (List Nat) :=
  if needle.length = 0 ∨ haystack.length < needle.length then
    Exec.ret []
  else
    search_binary_substring_loop haystack needle (haystack.length + 2) 0 []

/-! ## `recover_files` (recovery.cpp, lines 30-115) -/

/-- The struct `recovered_file_entry_t`. -/
structure recovered_file_entry_t where
  path : String := ""
  offset : Nat := 0
  has_guessed_size : Bool := false
  guessed_size : Nat := 0
  may_be_corrupted : Bool := false
  mtime : tm := {}
  atime : tm := {}
  deriving DecidableEq, Repr

/-- The `n` bytes of the object representation of an unsigned integer `v`
(little-endian). -/
def le_bytes : Nat → Nat → List Nat
  | 0, _ => []
  | n + 1, v => v % 256 :: le_bytes n (v / 256)

/-- The function `check_sig(file_data, offset, sig)`. -/
def check_sig (file_data : SafeArray) (offset sig : Nat) : Exec Bool :=
  match file_data.get_typed 4 offset with
  | none => Exec.ret false
  | some dat_sig =>
    match file_data.deref dat_sig 4 with
    | none => Exec.undefined
    | some bytes => Exec.ret (le_uint bytes % 2 ^ 32 == sig)

/-- The static function `get_native_path(data, char_count)` of recovery.cpp on the bytes
that `data` points at. -/
def get_native_path (bytes : List Nat) (char_count : Nat) : String :=
  let path := ((utf16_units bytes).take char_count).map
    (fun unit => if unit < 32 then 47 else unit)
  utf16_to_utf8 (utf16_bytes path)

/-- The method `parsed_dir_entry_t::get_native_path`. -/
def parsed_dir_entry_t.get_native_path (e : parsed_dir_entry_t) : String :=
  let native_path := e.qic_path.map (fun c => if c = Char.ofNat 10 then Char.ofNat 47 else c)
  "/" ++ native_path ++ "/" ++ e.long_name

/-- The body of the loop of `recover_files` for the occurrence `occurrences[i]`, given as
`offset`; `next` is `occurrences[i + 1]` when `i < occurrences.size() - 1`. `ret none` is
`return false`, `ret (some none)` is `continue`, and `ret (some (some entry))` is the
iteration that ends with `recovered_files.push_back(entry)`. -/
def recover_file (file_data : SafeArray) (offset : Nat) (next : Option Nat) :
    Exec (Option (Option recovered_file_entry_t)) :=
  match check_sig file_data offset DAT_SIG with
  | Exec.undefined => Exec.undefined
  | Exec.more => Exec.more
  | Exec.ret false => Exec.ret none
  | Exec.ret true =>
    let offset := (offset + 4) % 2 ^ 64
    match read_dir_entry file_data offset {} with
    | Exec.undefined => Exec.undefined
    | Exec.more => Exec.more
    | Exec.ret none => Exec.ret none
    | Exec.ret (some (offset, dir_entry)) =>
      if dir_entry.is_dir then
        Exec.ret (some none)
      else
        match check_sig file_data ((offset + dir_entry.path_len) % 2 ^ 64) EDAT_SIG with
        | Exec.undefined => Exec.undefined
        | Exec.more => Exec.more
        | Exec.ret false => Exec.ret (some none)
        | Exec.ret true =>
          let path :=
            if dir_entry.path_len > 0 then
              match file_data.get offset dir_entry.path_len with
              | none => Exec.ret none
              | some path_ptr =>
                match file_data.deref path_ptr (2 * (dir_entry.path_len / 2)) with
                | none => Exec.undefined
                | some bytes =>
                  Exec.ret (some
                    ({ dir_entry with
                        qic_path := get_native_path bytes (dir_entry.path_len / 2) },
                      (offset + dir_entry.path_len) % 2 ^ 64))
            else
              Exec.ret (some (dir_entry, offset))
          match path with
          | Exec.undefined => Exec.undefined
          | Exec.more => Exec.more
          | Exec.ret none => Exec.ret (some none)
          | Exec.ret (some (dir_entry, offset)) =>
            let offset := (offset + (4 + 2)) % 2 ^ 64
            let entry : recovered_file_entry_t :=
              { path := dir_entry.get_native_path
                offset := offset
                has_guessed_size := false
                guessed_size := 0
                mtime := dir_entry.mtime
                atime := dir_entry.atime }
            match next with
            | none => Exec.ret (some (some entry))
            | some next_offset =>
              match check_sig file_data next_offset DAT_SIG with
              | Exec.undefined => Exec.undefined
              | Exec.more => Exec.more
              | Exec.ret false => Exec.ret (some (some entry))
              | Exec.ret true =>
                Exec.ret (some (some
                  { entry with
                    guessed_size := (next_offset + 2 ^ 64 - offset) % 2 ^ 64
                    has_guessed_size := true }))

/-- The loop of `recover_files` over the occurrences from `occurrences[i]` on: the
returned boolean and the vector `recovered_files` at the `return`. -/
def recover_files_loop (file_data : SafeArray) :
    List Nat → List recovered_file_entry_t → Exec (Bool × List recovered_file_entry_t)
  | [], recovered_files => Exec.ret (true, recovered_files)
  | offset :: rest, recovered_files =>
    match recover_file file_data offset rest.head? with
    | Exec.undefined => Exec.undefined
    | Exec.more => Exec.more
    | Exec.ret none => Exec.ret (false, recovered_files)
    | Exec.ret (some none) => recover_files_loop file_data rest recovered_files
    | Exec.ret (some (some entry)) =>
      recover_files_loop file_data rest (recovered_files ++ [entry])

/-- The function `recover_files(file_data, recovered_files)`: the occurrences of the four
bytes of `DAT_SIG` are searched in the whole view. -/
def recover_files (file_data : SafeArray) (recovered_files : List recovered_file_entry_t) :
    Exec (Bool × List recovered_file_entry_t) :=
  match search_binary_substring file_data.m_buffer (le_bytes 4 DAT_SIG) with
  | Exec.undefined => Exec.undefined
  | Exec.more => Exec.more
  | Exec.ret occurrences => recover_files_loop file_data occurrences recovered_files

/-! ## The reconciliation loop of `main` (main.cpp, lines 97-126) -/

/-- One iteration of the loop of `main` over `recovered_files`. `m_file_map` is the lookup
`m_file_map.find(file.path)`, `none` being `m_file_map.end()`. The result is the counter
`error_count` after the iteration and the entry `final_entry` handed to `extract_file`,
`none` when the iteration leaves by `continue`. -/
def main_reconcile (m_file_map : String → Option parsed_dir_entry_t)
    (file : recovered_file_entry_t) (error_count : Int) :
    Int × Option recovered_file_entry_t :=
  let final_size := file.guessed_size
  match m_file_map file.path with
  | none => (error_count + 1, none)
  | some it =>
    let final_entry := file
    if it.file_size ≠ file.guessed_size then
      let error_count := error_count + 1
      if final_size = 0 then
        let final_size := it.file_size
        (error_count, some { final_entry with guessed_size := final_size })
      else
        let final_entry := { final_entry with may_be_corrupted := true }
        (error_count, some { final_entry with guessed_size := final_size })
    else
      (error_count, some { final_entry with guessed_size := final_size })

/-- The loop of `main` over `recovered_files`: the counter `error_count` after the loop
and the entries handed to `extract_file`, in order. -/
def main_reconcile_loop (m_file_map : String → Option parsed_dir_entry_t) :
    List recovered_file_entry_t → Int → List recovered_file_entry_t →
      Int × List recovered_file_entry_t
  | [], error_count, extracted => (error_count, extracted)
  | file :: rest, error_count, extracted =>
    match main_reconcile m_file_map file error_count with
    | (error_count, none) => main_reconcile_loop m_file_map rest error_count extracted
    | (error_count, some final_entry) =>
      main_reconcile_loop m_file_map rest error_count (extracted ++ [final_entry])

/-- The data buffer of 130 bytes of the failing input of C19: `DAT_SIG` at offset 0, a
record at offset 4 with `path_len = 26` and empty names, the bytes of `DAT_SIG` again at
offset 25 inside the first fixed part of that record, 26 bytes of path at offset 98,
`EDAT_SIG` at offset 124 and two more bytes. -/
def overlapping_signature : List Nat :=
  [0xCC, 0x33, 0xCC, 0x33] ++ List.replicate 10 0 ++ [26, 0] ++ List.replicate 9 0 ++
    [0xCC, 0x33, 0xCC, 0x33] ++ List.replicate 95 0 ++ [0x99, 0x66, 0x99, 0x66] ++ [0, 0]

/-- A data buffer with one file record: `DAT_SIG`, a record with empty names and
`path_len = 0`, `EDAT_SIG`, two bytes, a payload of three bytes, and `DAT_SIG` again,
followed by a record with the flag `SUBDIR`. -/
def one_file_and_a_directory : List Nat :=
  [0xCC, 0x33, 0xCC, 0x33] ++ List.replicate 94 0 ++ [0x99, 0x66, 0x99, 0x66] ++ [0, 0] ++
    [7, 8, 9] ++
  [0xCC, 0x33, 0xCC, 0x33] ++ List.replicate 14 0 ++ [1] ++ List.replicate 79 0

/-- The entry that `recover_files` appends on `one_file_and_a_directory`. -/
def one_file_entry : recovered_file_entry_t :=
  { path := "//", offset := 104, has_guessed_size := true, guessed_size := 3,
    mtime := get_time 0, atime := get_time 0 }

/-- The catalog map of the scenario of C20: the path of one file of 100 bytes. -/
def test_file_map (path : String) : Option parsed_dir_entry_t :=
  if path = "/DIR/f.txt" then some { long_name := "f.txt", file_size := 100 } else none

/-! ## Successive calls of `get_next_bit` -/

/-- The stream after `k` successive calls of `get_next_bit`: a call that returns false
leaves the stream as it was. -/
def BitStream.after_calls (s : BitStream) : Nat → BitStream
  | 0 => s
  | k + 1 =>
    match (s.after_calls k).get_next_bit with
    | none => s.after_calls k
    | some (_, s') => s'

/-! ## Catalog maps for the reconciliation loop -/

/-- The catalog map of one file named `//` of 3 bytes. -/
def one_file_map (path : String) : Option parsed_dir_entry_t :=
  if path = "//" then some { file_size := 3 } else none

/-! ## `get_recursive_path` (main.h, lines 56-69) -/

/-- The loop `for (auto current = this; current; current = current->parent)` of
`get_recursive_path`: the vector `items` after the loop. A pointer is the index of the
entry it points at; following a pointer that does not point into the vector is undefined
behaviour. -/
def get_recursive_path_items (entries : List parsed_dir_entry_t) :
    Nat → Option Nat → List String → Exec (List String)
  | 0, _, _ => Exec.more
  | _ + 1, none, items => Exec.ret items
  | fuel + 1, some current, items =>
    match entries[current]? with
    | none => Exec.undefined
    | some e => get_recursive_path_items entries fuel e.parent (items ++ [e.long_name])

/-- The method `get_recursive_path` of the entry of index `i` of the vector `entries`: the
loop over the reversed `items` writes a `/` and the item into the stream. The first loop
is given one iteration per entry of the vector and one more. -/
def get_recursive_path (entries : List parsed_dir_entry_t) (i : Nat) : Exec String :=
  match get_recursive_path_items entries (entries.length + 1) (some i) [] with
  | Exec.undefined => Exec.undefined
  | Exec.more => Exec.more
  | Exec.ret items => Exec.ret (items.reverse.foldl (fun ss item => ss ++ "/" ++ item) "")

/-! ## `update_times_for_dirs` (recovery.cpp, lines 158-204) -/

/-- Modelled from the spec: `operator<` of `std::string`, the lexicographic comparison of
the bytes, on the code points of two UTF-8 strings (UTF-8 keeps the order of the code
points). -/
def string_less : List Char → List Char → Bool
  | [], [] => false
  | [], _ :: _ => true
  | _ :: _, [] => false
  | a :: as, b :: bs =>
    if a.toNat < b.toNat then true
    else if b.toNat < a.toNat then false
    else string_less as bs

/-- The call `std::count(a.begin(), a.end(), '/')`. -/
def count_slash (a : String) : Nat := a.data.count (Char.ofNat 47)

/-- The comparator that `update_times_for_dirs` gives to `std::sort`. -/
def deeper_first (a b : String) : Bool :=
  let ca := count_slash a
  let cb := count_slash b
  if ca ≠ cb then
    decide (ca > cb)
  else
    string_less b.data a.data

/-- Insertion of `x` into a sorted list, before the first element that `comp` does not
put before `x`. -/
def std_sort_insert {α : Type} (comp : α → α → Bool) (x : α) : List α → List α
  | [] => [x]
  | y :: ys => if comp y x then y :: std_sort_insert comp x ys else x :: y :: ys

/-- Modelled from the spec: `std::sort(first, last, comp)` of the C++ library, which
leaves the range sorted by `comp`; the sorted range is computed by insertion. -/
def std_sort {α : Type} (comp : α → α → Bool) : List α → List α
  | [] => []
  | x :: xs => std_sort_insert comp x (std_sort comp xs)

/-- The first loop of `update_times_for_dirs` from the entry of index `i` on: the map
`by_path`, as the list of its assignments with the latest one first, and the vector
`sorted_paths`. -/
def update_times_collect (parsed_entries : List parsed_dir_entry_t) :
    Nat → List parsed_dir_entry_t → List (String × parsed_dir_entry_t) → List String →
      Exec (List (String × parsed_dir_entry_t) × List String)
  | _, [], by_path, sorted_paths => Exec.ret (by_path, sorted_paths)
  | i, entry :: rest, by_path, sorted_paths =>
    if !entry.is_dir then
      update_times_collect parsed_entries (i + 1) rest by_path sorted_paths
    else
      match get_recursive_path parsed_entries i with
      | Exec.undefined => Exec.undefined
      | Exec.more => Exec.more
      | Exec.ret path =>
        update_times_collect parsed_entries (i + 1) rest ((path, entry) :: by_path)
          (sorted_paths ++ [path])

/-- The entry `by_path[path]`. -/
def by_path_entry (by_path : List (String × parsed_dir_entry_t)) (path : String) :
    parsed_dir_entry_t :=
  match by_path.find? (fun p => p.1 = path) with
  | some p => p.2
  | none => {}

/-- The function `update_times_for_dirs(parsed_entries)`: the paths `path_str` in the
order in which the second loop takes them, each with the two times that are given to
`update_timestamps`. The outcome of the calls that touch the file system is not part of
the model. -/
def update_times_for_dirs (parsed_entries : List parsed_dir_entry_t) :
    Exec (List (String × tm × tm)) :=
  match update_times_collect parsed_entries 0 parsed_entries [] [] with
  | Exec.undefined => Exec.undefined
  | Exec.more => Exec.more
  | Exec.ret (by_path, sorted_paths) =>
    Exec.ret ((std_sort deeper_first sorted_paths).map fun path =>
      ("." ++ path, (by_path_entry by_path path).mtime, (by_path_entry by_path path).atime))

/-! ## Parent chains -/

/-- The name of the entry of index `j`. -/
def long_name_of (entries : List parsed_dir_entry_t) (j : Nat) : String :=
  match entries[j]? with
  | some e => e.long_name
  | none => ""

/-- The indices `chain` are entries of which the first one has the parent `prev` and each
following one has the one before it as its parent. -/
def parent_chain (entries : List parsed_dir_entry_t) : Option Nat → List Nat → Prop
  | _, [] => True
  | prev, j :: rest =>
    (∃ e, entries[j]? = some e ∧ e.parent = prev) ∧ parent_chain entries (some j) rest

/-- The concatenation of a `/` and the name of the entry, for the entries of a chain in
order. -/
def path_of_chain (entries : List parsed_dir_entry_t) (chain : List Nat) : String :=
  chain.foldr (fun j rest => "/" ++ long_name_of entries j ++ rest) ""

/-- The indices `w` are the entries that the loop of `get_recursive_path` visits from the
pointer `current` on, up to a null parent. -/
def walk (entries : List parsed_dir_entry_t) : Option Nat → List Nat → Prop
  | current, [] => current = none
  | current, j :: rest =>
    current = some j ∧ ∃ e, entries[j]? = some e ∧ walk entries e.parent rest

/-! ## Sibling groups and pending parents -/

/-- The entry of index `q` is a non-empty directory: `is_dir` is set and `is_empty_dir` is
clear. -/
def nonempty_dir (l : List parsed_dir_entry_t) (q : Nat) : Prop :=
  ∃ e, l[q]? = some e ∧ (e.is_dir && !e.is_empty_dir) = true

/-- The entry of index `j` has `is_last_entry` set. -/
def is_last_at (l : List parsed_dir_entry_t) (j : Nat) : Prop :=
  ∃ e, l[j]? = some e ∧ e.is_last_entry = true

/-- The number of the sibling group of the entry of index `k`: the number of entries
before it that have `is_last_entry` set. -/
def group_of (l : List parsed_dir_entry_t) (k : Nat) : Nat :=
  (l.take k).countP (fun e => e.is_last_entry)

/-- An entry before index `s` has the entry of index `q` as its parent. -/
def used_before (res : List parsed_dir_entry_t) (s q : Nat) : Prop :=
  ∃ j ej, j < s ∧ res[j]? = some ej ∧ ej.parent = some q

/-- The order of the pending parents in the stack of deques, read from the front of the
top deque on: an entry of the same group with a greater index, or an entry of an earlier
group. -/
def pending_before (l : List parsed_dir_entry_t) (x y : Option Nat) : Prop :=
  ∀ a b, x = some a → y = some b →
    (group_of l a = group_of l b ∧ a < b) ∨ group_of l b < group_of l a

/-- The state of `reconstruct_tree` after `n` entries, `ps` being the parents written so
far: the pending parents in the stack are the non-empty directories that are not yet the
parent of an entry, in the order `pending_before`; inside a sibling group the top deque
holds the ones of that group and `current_parent` is already written. -/
structure tree_inv (l : List parsed_dir_entry_t) (n : Nat) (ps : List (Option Nat))
    (st : TreeState) : Prop where
  len : ps.length = n
  pos : 1 ≤ n ∧ n ≤ l.length
  parents_lt : ∀ q, some q ∈ ps → q < n
  first_iff : st.first = true ↔ is_last_at l (n - 1)
  sound : ∀ x ∈ st.stack.flatten, ∃ q, x = some q ∧ q < n ∧ nonempty_dir l q ∧ some q ∉ ps
  complete : ∀ q, q < n → nonempty_dir l q → some q ∉ ps → some q ∈ st.stack.flatten
  ord : st.stack.flatten.Pairwise (pending_before l)
  mid : st.first = false → ∃ top rest, st.stack = top :: rest ∧
    (∀ x ∈ top, ∀ a, x = some a → group_of l a = group_of l n) ∧
    (∀ x ∈ rest.flatten, ∀ a, x = some a → group_of l a < group_of l n) ∧
    st.current_parent ∈ ps

/-! ## The occurrences of a needle -/

/-- The positions of the occurrences of `needle` in the range that holds the bytes `range`
and starts at the position `it`, in increasing order. -/
def occurrences_in (needle : List Nat) : List Nat → Nat → List Nat
  | [], _ => []
  | b :: rest, it =>
    if (b :: rest).take needle.length = needle then it :: occurrences_in needle rest (it + 1)
    else occurrences_in needle rest (it + 1)

/-- A haystack in which the four bytes of `DAT_SIG` occur at the offsets 0 and 2. -/
def overlapping_occurrences : List Nat := [0xCC, 0x33, 0xCC, 0x33, 0xCC, 0x33]

/-! ## The window of one call of `decompress` -/

/-- The byte that lies `offset` positions before the end of the bytes `produced` by one
call of `decompress`; a position before the start of `produced` holds 0x00. -/
def window_byte (produced : List Nat) (offset : Nat) : Nat :=
  if offset ≤ produced.length then produced.getD (produced.length - offset) 0 else 0

/-- Reference copy of a back-reference over the bytes produced by one call: `length` times,
append the byte located `offset` positions before the current end. -/
def window_copy (offset : Nat) : Nat → List Nat → List Nat
  | 0, produced => produced
  | length + 1, produced => window_copy offset length (produced ++ [window_byte produced offset])

/-- Reference expansion of a token list over the bytes produced by one call. -/
def window_expand : List Token → List Nat → List Nat
  | [], produced => produced
  | Token.literal byte :: ts, produced => window_expand ts (produced ++ [byte])
  | Token.backref offset length :: ts, produced =>
    window_expand ts (window_copy offset length produced)

/-- The history buffer `h` satisfies `ring_inv`, and the slots of the window that have not
been written yet hold 0. -/
def window_inv (h : HistoryBuffer) (out0 produced : List Nat) : Prop :=
  ring_inv h out0 produced ∧
  ∀ i, produced.length ≤ i → i < 2048 → h.m_history.getD i 0 = 0

/-- A compressed stream that ends inside its third token: the literal 0x41, a
back-reference of offset 2 and length 3, and four more bits. -/
def truncated_stream : List Nat := [0x20, 0xE0, 0x90]

/-- A data region whose only segment is compressed and holds `truncated_stream`. -/
def truncated_segment : SafeArray := ⟨List.replicate 8 0 ++ [3, 0] ++ truncated_stream⟩

/-- A compressed stream that holds a back-reference of offset 1 and length 2, and the
terminator. -/
def backref_before_start : List Nat := [0xC0, 0x90, 0x00]

/-! ## The number of pending parents -/

/-- The state of `reconstruct_tree(dirs)` at the head of the loop for the index `i`, that
is after `i` iterations; `none` when one of them runs into undefined behaviour, or when
there are fewer than `i` entries. -/
def reconstruct_state (dirs : List parsed_dir_entry_t) : Nat → Option TreeState
  | 0 => some TreeState.init
  | i + 1 =>
    match reconstruct_state dirs i, dirs[i]? with
    | some st, some current_entry =>
      match reconstruct_first st with
      | none => none
      | some st1 =>
        let has_children := current_entry.is_dir && !current_entry.is_empty_dir
        match reconstruct_push st1 i has_children with
        | none => none
        | some st2 => reconstruct_last st2 current_entry.is_last_entry
    | _, _ => none

/-- The number of non-empty directories among the first `n` entries. -/
def nonempty_dir_count (l : List parsed_dir_entry_t) (n : Nat) : Nat :=
  (l.take n).countP (fun e => e.is_dir && !e.is_empty_dir)

/-- The state of `reconstruct_tree` at the head of the loop for the index `n`: the number
of pending parents is the number of non-empty directories met, plus the initial `nullptr`,
minus the number of sibling groups started, and no deque below the one of the current
sibling group is empty. -/
structure pending_inv (l : List parsed_dir_entry_t) (n : Nat) (st : TreeState) : Prop where
  count : st.stack.flatten.length + group_of l n + (if st.first = true then 0 else 1) =
    1 + nonempty_dir_count l n
  first_iff : st.first = true ↔ (n = 0 ∨ is_last_at l (n - 1))
  shape_first : st.first = true → ∀ d ∈ st.stack, d ≠ []
  shape_mid : st.first = false → ∃ top below, st.stack = top :: below ∧ ∀ d ∈ below, d ≠ []

/-- Two entries that are files and each the last of its sibling group: the second group has
no pending parent. -/
def two_lone_files : List parsed_dir_entry_t :=
  [{ is_last_entry := true }, { is_last_entry := true }]

/-- Three files in two sibling groups: the first entry is the last of its group, the other
two form the second group. No entry is a directory. -/
def group_without_parent : List parsed_dir_entry_t :=
  [{ is_last_entry := true }, {}, { is_last_entry := true }]

/-! # Theorems -/

/-! ## Bit-level facts about `BitStream` -/

theorem bit_at_le_one (buf : List Nat) (k : Nat) : bit_at buf k ≤ 1 := by
  unfold bit_at
  rw [Nat.and_one_is_mod]
  omega

theorem bits_val_lt (buf : List Nat) (n : Nat) : ∀ p, bits_val buf p n < 2 ^ n := by
  induction n with
  | zero => intro p; simp [bits_val]
  | succ n ih =>
    intro p
    have h1 := bit_at_le_one buf p
    have h2 := ih (p + 1)
    have h3 : bit_at buf p * 2 ^ n ≤ 1 * 2 ^ n := Nat.mul_le_mul_right _ h1
    simp only [bits_val]
    rw [pow_succ]
    omega

theorem get_next_bit_eq (s : BitStream) :
    s.get_next_bit =
      if s.m_bit_pos < s.m_buffer.length * 8 then
        some (bit_at s.m_buffer s.m_bit_pos, ⟨s.m_buffer, s.m_bit_pos + 1⟩)
      else none := by
  unfold BitStream.get_next_bit BitStream.m_size bit_at
  by_cases h : s.m_bit_pos < s.m_buffer.length * 8
  · simp [h, Nat.not_le.mpr h]
  · simp [h, Nat.not_lt.mp h]

theorem shift_or_bit (out bit : Nat) (h : bit ≤ 1) : (out <<< 1) ||| bit = 2 * out + bit := by
  have hb : bit < 2 ^ 1 := by omega
  have := Nat.mul_add_lt_is_or hb out
  rw [Nat.shiftLeft_eq]
  simp only [pow_one] at this ⊢
  rw [Nat.mul_comm out 2]
  exact this.symm

theorem get_next_bits_loop_eq (w : Nat) (n : Nat) :
    ∀ (out : Nat) (s : BitStream), n ≤ w → out < 2 ^ (w - n) →
      BitStream.get_next_bits_loop w n out s =
        if n = 0 ∨ s.m_bit_pos + n ≤ s.m_buffer.length * 8 then
          some (out * 2 ^ n + bits_val s.m_buffer s.m_bit_pos n, ⟨s.m_buffer, s.m_bit_pos + n⟩)
        else none := by
  induction n with
  | zero =>
    intro out s _ _
    simp [BitStream.get_next_bits_loop, bits_val]
  | succ n ih =>
    intro out s hn hout
    have hb := bit_at_le_one s.m_buffer s.m_bit_pos
    simp only [BitStream.get_next_bits_loop]
    rw [get_next_bit_eq]
    by_cases hpos : s.m_bit_pos < s.m_buffer.length * 8
    · simp only [hpos, if_true]
      rw [shift_or_bit _ _ hb]
      have hpw : 2 ^ (w - n) = 2 * 2 ^ (w - (n + 1)) := by
        rw [show w - n = (w - (n + 1)) + 1 by omega, pow_succ]; ring
      have hlt : 2 * out + bit_at s.m_buffer s.m_bit_pos < 2 ^ (w - n) := by omega
      have hw : 2 ^ (w - n) ≤ 2 ^ w := Nat.pow_le_pow_right (by norm_num) (Nat.sub_le _ _)
      rw [Nat.mod_eq_of_lt (lt_of_lt_of_le hlt hw)]
      rw [ih _ _ (by omega) hlt]
      simp only [bits_val]
      by_cases hc : s.m_bit_pos + (n + 1) ≤ s.m_buffer.length * 8
      · have hc2 : s.m_bit_pos + 1 + n ≤ s.m_buffer.length * 8 := by omega
        simp only [hc, hc2, or_true, if_true, Nat.succ_ne_zero, false_or]
        congr 2
        · rw [pow_succ]; ring
        · congr 1; omega
      · have hc2 : ¬ s.m_bit_pos + 1 + n ≤ s.m_buffer.length * 8 := by omega
        have hn0 : n ≠ 0 := by omega
        simp [hc, hc2, hn0]
    · have hc : ¬ s.m_bit_pos + (n + 1) ≤ s.m_buffer.length * 8 := by omega
      simp [hpos, hc]

theorem get_next_bits_eq (w : Nat) (s : BitStream) (n : Nat) (hn : 0 < n) (hw : n ≤ w) :
    s.get_next_bits w n =
      if s.m_bit_pos + n ≤ s.m_buffer.length * 8 then
        some (bits_val s.m_buffer s.m_bit_pos n, ⟨s.m_buffer, s.m_bit_pos + n⟩)
      else none := by
  unfold BitStream.get_next_bits
  rw [if_neg (by omega), get_next_bits_loop_eq w n 0 s hw (by positivity)]
  have hn0 : n ≠ 0 := by omega
  simp [hn0]

/-! ## `decompress` as a fold over the tokens it reads -/

theorem decompress_loop_eq (fuel : Nat) :
    ∀ (s : BitStream) (h : HistoryBuffer),
      decompress_loop fuel s h =
        match read_tokens fuel s with
        | Run.more => Run.more
        | Run.done (ts, _, b) => Run.done (b, ts.foldl HistoryBuffer.apply h) := by
  induction fuel with
  | zero => intro s h; simp [decompress_loop, read_tokens]
  | succ fuel ih =>
    intro s h
    simp only [decompress_loop, read_tokens, next_token]
    cases h1 : s.get_next_bit with
    | none => simp
    | some r1 =>
      obtain ⟨is_compressed, s1⟩ := r1
      dsimp only
      by_cases hc : is_compressed ≠ 0
      · rw [if_pos hc, if_pos hc]
        cases h2 : get_offset s1 with
        | none => simp
        | some r2 =>
          obtain ⟨offset, s2⟩ := r2
          dsimp only
          by_cases ho : offset = 0
          · simp [ho]
          · rw [if_neg ho, if_neg ho]
            cases h3 : get_length s2 with
            | more => simp
            | done r3 =>
              cases r3 with
              | none => simp
              | some r4 =>
                obtain ⟨length, s3⟩ := r4
                dsimp only
                rw [ih]
                cases h4 : read_tokens fuel s3 with
                | more => simp
                | done r5 =>
                  obtain ⟨ts, sl, b⟩ := r5
                  simp [HistoryBuffer.apply]
      · rw [if_neg hc, if_neg hc]
        cases h2 : s1.get_next_byte with
        | none => simp
        | some r2 =>
          obtain ⟨byte, s2⟩ := r2
          dsimp only
          rw [ih]
          cases h4 : read_tokens fuel s2 with
          | more => simp
          | done r5 =>
            obtain ⟨ts, sl, b⟩ := r5
            simp [HistoryBuffer.apply]

/-! ## Every read advances the cursor, and the loops terminate -/

theorem get_next_bit_some {s s' : BitStream} {b : Nat} (h : s.get_next_bit = some (b, s')) :
    s.m_bit_pos < s.m_buffer.length * 8 ∧ b = bit_at s.m_buffer s.m_bit_pos ∧
      s' = ⟨s.m_buffer, s.m_bit_pos + 1⟩ := by
  rw [get_next_bit_eq] at h
  by_cases hp : s.m_bit_pos < s.m_buffer.length * 8
  · rw [if_pos hp] at h
    simp only [Option.some.injEq, Prod.mk.injEq] at h
    exact ⟨hp, h.1.symm, h.2.symm⟩
  · rw [if_neg hp] at h
    exact absurd h (by simp)

theorem get_next_bits_some {w n : Nat} (hn : 0 < n) (hw : n ≤ w) {s s' : BitStream} {v : Nat}
    (h : s.get_next_bits w n = some (v, s')) :
    s.m_bit_pos + n ≤ s.m_buffer.length * 8 ∧ v = bits_val s.m_buffer s.m_bit_pos n ∧
      s' = ⟨s.m_buffer, s.m_bit_pos + n⟩ := by
  rw [get_next_bits_eq w s n hn hw] at h
  by_cases hp : s.m_bit_pos + n ≤ s.m_buffer.length * 8
  · rw [if_pos hp] at h
    simp only [Option.some.injEq, Prod.mk.injEq] at h
    exact ⟨hp, h.1.symm, h.2.symm⟩
  · rw [if_neg hp] at h
    exact absurd h (by simp)

theorem get_offset_some {s s' : BitStream} {v : Nat} (h : get_offset s = some (v, s')) :
    s'.m_buffer = s.m_buffer ∧ s.m_bit_pos < s'.m_bit_pos ∧
      s'.m_bit_pos ≤ s.m_buffer.length * 8 ∧ v < 2048 ∧
      (bit_at s.m_buffer s.m_bit_pos ≠ 0 → v < 128) := by
  unfold get_offset at h
  cases h1 : s.get_next_bit with
  | none => rw [h1] at h; exact absurd h (by simp)
  | some r1 =>
    obtain ⟨f, s1⟩ := r1
    rw [h1] at h
    dsimp only at h
    obtain ⟨hp, hf, hs1⟩ := get_next_bit_some h1
    subst hs1
    by_cases hf0 : f ≠ 0
    · rw [if_pos hf0] at h
      obtain ⟨hq, hv, hs'⟩ := get_next_bits_some (by norm_num) (by norm_num) h
      have hlt := bits_val_lt s.m_buffer 7 (s.m_bit_pos + 1)
      subst hs'
      dsimp only at hq hv ⊢
      refine ⟨rfl, by omega, by omega, ?_, ?_⟩
      · rw [hv]; omega
      · intro _; rw [hv]; omega
    · rw [if_neg hf0] at h
      obtain ⟨hq, hv, hs'⟩ := get_next_bits_some (by norm_num) (by norm_num) h
      have hlt := bits_val_lt s.m_buffer 11 (s.m_bit_pos + 1)
      subst hs'
      dsimp only at hq hv ⊢
      refine ⟨rfl, by omega, by omega, ?_, ?_⟩
      · rw [hv]; omega
      · intro hne
        rw [← hf] at hne
        exact absurd hne hf0

theorem get_length_loop_total (fuel : Nat) :
    ∀ (length : Nat) (s : BitStream), s.bits_left < fuel →
      ∃ r, get_length_loop fuel length s = Run.done r ∧
        ∀ v s', r = some (v, s') →
          s'.m_buffer = s.m_buffer ∧ s.m_bit_pos < s'.m_bit_pos ∧
            s'.m_bit_pos ≤ s.m_buffer.length * 8 := by
  induction fuel with
  | zero => intro length s h; exact absurd h (Nat.not_lt_zero _)
  | succ fuel ih =>
    intro length s h
    simp only [get_length_loop]
    cases h1 : s.get_next_bits 8 4 with
    | none => exact ⟨none, rfl, by intro v s' hr; exact absurd hr (by simp)⟩
    | some r1 =>
      obtain ⟨nibble, s1⟩ := r1
      obtain ⟨hq, _, hs1⟩ := get_next_bits_some (by norm_num) (by norm_num) h1
      subst hs1
      dsimp only
      by_cases hn : nibble < 15
      · rw [if_pos hn]
        refine ⟨_, rfl, ?_⟩
        intro v s' hr
        simp only [Option.some.injEq, Prod.mk.injEq] at hr
        rw [← hr.2]
        exact ⟨rfl, by dsimp only; omega, by dsimp only; omega⟩
      · rw [if_neg hn]
        have hb : BitStream.bits_left ⟨s.m_buffer, s.m_bit_pos + 4⟩ < fuel := by
          unfold BitStream.bits_left BitStream.m_size at h ⊢
          dsimp only
          omega
        obtain ⟨r, hr, hprop⟩ := ih ((length + 15) % 2 ^ 32) ⟨s.m_buffer, s.m_bit_pos + 4⟩ hb
        refine ⟨r, hr, ?_⟩
        intro v s' hrv
        obtain ⟨ha, hb2, hc⟩ := hprop v s' hrv
        dsimp only at ha hb2 hc
        exact ⟨ha, by omega, hc⟩

theorem get_length_total (s : BitStream) :
    ∃ r, get_length s = Run.done r ∧
      ∀ v s', r = some (v, s') →
        s'.m_buffer = s.m_buffer ∧ s.m_bit_pos < s'.m_bit_pos ∧
          s'.m_bit_pos ≤ s.m_buffer.length * 8 := by
  unfold get_length
  cases h1 : s.get_next_bits 8 2 with
  | none => exact ⟨none, rfl, by intro v s' hr; exact absurd hr (by simp)⟩
  | some r1 =>
    obtain ⟨nibble, s1⟩ := r1
    obtain ⟨hq, _, hs1⟩ := get_next_bits_some (by norm_num) (by norm_num) h1
    subst hs1
    dsimp only
    by_cases hn : nibble < 3
    · rw [if_pos hn]
      refine ⟨_, rfl, ?_⟩
      intro v s' hr
      simp only [Option.some.injEq, Prod.mk.injEq] at hr
      rw [← hr.2]
      exact ⟨rfl, by dsimp only; omega, by dsimp only; omega⟩
    · rw [if_neg hn]
      cases h2 : BitStream.get_next_bits 8 ⟨s.m_buffer, s.m_bit_pos + 2⟩ 2 with
      | none => exact ⟨none, rfl, by intro v s' hr; exact absurd hr (by simp)⟩
      | some r2 =>
        obtain ⟨nibble2, s2⟩ := r2
        obtain ⟨hq2, _, hs2⟩ := get_next_bits_some (by norm_num) (by norm_num) h2
        subst hs2
        dsimp only at hq2 ⊢
        by_cases hn2 : nibble2 < 3
        · rw [if_pos hn2]
          refine ⟨_, rfl, ?_⟩
          intro v s' hr
          simp only [Option.some.injEq, Prod.mk.injEq] at hr
          rw [← hr.2]
          exact ⟨rfl, by dsimp only; omega, by dsimp only; omega⟩
        · rw [if_neg hn2]
          obtain ⟨r, hr, hprop⟩ := get_length_loop_total
            (BitStream.bits_left ⟨s.m_buffer, s.m_bit_pos + 2 + 2⟩ + 1)
            (((0 + 3) % 2 ^ 32 + 3) % 2 ^ 32) ⟨s.m_buffer, s.m_bit_pos + 2 + 2⟩ (Nat.lt_succ_self _)
          refine ⟨r, hr, ?_⟩
          intro v s' hrv
          obtain ⟨ha, hb2, hc⟩ := hprop v s' hrv
          dsimp only at ha hb2 hc
          exact ⟨ha, by omega, hc⟩

theorem next_token_total (s : BitStream) :
    ∃ st, next_token s = Run.done st ∧
      ∀ t s', st = Step.token t s' →
        s'.m_buffer = s.m_buffer ∧ s.m_bit_pos < s'.m_bit_pos ∧
          s'.m_bit_pos ≤ s.m_buffer.length * 8 := by
  unfold next_token
  cases h1 : s.get_next_bit with
  | none => exact ⟨_, rfl, by intro t s' hr; exact absurd hr (by simp)⟩
  | some r1 =>
    obtain ⟨f, s1⟩ := r1
    obtain ⟨hp, _, hs1⟩ := get_next_bit_some h1
    subst hs1
    dsimp only
    by_cases hf : f ≠ 0
    · rw [if_pos hf]
      cases h2 : get_offset ⟨s.m_buffer, s.m_bit_pos + 1⟩ with
      | none => exact ⟨_, rfl, by intro t s' hr; exact absurd hr (by simp)⟩
      | some r2 =>
        obtain ⟨offset, s2⟩ := r2
        obtain ⟨hb2, hp2, hq2, _, _⟩ := get_offset_some h2
        dsimp only at hb2 hp2 hq2 ⊢
        by_cases ho : offset = 0
        · rw [if_pos ho]
          exact ⟨_, rfl, by intro t s' hr; exact absurd hr (by simp)⟩
        · rw [if_neg ho]
          obtain ⟨r, hr, hprop⟩ := get_length_total s2
          rw [hr]
          cases r with
          | none => exact ⟨_, rfl, by intro t s' hr; exact absurd hr (by simp)⟩
          | some r3 =>
            obtain ⟨length, s3⟩ := r3
            refine ⟨_, rfl, ?_⟩
            intro t s' hts
            simp only [Step.token.injEq] at hts
            obtain ⟨ha, hb, hc⟩ := hprop length s3 rfl
            rw [← hts.2]
            rw [hb2] at ha hc
            exact ⟨ha, by omega, hc⟩
    · rw [if_neg hf]
      cases h2 : BitStream.get_next_byte ⟨s.m_buffer, s.m_bit_pos + 1⟩ with
      | none => exact ⟨_, rfl, by intro t s' hr; exact absurd hr (by simp)⟩
      | some r2 =>
        obtain ⟨byte, s2⟩ := r2
        unfold BitStream.get_next_byte at h2
        obtain ⟨hq, _, hs2⟩ := get_next_bits_some (by norm_num) (by norm_num) h2
        subst hs2
        refine ⟨_, rfl, ?_⟩
        intro t s' hts
        simp only [Step.token.injEq] at hts
        rw [← hts.2]
        dsimp only at hq ⊢
        exact ⟨rfl, by omega, hq⟩

theorem read_tokens_total (fuel : Nat) :
    ∀ (s : BitStream), s.bits_left < fuel → ∃ r, read_tokens fuel s = Run.done r := by
  induction fuel with
  | zero => intro s h; exact absurd h (Nat.not_lt_zero _)
  | succ fuel ih =>
    intro s h
    simp only [read_tokens]
    obtain ⟨st, hst, hprop⟩ := next_token_total s
    rw [hst]
    cases st with
    | exhausted => exact ⟨_, rfl⟩
    | terminator => exact ⟨_, rfl⟩
    | token t s' =>
      obtain ⟨ha, hb, hc⟩ := hprop t s' rfl
      have hlt : s'.bits_left < fuel := by
        unfold BitStream.bits_left BitStream.m_size at h ⊢
        rw [ha]
        omega
      obtain ⟨r, hr⟩ := ih s' hlt
      dsimp only
      rw [hr]
      obtain ⟨ts, sl, b⟩ := r
      exact ⟨_, rfl⟩

theorem tokens_of_total (input : SafeArray) : ∃ r, tokens_of input = Run.done r := by
  unfold tokens_of
  apply read_tokens_total
  unfold BitStream.bits_left BitStream.m_size BitStream.create SafeArray.size
  dsimp only
  omega

theorem safe_array_get_whole (a : SafeArray) : a.get 0 a.size = some 0 := by
  unfold SafeArray.get
  rw [Nat.zero_add, if_neg (Nat.not_lt.mpr (Nat.mod_le _ _))]

theorem decompress_eq (input : SafeArray) (out : List Nat) :
    decompress input out =
      match tokens_of input with
      | Run.more => Run.more
      | Run.done (ts, _, b) =>
        Run.done (b, (ts.foldl HistoryBuffer.apply (HistoryBuffer.create out)).flush.m_out) := by
  unfold decompress tokens_of
  rw [safe_array_get_whole]
  dsimp only
  rw [decompress_loop_eq]
  cases read_tokens (input.size * 8 + 1) (BitStream.create input.m_buffer) with
  | more => rfl
  | done r => obtain ⟨ts, sl, b⟩ := r; rfl

/-! ## The number of bytes a token list produces -/

theorem create_wf (out : List Nat) : (HistoryBuffer.create out).wf := by
  unfold HistoryBuffer.wf HistoryBuffer.create
  exact ⟨List.length_replicate _ _, Nat.zero_le _⟩

theorem flush_if_full_spec (h : HistoryBuffer) (hw : h.wf) :
    h.flush_if_full.m_history = h.m_history ∧ h.flush_if_full.m_offset < 2048 ∧
      h.flush_if_full.m_offset = h.m_offset % 2048 ∧
      h.flush_if_full.m_out ++ h.flush_if_full.m_history.take h.flush_if_full.m_offset =
        h.m_out ++ h.m_history.take h.m_offset := by
  obtain ⟨hl, ho⟩ := hw
  unfold HistoryBuffer.flush_if_full
  by_cases hf : h.m_offset = h.m_history.length
  · rw [if_pos hf]
    have h2 : h.m_offset = 2048 := by omega
    simp [HistoryBuffer.flush, h2]
  · rw [if_neg hf]
    have h2 : h.m_offset < 2048 := by omega
    exact ⟨rfl, h2, (Nat.mod_eq_of_lt h2).symm, rfl⟩

theorem put_size (h : HistoryBuffer) (byte : Nat) (hw : h.wf) :
    (h.put byte).wf ∧
      (h.put byte).m_out.length + (h.put byte).m_offset = h.m_out.length + h.m_offset + 1 := by
  obtain ⟨h1, h2, _, h4⟩ := flush_if_full_spec h hw
  have hl := hw.1
  have hlen := congrArg List.length h4
  simp only [List.length_append, List.length_take] at hlen
  rw [h1, hl] at hlen
  have ho := hw.2
  unfold HistoryBuffer.put HistoryBuffer.store HistoryBuffer.wf
  dsimp only
  rw [List.length_set, h1, hl]
  refine ⟨⟨rfl, by omega⟩, ?_⟩
  rw [Nat.min_eq_left (by omega), Nat.min_eq_left ho] at hlen
  omega

theorem put_ref_size (offset : Nat) (length : Nat) :
    ∀ (h : HistoryBuffer), h.wf →
      (h.put_ref offset length).wf ∧
        (h.put_ref offset length).m_out.length + (h.put_ref offset length).m_offset =
          h.m_out.length + h.m_offset + length := by
  induction length with
  | zero => intro h hw; exact ⟨hw, rfl⟩
  | succ length ih =>
    intro h hw
    obtain ⟨h1, h2, _, h4⟩ := flush_if_full_spec h hw
    have hl := hw.1
    have ho := hw.2
    have hlen := congrArg List.length h4
    simp only [List.length_append, List.length_take] at hlen
    rw [h1, hl] at hlen
    rw [Nat.min_eq_left (by omega), Nat.min_eq_left ho] at hlen
    simp only [HistoryBuffer.put_ref]
    have hw' : (h.flush_if_full.store (h.flush_if_full.m_history.getD
        ((if h.flush_if_full.m_offset ≥ offset then h.flush_if_full.m_offset - offset
          else h.flush_if_full.m_offset + 2048 - offset) % 2048) 0)).wf := by
      unfold HistoryBuffer.store HistoryBuffer.wf
      dsimp only
      rw [List.length_set, h1, hl]
      exact ⟨rfl, by omega⟩
    obtain ⟨ih1, ih2⟩ := ih _ hw'
    refine ⟨ih1, ?_⟩
    rw [ih2]
    unfold HistoryBuffer.store
    dsimp only
    omega

theorem apply_size (h : HistoryBuffer) (t : Token) (hw : h.wf) :
    (h.apply t).wf ∧
      (h.apply t).m_out.length + (h.apply t).m_offset = h.m_out.length + h.m_offset + t.size := by
  cases t with
  | literal byte => exact put_size h byte hw
  | backref offset length => exact put_ref_size offset length h hw

theorem foldl_apply_size (ts : List Token) :
    ∀ (h : HistoryBuffer), h.wf →
      (ts.foldl HistoryBuffer.apply h).wf ∧
        (ts.foldl HistoryBuffer.apply h).m_out.length + (ts.foldl HistoryBuffer.apply h).m_offset =
          h.m_out.length + h.m_offset + produced_size ts := by
  induction ts with
  | nil => intro h hw; exact ⟨hw, by simp [produced_size]⟩
  | cons t ts ih =>
    intro h hw
    obtain ⟨a1, a2⟩ := apply_size h t hw
    obtain ⟨b1, b2⟩ := ih (h.apply t) a1
    refine ⟨b1, ?_⟩
    simp only [List.foldl_cons]
    rw [b2, a2]
    simp only [produced_size, List.map_cons, List.sum_cons]
    omega

theorem flush_length (h : HistoryBuffer) (hw : h.wf) :
    h.flush.m_out.length = h.m_out.length + h.m_offset := by
  unfold HistoryBuffer.flush
  dsimp only
  rw [List.length_append, List.length_take, hw.1, Nat.min_eq_left hw.2]

theorem produced_size_eq (ts : List Token) :
    produced_size ts = literal_count ts + backref_length_sum ts := by
  induction ts with
  | nil => rfl
  | cons t ts ih =>
    cases t with
    | literal b =>
      simp only [produced_size, List.map_cons, List.sum_cons, Token.size, literal_count,
        backref_length_sum] at ih ⊢
      omega
    | backref o l =>
      simp only [produced_size, List.map_cons, List.sum_cons, Token.size, literal_count,
        backref_length_sum] at ih ⊢
      omega

theorem flush_if_full_out (h : HistoryBuffer) :
    ∃ app, h.flush_if_full.m_out = h.m_out ++ app := by
  unfold HistoryBuffer.flush_if_full
  by_cases hf : h.m_offset = h.m_history.length
  · rw [if_pos hf]; exact ⟨_, rfl⟩
  · rw [if_neg hf]; exact ⟨[], (List.append_nil _).symm⟩

theorem put_ref_out (offset : Nat) (length : Nat) :
    ∀ (h : HistoryBuffer), ∃ app, (h.put_ref offset length).m_out = h.m_out ++ app := by
  induction length with
  | zero => intro h; exact ⟨[], (List.append_nil _).symm⟩
  | succ length ih =>
    intro h
    simp only [HistoryBuffer.put_ref]
    obtain ⟨app1, h1⟩ := flush_if_full_out h
    obtain ⟨app2, h2⟩ := ih (h.flush_if_full.store (h.flush_if_full.m_history.getD
        ((if h.flush_if_full.m_offset ≥ offset then h.flush_if_full.m_offset - offset
          else h.flush_if_full.m_offset + 2048 - offset) % 2048) 0))
    refine ⟨app1 ++ app2, ?_⟩
    rw [h2]
    unfold HistoryBuffer.store
    dsimp only
    rw [h1, List.append_assoc]

theorem apply_out (h : HistoryBuffer) (t : Token) : ∃ app, (h.apply t).m_out = h.m_out ++ app := by
  cases t with
  | literal byte =>
    obtain ⟨app, h1⟩ := flush_if_full_out h
    exact ⟨app, h1⟩
  | backref offset length => exact put_ref_out offset length h

theorem foldl_apply_out (ts : List Token) :
    ∀ (h : HistoryBuffer), ∃ app, (ts.foldl HistoryBuffer.apply h).m_out = h.m_out ++ app := by
  induction ts with
  | nil => intro h; exact ⟨[], (List.append_nil _).symm⟩
  | cons t ts ih =>
    intro h
    obtain ⟨app1, h1⟩ := apply_out h t
    obtain ⟨app2, h2⟩ := ih (h.apply t)
    refine ⟨app1 ++ app2, ?_⟩
    rw [List.foldl_cons, h2, h1, List.append_assoc]

theorem decompress_length (input : SafeArray) (out out' : List Nat) (b : Bool)
    (h : decompress input out = Run.done (b, out')) :
    ∃ ts sl appended, tokens_of input = Run.done (ts, sl, b) ∧ out' = out ++ appended ∧
      appended.length = literal_count ts + backref_length_sum ts := by
  rw [decompress_eq] at h
  cases ht : tokens_of input with
  | more => rw [ht] at h; exact absurd h (by simp)
  | done r =>
    obtain ⟨ts, sl, b'⟩ := r
    rw [ht] at h
    simp only [Run.done.injEq, Prod.mk.injEq] at h
    obtain ⟨hb, ho⟩ := h
    subst hb
    obtain ⟨hw, hs⟩ := foldl_apply_size ts (HistoryBuffer.create out) (create_wf out)
    obtain ⟨app, hp⟩ := foldl_apply_out ts (HistoryBuffer.create out)
    have e1 : (HistoryBuffer.create out).m_out = out := rfl
    have e2 : (HistoryBuffer.create out).m_offset = 0 := rfl
    have hout : out' = out ++ (app ++ (ts.foldl HistoryBuffer.apply
        (HistoryBuffer.create out)).m_history.take (ts.foldl HistoryBuffer.apply
        (HistoryBuffer.create out)).m_offset) := by
      rw [← ho]
      unfold HistoryBuffer.flush
      dsimp only
      rw [hp, e1, List.append_assoc]
    refine ⟨ts, sl, _, rfl, hout, ?_⟩
    have hl := flush_length _ hw
    rw [ho, hs, produced_size_eq, e1, e2] at hl
    have hl2 := congrArg List.length hout
    rw [List.length_append] at hl2
    omega

theorem test_compressed_tokens :
    tokens_of test_compressed =
      Run.done ([Token.literal 65, Token.literal 66, Token.literal 65, Token.backref 1 5,
        Token.literal 67, Token.backref 9 3, Token.backref 2 4],
        ⟨test_compressed.m_buffer, 71⟩, true) := by
  decide!

/-! ## Token sequences and the final token -/

theorem read_tokens_spec (fuel : Nat) :
    ∀ (s : BitStream) (ts : List Token) (sl : BitStream) (b : Bool),
      read_tokens fuel s = Run.done (ts, sl, b) →
        reads_to s ts sl ∧
          next_token sl = Run.done (if b then Step.terminator else Step.exhausted) := by
  induction fuel with
  | zero => intro s ts sl b h; simp [read_tokens] at h
  | succ fuel ih =>
    intro s ts sl b h
    simp only [read_tokens] at h
    cases hn : next_token s with
    | more => rw [hn] at h; simp at h
    | done st =>
      rw [hn] at h
      cases st with
      | exhausted =>
        simp only [Run.done.injEq, Prod.mk.injEq] at h
        obtain ⟨h1, h2, h3⟩ := h
        subst h1 h2 h3
        exact ⟨rfl, by simpa using hn⟩
      | terminator =>
        simp only [Run.done.injEq, Prod.mk.injEq] at h
        obtain ⟨h1, h2, h3⟩ := h
        subst h1 h2 h3
        exact ⟨rfl, by simpa using hn⟩
      | token t s' =>
        dsimp only at h
        cases hr : read_tokens fuel s' with
        | more => rw [hr] at h; simp at h
        | done r =>
          obtain ⟨ts', sl', b'⟩ := r
          rw [hr] at h
          simp only [Run.done.injEq, Prod.mk.injEq] at h
          obtain ⟨h1, h2, h3⟩ := h
          subst h1 h2 h3
          obtain ⟨i1, i2⟩ := ih s' ts' sl' b' hr
          exact ⟨⟨s', hn, i1⟩, i2⟩

theorem reads_to_unique (ts : List Token) :
    ∀ (s sl : BitStream) (ts' : List Token) (sl' : BitStream) (st st' : Step),
      reads_to s ts sl → next_token sl = Run.done st → (∀ t x, st ≠ Step.token t x) →
      reads_to s ts' sl' → next_token sl' = Run.done st' → (∀ t x, st' ≠ Step.token t x) →
        ts = ts' ∧ sl = sl' := by
  induction ts with
  | nil =>
    intro s sl ts' sl' st st' h1 h2 h3 h4 h5 h6
    simp only [reads_to] at h1
    subst h1
    cases ts' with
    | nil => simp only [reads_to] at h4; exact ⟨rfl, h4.symm⟩
    | cons t' ts' =>
      simp only [reads_to] at h4
      obtain ⟨s', hs', _⟩ := h4
      rw [hs'] at h2
      simp only [Run.done.injEq] at h2
      exact absurd h2.symm (h3 t' s')
  | cons t ts ih =>
    intro s sl ts' sl' st st' h1 h2 h3 h4 h5 h6
    simp only [reads_to] at h1
    obtain ⟨s1, hs1, hr1⟩ := h1
    cases ts' with
    | nil =>
      simp only [reads_to] at h4
      subst h4
      rw [hs1] at h5
      simp only [Run.done.injEq] at h5
      exact absurd h5.symm (h6 t s1)
    | cons t' ts' =>
      simp only [reads_to] at h4
      obtain ⟨s2, hs2, hr2⟩ := h4
      rw [hs1] at hs2
      simp only [Run.done.injEq, Step.token.injEq] at hs2
      obtain ⟨e1, e2⟩ := hs2
      subst e1 e2
      obtain ⟨i1, i2⟩ := ih s1 sl ts' sl' st st' hr1 h2 h3 hr2 h5 h6
      exact ⟨by rw [i1], i2⟩

theorem tokens_of_iff (input : SafeArray) (ts : List Token) (sl : BitStream) (b : Bool) :
    tokens_of input = Run.done (ts, sl, b) ↔
      reads_to (BitStream.create input.m_buffer) ts sl ∧
        next_token sl = Run.done (if b then Step.terminator else Step.exhausted) := by
  constructor
  · intro h
    exact read_tokens_spec _ _ _ _ _ h
  · rintro ⟨h1, h2⟩
    obtain ⟨r, hr⟩ := tokens_of_total input
    obtain ⟨ts', sl', b'⟩ := r
    obtain ⟨g1, g2⟩ := read_tokens_spec _ _ _ _ _ hr
    have hns : ∀ (c : Bool) (t : Token) (x : BitStream),
        (if c then Step.terminator else Step.exhausted) ≠ Step.token t x := by
      intro c t x; cases c <;> simp
    obtain ⟨e1, e2⟩ := reads_to_unique ts _ sl ts' sl' _ _ h1 h2 (hns b) g1 g2 (hns b')
    subst e1 e2
    rw [h2] at g2
    have e3 : b = b' := by
      cases b <;> cases b' <;> simp at g2 <;> rfl
    subst e3
    exact hr

/-! ## When a read fails, and what `get_length` decodes -/

theorem get_next_bit_none (s : BitStream) : s.get_next_bit = none ↔ s.bits_left = 0 := by
  rw [get_next_bit_eq]
  unfold BitStream.bits_left BitStream.m_size
  by_cases hp : s.m_bit_pos < s.m_buffer.length * 8
  · rw [if_pos hp]
    constructor
    · intro h; exact absurd h (by simp)
    · intro h; omega
  · rw [if_neg hp]
    constructor
    · intro _; omega
    · intro _; rfl

theorem get_next_bits_none {w n : Nat} (hn : 0 < n) (hw : n ≤ w) (s : BitStream) :
    s.get_next_bits w n = none ↔ s.bits_left < n := by
  rw [get_next_bits_eq w s n hn hw]
  unfold BitStream.bits_left BitStream.m_size
  by_cases hp : s.m_bit_pos + n ≤ s.m_buffer.length * 8
  · rw [if_pos hp]
    constructor
    · intro h; exact absurd h (by simp)
    · intro h; omega
  · rw [if_neg hp]
    constructor
    · intro _; omega
    · intro _; rfl

theorem skip_groups_bits_left (k : Nat) :
    ∀ (s s3 : BitStream), skip_groups 4 15 k s = some s3 →
      s3.m_buffer = s.m_buffer ∧ s3.m_bit_pos = s.m_bit_pos + 4 * k ∧
        (0 < k → s3.m_bit_pos ≤ s.m_buffer.length * 8) := by
  induction k with
  | zero =>
    intro s s3 h
    simp only [skip_groups, Option.some.injEq] at h
    subst h
    exact ⟨rfl, rfl, fun h => absurd h (Nat.lt_irrefl 0)⟩
  | succ k ih =>
    intro s s3 h
    simp only [skip_groups] at h
    cases h1 : s.get_next_bits 8 4 with
    | none => rw [h1] at h; exact absurd h (by simp)
    | some r1 =>
      obtain ⟨g, s1⟩ := r1
      rw [h1] at h
      dsimp only at h
      obtain ⟨hq, _, hs1⟩ := get_next_bits_some (by norm_num) (by norm_num) h1
      subst hs1
      by_cases hg : g = 15
      · rw [if_pos hg] at h
        obtain ⟨a, b, c⟩ := ih _ s3 h
        dsimp only at a b c
        refine ⟨a, by omega, fun _ => ?_⟩
        rcases Nat.eq_zero_or_pos k with hk | hk
        · subst hk; omega
        · exact c hk
      · rw [if_neg hg] at h
        exact absurd h (by simp)

theorem get_length_loop_skip (k : Nat) :
    ∀ (fuel length : Nat) (s s3 : BitStream), skip_groups 4 15 k s = some s3 →
      length < 2 ^ 32 →
      get_length_loop (fuel + k) length s =
        get_length_loop fuel ((length + 15 * k) % 2 ^ 32) s3 := by
  induction k with
  | zero =>
    intro fuel length s s3 h hl
    simp only [skip_groups, Option.some.injEq] at h
    subst h
    rw [Nat.mul_zero, Nat.add_zero, Nat.add_zero, Nat.mod_eq_of_lt hl]
  | succ k ih =>
    intro fuel length s s3 h hl
    simp only [skip_groups] at h
    cases h1 : s.get_next_bits 8 4 with
    | none => rw [h1] at h; exact absurd h (by simp)
    | some r1 =>
      obtain ⟨g, s1⟩ := r1
      rw [h1] at h
      dsimp only at h
      by_cases hg : g = 15
      · rw [if_pos hg] at h
        subst hg
        rw [show fuel + (k + 1) = (fuel + k) + 1 by omega]
        simp only [get_length_loop, h1]
        rw [if_neg (by omega)]
        rw [ih fuel _ s1 s3 h (Nat.mod_lt _ (by norm_num))]
        congr 1
        omega
      · rw [if_neg hg] at h
        exact absurd h (by simp)

theorem get_length_loop_cases (fuel : Nat) :
    ∀ (s : BitStream), s.bits_left < fuel →
      ∃ k s3, k < fuel ∧ skip_groups 4 15 k s = some s3 ∧
        (s3.bits_left < 4 ∨ ∃ v s4, s3.get_next_bits 8 4 = some (v, s4) ∧ v < 15) := by
  induction fuel with
  | zero => intro s h; exact absurd h (Nat.not_lt_zero _)
  | succ fuel ih =>
    intro s h
    cases h1 : s.get_next_bits 8 4 with
    | none =>
      exact ⟨0, s, Nat.succ_pos _, rfl,
        Or.inl ((get_next_bits_none (by norm_num) (by norm_num) s).mp h1)⟩
    | some r1 =>
      obtain ⟨g, s1⟩ := r1
      by_cases hg : g < 15
      · exact ⟨0, s, Nat.succ_pos _, rfl, Or.inr ⟨g, s1, h1, hg⟩⟩
      · obtain ⟨hq, hv, hs1⟩ := get_next_bits_some (by norm_num) (by norm_num) h1
        have hlt := bits_val_lt s.m_buffer 4 s.m_bit_pos
        have hg15 : g = 15 := by omega
        have hb : s1.bits_left < fuel := by
          subst hs1
          unfold BitStream.bits_left BitStream.m_size at h ⊢
          dsimp only
          omega
        obtain ⟨k, s3, hk, hsk, hfin⟩ := ih s1 hb
        refine ⟨k + 1, s3, by omega, ?_, hfin⟩
        simp only [skip_groups, h1]
        rw [if_pos hg15]
        exact hsk

/-- The result of the `while (true)` loop of `get_length` entered with `length` at the
stream `s3`, when the next 4-bit group is below 15 or cannot be read. -/
theorem get_length_loop_end (fuel length : Nat) (s3 : BitStream) :
    (s3.bits_left < 4 → get_length_loop (fuel + 1) length s3 = Run.done none) ∧
    (∀ v s4, s3.get_next_bits 8 4 = some (v, s4) → v < 15 →
      get_length_loop (fuel + 1) length s3 =
        Run.done (some ((length + (v + 2)) % 2 ^ 32, s4))) := by
  constructor
  · intro h
    simp only [get_length_loop]
    rw [(get_next_bits_none (by norm_num) (by norm_num) s3).mpr h]
  · intro v s4 h hv
    simp only [get_length_loop, h]
    rw [if_pos hv]

theorem get_length_short (s s1 : BitStream) (v : Nat)
    (h1 : s.get_next_bits 8 2 = some (v, s1)) (hv : v < 3) :
    get_length s = Run.done (some (v + 2, s1)) := by
  unfold get_length
  rw [h1]
  dsimp only
  rw [if_pos hv]
  have : (0 + (v + 2)) % 2 ^ 32 = v + 2 := by omega
  rw [this]

theorem get_length_medium (s s1 s2 : BitStream) (v : Nat)
    (h1 : s.get_next_bits 8 2 = some (3, s1))
    (h2 : s1.get_next_bits 8 2 = some (v, s2)) (hv : v < 3) :
    get_length s = Run.done (some (5 + v, s2)) := by
  unfold get_length
  rw [h1]
  dsimp only
  rw [if_neg (by omega), h2]
  dsimp only
  rw [if_pos hv]
  have : ((0 + 3) % 2 ^ 32 + (v + 2)) % 2 ^ 32 = 5 + v := by omega
  rw [this]

theorem get_length_enters_loop (s s1 s2 s3 : BitStream) (k : Nat)
    (h1 : s.get_next_bits 8 2 = some (3, s1))
    (h2 : s1.get_next_bits 8 2 = some (3, s2))
    (h3 : skip_groups 4 15 k s2 = some s3) :
    ∃ fuel, get_length s = get_length_loop (fuel + 1) ((6 + 15 * k) % 2 ^ 32) s3 := by
  obtain ⟨_, hp, hle⟩ := skip_groups_bits_left k s2 s3 h3
  obtain ⟨hq, _, hs2⟩ := get_next_bits_some (by norm_num) (by norm_num) h2
  have hk : k ≤ s2.bits_left := by
    rcases Nat.eq_zero_or_pos k with hk | hk
    · omega
    · have := hle hk
      unfold BitStream.bits_left BitStream.m_size
      omega
  refine ⟨s2.bits_left - k, ?_⟩
  unfold get_length
  rw [h1]
  dsimp only
  rw [if_neg (by omega), h2]
  dsimp only
  rw [if_neg (by omega)]
  have e : s2.bits_left + 1 = (s2.bits_left - k + 1) + k := by omega
  rw [e, get_length_loop_skip k _ _ s2 s3 h3 (by norm_num)]
  congr 1

theorem get_length_long (s s1 s2 s3 s4 : BitStream) (k v : Nat)
    (h1 : s.get_next_bits 8 2 = some (3, s1))
    (h2 : s1.get_next_bits 8 2 = some (3, s2))
    (h3 : skip_groups 4 15 k s2 = some s3)
    (h4 : s3.get_next_bits 8 4 = some (v, s4)) (hv : v < 15) :
    get_length s = Run.done (some ((8 + 15 * k + v) % 2 ^ 32, s4)) := by
  obtain ⟨fuel, hf⟩ := get_length_enters_loop s s1 s2 s3 k h1 h2 h3
  rw [hf, (get_length_loop_end fuel _ s3).2 v s4 h4 hv]
  congr 3
  omega

theorem get_length_long_fails (s s1 s2 s3 : BitStream) (k : Nat)
    (h1 : s.get_next_bits 8 2 = some (3, s1))
    (h2 : s1.get_next_bits 8 2 = some (3, s2))
    (h3 : skip_groups 4 15 k s2 = some s3)
    (h4 : s3.bits_left < 4) :
    get_length s = Run.done none := by
  obtain ⟨fuel, hf⟩ := get_length_enters_loop s s1 s2 s3 k h1 h2 h3
  rw [hf, (get_length_loop_end fuel _ s3).1 h4]

theorem get_length_code (s : BitStream) : ∃ r, get_length s = Run.done r ∧ LengthCode s r := by
  cases h1 : s.get_next_bits 8 2 with
  | none =>
    refine ⟨none, ?_, LengthCode.fail1 ((get_next_bits_none (by norm_num) (by norm_num) s).mp h1)⟩
    unfold get_length
    rw [h1]
  | some r1 =>
    obtain ⟨g, s1⟩ := r1
    by_cases hg : g < 3
    · exact ⟨_, get_length_short s s1 g h1 hg, LengthCode.short g s1 h1 hg⟩
    · obtain ⟨_, hgv, _⟩ := get_next_bits_some (by norm_num) (by norm_num) h1
      have hlt := bits_val_lt s.m_buffer 2 s.m_bit_pos
      have hg3 : g = 3 := by omega
      subst hg3
      cases h2 : s1.get_next_bits 8 2 with
      | none =>
        refine ⟨none, ?_, LengthCode.fail2 s1 h1
          ((get_next_bits_none (by norm_num) (by norm_num) s1).mp h2)⟩
        unfold get_length
        rw [h1]
        dsimp only
        rw [if_neg (by omega), h2]
      | some r2 =>
        obtain ⟨g2, s2⟩ := r2
        by_cases hg2 : g2 < 3
        · exact ⟨_, get_length_medium s s1 s2 g2 h1 h2 hg2, LengthCode.medium g2 s1 s2 h1 h2 hg2⟩
        · obtain ⟨_, hgv2, _⟩ := get_next_bits_some (by norm_num) (by norm_num) h2
          have hlt2 := bits_val_lt s1.m_buffer 2 s1.m_bit_pos
          have hg32 : g2 = 3 := by omega
          subst hg32
          obtain ⟨k, s3, _, hsk, hfin⟩ := get_length_loop_cases (s2.bits_left + 1) s2
            (Nat.lt_succ_self _)
          rcases hfin with hfin | ⟨v, s4, h4, hv⟩
          · exact ⟨_, get_length_long_fails s s1 s2 s3 k h1 h2 hsk hfin,
              LengthCode.fail3 k s1 s2 s3 h1 h2 hsk hfin⟩
          · exact ⟨_, get_length_long s s1 s2 s3 s4 k v h1 h2 hsk h4 hv,
              LengthCode.long k v s1 s2 s3 s4 h1 h2 hsk h4 hv⟩

/-! ## A stream of `0xFF` bytes -/

theorem bit_at_ones (N p : Nat) (h : p < 8 * N + 5) :
    bit_at (List.replicate N 255 ++ [0xF8]) p = 1 := by
  unfold bit_at
  rw [Nat.and_one_is_mod, Nat.shiftRight_eq_div_pow]
  by_cases hN : p / 8 < N
  · rw [List.getD_append _ _ _ _ (by rw [List.length_replicate]; exact hN),
      List.getD_eq_getElem _ _ (by rw [List.length_replicate]; exact hN), List.getElem_replicate]
    have h8 : p % 8 < 8 := Nat.mod_lt _ (by norm_num)
    interval_cases (p % 8) <;> norm_num
  · have hN2 : p / 8 = N := by omega
    rw [List.getD_append_right _ _ _ _ (by rw [List.length_replicate]; omega),
      List.length_replicate, hN2, Nat.sub_self]
    have h8 : p % 8 < 5 := by omega
    interval_cases (p % 8) <;> norm_num

theorem bit_at_low (N p : Nat) (h1 : 8 * N + 5 ≤ p) (h2 : p < 8 * N + 8) :
    bit_at (List.replicate N 255 ++ [0xF8]) p = 0 := by
  unfold bit_at
  rw [Nat.and_one_is_mod, Nat.shiftRight_eq_div_pow]
  have hN2 : p / 8 = N := by omega
  rw [List.getD_append_right _ _ _ _ (by rw [List.length_replicate]; omega),
    List.length_replicate, hN2, Nat.sub_self]
  have h8 : 5 ≤ p % 8 := by omega
  have h9 : p % 8 < 8 := Nat.mod_lt _ (by norm_num)
  interval_cases (p % 8) <;> norm_num

theorem bits_val_ones (buf : List Nat) (n : Nat) :
    ∀ p, (∀ i, i < n → bit_at buf (p + i) = 1) → bits_val buf p n + 1 = 2 ^ n := by
  induction n with
  | zero => intro p _; simp [bits_val]
  | succ n ih =>
    intro p h
    have h0 := h 0 (Nat.succ_pos _)
    rw [Nat.add_zero] at h0
    have h1 := ih (p + 1) (fun i hi => by
      have := h (i + 1) (by omega)
      rw [show p + 1 + i = p + (i + 1) by omega]
      exact this)
    simp only [bits_val, h0]
    rw [pow_succ]
    omega

theorem ones_stream_length (N : Nat) :
    (List.replicate N 255 ++ [0xF8]).length * 8 = 8 * N + 8 := by
  rw [List.length_append, List.length_replicate]
  simp only [List.length_singleton]
  omega

theorem get_next_bits_ones (N p n v : Nat) (hn : 0 < n) (hw : n ≤ 8) (h : p + n ≤ 8 * N + 5)
    (hv : v + 1 = 2 ^ n) :
    BitStream.get_next_bits 8 ⟨List.replicate N 255 ++ [0xF8], p⟩ n =
      some (v, ⟨List.replicate N 255 ++ [0xF8], p + n⟩) := by
  rw [get_next_bits_eq 8 _ n hn hw]
  dsimp only
  rw [ones_stream_length, if_pos (by omega)]
  have := bits_val_ones (List.replicate N 255 ++ [0xF8]) n p
    (fun i hi => bit_at_ones N (p + i) (by omega))
  have e : bits_val (List.replicate N 255 ++ [0xF8]) p n = v := by omega
  rw [e]

theorem skip_groups_ones (N : Nat) (k : Nat) :
    ∀ p, p + 4 * k ≤ 8 * N + 5 →
      skip_groups 4 15 k ⟨List.replicate N 255 ++ [0xF8], p⟩ =
        some ⟨List.replicate N 255 ++ [0xF8], p + 4 * k⟩ := by
  induction k with
  | zero => intro p _; rfl
  | succ k ih =>
    intro p h
    simp only [skip_groups]
    rw [get_next_bits_ones N p 4 15 (by norm_num) (by norm_num) (by omega) (by norm_num)]
    dsimp only
    rw [if_pos rfl, ih (p + 4) (by omega)]
    congr 2
    omega

theorem get_next_bits_ones_last (N : Nat) :
    BitStream.get_next_bits 8 ⟨List.replicate N 255 ++ [0xF8], 8 * N + 4⟩ 4 =
      some (8, ⟨List.replicate N 255 ++ [0xF8], 8 * N + 8⟩) := by
  rw [get_next_bits_eq 8 _ 4 (by norm_num) (by norm_num)]
  dsimp only
  rw [ones_stream_length, if_pos (by omega)]
  have b0 := bit_at_ones N (8 * N + 4) (by omega)
  have b1 := bit_at_low N (8 * N + 4 + 1) (by omega) (by omega)
  have b2 := bit_at_low N (8 * N + 4 + 1 + 1) (by omega) (by omega)
  have b3 := bit_at_low N (8 * N + 4 + 1 + 1 + 1) (by omega) (by omega)
  simp only [bits_val, b0, b1, b2, b3]
  norm_num

theorem skip_groups_ones_all (N : Nat) :
    skip_groups 4 15 (2 * N) ⟨List.replicate N 255 ++ [0xF8], 4⟩ =
      some ⟨List.replicate N 255 ++ [0xF8], 8 * N + 4⟩ := by
  rw [skip_groups_ones N (2 * N) 4 (by omega)]
  congr 2
  omega

theorem get_length_ones (N : Nat) :
    get_length ⟨List.replicate N 255 ++ [0xF8], 0⟩ =
      Run.done (some ((8 + 15 * (2 * N) + 8) % 2 ^ 32,
        ⟨List.replicate N 255 ++ [0xF8], 8 * N + 8⟩)) := by
  have h1 := get_next_bits_ones N 0 2 3 (by norm_num) (by norm_num) (by omega) (by norm_num)
  have h2 := get_next_bits_ones N (0 + 2) 2 3 (by norm_num) (by norm_num) (by omega) (by norm_num)
  rw [show 0 + 2 + 2 = 4 by norm_num] at h2
  exact get_length_long _ _ _ _ _ (2 * N) 8 h1 h2 (skip_groups_ones_all N)
    (get_next_bits_ones_last N) (by norm_num)

/-! ## Exhaustion inside a token -/

theorem get_offset_none (s : BitStream) : get_offset s = none ↔ offset_exhausted s := by
  unfold get_offset offset_exhausted
  cases h1 : s.get_next_bit with
  | none =>
    have := (get_next_bit_none s).mp h1
    simp [this]
  | some r1 =>
    obtain ⟨g, s1⟩ := r1
    have hne : s.bits_left ≠ 0 := fun h => by
      rw [(get_next_bit_none s).mpr h] at h1
      exact absurd h1 (by simp)
    dsimp only
    by_cases hg : g ≠ 0
    · rw [if_pos hg, get_next_bits_none (by norm_num) (by norm_num)]
      constructor
      · intro h; exact Or.inr ⟨g, s1, rfl, by rw [if_pos hg]; exact h⟩
      · rintro (h | ⟨g', s1', he, h⟩)
        · exact absurd h hne
        · simp only [Option.some.injEq, Prod.mk.injEq] at he
          obtain ⟨e1, e2⟩ := he
          subst e1 e2
          rw [if_pos hg] at h
          exact h
    · rw [if_neg hg, get_next_bits_none (by norm_num) (by norm_num)]
      constructor
      · intro h; exact Or.inr ⟨g, s1, rfl, by rw [if_neg hg]; exact h⟩
      · rintro (h | ⟨g', s1', he, h⟩)
        · exact absurd h hne
        · simp only [Option.some.injEq, Prod.mk.injEq] at he
          obtain ⟨e1, e2⟩ := he
          subst e1 e2
          rw [if_neg hg] at h
          exact h

theorem get_length_none (s : BitStream) : get_length s = Run.done none ↔ length_exhausted s := by
  constructor
  · intro h
    obtain ⟨r, hr, hc⟩ := get_length_code s
    rw [h] at hr
    simp only [Run.done.injEq] at hr
    subst hr
    cases hc with
    | fail1 h1 => exact Or.inl h1
    | fail2 s1 h1 h2 => exact Or.inr (Or.inl ⟨s1, h1, h2⟩)
    | fail3 k s1 s2 s3 h1 h2 h3 h4 => exact Or.inr (Or.inr ⟨s1, s2, k, s3, h1, h2, h3, h4⟩)
  · rintro (h | ⟨s1, h1, h2⟩ | ⟨s1, s2, k, s3, h1, h2, h3, h4⟩)
    · unfold get_length
      rw [(get_next_bits_none (by norm_num) (by norm_num) s).mpr h]
    · unfold get_length
      rw [h1]
      dsimp only
      rw [if_neg (by omega), (get_next_bits_none (by norm_num) (by norm_num) s1).mpr h2]
    · exact get_length_long_fails s s1 s2 s3 k h1 h2 h3 h4

theorem next_token_exhausted (s : BitStream) :
    next_token s = Run.done Step.exhausted ↔ field_exhausted s := by
  unfold next_token field_exhausted
  cases h1 : s.get_next_bit with
  | none =>
    have := (get_next_bit_none s).mp h1
    simp [this]
  | some r1 =>
    obtain ⟨f, s1⟩ := r1
    have hne : s.bits_left ≠ 0 := fun h => by
      rw [(get_next_bit_none s).mpr h] at h1
      exact absurd h1 (by simp)
    dsimp only
    by_cases hf : f ≠ 0
    · rw [if_pos hf]
      cases h2 : get_offset s1 with
      | none =>
        have hx := (get_offset_none s1).mp h2
        simp only [true_iff]
        exact Or.inr (Or.inr (Or.inl ⟨f, s1, rfl, hf, hx⟩))
      | some r2 =>
        obtain ⟨offset, s2⟩ := r2
        have hnx : ¬ offset_exhausted s1 := fun hx => by
          rw [(get_offset_none s1).mpr hx] at h2
          exact absurd h2 (by simp)
        dsimp only
        by_cases ho : offset = 0
        · rw [if_pos ho]
          constructor
          · intro h; exact absurd h (by simp)
          · rintro (h | ⟨f', s1', he, hf', _⟩ | ⟨f', s1', he, _, hx⟩ | ⟨f', s1', o', s2', he, _, he2, ho', _⟩)
            · exact absurd h hne
            · simp only [Option.some.injEq, Prod.mk.injEq] at he
              rw [← he.1] at hf'
              exact absurd hf' hf
            · simp only [Option.some.injEq, Prod.mk.injEq] at he
              rw [← he.2] at hx
              exact absurd hx hnx
            · simp only [Option.some.injEq, Prod.mk.injEq] at he
              rw [← he.2, h2] at he2
              simp only [Option.some.injEq, Prod.mk.injEq] at he2
              rw [← he2.1] at ho'
              exact absurd ho ho'
        · rw [if_neg ho]
          obtain ⟨r, hr, _⟩ := get_length_total s2
          constructor
          · intro h
            rw [hr] at h
            cases r with
            | none =>
              exact Or.inr (Or.inr (Or.inr ⟨f, s1, offset, s2, rfl, hf, h2, ho,
                (get_length_none s2).mp hr⟩))
            | some r3 => exact absurd h (by simp)
          · rintro (h | ⟨f', s1', he, hf', _⟩ | ⟨f', s1', he, _, hx⟩ | ⟨f', s1', o', s2', he, _, he2, _, hl⟩)
            · exact absurd h hne
            · simp only [Option.some.injEq, Prod.mk.injEq] at he
              rw [← he.1] at hf'
              exact absurd hf' hf
            · simp only [Option.some.injEq, Prod.mk.injEq] at he
              rw [← he.2] at hx
              exact absurd hx hnx
            · simp only [Option.some.injEq, Prod.mk.injEq] at he
              rw [← he.2, h2] at he2
              simp only [Option.some.injEq, Prod.mk.injEq] at he2
              rw [← he2.2] at hl
              rw [(get_length_none s2).mpr hl]
    · rw [if_neg hf]
      have hf0 : f = 0 := by omega
      unfold BitStream.get_next_byte
      cases h2 : s1.get_next_bits 8 8 with
      | none =>
        have hx := (get_next_bits_none (by norm_num) (by norm_num) s1).mp h2
        simp only [true_iff]
        exact Or.inr (Or.inl ⟨f, s1, rfl, hf0, hx⟩)
      | some r2 =>
        obtain ⟨byte, s2⟩ := r2
        have hnx : ¬ s1.bits_left < 8 := fun hx => by
          rw [(get_next_bits_none (by norm_num) (by norm_num) s1).mpr hx] at h2
          exact absurd h2 (by simp)
        constructor
        · intro h; exact absurd h (by simp)
        · rintro (h | ⟨f', s1', he, _, hx⟩ | ⟨f', s1', he, hf', _⟩ | ⟨f', s1', o', s2', he, hf', _⟩)
          · exact absurd h hne
          · simp only [Option.some.injEq, Prod.mk.injEq] at he
            rw [← he.2] at hx
            exact absurd hx hnx
          · simp only [Option.some.injEq, Prod.mk.injEq] at he
            rw [← he.1] at hf'
            exact absurd hf0 hf'
          · simp only [Option.some.injEq, Prod.mk.injEq] at he
            rw [← he.1] at hf'
            exact absurd hf0 hf'

theorem next_token_terminator (s : BitStream) :
    next_token s = Run.done Step.terminator ↔ terminator_at s := by
  unfold next_token terminator_at
  cases h1 : s.get_next_bit with
  | none => simp
  | some r1 =>
    obtain ⟨f, s1⟩ := r1
    dsimp only
    by_cases hf : f ≠ 0
    · rw [if_pos hf]
      cases h2 : get_offset s1 with
      | none => simp [h2]
      | some r2 =>
        obtain ⟨offset, s2⟩ := r2
        dsimp only
        by_cases ho : offset = 0
        · subst ho
          rw [if_pos rfl]
          simp only [true_iff]
          exact ⟨f, s1, s2, rfl, hf, h2⟩
        · rw [if_neg ho]
          obtain ⟨r, hr, _⟩ := get_length_total s2
          rw [hr]
          constructor
          · intro h
            cases r with
            | none => exact absurd h (by simp)
            | some r3 => exact absurd h (by simp)
          · rintro ⟨f', s1', s2', he, _, he2⟩
            simp only [Option.some.injEq, Prod.mk.injEq] at he
            rw [← he.2, h2] at he2
            simp only [Option.some.injEq, Prod.mk.injEq] at he2
            exact absurd he2.1 ho
    · rw [if_neg hf]
      constructor
      · intro h
        cases h2 : s1.get_next_byte with
        | none => rw [h2] at h; exact absurd h (by simp)
        | some r2 => rw [h2] at h; exact absurd h (by simp)
      · rintro ⟨f', s1', s2', he, hf', _⟩
        simp only [Option.some.injEq, Prod.mk.injEq] at he
        rw [← he.1] at hf'
        exact absurd hf' hf

/-! ## Reading back what was written most-significant-bit first -/

theorem getD_le_one (bits : List Nat) (hb : ∀ b ∈ bits, b ≤ 1) (k : Nat) :
    bits.getD k 0 ≤ 1 := by
  by_cases hk : k < bits.length
  · rw [List.getD_eq_getElem _ _ hk]
    exact hb _ (List.getElem_mem _)
  · rw [List.getD_eq_default _ _ (by omega)]
    omega

theorem bit_at_pack (bits : List Nat) (hb : ∀ b ∈ bits, b ≤ 1) (k : Nat) :
    bit_at (pack_bits bits) k = bits.getD k 0 := by
  unfold bit_at pack_bits
  rw [Nat.and_one_is_mod, Nat.shiftRight_eq_div_pow]
  by_cases hk : k / 8 < (bits.length + 7) / 8
  · have hlen : k / 8 < (List.map (pack_byte bits) (List.range ((bits.length + 7) / 8))).length := by
      rw [List.length_map, List.length_range]; exact hk
    rw [List.getD_eq_getElem _ _ hlen, List.getElem_map, List.getElem_range]
    unfold pack_byte
    have g0 := getD_le_one bits hb (8 * (k / 8))
    have g1 := getD_le_one bits hb (8 * (k / 8) + 1)
    have g2 := getD_le_one bits hb (8 * (k / 8) + 2)
    have g3 := getD_le_one bits hb (8 * (k / 8) + 3)
    have g4 := getD_le_one bits hb (8 * (k / 8) + 4)
    have g5 := getD_le_one bits hb (8 * (k / 8) + 5)
    have g6 := getD_le_one bits hb (8 * (k / 8) + 6)
    have g7 := getD_le_one bits hb (8 * (k / 8) + 7)
    have hk8 : k = 8 * (k / 8) + k % 8 := (Nat.div_add_mod k 8).symm
    have h8 : k % 8 < 8 := Nat.mod_lt _ (by norm_num)
    generalize k / 8 = q at *
    generalize k % 8 = r at *
    subst hk8
    interval_cases r <;> simp only [Nat.add_zero, Nat.sub_zero, Nat.reduceSub, Nat.reducePow,
      Nat.div_one] <;> omega
  · have hlen : (List.map (pack_byte bits) (List.range ((bits.length + 7) / 8))).length ≤ k / 8 := by
      rw [List.length_map, List.length_range]; omega
    rw [List.getD_eq_default _ _ hlen, List.getD_eq_default _ _ (by omega)]
    simp

theorem pack_bits_length (bits : List Nat) : bits.length ≤ (pack_bits bits).length * 8 := by
  unfold pack_bits
  rw [List.length_map, List.length_range]
  omega

theorem bits_val_of_bits (buf : List Nat) (v : Nat) (n : Nat) :
    ∀ p, (∀ i, i < n → bit_at buf (p + i) = v / 2 ^ (n - 1 - i) % 2) →
      bits_val buf p n = v % 2 ^ n := by
  induction n with
  | zero => intro p _; simp [bits_val, Nat.mod_one]
  | succ n ih =>
    intro p h
    have h0 := h 0 (Nat.succ_pos _)
    rw [Nat.add_zero, show n + 1 - 1 - 0 = n by omega] at h0
    have h1 := ih (p + 1) (fun i hi => by
      have := h (i + 1) (by omega)
      rw [show p + 1 + i = p + (i + 1) by omega, this]
      congr 3
      omega)
    simp only [bits_val, h0, h1]
    rw [Nat.mod_pow_succ]
    ring

theorem bits_msb_length (n v : Nat) : (bits_msb n v).length = n := by
  induction n with
  | zero => rfl
  | succ n ih => simp [bits_msb, ih]

theorem bits_msb_le_one (n v : Nat) : ∀ b ∈ bits_msb n v, b ≤ 1 := by
  induction n with
  | zero => intro b hb; simp [bits_msb] at hb
  | succ n ih =>
    intro b hb
    simp only [bits_msb, List.mem_cons] at hb
    rcases hb with hb | hb
    · omega
    · exact ih b hb

theorem bits_msb_getD (n v : Nat) :
    ∀ i, i < n → (bits_msb n v).getD i 0 = v / 2 ^ (n - 1 - i) % 2 := by
  induction n with
  | zero => intro i hi; omega
  | succ n ih =>
    intro i hi
    cases i with
    | zero => simp [bits_msb]
    | succ i =>
      simp only [bits_msb, List.getD_cons_succ]
      rw [ih i (by omega)]
      congr 3
      omega

theorem write_all_le_one (ws : List (Nat × Nat)) : ∀ b ∈ write_all ws, b ≤ 1 := by
  induction ws with
  | nil => intro b hb; simp [write_all] at hb
  | cons w ws ih =>
    obtain ⟨n, v⟩ := w
    intro b hb
    simp only [write_all, List.mem_append] at hb
    rcases hb with hb | hb
    · exact bits_msb_le_one n v b hb
    · exact ih b hb

theorem read_all_write_all (ws : List (Nat × Nat)) :
    ∀ (pre bits : List Nat), bits = pre ++ write_all ws → (∀ b ∈ pre, b ≤ 1) →
      (∀ w ∈ ws, 1 ≤ w.1 ∧ w.1 ≤ 32 ∧ w.2 < 2 ^ w.1) →
      read_all 32 (ws.map Prod.fst) ⟨pack_bits bits, pre.length⟩ =
        some (ws.map Prod.snd, ⟨pack_bits bits, bits.length⟩) := by
  induction ws with
  | nil =>
    intro pre bits hbits _ _
    simp only [write_all, List.append_nil] at hbits
    subst hbits
    rfl
  | cons w ws ih =>
    obtain ⟨n, v⟩ := w
    intro pre bits hbits hpre hws
    obtain ⟨hn1, hn2, hv⟩ := hws (n, v) (List.mem_cons_self _ _)
    dsimp only at hn1 hn2 hv
    have hall : ∀ b ∈ bits, b ≤ 1 := by
      intro b hb
      rw [hbits, List.mem_append] at hb
      rcases hb with hb | hb
      · exact hpre b hb
      · exact write_all_le_one _ b hb
    have hlen : bits.length = pre.length + n + (write_all ws).length := by
      rw [hbits]
      simp only [write_all, List.length_append, bits_msb_length]
      omega
    have hval : bits_val (pack_bits bits) pre.length n = v := by
      rw [bits_val_of_bits (pack_bits bits) v n pre.length, Nat.mod_eq_of_lt hv]
      intro i hi
      rw [bit_at_pack bits hall, hbits]
      simp only [write_all]
      rw [List.getD_append_right _ _ _ _ (by omega), Nat.add_sub_cancel_left,
        List.getD_append _ _ _ _ (by rw [bits_msb_length]; exact hi)]
      exact bits_msb_getD n v i hi
    simp only [List.map_cons, read_all]
    rw [get_next_bits_eq 32 _ n hn1 hn2]
    dsimp only
    have hpk := pack_bits_length bits
    rw [if_pos (by omega), hval]
    dsimp only
    have hbits' : bits = (pre ++ bits_msb n v) ++ write_all ws := by
      rw [hbits, List.append_assoc]
      rfl
    have hpre' : ∀ b ∈ pre ++ bits_msb n v, b ≤ 1 := by
      intro b hb
      rw [List.mem_append] at hb
      rcases hb with hb | hb
      · exact hpre b hb
      · exact bits_msb_le_one n v b hb
    have := ih (pre ++ bits_msb n v) bits hbits' hpre'
      (fun w hw => hws w (List.mem_cons_of_mem _ hw))
    rw [List.length_append, bits_msb_length] at this
    rw [this]

/-! ## The loop of `reconstruct_tree` -/

theorem reconstruct_loop_cons {e : parsed_dir_entry_t} {rest r : List parsed_dir_entry_t}
    {i : Nat} {st : TreeState} (h : reconstruct_loop (e :: rest) i st = some r) :
    ∃ st1 st2 st3 r', reconstruct_first st = some st1 ∧
      reconstruct_push st1 i (e.is_dir && !e.is_empty_dir) = some st2 ∧
      reconstruct_last st2 e.is_last_entry = some st3 ∧
      reconstruct_loop rest (i + 1) st3 = some r' ∧
      r = { e with parent := st1.current_parent } :: r' := by
  simp only [reconstruct_loop] at h
  cases h1 : reconstruct_first st with
  | none => rw [h1] at h; exact absurd h (by simp)
  | some st1 =>
    rw [h1] at h
    dsimp only at h
    cases h2 : reconstruct_push st1 i (e.is_dir && !e.is_empty_dir) with
    | none => rw [h2] at h; exact absurd h (by simp)
    | some st2 =>
      rw [h2] at h
      dsimp only at h
      cases h3 : reconstruct_last st2 e.is_last_entry with
      | none => rw [h3] at h; exact absurd h (by simp)
      | some st3 =>
        rw [h3] at h
        dsimp only at h
        cases h4 : reconstruct_loop rest (i + 1) st3 with
        | none => rw [h4] at h; exact absurd h (by simp)
        | some r' =>
          rw [h4] at h
          simp only [Option.some.injEq] at h
          exact ⟨st1, st2, st3, r', by first | exact h1 | rfl, h2, h3, h4, h.symm⟩

theorem reconstruct_first_spec {st st1 : TreeState} (h : reconstruct_first st = some st1) :
    st1.first = false ∧ (st.first = false → st1 = st) ∧
      ∀ P : Option Nat → Prop, stack_all P st.stack →
        stack_all P st1.stack ∧ (st.first = true → P st1.current_parent) := by
  unfold reconstruct_first at h
  by_cases hf : st.first = true
  · rw [if_pos hf] at h
    cases hs : st.stack with
    | nil => rw [hs] at h; exact absurd h (by simp)
    | cons top below =>
      rw [hs] at h
      dsimp only at h
      cases top with
      | nil => exact absurd h (by simp)
      | cons front top' =>
        simp only [Option.some.injEq] at h
        subst h
        refine ⟨rfl, fun h0 => by rw [hf] at h0; exact absurd h0 (by simp), ?_⟩
        intro P hP
        dsimp only
        constructor
        · intro d hd p hp
          simp only [List.mem_cons] at hd
          rcases hd with hd | hd
          · subst hd; exact absurd hp (by simp)
          · by_cases he : top'.isEmpty = true
            · rw [if_pos he] at hd
              exact hP d (List.mem_cons_of_mem _ hd) p hp
            · rw [if_neg he] at hd
              simp only [List.mem_cons] at hd
              rcases hd with hd | hd
              · subst hd
                exact hP (front :: d) (List.mem_cons_self _ _) p (List.mem_cons_of_mem _ hp)
              · exact hP d (List.mem_cons_of_mem _ hd) p hp
        · intro _
          exact hP (front :: top') (List.mem_cons_self _ _) front (List.mem_cons_self _ _)
  · rw [if_neg hf] at h
    simp only [Option.some.injEq] at h
    subst h
    have hff : st.first = false := by
      cases hb : st.first with
      | true => exact absurd hb hf
      | false => rfl
    exact ⟨hff, fun _ => rfl, fun P hP => ⟨hP, fun h0 => absurd h0 hf⟩⟩

theorem reconstruct_push_spec {st1 st2 : TreeState} {i : Nat} {c : Bool}
    (h : reconstruct_push st1 i c = some st2) :
    st2.first = st1.first ∧ st2.current_parent = st1.current_parent ∧
      ∀ P : Option Nat → Prop, stack_all P st1.stack → (c = true → P (some i)) →
        stack_all P st2.stack := by
  unfold reconstruct_push at h
  by_cases hc : c = true
  · rw [if_pos hc] at h
    cases hs : st1.stack with
    | nil => rw [hs] at h; exact absurd h (by simp)
    | cons top below =>
      rw [hs] at h
      simp only [Option.some.injEq] at h
      subst h
      refine ⟨rfl, rfl, ?_⟩
      intro P hP hi d hd p hp
      dsimp only at hd
      simp only [List.mem_cons] at hd
      rcases hd with hd | hd
      · subst hd
        simp only [List.mem_append, List.mem_singleton] at hp
        rcases hp with hp | hp
        · exact hP top (List.mem_cons_self _ _) p hp
        · subst hp; exact hi hc
      · exact hP d (List.mem_cons_of_mem _ hd) p hp
  · rw [if_neg hc] at h
    simp only [Option.some.injEq] at h
    subst h
    exact ⟨rfl, rfl, fun P hP _ => hP⟩

theorem reconstruct_last_spec {st2 st3 : TreeState} {l : Bool}
    (h : reconstruct_last st2 l = some st3) :
    (st2.first = false → st3.first = l) ∧ st3.current_parent = st2.current_parent ∧
      ∀ P : Option Nat → Prop, stack_all P st2.stack → stack_all P st3.stack := by
  unfold reconstruct_last at h
  by_cases hl : l = true
  · rw [if_pos hl] at h
    cases hs : st2.stack with
    | nil => rw [hs] at h; exact absurd h (by simp)
    | cons top below =>
      rw [hs] at h
      simp only [Option.some.injEq] at h
      subst h
      refine ⟨fun _ => hl.symm, rfl, ?_⟩
      intro P hP d hd p hp
      dsimp only at hd
      by_cases ht : top.length = 0
      · rw [if_pos ht] at hd
        exact hP d (List.mem_cons_of_mem _ hd) p hp
      · rw [if_neg ht] at hd
        exact hP d hd p hp
  · rw [if_neg hl] at h
    simp only [Option.some.injEq] at h
    subst h
    have hlf : l = false := by
      cases hb : l with
      | true => exact absurd hb hl
      | false => rfl
    exact ⟨fun h0 => by rw [h0, hlf], rfl, fun P hP => hP⟩

/-- One iteration of the loop of `reconstruct_tree`, summarised. -/
theorem reconstruct_iteration {e : parsed_dir_entry_t} {rest r : List parsed_dir_entry_t}
    {i : Nat} {st : TreeState} (h : reconstruct_loop (e :: rest) i st = some r) :
    ∃ st3 r' c, reconstruct_loop rest (i + 1) st3 = some r' ∧
      r = { e with parent := c } :: r' ∧
      st3.current_parent = c ∧ st3.first = e.is_last_entry ∧
      (st.first = false → c = st.current_parent) ∧
      (∀ P : Option Nat → Prop, stack_all P st.stack → st.first = true → P c) ∧
      ∀ P : Option Nat → Prop, stack_all P st.stack →
        ((e.is_dir && !e.is_empty_dir) = true → P (some i)) → stack_all P st3.stack := by
  obtain ⟨st1, st2, st3, r', h1, h2, h3, h4, h5⟩ := reconstruct_loop_cons h
  obtain ⟨a1, a2, a3⟩ := reconstruct_first_spec h1
  obtain ⟨b1, b2, b3⟩ := reconstruct_push_spec h2
  obtain ⟨c1, c2, c3⟩ := reconstruct_last_spec h3
  refine ⟨st3, r', st1.current_parent, h4, h5, by rw [c2, b2], c1 (by rw [b1, a1]),
    fun hf => by rw [a2 hf], fun P hP => (a3 P hP).2, ?_⟩
  intro P hP hi
  exact c3 P (b3 P (a3 P hP).1 hi)

theorem reconstruct_loop_init (l : List parsed_dir_entry_t) :
    reconstruct_loop l 0 TreeState.init = reconstruct_loop l 0 TreeState.started := by
  cases l with
  | nil => rfl
  | cons e rest => rfl

theorem reconstruct_loop_length (l : List parsed_dir_entry_t) :
    ∀ (i : Nat) (st : TreeState) (r : List parsed_dir_entry_t),
      reconstruct_loop l i st = some r → r.length = l.length := by
  induction l with
  | nil =>
    intro i st r h
    simp only [reconstruct_loop, Option.some.injEq] at h
    rw [← h]
  | cons e rest ih =>
    intro i st r h
    obtain ⟨st3, r', c, h1, h2, _⟩ := reconstruct_iteration h
    rw [h2, List.length_cons, List.length_cons, ih _ _ _ h1]

theorem no_last_between_tail {e : parsed_dir_entry_t} {rest : List parsed_dir_entry_t}
    {a j : Nat} (h : no_last_between (e :: rest) (a + 1) (j + 1)) :
    no_last_between rest a j := by
  intro k x hk1 hk2 hx
  exact h (k + 1) x (by omega) (by omega) (by rw [List.getElem?_cons_succ]; exact hx)

theorem no_last_between_zero_tail {e : parsed_dir_entry_t} {rest : List parsed_dir_entry_t}
    {j : Nat} (h : no_last_between (e :: rest) 0 (j + 1)) :
    e.is_last_entry = false ∧ no_last_between rest 0 j := by
  refine ⟨h 0 e (Nat.le_refl _) (by omega) (by simp), ?_⟩
  intro k x _ hk2 hx
  exact h (k + 1) x (by omega) (by omega) (by rw [List.getElem?_cons_succ]; exact hx)

theorem reconstruct_loop_group (l : List parsed_dir_entry_t) :
    ∀ (i : Nat) (st : TreeState) (r : List parsed_dir_entry_t),
      reconstruct_loop l i st = some r → st.first = false →
      ∀ j ej, r[j]? = some ej → no_last_between l 0 j → ej.parent = st.current_parent := by
  induction l with
  | nil =>
    intro i st r h _ j ej hj _
    simp only [reconstruct_loop, Option.some.injEq] at h
    rw [← h] at hj
    exact absurd hj (by simp)
  | cons e rest ih =>
    intro i st r h hf j ej hj hn
    obtain ⟨st3, r', c, h1, h2, h3, h4, h5, _, _⟩ := reconstruct_iteration h
    rw [h2] at hj
    cases j with
    | zero =>
      simp only [List.getElem?_cons_zero, Option.some.injEq] at hj
      rw [← hj]
      exact h5 hf
    | succ j =>
      rw [List.getElem?_cons_succ] at hj
      obtain ⟨n1, n2⟩ := no_last_between_zero_tail hn
      rw [ih _ _ _ h1 (by rw [h4, n1]) j ej hj n2, h3, h5 hf]

theorem reconstruct_loop_same_group (l : List parsed_dir_entry_t) :
    ∀ (i : Nat) (st : TreeState) (r : List parsed_dir_entry_t),
      reconstruct_loop l i st = some r →
      ∀ a b ea eb, a ≤ b → r[a]? = some ea → r[b]? = some eb → no_last_between l a b →
        ea.parent = eb.parent := by
  induction l with
  | nil =>
    intro i st r h a b ea eb _ ha _ _
    simp only [reconstruct_loop, Option.some.injEq] at h
    rw [← h] at ha
    exact absurd ha (by simp)
  | cons e rest ih =>
    intro i st r h a b ea eb hab ha hb hn
    obtain ⟨st3, r', c, h1, h2, h3, h4, _, _, _⟩ := reconstruct_iteration h
    rw [h2] at ha hb
    cases a with
    | zero =>
      simp only [List.getElem?_cons_zero, Option.some.injEq] at ha
      cases b with
      | zero =>
        simp only [List.getElem?_cons_zero, Option.some.injEq] at hb
        rw [← ha, ← hb]
      | succ b =>
        rw [List.getElem?_cons_succ] at hb
        obtain ⟨n1, n2⟩ := no_last_between_zero_tail hn
        rw [reconstruct_loop_group rest _ _ _ h1 (by rw [h4, n1]) b eb hb n2, h3, ← ha]
    | succ a =>
      cases b with
      | zero => omega
      | succ b =>
        rw [List.getElem?_cons_succ] at ha hb
        exact ih _ _ _ h1 a b ea eb (by omega) ha hb (no_last_between_tail hn)

theorem good_parent_mono {G : Nat → Prop} {i i' : Nat} {p : Option Nat} (h : i ≤ i')
    (hp : good_parent G i p) : good_parent G i' p := by
  obtain ⟨j, h1, h2, h3⟩ := hp
  exact ⟨j, h1, by omega, h3⟩

theorem reconstruct_loop_forest (G : Nat → Prop) (l : List parsed_dir_entry_t) :
    ∀ (i : Nat) (st : TreeState) (r : List parsed_dir_entry_t),
      reconstruct_loop l i st = some r →
      (∀ k e, l[k]? = some e → (e.is_dir && !e.is_empty_dir) = true → G (i + k)) →
      stack_all (good_parent G i) st.stack →
      ∀ k ek, r[k]? = some ek →
        (no_last_between l 0 k ∧ st.first = false ∧ ek.parent = st.current_parent) ∨
          good_parent G (i + k) ek.parent := by
  induction l with
  | nil =>
    intro i st r h _ _ k ek hk
    simp only [reconstruct_loop, Option.some.injEq] at h
    rw [← h] at hk
    exact absurd hk (by simp)
  | cons e rest ih =>
    intro i st r h hG hst k ek hk
    obtain ⟨st3, r', c, h1, h2, h3, h4, h5, h6, h7⟩ := reconstruct_iteration h
    have hst' : stack_all (good_parent G (i + 1)) st.stack := by
      intro d hd p hp
      exact good_parent_mono (Nat.le_succ i) (hst d hd p hp)
    have g1 := h7 (good_parent G (i + 1)) hst' (fun hc =>
      ⟨i, rfl, Nat.lt_succ_self i, by have := hG 0 e (by simp) hc; simpa using this⟩)
    have g2 := h6 (good_parent G i) hst
    rw [h2] at hk
    cases k with
    | zero =>
      simp only [List.getElem?_cons_zero, Option.some.injEq] at hk
      rw [← hk]
      dsimp only
      cases hf : st.first with
      | false =>
        exact Or.inl ⟨fun k e _ hk2 _ => absurd hk2 (Nat.not_lt_zero _), rfl, h5 hf⟩
      | true => exact Or.inr (g2 hf)
    | succ k =>
      rw [List.getElem?_cons_succ] at hk
      have hG' : ∀ k e', rest[k]? = some e' → (e'.is_dir && !e'.is_empty_dir) = true →
          G (i + 1 + k) := by
        intro k e' hk' hc
        have := hG (k + 1) e' (by rw [List.getElem?_cons_succ]; exact hk') hc
        rw [show i + 1 + k = i + (k + 1) by omega]
        exact this
      rcases ih (i + 1) st3 r' h1 hG' g1 k ek hk with ⟨n1, n2, n3⟩ | hgood
      · cases hf : st.first with
        | false =>
          left
          refine ⟨?_, rfl, by rw [n3, h3, h5 hf]⟩
          intro j x _ hj2 hx
          cases j with
          | zero =>
            simp only [List.getElem?_cons_zero, Option.some.injEq] at hx
            rw [← hx, ← h4, n2]
          | succ j =>
            rw [List.getElem?_cons_succ] at hx
            exact n1 j x (Nat.zero_le _) (by omega) hx
        | true =>
          right
          rw [n3, h3]
          exact good_parent_mono (by omega) (g2 hf)
      · right
        rw [show i + (k + 1) = i + 1 + k by omega]
        exact hgood

theorem reconstruct_tree_test : reconstruct_tree test_entries = some test_result := by
  decide

theorem map_parent_getD (res : List parsed_dir_entry_t) (k : Nat) (ek : parsed_dir_entry_t)
    (h : res[k]? = some ek) :
    (res.map parsed_dir_entry_t.parent).getD k none = ek.parent := by
  rw [List.getD_eq_getElem?_getD, List.getElem?_map, h]
  rfl

theorem ancestor_reaches_root (res : List parsed_dir_entry_t)
    (hp : ∀ (k : Nat) (ek : parsed_dir_entry_t), res[k]? = some ek →
      ek.parent = none ∨ ∃ p ep, ek.parent = some p ∧ p < k ∧ res[p]? = some ep) :
    ∀ (k : Nat) (ek : parsed_dir_entry_t), res[k]? = some ek →
      ∃ n r er, n ≤ k ∧ ancestor (res.map parsed_dir_entry_t.parent) n k = some r ∧
        res[r]? = some er ∧ er.parent = none := by
  intro k
  induction k using Nat.strong_induction_on with
  | _ k ih =>
    intro ek hk
    rcases hp k ek hk with h0 | ⟨p, ep, h1, h2, h3⟩
    · exact ⟨0, k, ek, Nat.zero_le _, rfl, hk, h0⟩
    · obtain ⟨n, r, er, a1, a2, a3, a4⟩ := ih p h2 ep h3
      refine ⟨n + 1, r, er, by omega, ?_, a3, a4⟩
      simp only [ancestor]
      rw [map_parent_getD res k ek hk, h1]
      exact a2

/-! ## The 2048-byte ring against the unbounded output -/

theorem getD_set_self (l : List Nat) (i a : Nat) (h : i < l.length) :
    (l.set i a).getD i 0 = a := by
  rw [List.getD_eq_getElem?_getD, List.getElem?_set_self h]
  rfl

theorem getD_set_ne (l : List Nat) (i j a : Nat) (h : i ≠ j) :
    (l.set i a).getD j 0 = l.getD j 0 := by
  rw [List.getD_eq_getElem?_getD, List.getD_eq_getElem?_getD, List.getElem?_set_ne h]

theorem ring_inv_create (out : List Nat) : ring_inv (HistoryBuffer.create out) out [] := by
  unfold ring_inv HistoryBuffer.create
  refine ⟨List.length_replicate _ _, Nat.zero_le _, Nat.zero_le _, rfl, ?_, ?_⟩
  · simp
  · intro j hj; exact absurd hj (Nat.not_lt_zero _)

theorem getElem?_eq_some_getD (l : List Nat) (i : Nat) (h : i < l.length) :
    l[i]? = some (l.getD i 0) := by
  rw [List.getD_eq_getElem _ _ h, List.getElem?_eq_getElem h]

theorem ring_inv_flush (h : HistoryBuffer) (out0 produced : List Nat)
    (hi : ring_inv h out0 produced) :
    h.m_out ++ h.m_history.take h.m_offset = out0 ++ produced := by
  obtain ⟨h1, h2, h3, h4, h5, h6⟩ := hi
  rw [h5, List.append_assoc]
  congr 1
  have hd : h.m_history.take h.m_offset = produced.drop (produced.length - h.m_offset) := by
    apply List.ext_getElem?
    intro i
    rw [List.getElem?_take, List.getElem?_drop]
    by_cases hlt : i < h.m_offset
    · rw [if_pos hlt]
      have hj := h6 (produced.length - h.m_offset + i) (by omega) (by omega)
      have hmod : (produced.length - h.m_offset + i) % 2048 = i := by omega
      rw [hmod] at hj
      rw [getElem?_eq_some_getD _ _ (by omega), getElem?_eq_some_getD _ _ (by omega), hj]
    · rw [if_neg hlt, List.getElem?_eq_none (by omega)]
  rw [hd, List.take_append_drop]

theorem ring_inv_flush_if_full (h : HistoryBuffer) (out0 produced : List Nat)
    (hi : ring_inv h out0 produced) :
    ring_inv h.flush_if_full out0 produced ∧ h.flush_if_full.m_offset < 2048 := by
  have hfl := ring_inv_flush h out0 produced hi
  obtain ⟨h1, h2, h3, h4, h5, h6⟩ := hi
  unfold HistoryBuffer.flush_if_full
  by_cases hf : h.m_offset = h.m_history.length
  · rw [if_pos hf]
    unfold HistoryBuffer.flush ring_inv
    dsimp only
    refine ⟨⟨h1, Nat.zero_le _, Nat.zero_le _, by omega, ?_, h6⟩, by norm_num⟩
    rw [hfl, Nat.sub_zero, List.take_length]
  · rw [if_neg hf]
    exact ⟨⟨h1, h2, h3, h4, h5, h6⟩, by omega⟩

theorem ring_inv_store (h : HistoryBuffer) (out0 produced : List Nat) (byte : Nat)
    (hi : ring_inv h out0 produced) (hlt : h.m_offset < 2048) :
    ring_inv (h.store byte) out0 (produced ++ [byte]) := by
  obtain ⟨h1, h2, h3, h4, h5, h6⟩ := hi
  unfold HistoryBuffer.store ring_inv
  dsimp only
  rw [List.length_set, List.length_append, List.length_singleton]
  refine ⟨h1, by omega, by omega, by omega, ?_, ?_⟩
  · rw [h5, show produced.length + 1 - (h.m_offset + 1) = produced.length - h.m_offset by omega,
      List.take_append_of_le_length (by omega)]
  · intro j hj1 hj2
    by_cases hjn : j = produced.length
    · subst hjn
      have hmod : produced.length % 2048 = h.m_offset := by omega
      rw [hmod, getD_set_self _ _ _ (by omega),
        List.getD_append_right _ _ _ _ (Nat.le_refl _), Nat.sub_self]
      rfl
    · have hne : h.m_offset ≠ j % 2048 := by omega
      rw [getD_set_ne _ _ _ _ hne, List.getD_append _ _ _ _ (by omega)]
      exact h6 j (by omega) (by omega)

theorem ring_inv_put (h : HistoryBuffer) (out0 produced : List Nat) (byte : Nat)
    (hi : ring_inv h out0 produced) :
    ring_inv (h.put byte) out0 (produced ++ [byte]) := by
  obtain ⟨a, b⟩ := ring_inv_flush_if_full h out0 produced hi
  exact ring_inv_store _ _ _ _ a b

theorem ring_inv_put_ref (offset : Nat) (ho1 : 1 ≤ offset) (ho2 : offset ≤ 2048)
    (length : Nat) :
    ∀ (h : HistoryBuffer) (out0 produced : List Nat), ring_inv h out0 produced →
      offset ≤ produced.length →
      ring_inv (h.put_ref offset length) out0 (lz77_copy offset length produced) := by
  induction length with
  | zero => intro h out0 produced hi _; exact hi
  | succ length ih =>
    intro h out0 produced hi hle
    obtain ⟨a, b⟩ := ring_inv_flush_if_full h out0 produced hi
    simp only [HistoryBuffer.put_ref, lz77_copy]
    have hbyte : h.flush_if_full.m_history.getD
        ((if h.flush_if_full.m_offset ≥ offset then h.flush_if_full.m_offset - offset
          else h.flush_if_full.m_offset + 2048 - offset) % 2048) 0 =
        produced.getD (produced.length - offset) 0 := by
      obtain ⟨_, _, a3, a4, _, a6⟩ := a
      have hj := a6 (produced.length - offset) (by omega) (by omega)
      rw [← hj]
      congr 1
      by_cases hge : h.flush_if_full.m_offset ≥ offset
      · rw [if_pos hge]; omega
      · rw [if_neg hge]; omega
    rw [hbyte]
    apply ih _ _ _ (ring_inv_store _ _ _ _ a b)
    rw [List.length_append]
    omega

theorem lz77_copy_length (offset length : Nat) :
    ∀ acc : List Nat, (lz77_copy offset length acc).length = acc.length + length := by
  induction length with
  | zero => intro acc; rfl
  | succ length ih =>
    intro acc
    simp only [lz77_copy]
    rw [ih, List.length_append, List.length_singleton]
    omega

theorem ring_inv_foldl (ts : List Token) :
    ∀ (h : HistoryBuffer) (out0 produced : List Nat), ring_inv h out0 produced →
      offsets_in_window ts → offsets_within ts produced.length →
      ring_inv (ts.foldl HistoryBuffer.apply h) out0 (lz77_expand ts produced) := by
  induction ts with
  | nil => intro h out0 produced hi _ _; exact hi
  | cons t ts ih =>
    intro h out0 produced hi hw ho
    cases t with
    | literal byte =>
      simp only [List.foldl_cons, HistoryBuffer.apply, lz77_expand]
      simp only [offsets_in_window] at hw
      simp only [offsets_within] at ho
      apply ih _ _ _ (ring_inv_put h out0 produced byte hi) hw
      rw [List.length_append, List.length_singleton]
      exact ho
    | backref offset length =>
      simp only [List.foldl_cons, HistoryBuffer.apply, lz77_expand]
      simp only [offsets_in_window] at hw
      simp only [offsets_within] at ho
      apply ih _ _ _ (ring_inv_put_ref offset hw.1 (by omega) length h out0 produced hi ho.1)
        hw.2.2
      rw [lz77_copy_length]
      exact ho.2

theorem next_token_backref {s s' : BitStream} {offset length : Nat}
    (h : next_token s = Run.done (Step.token (Token.backref offset length) s')) :
    1 ≤ offset ∧ offset ≤ 2047 := by
  unfold next_token at h
  cases h1 : s.get_next_bit with
  | none => rw [h1] at h; exact absurd h (by simp)
  | some r1 =>
    obtain ⟨f, s1⟩ := r1
    rw [h1] at h
    dsimp only at h
    by_cases hf : f ≠ 0
    · rw [if_pos hf] at h
      cases h2 : get_offset s1 with
      | none => rw [h2] at h; exact absurd h (by simp)
      | some r2 =>
        obtain ⟨o, s2⟩ := r2
        rw [h2] at h
        dsimp only at h
        obtain ⟨_, _, _, hlt, _⟩ := get_offset_some h2
        by_cases ho : o = 0
        · rw [if_pos ho] at h; exact absurd h (by simp)
        · rw [if_neg ho] at h
          cases h3 : get_length s2 with
          | more => rw [h3] at h; exact absurd h (by simp)
          | done r3 =>
            rw [h3] at h
            cases r3 with
            | none => exact absurd h (by simp)
            | some r4 =>
              obtain ⟨l, s3⟩ := r4
              simp only [Run.done.injEq, Step.token.injEq, Token.backref.injEq] at h
              obtain ⟨⟨e1, _⟩, _⟩ := h
              subst e1
              omega
    · rw [if_neg hf] at h
      cases h2 : s1.get_next_byte with
      | none => rw [h2] at h; exact absurd h (by simp)
      | some r2 =>
        obtain ⟨b, s2⟩ := r2
        rw [h2] at h
        simp at h

theorem reads_to_offsets_in_window (ts : List Token) :
    ∀ (s sl : BitStream), reads_to s ts sl → offsets_in_window ts := by
  induction ts with
  | nil => intro s sl _; trivial
  | cons t ts ih =>
    intro s sl h
    simp only [reads_to] at h
    obtain ⟨s', h1, h2⟩ := h
    cases t with
    | literal byte => exact ih s' sl h2
    | backref offset length =>
      obtain ⟨a, b⟩ := next_token_backref h1
      exact ⟨a, b, ih s' sl h2⟩

theorem decompress_refines (input : SafeArray) (out out' : List Nat) (ts : List Token)
    (sl : BitStream) (b : Bool)
    (hd : decompress input out = Run.done (b, out'))
    (ht : tokens_of input = Run.done (ts, sl, b))
    (ho : offsets_within ts 0) :
    out' = out ++ lz77_expand ts [] := by
  rw [decompress_eq, ht] at hd
  simp only [Run.done.injEq, Prod.mk.injEq, true_and] at hd
  have hw := reads_to_offsets_in_window ts _ _ ((tokens_of_iff input ts sl b).mp ht).1
  have hi := ring_inv_foldl ts (HistoryBuffer.create out) out [] (ring_inv_create out) hw ho
  rw [← hd]
  exact ring_inv_flush _ _ _ hi

/-! ## Reading directory records -/

theorem sizeof_ms_dir_fixed_t_eq : sizeof_ms_dir_fixed_t = 71 := rfl

theorem sizeof_ms_dir_fixed2_t_eq : sizeof_ms_dir_fixed2_t = 23 := rfl

theorem le_uint_lt (bs : List Nat) (h : ∀ b ∈ bs, b < 256) : le_uint bs < 256 ^ bs.length := by
  induction bs with
  | nil => simp [le_uint]
  | cons b bs ih =>
    have h1 := h b (List.mem_cons_self _ _)
    have h2 := ih (fun x hx => h x (List.mem_cons_of_mem _ hx))
    simp only [le_uint, List.length_cons, pow_succ]
    omega

theorem nm_len_lt (b : List Nat) : (ms_dir_fixed_t.of_bytes b).nm_len < 65536 := by
  unfold ms_dir_fixed_t.of_bytes
  dsimp only
  omega

theorem nm_len2_lt (b : List Nat) : (ms_dir_fixed2_t.of_bytes b).nm_len < 65536 := by
  unfold ms_dir_fixed2_t.of_bytes
  dsimp only
  omega

theorem get_eq (a : SafeArray) (offset size : Nat) (h : offset + size < 2 ^ 64) :
    a.get offset size = if offset + size ≤ a.size then some offset else none := by
  unfold SafeArray.get
  rw [Nat.mod_eq_of_lt h]
  by_cases hle : offset + size ≤ a.size
  · rw [if_neg (by omega), if_pos hle]
  · rw [if_pos (by omega), if_neg hle]

theorem get_typed_eq (a : SafeArray) (n offset : Nat) (h : offset + n < 2 ^ 64) :
    a.get_typed n offset = if offset + n ≤ a.size then some offset else none := by
  unfold SafeArray.get_typed
  rw [Nat.mod_eq_of_lt h]
  by_cases hle : offset + n ≤ a.size
  · rw [if_neg (by omega), if_pos hle]
  · rw [if_pos (by omega), if_neg hle]

theorem read_name_eq (buffer : SafeArray) (offset len : Nat) (name : String)
    (h : offset + len < 2 ^ 64) :
    read_name buffer offset len name =
      if offset + len ≤ buffer.size ∨ len = 0 then
        Exec.ret (some (offset + len,
          if len > 0 then utf16_to_utf8 (buffer.slice offset len) else name))
      else Exec.ret none := by
  unfold read_name
  by_cases hl : len > 0
  · rw [if_pos hl, get_eq _ _ _ h]
    by_cases hle : offset + len ≤ buffer.size
    · rw [if_pos hle, if_pos (Or.inl hle)]
      dsimp only
      unfold SafeArray.deref
      rw [if_pos hle, Nat.mod_eq_of_lt h, if_pos hl]
      rfl
    · rw [if_neg hle, if_neg (by omega)]
  · have hl0 : len = 0 := by omega
    subst hl0
    simp

theorem deref_eq (a : SafeArray) (ptr n : Nat) (h : ptr + n ≤ a.size) :
    a.deref ptr n = some (a.slice ptr n) := by
  unfold SafeArray.deref SafeArray.slice
  rw [if_pos h]

theorem read_dir_entry_eq (buffer : SafeArray) (c : Nat) (entry : parsed_dir_entry_t)
    (hc : c < 2 ^ 63) :
    (record_fits buffer c →
      read_dir_entry buffer c entry =
        Exec.ret (some (c + record_length buffer c, record_entry buffer c entry))) ∧
    (¬ record_fits buffer c → read_dir_entry buffer c entry = Exec.ret none) := by
  have e1 := sizeof_ms_dir_fixed_t_eq
  have e2 := sizeof_ms_dir_fixed2_t_eq
  have hn1 : (record_d1 buffer c).nm_len < 65536 := nm_len_lt _
  have hn2 : (record_d2 buffer c).nm_len < 65536 := nm_len2_lt _
  have hdos : record_dos_len buffer c < 65536 := by
    unfold record_dos_len; split <;> assumption
  have hm1 : (c + sizeof_ms_dir_fixed_t) % 2 ^ 64 = c + sizeof_ms_dir_fixed_t :=
    Nat.mod_eq_of_lt (by omega)
  have hm2 : (c + sizeof_ms_dir_fixed_t + (record_d1 buffer c).nm_len + sizeof_ms_dir_fixed2_t)
      % 2 ^ 64 = c + sizeof_ms_dir_fixed_t + (record_d1 buffer c).nm_len + sizeof_ms_dir_fixed2_t :=
    Nat.mod_eq_of_lt (by omega)
  unfold read_dir_entry
  dsimp only
  rw [get_typed_eq _ _ _ (by omega), hm1]
  by_cases hA : c + sizeof_ms_dir_fixed_t ≤ buffer.size
  · rw [if_pos hA]
    dsimp only
    rw [deref_eq _ _ _ hA]
    dsimp only
    have hd1 : ms_dir_fixed_t.of_bytes (buffer.slice c sizeof_ms_dir_fixed_t) =
        record_d1 buffer c := rfl
    rw [hd1, read_name_eq _ _ _ _ (by omega)]
    by_cases hB : c + sizeof_ms_dir_fixed_t + (record_d1 buffer c).nm_len ≤ buffer.size ∨
        (record_d1 buffer c).nm_len = 0
    · rw [if_pos hB]
      dsimp only
      rw [get_typed_eq _ _ _ (by omega), hm2]
      by_cases hC : c + sizeof_ms_dir_fixed_t + (record_d1 buffer c).nm_len +
          sizeof_ms_dir_fixed2_t ≤ buffer.size
      · rw [if_pos hC]
        dsimp only
        rw [deref_eq _ _ _ hC]
        dsimp only
        have hd2 : ms_dir_fixed2_t.of_bytes (buffer.slice
            (c + sizeof_ms_dir_fixed_t + (record_d1 buffer c).nm_len) sizeof_ms_dir_fixed2_t) =
            record_d2 buffer c := rfl
        rw [hd2]
        have hdl : (if (record_d2 buffer c).nm_len = 0 then (record_d1 buffer c).nm_len
            else (record_d2 buffer c).nm_len) = record_dos_len buffer c := rfl
        rw [hdl, read_name_eq _ _ _ _ (by omega)]
        have hoff : c + sizeof_ms_dir_fixed_t + (record_d1 buffer c).nm_len +
            sizeof_ms_dir_fixed2_t + record_dos_len buffer c = c + record_length buffer c := by
          unfold record_length; omega
        have hrl : record_length buffer c < 2 ^ 63 := by unfold record_length; omega
        have hlen : (c + record_length buffer c + 2 ^ 64 - c) % 2 ^ 64 =
            record_length buffer c := by
          rw [show c + record_length buffer c + 2 ^ 64 - c = record_length buffer c + 2 ^ 64 by
            omega, Nat.add_mod_right, Nat.mod_eq_of_lt (by omega)]
        rw [hoff]
        by_cases hD : c + record_length buffer c ≤ buffer.size ∨ record_dos_len buffer c = 0
        · rw [if_pos hD]
          dsimp only
          rw [hlen]
          refine ⟨fun _ => rfl, fun hnf => absurd ⟨hA, hC, ?_⟩ hnf⟩
          rcases hD with hD | hD
          · exact hD
          · rw [← hoff, hD]; omega
        · rw [if_neg hD]
          refine ⟨fun hf => absurd (Or.inl hf.2.2) hD, fun _ => rfl⟩
      · rw [if_neg hC]
        refine ⟨fun hf => absurd hf.2.1 hC, fun _ => rfl⟩
    · rw [if_neg hB]
      refine ⟨fun hf => absurd (Or.inl (by have := hf.2.1; omega)) hB, fun _ => rfl⟩
  · rw [if_neg hA]
    refine ⟨fun hf => absurd hf.1 hA, fun _ => rfl⟩

theorem deref_some {a : SafeArray} {ptr n : Nat} {bytes : List Nat}
    (h : a.deref ptr n = some bytes) : ptr + n ≤ a.size ∧ bytes = a.slice ptr n := by
  unfold SafeArray.deref at h
  by_cases hle : ptr + n ≤ a.size
  · rw [if_pos hle] at h
    simp only [Option.some.injEq] at h
    exact ⟨hle, h.symm⟩
  · rw [if_neg hle] at h
    exact absurd h (by simp)

theorem get_some {a : SafeArray} {offset size p : Nat} (h : a.get offset size = some p) :
    p = offset := by
  unfold SafeArray.get at h
  split at h
  · exact absurd h (by simp)
  · simp only [Option.some.injEq] at h; exact h.symm

theorem get_typed_some {a : SafeArray} {n offset p : Nat} (h : a.get_typed n offset = some p) :
    p = offset := by
  unfold SafeArray.get_typed at h
  split at h
  · exact absurd h (by simp)
  · simp only [Option.some.injEq] at h; exact h.symm

/-- What a successful call of `read_dir_entry` has read, for a cursor of any value. -/
theorem read_dir_entry_ok (buffer : SafeArray) (c c' : Nat) (entry e : parsed_dir_entry_t)
    (hs : buffer.size < 2 ^ 63)
    (h : read_dir_entry buffer c entry = Exec.ret (some (c', e))) :
    record_fits buffer c ∧ c' = c + record_length buffer c ∧ e = record_entry buffer c entry := by
  have e1 := sizeof_ms_dir_fixed_t_eq
  have hfit1 : c + sizeof_ms_dir_fixed_t ≤ buffer.size := by
    unfold read_dir_entry at h
    dsimp only at h
    cases hg : buffer.get_typed sizeof_ms_dir_fixed_t c with
    | none => rw [hg] at h; exact absurd h (by simp)
    | some p =>
      rw [hg] at h
      have hp := get_typed_some hg
      subst hp
      dsimp only at h
      cases hd : buffer.deref p sizeof_ms_dir_fixed_t with
      | none => rw [hd] at h; exact absurd h (by simp)
      | some bytes => exact (deref_some hd).1
  have hc : c < 2 ^ 63 ∨ 2 ^ 63 ≤ c := by omega
  rcases hc with hc | hc
  · by_cases hf : record_fits buffer c
    · rw [(read_dir_entry_eq buffer c entry hc).1 hf] at h
      simp only [Exec.ret.injEq, Option.some.injEq, Prod.mk.injEq] at h
      exact ⟨hf, h.1.symm, h.2.symm⟩
    · rw [(read_dir_entry_eq buffer c entry hc).2 hf] at h
      exact absurd h (by simp)
  · omega

theorem records_from_snoc (buffer : SafeArray) (es : List parsed_dir_entry_t) :
    ∀ (o o' : Nat), records_from buffer o es o' → record_fits buffer o' →
      records_from buffer o (es ++ [record_entry buffer o' {}])
        (o' + record_length buffer o') := by
  induction es with
  | nil =>
    intro o o' h hf
    simp only [records_from] at h
    subst h
    exact ⟨hf, rfl, rfl⟩
  | cons e es ih =>
    intro o o' h hf
    obtain ⟨h1, h2, h3⟩ := h
    exact ⟨h1, h2, ih _ _ h3 hf⟩

theorem records_from_unique (buffer : SafeArray) (es : List parsed_dir_entry_t) :
    ∀ (o o1 o2 : Nat) (es' : List parsed_dir_entry_t),
      records_from buffer o es o1 → (∀ x ∈ es, x.is_dir_end = false) →
      (record_fits buffer o1 → (record_entry buffer o1 {}).is_dir_end = true) →
      records_from buffer o es' o2 → (∀ x ∈ es', x.is_dir_end = false) →
      (record_fits buffer o2 → (record_entry buffer o2 {}).is_dir_end = true) →
      es = es' ∧ o1 = o2 := by
  induction es with
  | nil =>
    intro o o1 o2 es' h1 _ h3 h4 h5 _
    simp only [records_from] at h1
    subst h1
    cases es' with
    | nil => simp only [records_from] at h4; exact ⟨rfl, h4.symm⟩
    | cons e' es' =>
      obtain ⟨a1, a2, _⟩ := h4
      have := h5 e' (List.mem_cons_self _ _)
      rw [a2, h3 a1] at this
      exact absurd this (by simp)
  | cons e es ih =>
    intro o o1 o2 es' h1 h2 h3 h4 h5 h6
    obtain ⟨a1, a2, a3⟩ := h1
    cases es' with
    | nil =>
      simp only [records_from] at h4
      subst h4
      have := h2 e (List.mem_cons_self _ _)
      rw [a2, h6 a1] at this
      exact absurd this (by simp)
    | cons e' es' =>
      obtain ⟨b1, b2, b3⟩ := h4
      obtain ⟨i1, i2⟩ := ih _ o1 o2 es' a3 (fun x hx => h2 x (List.mem_cons_of_mem _ hx)) h3 b3
        (fun x hx => h5 x (List.mem_cons_of_mem _ hx)) h6
      exact ⟨by rw [a2, b2, i1], i2⟩

theorem record_length_pos (buffer : SafeArray) (c : Nat) : 94 ≤ record_length buffer c := by
  unfold record_length
  rw [sizeof_ms_dir_fixed_t_eq, sizeof_ms_dir_fixed2_t_eq]
  omega

theorem read_dir_entries_loop_spec (buffer : SafeArray) (hs : buffer.size < 2 ^ 63)
    (fuel : Nat) :
    ∀ (offset : Nat) (dirs : List parsed_dir_entry_t), offset ≤ buffer.size →
      buffer.size - offset < fuel →
      ∃ es o, records_from buffer offset es o ∧ (∀ x ∈ es, x.is_dir_end = false) ∧
        ((¬ record_fits buffer o ∧
            read_dir_entries_loop fuel buffer offset dirs = Exec.ret (false, dirs ++ es)) ∨
          (record_fits buffer o ∧ (record_entry buffer o {}).is_dir_end = true ∧
            read_dir_entries_loop fuel buffer offset dirs =
              Exec.ret (true, dirs ++ es ++ [record_entry buffer o {}]))) := by
  induction fuel with
  | zero => intro offset dirs _ h; exact absurd h (Nat.not_lt_zero _)
  | succ fuel ih =>
    intro offset dirs hle hfuel
    obtain ⟨q1, q2⟩ := read_dir_entry_eq buffer offset {} (by omega)
    simp only [read_dir_entries_loop]
    by_cases hf : record_fits buffer offset
    · rw [q1 hf]
      dsimp only
      cases hend : (record_entry buffer offset {}).is_dir_end with
      | true =>
        refine ⟨[], offset, rfl, by simp, Or.inr ⟨hf, hend, ?_⟩⟩
        simp
      | false =>
        have hpos := record_length_pos buffer offset
        have hle' : offset + record_length buffer offset ≤ buffer.size := hf.2.2
        obtain ⟨es, o, r1, r2, r3⟩ := ih (offset + record_length buffer offset)
          (dirs ++ [record_entry buffer offset {}]) hle' (by omega)
        refine ⟨record_entry buffer offset {} :: es, o, ⟨hf, rfl, r1⟩, ?_, ?_⟩
        · intro x hx
          simp only [List.mem_cons] at hx
          rcases hx with hx | hx
          · rw [hx]; exact hend
          · exact r2 x hx
        · simp only [Bool.false_eq_true, if_false]
          rcases r3 with ⟨n1, n2⟩ | ⟨n1, n2, n3⟩
          · left
            refine ⟨n1, ?_⟩
            rw [n2, List.append_assoc]
            rfl
          · right
            refine ⟨n1, n2, ?_⟩
            rw [n3, List.append_assoc, List.append_assoc, List.append_assoc]
            rfl
    · rw [q2 hf]
      exact ⟨[], offset, rfl, by simp, Or.inl ⟨hf, by simp⟩⟩

/-! ## The parents written for a list of flags -/

theorem parents_loop_eq (dirs : List parsed_dir_entry_t) :
    ∀ (i : Nat) (st : TreeState),
      (reconstruct_loop dirs i st).map (List.map parsed_dir_entry_t.parent) =
        parents_loop (flags_of dirs) i st := by
  induction dirs with
  | nil => intro i st; rfl
  | cons e rest ih =>
    intro i st
    simp only [reconstruct_loop, flags_of, List.map_cons, parents_loop]
    cases reconstruct_first st with
    | none => rfl
    | some st1 =>
      dsimp only
      cases reconstruct_push st1 i (e.is_dir && !e.is_empty_dir) with
      | none => rfl
      | some st2 =>
        dsimp only
        cases reconstruct_last st2 e.is_last_entry with
        | none => rfl
        | some st3 =>
          dsimp only
          have := ih (i + 1) st3
          unfold flags_of at this
          rw [← this]
          cases reconstruct_loop rest (i + 1) st3 with
          | none => rfl
          | some visited => rfl

/-! ## The loops of `read_catalog` and `read_data_segment` -/

theorem mask_eq : 0xFFFF - RAW_SEG = 2 ^ 15 - 1 := by decide

theorem and_mask (x : Nat) : x &&& (0xFFFF - RAW_SEG) = x % 2 ^ 15 := by
  rw [mask_eq, Nat.and_pow_two_sub_one_eq_mod]

theorem and_raw_seg (x : Nat) (h : x < 2 ^ 16) :
    (x &&& RAW_SEG = 0) ↔ x < 2 ^ 15 := by
  have hb : x &&& RAW_SEG = 2 ^ 15 * (x / 2 ^ 15 % 2) := by
    apply Nat.eq_of_testBit_eq
    intro i
    have hR : RAW_SEG = 2 ^ 15 := by decide
    rw [hR, Nat.testBit_and, Nat.testBit_two_pow]
    by_cases hi : 15 = i
    · subst hi
      simp only [decide_True, Bool.and_true]
      rw [Nat.testBit_to_div_mod]
      rcases Nat.mod_two_eq_zero_or_one (x / 2 ^ 15) with h0 | h1
      · rw [h0]; simp
      · rw [h1, Nat.mul_one, Nat.testBit_two_pow_self]; simp
    · simp only [hi, decide_False, Bool.and_false]
      rcases Nat.mod_two_eq_zero_or_one (x / 2 ^ 15) with h0 | h1
      · rw [h0]; simp
      · rw [h1, Nat.mul_one, Nat.testBit_two_pow_of_ne hi]
  rw [hb]
  constructor
  · intro h0
    have : x / 2 ^ 15 % 2 = 0 := by omega
    omega
  · intro hlt
    have : x / 2 ^ 15 = 0 := by omega
    rw [this]
    rfl

theorem frame_raw_lt (file : SafeArray) (p : Nat) : frame_raw file p < 2 ^ 16 := by
  unfold frame_raw
  exact Nat.mod_lt _ (by norm_num)

theorem slice_length (file : SafeArray) (start n : Nat) (h : start + n ≤ file.size) :
    (file.slice start n).length = n := by
  unfold SafeArray.slice
  unfold SafeArray.size at h
  rw [List.length_take, List.length_drop]
  omega

theorem frame_head_eq (file : SafeArray) (p : Nat) (hp : p + 2 < 2 ^ 64) :
    cframe_head_segment_size file (file.get_typed sizeof_cframe_head_t p) =
      if p + 2 ≤ file.size then some (frame_raw file p) else none := by
  have h2 : sizeof_cframe_head_t = 2 := rfl
  rw [get_typed_eq _ _ _ (by rw [h2]; exact hp), h2]
  by_cases hle : p + 2 ≤ file.size
  · rw [if_pos hle, if_pos hle]
    unfold cframe_head_segment_size
    dsimp only
    rw [h2, deref_eq _ _ _ hle]
    rfl
  · rw [if_neg hle, if_neg hle]
    rfl

/-- One iteration of the loop of `read_catalog` whose `cseg_head_t` passes the bounds
check. -/
theorem read_catalog_loop_step (file : SafeArray) (hs : file.size < 2 ^ 63)
    (fuel start_offset size : Nat) (buffer : List Nat) (hsz : 0 < size)
    (hp : (start_offset + 8) % 2 ^ 64 ≤ file.size) :
    read_catalog_loop (fuel + 1) file start_offset size buffer =
      if (start_offset + 8) % 2 ^ 64 + 2 ≤ file.size then
        if frame_raw file ((start_offset + 8) % 2 ^ 64) < 2 ^ 15 then
          Exec.ret (false, buffer)
        else if (start_offset + 8) % 2 ^ 64 + 2 +
            frame_raw file ((start_offset + 8) % 2 ^ 64) % 2 ^ 15 ≤ file.size then
          read_catalog_loop fuel file
            ((start_offset + 8) % 2 ^ 64 + 2 +
              frame_raw file ((start_offset + 8) % 2 ^ 64) % 2 ^ 15)
            ((size + 2 ^ 64 - frame_raw file ((start_offset + 8) % 2 ^ 64) % 2 ^ 15) % 2 ^ 64)
            (buffer ++ file.slice ((start_offset + 8) % 2 ^ 64 + 2)
              (frame_raw file ((start_offset + 8) % 2 ^ 64) % 2 ^ 15))
        else Exec.ret (false, buffer)
      else Exec.undefined := by
  have h8 : sizeof_cseg_head_t = 8 := rfl
  have h2 : sizeof_cframe_head_t = 2 := rfl
  generalize hpe : (start_offset + 8) % 2 ^ 64 = p at hp ⊢
  have hg : file.get_typed sizeof_cseg_head_t start_offset = some start_offset := by
    unfold SafeArray.get_typed
    rw [h8, hpe, if_neg (by omega)]
  simp only [read_catalog_loop]
  rw [if_pos hsz, hg]
  dsimp only
  rw [h8, hpe, frame_head_eq _ _ (by omega)]
  by_cases hle : p + 2 ≤ file.size
  · rw [if_pos hle, if_pos hle]
    dsimp only
    have hlt := frame_raw_lt file p
    have hm : frame_raw file p % 2 ^ 15 < 2 ^ 15 := Nat.mod_lt _ (by norm_num)
    by_cases hc : frame_raw file p < 2 ^ 15
    · rw [if_pos hc, if_pos (by simpa using (and_raw_seg _ hlt).2 hc)]
    · rw [if_neg hc, if_neg (by simpa using fun h => hc ((and_raw_seg _ hlt).1 h))]
      rw [and_mask, h2, Nat.mod_eq_of_lt (show p + 2 < 2 ^ 64 by omega),
        get_eq _ _ _ (by omega)]
      by_cases hd : p + 2 + frame_raw file p % 2 ^ 15 ≤ file.size
      · rw [if_pos hd, if_pos hd]
        dsimp only
        rw [deref_eq _ _ _ hd,
          Nat.mod_eq_of_lt (show p + 2 + frame_raw file p % 2 ^ 15 < 2 ^ 64 by omega)]
      · rw [if_neg hd, if_neg hd]
  · rw [if_neg hle, if_neg hle]

/-- An iteration of the loop of `read_catalog` whose `cseg_head_t` does not pass the bounds
check returns false. -/
theorem read_catalog_loop_head (file : SafeArray) (fuel start_offset size : Nat)
    (buffer : List Nat) (hsz : 0 < size) (hp : ¬ (start_offset + 8) % 2 ^ 64 ≤ file.size) :
    read_catalog_loop (fuel + 1) file start_offset size buffer = Exec.ret (false, buffer) := by
  have h8 : sizeof_cseg_head_t = 8 := rfl
  have hg : file.get_typed sizeof_cseg_head_t start_offset = none := by
    unfold SafeArray.get_typed
    rw [h8, if_pos (by omega)]
  simp only [read_catalog_loop]
  rw [if_pos hsz, hg]

theorem read_catalog_loop_ok (file : SafeArray) (hs : file.size < 2 ^ 63) (fuel : Nat) :
    ∀ (start_offset size : Nat) (buffer buffer' : List Nat), size < 2 ^ 64 →
      read_catalog_loop fuel file start_offset size buffer = Exec.ret (true, buffer') →
      ∃ payloads, raw_frames_from file ((start_offset + 8) % 2 ^ 64) payloads ∧
        buffer' = buffer ++ payloads.flatten ∧ payloads.flatten.length = size ∧
        (size = 0 ∨ payloads.flatten.length + (start_offset + 8) % 2 ^ 64 + 2 ≤ file.size) := by
  induction fuel with
  | zero =>
    intro _ _ _ _ _ h
    simp [read_catalog_loop] at h
  | succ fuel ih =>
    intro start_offset size buffer buffer' hlt h
    by_cases hsz : 0 < size
    · by_cases hp : (start_offset + 8) % 2 ^ 64 ≤ file.size
      · rw [read_catalog_loop_step file hs fuel start_offset size buffer hsz hp] at h
        generalize (start_offset + 8) % 2 ^ 64 = p at hp h ⊢
        split at h
        · rename_i hle
          split at h
          · simp at h
          · rename_i hc
            split at h
            · rename_i hd
              have hm : frame_raw file p % 2 ^ 15 < 2 ^ 15 := Nat.mod_lt _ (by norm_num)
              have hfl := frame_raw_lt file p
              obtain ⟨payloads, r1, r2, r3, r4⟩ := ih _ _ _ _ (Nat.mod_lt _ (by norm_num)) h
              have hsl := slice_length file (p + 2) (frame_raw file p % 2 ^ 15) hd
              rw [Nat.mod_eq_of_lt (show p + 2 + frame_raw file p % 2 ^ 15 + 8 < 2 ^ 64 by omega)]
                at r1 r4
              have hR : RAW_SEG = 2 ^ 15 := by decide
              refine ⟨file.slice (p + 2) (frame_raw file p % 2 ^ 15) :: payloads,
                ⟨by rw [hsl]; exact hd, by rw [hsl, hR]; omega, by rw [hsl, hR]; exact hm,
                  by rw [hsl], by rw [hsl]; exact r1⟩, ?_, ?_, ?_⟩
              · rw [r2, List.flatten_cons, List.append_assoc]
              · rw [List.flatten_cons, List.length_append, hsl, r3]
                omega
              · right
                rw [List.flatten_cons, List.length_append, hsl]
                omega
            · simp at h
        · simp at h
      · rw [read_catalog_loop_head file fuel start_offset size buffer hsz hp] at h
        simp at h
    · have h0 : size = 0 := by omega
      subst h0
      simp only [read_catalog_loop, gt_iff_lt, Nat.lt_irrefl, if_false] at h
      simp only [Exec.ret.injEq, Prod.mk.injEq, true_and] at h
      exact ⟨[], trivial, by simp [h], rfl, Or.inl rfl⟩

/-- One iteration of the loop of `read_data_segment` whose `cseg_head_t` passes the bounds
check. -/
theorem read_data_segment_loop_step (file : SafeArray) (hs : file.size < 2 ^ 63)
    (fuel start_offset : Nat) (buffer : List Nat)
    (hp : (start_offset + 8) % 2 ^ 64 ≤ file.size) :
    read_data_segment_loop (fuel + 1) file start_offset buffer =
      if (start_offset + 8) % 2 ^ 64 + 2 ≤ file.size then
        if frame_raw file ((start_offset + 8) % 2 ^ 64) % 2 ^ 15 = 0 then
          Exec.ret (true, buffer)
        else if (start_offset + 8) % 2 ^ 64 + 2 +
            frame_raw file ((start_offset + 8) % 2 ^ 64) % 2 ^ 15 ≤ file.size then
          if frame_raw file ((start_offset + 8) % 2 ^ 64) < 2 ^ 15 then
            match decompress ⟨file.slice ((start_offset + 8) % 2 ^ 64 + 2)
                (frame_raw file ((start_offset + 8) % 2 ^ 64) % 2 ^ 15)⟩ buffer with
            | Run.more => Exec.more
            | Run.done (false, buffer') => Exec.ret (false, buffer')
            | Run.done (true, buffer') =>
              read_data_segment_loop fuel file
                ((start_offset + 8) % 2 ^ 64 + 2 +
                  frame_raw file ((start_offset + 8) % 2 ^ 64) % 2 ^ 15) buffer'
          else
            read_data_segment_loop fuel file
              ((start_offset + 8) % 2 ^ 64 + 2 +
                frame_raw file ((start_offset + 8) % 2 ^ 64) % 2 ^ 15)
              (buffer ++ file.slice ((start_offset + 8) % 2 ^ 64 + 2)
                (frame_raw file ((start_offset + 8) % 2 ^ 64) % 2 ^ 15))
        else Exec.ret (false, buffer)
      else Exec.undefined := by
  have h8 : sizeof_cseg_head_t = 8 := rfl
  have h2 : sizeof_cframe_head_t = 2 := rfl
  generalize hpe : (start_offset + 8) % 2 ^ 64 = p at hp ⊢
  have hg : file.get_typed sizeof_cseg_head_t start_offset = some start_offset := by
    unfold SafeArray.get_typed
    rw [h8, hpe, if_neg (by omega)]
  simp only [read_data_segment_loop]
  rw [hg]
  dsimp only
  rw [h8, hpe, frame_head_eq _ _ (by omega)]
  by_cases hle : p + 2 ≤ file.size
  · rw [if_pos hle, if_pos hle]
    dsimp only
    have hlt := frame_raw_lt file p
    have hm : frame_raw file p % 2 ^ 15 < 2 ^ 15 := Nat.mod_lt _ (by norm_num)
    rw [and_mask]
    by_cases hz : frame_raw file p % 2 ^ 15 = 0
    · rw [if_pos hz, if_pos hz]
    · rw [if_neg hz, if_neg hz, h2, Nat.mod_eq_of_lt (show p + 2 < 2 ^ 64 by omega),
        get_eq _ _ _ (by omega)]
      by_cases hd : p + 2 + frame_raw file p % 2 ^ 15 ≤ file.size
      · rw [if_pos hd, if_pos hd]
        dsimp only
        rw [deref_eq _ _ _ hd,
          Nat.mod_eq_of_lt (show p + 2 + frame_raw file p % 2 ^ 15 < 2 ^ 64 by omega)]
        dsimp only
        by_cases hc : frame_raw file p < 2 ^ 15
        · rw [if_pos hc, if_pos (by simpa using (and_raw_seg _ hlt).2 hc)]
        · rw [if_neg hc, if_neg (by simpa using fun h => hc ((and_raw_seg _ hlt).1 h))]
      · rw [if_neg hd, if_neg hd]
  · rw [if_neg hle, if_neg hle]

theorem slice_mid (a b c : List Nat) :
    (SafeArray.mk (a ++ (b ++ c))).slice a.length b.length = b := by
  simp [SafeArray.slice]

theorem slice_of_eq (file : SafeArray) (a b c : List Nat) (start n : Nat)
    (h : file.m_buffer = a ++ (b ++ c)) (hstart : start = a.length) (hn : n = b.length) :
    file.slice start n = b := by
  have hf : file = SafeArray.mk (a ++ (b ++ c)) := by
    cases file
    simp only [SafeArray.mk.injEq]
    exact h
  rw [hf, hstart, hn, slice_mid]

theorem le_uint_le16 (v : Nat) (h : v < 65536) : le_uint (le16 v) % 2 ^ 16 = v := by
  simp only [le16, le_uint]
  omega

theorem data_segment_bytes_length (s : data_segment) (h : s.well_formed) :
    s.bytes.length = 10 + s.payload.length := by
  unfold data_segment.bytes le16
  simp only [List.length_append, List.length_cons, List.length_nil]
  have := h.1
  omega

theorem read_data_segment_loop_region (end_head : List Nat) (end_raw : Nat)
    (hend : end_head.length = 8) (hraw : end_raw < 65536) (hzero : end_raw % 2 ^ 15 = 0)
    (segs : List data_segment) :
    ∀ (pre tail buffer out : List Nat) (fuel : Nat),
      (∀ s ∈ segs, s.well_formed) →
      (pre ++ data_region_bytes segs end_head end_raw ++ tail).length < 2 ^ 63 →
      segs.length < fuel →
      data_region_output segs buffer = some out →
      read_data_segment_loop fuel ⟨pre ++ data_region_bytes segs end_head end_raw ++ tail⟩
        pre.length buffer = Exec.ret (true, out) := by
  induction segs with
  | nil =>
    intro pre tail buffer out fuel _ hlen hfuel hout
    obtain ⟨fuel, rfl⟩ : ∃ k, fuel = k + 1 := ⟨fuel - 1, by simp at hfuel; omega⟩
    simp only [data_region_output, Option.some.injEq] at hout
    subst hout
    have hbuf : (pre ++ data_region_bytes [] end_head end_raw ++ tail) =
        (pre ++ end_head) ++ (le16 end_raw ++ tail) := by
      simp [data_region_bytes, List.append_assoc]
    rw [hbuf] at hlen ⊢
    have hsz : (SafeArray.mk ((pre ++ end_head) ++ (le16 end_raw ++ tail))).size =
        pre.length + 8 + 2 + tail.length := by
      simp [SafeArray.size, le16, hend]
      omega
    have hs : (SafeArray.mk ((pre ++ end_head) ++ (le16 end_raw ++ tail))).size < 2 ^ 63 := hlen
    have hp : (pre.length + 8) % 2 ^ 64 = pre.length + 8 := Nat.mod_eq_of_lt (by omega)
    rw [read_data_segment_loop_step _ hs _ _ _ (by rw [hp]; omega), hp]
    have hraw_eq : frame_raw ⟨(pre ++ end_head) ++ (le16 end_raw ++ tail)⟩ (pre.length + 8) =
        end_raw := by
      unfold frame_raw
      rw [slice_of_eq _ (pre ++ end_head) (le16 end_raw) tail (pre.length + 8)
        sizeof_cframe_head_t rfl (by simp [hend]) rfl]
      exact le_uint_le16 _ hraw
    rw [if_pos (by omega), hraw_eq, if_pos hzero]
  | cons s rest ih =>
    intro pre tail buffer out fuel hwf hlen hfuel hout
    obtain ⟨fuel, rfl⟩ : ∃ k, fuel = k + 1 := ⟨fuel - 1, by simp at hfuel; omega⟩
    obtain ⟨w1, w2, w3⟩ := hwf s (List.mem_cons_self _ _)
    have hbuf : (pre ++ data_region_bytes (s :: rest) end_head end_raw ++ tail) =
        (pre ++ s.bytes) ++ data_region_bytes rest end_head end_raw ++ tail := by
      simp [data_region_bytes, List.append_assoc]
    have hbytes := data_segment_bytes_length s ⟨w1, w2, w3⟩
    have hlen' := hlen
    rw [hbuf] at hlen'
    have ih' := fun b o h => ih (pre ++ s.bytes) tail b o fuel
      (fun x hx => hwf x (List.mem_cons_of_mem _ hx)) hlen'
      (by simp at hfuel; omega) h
    rw [← hbuf] at ih'
    generalize hfile : SafeArray.mk (pre ++ data_region_bytes (s :: rest) end_head end_raw ++ tail)
      = file at ih' ⊢
    have hs : file.size < 2 ^ 63 := by rw [← hfile]; exact hlen
    have hsz : file.size = pre.length + (10 + s.payload.length) +
        ((data_region_bytes rest end_head end_raw).length + tail.length) := by
      rw [← hfile]
      unfold SafeArray.size
      dsimp only
      rw [hbuf]
      simp only [List.length_append, hbytes]
      omega
    have hp : (pre.length + 8) % 2 ^ 64 = pre.length + 8 := Nat.mod_eq_of_lt (by omega)
    have hv : s.payload.length + (if s.raw then 0x8000 else 0) < 65536 := by
      split <;> omega
    have hraw_eq : frame_raw file (pre.length + 8) =
        s.payload.length + (if s.raw then 0x8000 else 0) := by
      unfold frame_raw
      rw [slice_of_eq file (pre ++ s.head)
        (le16 (s.payload.length + if s.raw then 0x8000 else 0))
        (s.payload ++ (data_region_bytes rest end_head end_raw ++ tail)) (pre.length + 8)
        sizeof_cframe_head_t
        (by rw [← hfile]; simp [data_region_bytes, data_segment.bytes, List.append_assoc])
        (by simp [w1]) rfl]
      exact le_uint_le16 _ hv
    have hseg : frame_raw file (pre.length + 8) % 2 ^ 15 = s.payload.length := by
      rw [hraw_eq]
      split <;> omega
    have hslice : file.slice (pre.length + 8 + 2) s.payload.length = s.payload := by
      apply slice_of_eq file
        (pre ++ (s.head ++ le16 (s.payload.length + if s.raw then 0x8000 else 0)))
        s.payload (data_region_bytes rest end_head end_raw ++ tail)
      · rw [← hfile]; simp [data_region_bytes, data_segment.bytes, List.append_assoc]
      · simp [w1, le16]
      · rfl
    have hnext : pre.length + 8 + 2 + s.payload.length = (pre ++ s.bytes).length := by
      rw [List.length_append, hbytes]
      omega
    rw [read_data_segment_loop_step _ hs _ _ _ (by rw [hp]; omega), hp, if_pos (by omega),
      hseg, if_neg (by omega), if_pos (by omega), hslice, hnext]
    simp only [data_region_output] at hout
    cases hr : s.raw with
    | true =>
      rw [hr] at hout hraw_eq
      simp only [if_true] at hout
      rw [if_neg (by rw [hraw_eq]; simp)]
      exact ih' _ _ hout
    | false =>
      rw [hr] at hout hraw_eq
      simp only [Bool.false_eq_true, if_false] at hout
      rw [if_pos (by rw [hraw_eq]; simp; omega)]
      cases hd : decompress ⟨s.payload⟩ buffer with
      | more => rw [hd] at hout; simp at hout
      | done r =>
        obtain ⟨b, buffer'⟩ := r
        rw [hd] at hout
        cases b with
        | false => simp at hout
        | true =>
          dsimp only at hout ⊢
          exact ih' _ _ hout

theorem data_region_bytes_length (end_head : List Nat) (end_raw : Nat)
    (segs : List data_segment) (h : ∀ s ∈ segs, s.well_formed) :
    segs.length ≤ (data_region_bytes segs end_head end_raw).length := by
  induction segs with
  | nil => simp
  | cons s rest ih =>
    have hb := data_segment_bytes_length s (h s (List.mem_cons_self _ _))
    have hr := ih (fun x hx => h x (List.mem_cons_of_mem _ hx))
    simp only [data_region_bytes, List.map_cons, List.flatten_cons, List.length_append,
      List.length_cons] at hr ⊢
    omega

theorem decompress_total (input : SafeArray) (out : List Nat) :
    ∃ r, decompress input out = Run.done r := by
  obtain ⟨⟨ts, sl, b⟩, hr⟩ := tokens_of_total input
  rw [decompress_eq, hr]
  exact ⟨_, rfl⟩

/-- The loop of `read_catalog` returns within its budget. -/
theorem read_catalog_loop_total (file : SafeArray) (hs : file.size < 2 ^ 63) (fuel : Nat) :
    ∀ (start_offset size : Nat) (buffer : List Nat), 1 ≤ fuel →
      ((start_offset + 8) % 2 ^ 64 ≤ file.size →
        file.size - (start_offset + 8) % 2 ^ 64 + 20 ≤ 10 * fuel) →
      read_catalog_loop fuel file start_offset size buffer ≠ Exec.more := by
  induction fuel with
  | zero => intro _ _ _ h; omega
  | succ fuel ih =>
    intro start_offset size buffer _ hfuel
    by_cases hsz : 0 < size
    · by_cases hp : (start_offset + 8) % 2 ^ 64 ≤ file.size
      · rw [read_catalog_loop_step file hs fuel start_offset size buffer hsz hp]
        have hf := hfuel hp
        generalize (start_offset + 8) % 2 ^ 64 = p at hp hf ⊢
        have hm : frame_raw file p % 2 ^ 15 < 2 ^ 15 := Nat.mod_lt _ (by norm_num)
        split
        · split
          · simp
          · split
            · apply ih
              · omega
              · intro hle
                rw [Nat.mod_eq_of_lt (by omega)] at hle ⊢
                omega
            · simp
        · simp
      · rw [read_catalog_loop_head file fuel start_offset size buffer hsz hp]
        simp
    · simp [read_catalog_loop, hsz]

/-- The function `read_catalog` returns or reads outside the file; its budget never
runs out. -/
theorem read_catalog_total (file : SafeArray) (hs : file.size < 2 ^ 63)
    (start_offset size : Nat) (buffer : List Nat) :
    read_catalog file start_offset size buffer ≠ Exec.more := by
  unfold read_catalog
  apply read_catalog_loop_total file hs
  · omega
  · intro _
    omega

/-- The loop of `read_data_segment` returns within its budget. -/
theorem read_data_segment_loop_total (file : SafeArray) (hs : file.size < 2 ^ 63)
    (fuel : Nat) :
    ∀ (start_offset : Nat) (buffer : List Nat), 1 ≤ fuel →
      ((start_offset + 8) % 2 ^ 64 ≤ file.size →
        file.size - (start_offset + 8) % 2 ^ 64 + 20 ≤ 10 * fuel) →
      read_data_segment_loop fuel file start_offset buffer ≠ Exec.more := by
  induction fuel with
  | zero => intro _ _ h; omega
  | succ fuel ih =>
    intro start_offset buffer _ hfuel
    by_cases hp : (start_offset + 8) % 2 ^ 64 ≤ file.size
    · rw [read_data_segment_loop_step file hs fuel start_offset buffer hp]
      have hf := hfuel hp
      generalize (start_offset + 8) % 2 ^ 64 = p at hp hf ⊢
      have hm : frame_raw file p % 2 ^ 15 < 2 ^ 15 := Nat.mod_lt _ (by norm_num)
      have hnext : ∀ b, read_data_segment_loop fuel file (p + 2 + frame_raw file p % 2 ^ 15) b
          ≠ Exec.more := by
        intro b
        apply ih
        · omega
        · intro hle
          rw [Nat.mod_eq_of_lt (by omega)] at hle ⊢
          omega
      split
      · split
        · simp
        · split
          · split
            · obtain ⟨⟨b, buffer'⟩, hr⟩ := decompress_total
                ⟨file.slice (p + 2) (frame_raw file p % 2 ^ 15)⟩ buffer
              rw [hr]
              cases b with
              | false => simp
              | true => exact hnext _
            · exact hnext _
          · simp
      · simp
    · have h8 : sizeof_cseg_head_t = 8 := rfl
      have hg : file.get_typed sizeof_cseg_head_t start_offset = none := by
        unfold SafeArray.get_typed
        rw [h8, if_pos (by omega)]
      simp only [read_data_segment_loop]
      rw [hg]
      simp

/-- The function `read_data_segment` returns or reads outside the file; its budget never
runs out. -/
theorem read_data_segment_total (file : SafeArray) (hs : file.size < 2 ^ 63)
    (start_offset : Nat) (buffer : List Nat) :
    read_data_segment file start_offset buffer ≠ Exec.more := by
  unfold read_data_segment
  apply read_data_segment_loop_total file hs
  · omega
  · intro _
    omega

/-! ## The loop of `recover_files` -/

theorem path_len_lt (b : List Nat) : (ms_dir_fixed_t.of_bytes b).path_len < 65536 := by
  unfold ms_dir_fixed_t.of_bytes
  dsimp only
  omega

theorem check_sig_true {file_data : SafeArray} {offset sig : Nat}
    (h : check_sig file_data offset sig = Exec.ret true) :
    offset + 4 ≤ file_data.size ∧ le_uint (file_data.slice offset 4) % 2 ^ 32 = sig := by
  unfold check_sig at h
  cases hg : file_data.get_typed 4 offset with
  | none => rw [hg] at h; simp at h
  | some p =>
    rw [hg] at h
    have hp := get_typed_some hg
    subst hp
    dsimp only at h
    cases hd : file_data.deref p 4 with
    | none => rw [hd] at h; simp at h
    | some bytes =>
      rw [hd] at h
      obtain ⟨d1, d2⟩ := deref_some hd
      simp only [Exec.ret.injEq, beq_iff_eq] at h
      rw [← d2]
      exact ⟨d1, h⟩

/-- What an iteration of the loop of `recover_files` that appends an entry has checked. -/
theorem recover_file_some (file_data : SafeArray) (hs : file_data.size < 2 ^ 63)
    (o : Nat) (next : Option Nat) (e : recovered_file_entry_t)
    (h : recover_file file_data o next = Exec.ret (some (some e))) :
    ∃ c' d, read_dir_entry file_data (o + 4) {} = Exec.ret (some (c', d)) ∧
      d.is_dir = false ∧ e.offset = c' + d.path_len + 6 ∧
      e.offset - 6 + 4 ≤ file_data.size ∧
      le_uint (file_data.slice (e.offset - 6) 4) % 2 ^ 32 = EDAT_SIG := by
  unfold recover_file at h
  cases h1 : check_sig file_data o DAT_SIG with
  | undefined => rw [h1] at h; simp at h
  | more => rw [h1] at h; simp at h
  | ret b1 =>
    cases b1 with
    | false => rw [h1] at h; simp at h
    | true =>
      rw [h1] at h
      dsimp only at h
      have ho := (check_sig_true h1).1
      rw [Nat.mod_eq_of_lt (show o + 4 < 2 ^ 64 by omega)] at h
      cases h2 : read_dir_entry file_data (o + 4) {} with
      | undefined => rw [h2] at h; simp at h
      | more => rw [h2] at h; simp at h
      | ret r2 =>
        cases r2 with
        | none => rw [h2] at h; simp at h
        | some cd =>
          obtain ⟨c', d⟩ := cd
          rw [h2] at h
          dsimp only at h
          obtain ⟨hfit, hc', hd⟩ := read_dir_entry_ok file_data (o + 4) c' {} d hs h2
          have hle : c' ≤ file_data.size := by rw [hc']; exact hfit.2.2
          have hpl : d.path_len < 65536 := by
            rw [hd]
            exact path_len_lt _
          cases hdir : d.is_dir with
          | true => rw [hdir] at h; simp at h
          | false =>
            rw [hdir] at h
            simp only [Bool.false_eq_true, if_false] at h
            rw [Nat.mod_eq_of_lt (show c' + d.path_len < 2 ^ 64 by omega)] at h
            cases h3 : check_sig file_data (c' + d.path_len) EDAT_SIG with
            | undefined => rw [h3] at h; simp at h
            | more => rw [h3] at h; simp at h
            | ret b3 =>
              cases b3 with
              | false => rw [h3] at h; simp at h
              | true =>
                rw [h3] at h
                dsimp only at h
                obtain ⟨q1, q2⟩ := check_sig_true h3
                have hoff : e.offset = c' + d.path_len + 6 := by
                  by_cases hp : d.path_len > 0
                  · rw [if_pos hp] at h
                    cases h4 : file_data.get c' d.path_len with
                    | none => rw [h4] at h; simp at h
                    | some path_ptr =>
                      rw [h4] at h
                      dsimp only at h
                      cases h5 : file_data.deref path_ptr (2 * (d.path_len / 2)) with
                      | none => rw [h5] at h; simp at h
                      | some bytes =>
                        rw [h5] at h
                        dsimp only at h
                        rw [Nat.mod_eq_of_lt (show c' + d.path_len + (4 + 2) < 2 ^ 64 by omega)]
                          at h
                        cases next with
                        | none =>
                          simp only [Exec.ret.injEq, Option.some.injEq] at h
                          rw [← h]
                        | some next_offset =>
                          dsimp only at h
                          cases h6 : check_sig file_data next_offset DAT_SIG with
                          | undefined => rw [h6] at h; simp at h
                          | more => rw [h6] at h; simp at h
                          | ret b6 =>
                            rw [h6] at h
                            cases b6 <;>
                              (simp only [Exec.ret.injEq, Option.some.injEq] at h; rw [← h])
                  · rw [if_neg hp] at h
                    dsimp only at h
                    have hp0 : d.path_len = 0 := by omega
                    rw [hp0] at q1
                    rw [Nat.mod_eq_of_lt (show c' + (4 + 2) < 2 ^ 64 by omega)] at h
                    cases next with
                    | none =>
                      simp only [Exec.ret.injEq, Option.some.injEq] at h
                      rw [← h, hp0]
                    | some next_offset =>
                      dsimp only at h
                      cases h6 : check_sig file_data next_offset DAT_SIG with
                      | undefined => rw [h6] at h; simp at h
                      | more => rw [h6] at h; simp at h
                      | ret b6 =>
                        rw [h6] at h
                        cases b6 <;>
                          (simp only [Exec.ret.injEq, Option.some.injEq] at h; rw [← h, hp0])
                refine ⟨c', d, rfl, hdir, hoff, ?_, ?_⟩
                · rw [hoff]; omega
                · rw [hoff, show c' + d.path_len + 6 - 6 = c' + d.path_len by omega]
                  exact q2

/-- An occurrence whose record is a directory, or after whose record the check of
`EDAT_SIG` fails, appends nothing, and the loop goes on with the next occurrence. -/
theorem recover_files_loop_skip (file_data : SafeArray) (o : Nat) (rest : List Nat)
    (recovered_files : List recovered_file_entry_t) (c' : Nat) (d : parsed_dir_entry_t)
    (h1 : check_sig file_data o DAT_SIG = Exec.ret true)
    (h2 : read_dir_entry file_data ((o + 4) % 2 ^ 64) {} = Exec.ret (some (c', d)))
    (h3 : d.is_dir = true ∨
      check_sig file_data ((c' + d.path_len) % 2 ^ 64) EDAT_SIG = Exec.ret false) :
    recover_files_loop file_data (o :: rest) recovered_files =
      recover_files_loop file_data rest recovered_files := by
  have hstep : recover_file file_data o rest.head? = Exec.ret (some none) := by
    unfold recover_file
    rw [h1]
    dsimp only
    rw [h2]
    dsimp only
    cases hdir : d.is_dir with
    | true => simp
    | false =>
      rcases h3 with h3 | h3
      · rw [hdir] at h3; simp at h3
      · rw [h3]; simp
  simp only [recover_files_loop]
  rw [hstep]

theorem recover_files_loop_spec (file_data : SafeArray) (hs : file_data.size < 2 ^ 63)
    (occurrences : List Nat) :
    ∀ (recovered_files recovered_files' : List recovered_file_entry_t) (b : Bool),
      recover_files_loop file_data occurrences recovered_files =
        Exec.ret (b, recovered_files') →
      ∃ appended, recovered_files' = recovered_files ++ appended ∧
        ∀ e ∈ appended, ∃ o ∈ occurrences, ∃ c' d,
          read_dir_entry file_data (o + 4) {} = Exec.ret (some (c', d)) ∧
          d.is_dir = false ∧ e.offset = c' + d.path_len + 6 ∧
          e.offset - 6 + 4 ≤ file_data.size ∧
          le_uint (file_data.slice (e.offset - 6) 4) % 2 ^ 32 = EDAT_SIG := by
  induction occurrences with
  | nil =>
    intro recovered_files recovered_files' b h
    simp only [recover_files_loop, Exec.ret.injEq, Prod.mk.injEq] at h
    exact ⟨[], by simp [h.2], by simp⟩
  | cons o rest ih =>
    intro recovered_files recovered_files' b h
    simp only [recover_files_loop] at h
    cases hstep : recover_file file_data o rest.head? with
    | undefined => rw [hstep] at h; simp at h
    | more => rw [hstep] at h; simp at h
    | ret r =>
      rw [hstep] at h
      cases r with
      | none =>
        simp only [Exec.ret.injEq, Prod.mk.injEq] at h
        exact ⟨[], by simp [h.2], by simp⟩
      | some r' =>
        cases r' with
        | none =>
          dsimp only at h
          obtain ⟨appended, a1, a2⟩ := ih _ _ _ h
          refine ⟨appended, a1, fun e he => ?_⟩
          obtain ⟨o', ho', rest'⟩ := a2 e he
          exact ⟨o', List.mem_cons_of_mem _ ho', rest'⟩
        | some entry =>
          dsimp only at h
          obtain ⟨appended, a1, a2⟩ := ih _ _ _ h
          refine ⟨entry :: appended, by rw [a1, List.append_assoc]; rfl, fun e he => ?_⟩
          simp only [List.mem_cons] at he
          rcases he with he | he
          · subst he
            exact ⟨o, List.mem_cons_self _ _, recover_file_some file_data hs o _ e hstep⟩
          · obtain ⟨o', ho', rest'⟩ := a2 e he
            exact ⟨o', List.mem_cons_of_mem _ ho', rest'⟩

theorem std_search_bounds (needle : List Nat) (range : List Nat) :
    ∀ it, it ≤ std_search needle range it ∧ std_search needle range it ≤ it + range.length := by
  induction range with
  | nil => intro it; simp [std_search]
  | cons b rest ih =>
    intro it
    simp only [std_search]
    split
    · simp
    · have := ih (it + 1)
      simp only [List.length_cons]
      omega

/-- The loop of `search_binary_substring` returns within its budget. -/
theorem search_binary_substring_loop_total (haystack needle : List Nat) (fuel : Nat) :
    ∀ (it : Nat) (occurrences : List Nat), it ≤ haystack.length →
      haystack.length - it + 2 ≤ fuel →
      ∃ r, search_binary_substring_loop haystack needle fuel it occurrences = Exec.ret r := by
  induction fuel with
  | zero => intro _ _ _ h; omega
  | succ fuel ih =>
    intro it occurrences hle hfuel
    simp only [search_binary_substring_loop]
    by_cases hit : it = haystack.length
    · simp [hit]
    · rw [if_pos hit]
      have hb := std_search_bounds needle (haystack.drop it) it
      rw [List.length_drop] at hb
      split
      · exact ih _ _ (by omega) (by omega)
      · rename_i hend
        have hend' : std_search needle (haystack.drop it) it = haystack.length := by
          by_contra hne
          exact hend hne
        rw [hend']
        exact ih _ _ (Nat.le_refl _) (by omega)

/-- The function `search_binary_substring` returns. -/
theorem search_binary_substring_total (haystack needle : List Nat) :
    ∃ r, search_binary_substring haystack needle = Exec.ret r := by
  unfold search_binary_substring
  split
  · exact ⟨_, rfl⟩
  · exact search_binary_substring_loop_total haystack needle _ 0 [] (Nat.zero_le _) (by omega)

/-! ## Successive calls of `get_next_bit` -/

theorem after_calls_spec (buf : List Nat) (k : Nat) :
    (BitStream.create buf).after_calls k = ⟨buf, min k (buf.length * 8)⟩ := by
  induction k with
  | zero => simp [BitStream.after_calls, BitStream.create]
  | succ k ih =>
    simp only [BitStream.after_calls]
    rw [ih, get_next_bit_eq]
    dsimp only
    by_cases h : k < buf.length * 8
    · rw [if_pos (by rw [Nat.min_eq_left (Nat.le_of_lt h)]; exact h)]
      dsimp only
      rw [Nat.min_eq_left (Nat.le_of_lt h), Nat.min_eq_left (by omega)]
    · rw [if_neg (by rw [Nat.min_eq_right (by omega)]; omega)]
      dsimp only
      rw [Nat.min_eq_right (by omega), Nat.min_eq_right (by omega)]

theorem bit_at_eq (buf : List Nat) (k : Nat) :
    bit_at buf k = buf.getD (k / 8) 0 / 2 ^ (7 - k % 8) % 2 := by
  unfold bit_at
  rw [Nat.shiftRight_eq_div_pow, Nat.and_one_is_mod]

/-! ## The loops of `get_time` -/

theorem get_time_day_eq (yr : Nat) : get_time_day yr = 365 + get_time_lpyr yr := by
  unfold get_time_day get_time_lpyr
  split <;> rfl

theorem get_time_lpyr_le (yr : Nat) : get_time_lpyr yr ≤ 1 := by
  unfold get_time_lpyr
  split <;> omega

/-- What the `do` loop of `get_time` leaves: `date` is at most `day`, `day` is 365 or 366
with `lpyr` the difference, a `date` that was positive stays positive, `date` is only
taken from, and `yr` has grown by at most one per 365 days. -/
theorem get_time_years_spec (fuel yr date : Nat) (h : date ≤ 365 * fuel + 365) :
    (get_time_years fuel yr date h).2.1 ≤ (get_time_years fuel yr date h).2.2.1 ∧
    (get_time_years fuel yr date h).2.2.1 = 365 + (get_time_years fuel yr date h).2.2.2 ∧
    (get_time_years fuel yr date h).2.2.2 ≤ 1 ∧
    (1 ≤ date → 1 ≤ (get_time_years fuel yr date h).2.1) ∧
    (date = 0 → (get_time_years fuel yr date h).2.1 = 0) ∧
    (yr + date / 365 < 2 ^ 16 →
      yr ≤ (get_time_years fuel yr date h).1 ∧
      (get_time_years fuel yr date h).1 ≤ yr + date / 365) := by
  induction fuel, yr, date, h using get_time_years.induct with
  | case1 yr date h1 h2 h _ _ =>
    have hge := get_time_day_eq yr
    omega
  | case2 yr date h1 h2 fuel h _ _ ih =>
    have hge := get_time_day_eq yr
    have hl := get_time_lpyr_le yr
    rw [get_time_years]
    simp only [h1, h2, if_true, dif_pos]
    obtain ⟨i1, i2, i3, i4, i5, i6⟩ := ih
    refine ⟨i1, i2, i3, fun _ => i4 (by omega), fun h0 => by omega, fun hy => ?_⟩
    have hdiv : (date - get_time_day yr) / 365 + 1 ≤ date / 365 := by omega
    have hy1 : (yr + 1) % 2 ^ 16 = yr + 1 := Nat.mod_eq_of_lt (by omega)
    rw [hy1] at i6 ⊢
    have := i6 (by omega)
    omega
  | case3 fuel yr date h h1 h2 _ =>
    have hge := get_time_day_eq yr
    have hl := get_time_lpyr_le yr
    rw [get_time_years]
    simp only [h1, h2, if_true, dif_neg, not_false_eq_true]
    refine ⟨by omega, hge, hl, fun _ => by omega, fun h0 => by omega, fun hy => ?_⟩
    have hy1 : (yr + 1) % 2 ^ 16 = yr + 1 := Nat.mod_eq_of_lt (by omega)
    rw [hy1]
    omega
  | case4 fuel yr date h h1 _ =>
    have hge := get_time_day_eq yr
    have hl := get_time_lpyr_le yr
    rw [get_time_years]
    simp only [h1, if_false]
    exact ⟨by omega, hge, hl, fun h => h, fun h0 => h0, fun _ => by omega⟩

theorem get_time_months_bounds (ms : List Nat) :
    ∀ (mon day : Nat), 1 ≤ day → (∀ m ∈ ms, m ≤ 31) → day ≤ ms.sum →
      (get_time_months ms mon day).1 < mon + ms.length ∧
      1 ≤ (get_time_months ms mon day).2 ∧ (get_time_months ms mon day).2 ≤ 31 := by
  induction ms with
  | nil =>
    intro mon day h1 _ h2
    simp only [List.sum_nil] at h2
    omega
  | cons m ms ih =>
    intro mon day h1 hm h2
    have hm31 := hm m (List.mem_cons_self _ _)
    simp only [List.sum_cons] at h2
    simp only [get_time_months, List.length_cons]
    by_cases hge : m ≥ day
    · rw [if_pos hge]
      exact ⟨by omega, h1, by omega⟩
    · rw [if_neg hge]
      obtain ⟨i1, i2, i3⟩ := ih (mon + 1) (day - m) (by omega)
        (fun x hx => hm x (List.mem_cons_of_mem _ hx)) (by omega)
      exact ⟨by omega, i2, i3⟩

/-- What the loop over the months leaves for a day of the year between 1 and the number of
days that `get_time` gives the year: a month index below 12 and a day between 1 and 31. -/
theorem get_time_months_spec (lpyr day : Nat) (hl : lpyr ≤ 1) (h1 : 1 ≤ day)
    (h2 : day ≤ 365 + lpyr) :
    (get_time_months (mondays.set 1 (mondays.getD 1 0 + lpyr)) 0 day).1 ≤ 11 ∧
    1 ≤ (get_time_months (mondays.set 1 (mondays.getD 1 0 + lpyr)) 0 day).2 ∧
    (get_time_months (mondays.set 1 (mondays.getD 1 0 + lpyr)) 0 day).2 ≤ 31 := by
  have hcases : lpyr = 0 ∨ lpyr = 1 := by omega
  have key : ∀ ms : List Nat, ms.length = 12 → (∀ m ∈ ms, m ≤ 31) → day ≤ ms.sum →
      (get_time_months ms 0 day).1 ≤ 11 ∧ 1 ≤ (get_time_months ms 0 day).2 ∧
        (get_time_months ms 0 day).2 ≤ 31 := by
    intro ms hlen hm hsum
    obtain ⟨i1, i2, i3⟩ := get_time_months_bounds ms 0 day h1 hm hsum
    exact ⟨by omega, i2, i3⟩
  rcases hcases with h0 | h0
  · subst h0
    exact key _ (by decide) (by decide) (by
      have : (mondays.set 1 (mondays.getD 1 0 + 0)).sum = 366 := by decide
      omega)
  · subst h0
    exact key _ (by decide) (by decide) (by
      have : (mondays.set 1 (mondays.getD 1 0 + 1)).sum = 367 := by decide
      omega)

theorem get_time_months_zero (lpyr : Nat) :
    get_time_months (mondays.set 1 (mondays.getD 1 0 + lpyr)) 0 0 = (0, 0) := by
  simp [mondays, get_time_months]

/-- The fields of `get_time s` in terms of the two loops. -/
theorem get_time_fields (s : Nat) :
    (get_time s).tm_sec = ((s % 60 : Nat) : Int) ∧
    (get_time s).tm_min = ((s / 60 % 60 : Nat) : Int) ∧
    (get_time s).tm_hour = ((s / 3600 % 24 : Nat) : Int) ∧
    (get_time s).tm_year =
      (((get_time_years (s / 60 / 60 / 24) 1970 (s / 60 / 60 / 24) (by omega)).1 : Nat) : Int)
        - 1900 ∧
    (get_time s).tm_mon =
      (((get_time_months
        (mondays.set 1 (mondays.getD 1 0 +
          (get_time_years (s / 60 / 60 / 24) 1970 (s / 60 / 60 / 24) (by omega)).2.2.2)) 0
        ((get_time_years (s / 60 / 60 / 24) 1970 (s / 60 / 60 / 24) (by omega)).2.1
          % 2 ^ 16)).1 + 1 : Nat) : Int) ∧
    (get_time s).tm_mday =
      (((get_time_months
        (mondays.set 1 (mondays.getD 1 0 +
          (get_time_years (s / 60 / 60 / 24) 1970 (s / 60 / 60 / 24) (by omega)).2.2.2)) 0
        ((get_time_years (s / 60 / 60 / 24) 1970 (s / 60 / 60 / 24) (by omega)).2.1
          % 2 ^ 16)).2 : Nat) : Int) := by
  have h3600 : s / 60 / 60 = s / 3600 := by rw [Nat.div_div_eq_div_mul]
  unfold get_time
  dsimp only
  exact ⟨rfl, rfl, by rw [h3600], rfl, by push_cast; rfl, rfl⟩

/-- The fields of `get_time s` for a 32-bit `s`: all of them are in range except the day
of the month, which is 0 exactly on the first day. -/
theorem get_time_ranges (s : Nat) (hs : s < 2 ^ 32) :
    1 ≤ (get_time s).tm_mon ∧ (get_time s).tm_mon ≤ 12 ∧
    0 ≤ (get_time s).tm_mday ∧ (get_time s).tm_mday ≤ 31 ∧
    0 ≤ (get_time s).tm_hour ∧ (get_time s).tm_hour ≤ 23 ∧
    0 ≤ (get_time s).tm_min ∧ (get_time s).tm_min ≤ 59 ∧
    0 ≤ (get_time s).tm_sec ∧ (get_time s).tm_sec ≤ 59 ∧
    70 ≤ (get_time s).tm_year ∧
    ((get_time s).tm_mday = 0 ↔ s < 86400) := by
  obtain ⟨f1, f2, f3, f4, f5, f6⟩ := get_time_fields s
  obtain ⟨y1, y2, y3, y4, y5, y6⟩ :=
    get_time_years_spec (s / 60 / 60 / 24) 1970 (s / 60 / 60 / 24) (by omega)
  rw [f1, f2, f3, f4, f5, f6]
  generalize get_time_years (s / 60 / 60 / 24) 1970 (s / 60 / 60 / 24) (by omega) = Y
    at y1 y2 y3 y4 y5 y6 ⊢
  have hdate : s / 60 / 60 / 24 < 49711 := by omega
  have hyr := y6 (by omega)
  have hmod : Y.2.1 % 2 ^ 16 = Y.2.1 := Nat.mod_eq_of_lt (by omega)
  rw [hmod]
  by_cases h0 : s / 60 / 60 / 24 = 0
  · have hd0 := y5 h0
    rw [hd0, get_time_months_zero]
    refine ⟨by norm_num, by norm_num, by norm_num, by norm_num, by omega, by omega, by omega,
      by omega, by omega, by omega, by omega, ?_⟩
    constructor
    · intro _; omega
    · intro _; rfl
  · obtain ⟨m1, m2, m3⟩ := get_time_months_spec Y.2.2.2 Y.2.1 y3 (y4 (by omega)) (by omega)
    refine ⟨by omega, by omega, by omega, by omega, by omega, by omega, by omega,
      by omega, by omega, by omega, by omega, ?_⟩
    constructor
    · intro h; omega
    · intro h; omega

/-! ## Parent chains and the order of the directory paths -/

theorem reconstruct_tree_parent_lt (dirs res : List parsed_dir_entry_t)
    (h : reconstruct_tree dirs = some res) :
    ∀ (k : Nat) (ek : parsed_dir_entry_t), res[k]? = some ek →
      ∀ p : Nat, ek.parent = some p → p < k := by
  unfold reconstruct_tree at h
  rw [reconstruct_loop_init] at h
  intro k ek hk p hp
  have := reconstruct_loop_forest (fun _ => True) dirs 0 TreeState.started res h
    (fun _ _ _ _ => trivial)
    (fun d hd x hx => by
      simp only [TreeState.started, List.mem_singleton] at hd
      subst hd
      exact absurd hx (by simp))
    k ek hk
  rcases this with ⟨n1, _, n3⟩ | ⟨j, g1, g2, _⟩
  · have hnone := reconstruct_loop_group dirs 0 TreeState.started res h rfl k ek hk n1
    rw [hnone] at hp
    exact absurd hp (by simp [TreeState.started])
  · rw [hp] at g1
    simp only [Option.some.injEq] at g1
    omega

theorem foldl_path (l : List String) :
    ∀ acc : String,
      l.foldl (fun ss item => ss ++ "/" ++ item) acc =
        acc ++ l.foldr (fun item rest => "/" ++ item ++ rest) "" := by
  induction l with
  | nil => intro acc; simp
  | cons x xs ih =>
    intro acc
    simp only [List.foldl_cons, List.foldr_cons]
    rw [ih, String.append_assoc, String.append_assoc, String.append_assoc]

theorem get_recursive_path_items_walk (entries : List parsed_dir_entry_t) (w : List Nat) :
    ∀ (current : Option Nat) (fuel : Nat) (items : List String),
      walk entries current w → w.length + 1 ≤ fuel →
      get_recursive_path_items entries fuel current items =
        Exec.ret (items ++ w.map (long_name_of entries)) := by
  induction w with
  | nil =>
    intro current fuel items hw hf
    simp only [walk] at hw
    subst hw
    obtain ⟨fuel, rfl⟩ : ∃ k, fuel = k + 1 := ⟨fuel - 1, by simp at hf; omega⟩
    simp [get_recursive_path_items]
  | cons j rest ih =>
    intro current fuel items hw hf
    obtain ⟨hc, e, he, hrest⟩ := hw
    subst hc
    obtain ⟨fuel, rfl⟩ : ∃ k, fuel = k + 1 := ⟨fuel - 1, by simp at hf; omega⟩
    simp only [get_recursive_path_items, he]
    rw [ih e.parent fuel _ hrest (by simp at hf; omega)]
    simp [long_name_of, he]

/-- The end of a chain: its last index, or `prev` for the empty chain. -/
theorem parent_chain_walk (entries : List parsed_dir_entry_t) (c : List Nat) :
    ∀ (prev : Option Nat) (w : List Nat), parent_chain entries prev c → walk entries prev w →
      walk entries (c.foldl (fun _ j => some j) prev) (c.reverse ++ w) := by
  induction c with
  | nil => intro prev w _ hw; exact hw
  | cons j rest ih =>
    intro prev w hc hw
    obtain ⟨⟨e, he, hp⟩, hrest⟩ := hc
    simp only [List.foldl_cons, List.reverse_cons, List.append_assoc, List.singleton_append]
    exact ih (some j) (j :: w) hrest ⟨rfl, e, he, by rw [hp]; exact hw⟩

theorem parent_chain_snoc (entries : List parsed_dir_entry_t) (c : List Nat) (i : Nat) :
    ∀ prev : Option Nat, parent_chain entries prev c →
      (∃ e, entries[i]? = some e ∧ e.parent = c.foldl (fun _ j => some j) prev) →
      parent_chain entries prev (c ++ [i]) := by
  induction c with
  | nil => intro prev _ hi; exact ⟨hi, trivial⟩
  | cons j rest ih =>
    intro prev hc hi
    exact ⟨hc.1, ih (some j) hc.2 hi⟩

theorem walk_length (entries : List parsed_dir_entry_t)
    (hlt : ∀ (k : Nat) (ek : parsed_dir_entry_t), entries[k]? = some ek →
      ∀ p : Nat, ek.parent = some p → p < k) (w : List Nat) :
    ∀ i, walk entries (some i) w → w.length ≤ i + 1 := by
  induction w with
  | nil => intro i hw; exact absurd hw (by simp [walk])
  | cons j rest ih =>
    intro i hw
    obtain ⟨hc, e, he, hrest⟩ := hw
    simp only [Option.some.injEq] at hc
    subst hc
    cases hp : e.parent with
    | none =>
      rw [hp] at hrest
      cases rest with
      | nil => simp
      | cons x xs => exact absurd hrest.1 (by simp)
    | some p =>
      rw [hp] at hrest
      have := ih p hrest
      have := hlt i e he p hp
      simp only [List.length_cons]
      omega

theorem parent_chain_exists (entries : List parsed_dir_entry_t)
    (hlt : ∀ (k : Nat) (ek : parsed_dir_entry_t), entries[k]? = some ek →
      ∀ p : Nat, ek.parent = some p → p < k) :
    ∀ i, i < entries.length → ∃ init, parent_chain entries none (init ++ [i]) := by
  intro i
  induction i using Nat.strong_induction_on with
  | _ i ih =>
    intro hi
    have he : entries[i]? = some entries[i] := List.getElem?_eq_getElem hi
    cases hp : entries[i].parent with
    | none => exact ⟨[], ⟨entries[i], he, hp⟩, trivial⟩
    | some p =>
      have hpi := hlt i _ he p hp
      obtain ⟨init, hc⟩ := ih p hpi (by omega)
      refine ⟨init ++ [p], parent_chain_snoc entries _ i none hc ⟨entries[i], he, ?_⟩⟩
      rw [hp, List.foldl_append]
      rfl

theorem get_recursive_path_chain (entries : List parsed_dir_entry_t)
    (hlt : ∀ (k : Nat) (ek : parsed_dir_entry_t), entries[k]? = some ek →
      ∀ p : Nat, ek.parent = some p → p < k)
    (i : Nat) (hi : i < entries.length) (init : List Nat)
    (hc : parent_chain entries none (init ++ [i])) :
    get_recursive_path entries i = Exec.ret (path_of_chain entries (init ++ [i])) := by
  have hw := parent_chain_walk entries (init ++ [i]) none [] hc rfl
  rw [List.foldl_append, List.append_nil] at hw
  have hlen := walk_length entries hlt _ i hw
  unfold get_recursive_path
  rw [get_recursive_path_items_walk entries _ (some i) _ [] hw (by omega)]
  dsimp only
  rw [List.nil_append, ← List.map_reverse, List.reverse_reverse, foldl_path]
  unfold path_of_chain
  rw [List.foldr_map]
  simp

theorem string_less_asymm : ∀ a b : List Char, string_less a b = true →
    string_less b a = false := by
  intro a
  induction a with
  | nil =>
    intro b _
    cases b <;> rfl
  | cons x xs ih =>
    intro b h
    cases b with
    | nil => simp [string_less] at h
    | cons y ys =>
      simp only [string_less] at h ⊢
      by_cases h1 : x.toNat < y.toNat
      · rw [if_neg (by omega), if_pos h1]
      · rw [if_neg h1] at h
        by_cases h2 : y.toNat < x.toNat
        · rw [if_pos h2] at h
          exact absurd h (by simp)
        · rw [if_neg h2] at h
          rw [if_neg h2, if_neg h1]
          exact ih ys h

theorem string_less_neg_trans : ∀ a b c : List Char, string_less a b = false →
    string_less b c = false → string_less a c = false := by
  intro a
  induction a with
  | nil =>
    intro b c h1 h2
    cases b with
    | nil => exact h2
    | cons y ys => simp [string_less] at h1
  | cons x xs ih =>
    intro b c h1 h2
    cases c with
    | nil => rfl
    | cons z zs =>
      cases b with
      | nil => simp [string_less] at h2
      | cons y ys =>
        simp only [string_less] at h1 h2 ⊢
        by_cases hxy : x.toNat < y.toNat
        · rw [if_pos hxy] at h1
          exact absurd h1 (by simp)
        · rw [if_neg hxy] at h1
          by_cases hyz : y.toNat < z.toNat
          · rw [if_pos hyz] at h2
            exact absurd h2 (by simp)
          · rw [if_neg hyz] at h2
            rw [if_neg (by omega)]
            by_cases hzx : z.toNat < x.toNat
            · rw [if_pos hzx]
            · rw [if_neg hzx]
              have hyx : ¬ y.toNat < x.toNat := by omega
              have hzy : ¬ z.toNat < y.toNat := by omega
              rw [if_neg hyx] at h1
              rw [if_neg hzy] at h2
              exact ih ys zs h1 h2

theorem deeper_first_asymm (a b : String) (h : deeper_first a b = true) :
    deeper_first b a = false := by
  unfold deeper_first at h ⊢
  dsimp only at h ⊢
  by_cases hc : count_slash a = count_slash b
  · rw [if_neg (by simp [hc])] at h
    rw [if_neg (by simp [hc])]
    exact string_less_asymm _ _ h
  · rw [if_pos hc] at h
    rw [if_pos (fun h' => hc h'.symm)]
    simp only [decide_eq_true_eq, decide_eq_false_iff_not] at h ⊢
    omega

theorem deeper_first_neg_trans (a b c : String) (h1 : deeper_first a b = false)
    (h2 : deeper_first b c = false) : deeper_first a c = false := by
  unfold deeper_first at h1 h2 ⊢
  dsimp only at h1 h2 ⊢
  by_cases hab : count_slash a = count_slash b
  · rw [if_neg (by simp [hab])] at h1
    by_cases hbc : count_slash b = count_slash c
    · rw [if_neg (by simp [hbc])] at h2
      rw [if_neg (by simp [hab, hbc])]
      exact string_less_neg_trans _ _ _ h2 h1
    · rw [if_pos hbc] at h2
      rw [if_pos (by omega)]
      simp only [decide_eq_false_iff_not] at h2 ⊢
      omega
  · rw [if_pos hab] at h1
    simp only [decide_eq_false_iff_not] at h1
    by_cases hbc : count_slash b = count_slash c
    · rw [if_pos (by omega)]
      simp only [decide_eq_false_iff_not]
      omega
    · rw [if_pos hbc] at h2
      simp only [decide_eq_false_iff_not] at h2
      rw [if_pos (by omega)]
      simp only [decide_eq_false_iff_not]
      omega

theorem std_sort_insert_perm {α : Type} (comp : α → α → Bool) (x : α) (l : List α) :
    (std_sort_insert comp x l).Perm (x :: l) := by
  induction l with
  | nil => exact List.Perm.refl _
  | cons y ys ih =>
    simp only [std_sort_insert]
    split
    · exact (List.Perm.cons y ih).trans (List.Perm.swap x y ys)
    · exact List.Perm.refl _

theorem std_sort_perm {α : Type} (comp : α → α → Bool) (l : List α) :
    (std_sort comp l).Perm l := by
  induction l with
  | nil => exact List.Perm.refl _
  | cons x xs ih =>
    simp only [std_sort]
    exact (std_sort_insert_perm comp x _).trans (List.Perm.cons x ih)

theorem std_sort_insert_sorted {α : Type} (comp : α → α → Bool)
    (hasymm : ∀ a b, comp a b = true → comp b a = false)
    (htrans : ∀ a b c, comp a b = false → comp b c = false → comp a c = false)
    (x : α) (l : List α) (hl : l.Pairwise (fun a b => comp b a = false)) :
    (std_sort_insert comp x l).Pairwise (fun a b => comp b a = false) := by
  induction l with
  | nil => simp [std_sort_insert]
  | cons y ys ih =>
    simp only [std_sort_insert]
    rw [List.pairwise_cons] at hl
    by_cases hc : comp y x = true
    · rw [if_pos hc, List.pairwise_cons]
      refine ⟨?_, ih hl.2⟩
      intro z hz
      have hz' := (std_sort_insert_perm comp x ys).mem_iff.1 hz
      simp only [List.mem_cons] at hz'
      rcases hz' with hz' | hz'
      · rw [hz']; exact hasymm _ _ hc
      · exact hl.1 z hz'
    · rw [if_neg hc, List.pairwise_cons]
      have hc' : comp y x = false := by simpa using hc
      refine ⟨?_, List.pairwise_cons.2 hl⟩
      intro z hz
      simp only [List.mem_cons] at hz
      rcases hz with hz | hz
      · rw [hz]; exact hc'
      · exact htrans _ _ _ (hl.1 z hz) hc'

theorem std_sort_sorted {α : Type} (comp : α → α → Bool)
    (hasymm : ∀ a b, comp a b = true → comp b a = false)
    (htrans : ∀ a b c, comp a b = false → comp b c = false → comp a c = false)
    (l : List α) : (std_sort comp l).Pairwise (fun a b => comp b a = false) := by
  induction l with
  | nil => simp [std_sort]
  | cons x xs ih =>
    simp only [std_sort]
    exact std_sort_insert_sorted comp hasymm htrans x _ ih

theorem count_slash_append (a b : String) :
    count_slash (a ++ b) = count_slash a + count_slash b := by
  unfold count_slash
  rw [String.data_append, List.count_append]

theorem deeper_first_descendant (a t : String) : deeper_first (a ++ "/" ++ t) a = true := by
  unfold deeper_first
  dsimp only
  have h : count_slash (a ++ "/" ++ t) = count_slash a + 1 + count_slash t := by
    rw [count_slash_append, count_slash_append]
    rfl
  rw [if_pos (by omega)]
  simp only [decide_eq_true_eq]
  omega

theorem pairwise_getElem? {α : Type} {R : α → α → Prop} (l : List α) (hp : l.Pairwise R) :
    ∀ (x y : Nat) (a b : α), x < y → l[x]? = some a → l[y]? = some b → R a b := by
  induction l with
  | nil => intro x y a b _ hx _; simp at hx
  | cons c cs ih =>
    intro x y a b hxy hx hy
    rw [List.pairwise_cons] at hp
    cases y with
    | zero => omega
    | succ y =>
      rw [List.getElem?_cons_succ] at hy
      cases x with
      | zero =>
        simp only [List.getElem?_cons_zero, Option.some.injEq] at hx
        rw [← hx]
        exact hp.1 b (List.getElem?_mem hy)
      | succ x =>
        rw [List.getElem?_cons_succ] at hx
        exact ih hp.2 x y a b (by omega) hx hy

theorem update_times_collect_total (entries : List parsed_dir_entry_t)
    (rest : List parsed_dir_entry_t) :
    ∀ (i : Nat) (by_path : List (String × parsed_dir_entry_t)) (sorted_paths : List String),
      (∀ k, k < i + rest.length → ∃ path, get_recursive_path entries k = Exec.ret path) →
      ∃ r, update_times_collect entries i rest by_path sorted_paths = Exec.ret r := by
  induction rest with
  | nil => intro i by_path sorted_paths _; exact ⟨_, rfl⟩
  | cons e rest ih =>
    intro i by_path sorted_paths hp
    simp only [update_times_collect]
    have hp' : ∀ k, k < i + 1 + rest.length → ∃ path,
        get_recursive_path entries k = Exec.ret path := by
      intro k hk
      exact hp k (by simp only [List.length_cons]; omega)
    split
    · exact ih (i + 1) _ _ hp'
    · obtain ⟨path, hpath⟩ := hp i (by simp only [List.length_cons]; omega)
      rw [hpath]
      exact ih (i + 1) _ _ hp'

/-! ## The stack of pending parents -/

theorem group_of_succ (l : List parsed_dir_entry_t) (k : Nat) (e : parsed_dir_entry_t)
    (hk : l[k]? = some e) :
    group_of l (k + 1) = group_of l k + if e.is_last_entry = true then 1 else 0 := by
  unfold group_of
  rw [List.take_succ, hk, List.countP_append]
  simp [List.countP_cons]

theorem group_of_mono (l : List parsed_dir_entry_t) {a b : Nat} (h : a ≤ b) :
    group_of l a ≤ group_of l b := by
  unfold group_of
  exact (List.take_sublist_take_left l h).countP_le _

theorem group_of_last_lt (l : List parsed_dir_entry_t) {a n : Nat} (ha : a < n)
    (hl : is_last_at l (n - 1)) : group_of l a < group_of l n := by
  obtain ⟨e, he, hlast⟩ := hl
  have h1 := group_of_succ l (n - 1) e he
  rw [show n - 1 + 1 = n by omega, if_pos hlast] at h1
  have h2 := group_of_mono l (show a ≤ n - 1 by omega)
  omega

theorem group_of_not_last (l : List parsed_dir_entry_t) (n : Nat) (e : parsed_dir_entry_t)
    (he : l[n]? = some e) (hl : e.is_last_entry = false) :
    group_of l (n + 1) = group_of l n := by
  rw [group_of_succ l n e he, if_neg (by rw [hl]; simp)]
  rfl

/-- The stack after the three blocks of an iteration that starts with the top deque `top`
over the deques `below`. -/
theorem tree_step_shape {st1 st2 st3 : TreeState} {i : Nat} {c b : Bool}
    {top : List (Option Nat)} {below : List (List (Option Nat))}
    (hs : st1.stack = top :: below)
    (h2 : reconstruct_push st1 i c = some st2)
    (h3 : reconstruct_last st2 b = some st3) :
    st3.current_parent = st1.current_parent ∧
    st3.first = (b || st1.first) ∧
    st3.stack.flatten = (top ++ if c = true then [some i] else []) ++ below.flatten ∧
    (b = false → st3.stack = (top ++ if c = true then [some i] else []) :: below) := by
  have hst2 : st2 = { st1 with stack := (top ++ if c = true then [some i] else []) :: below } := by
    unfold reconstruct_push at h2
    cases c with
    | true =>
      simp only [if_true] at h2
      rw [hs] at h2
      simp only [Option.some.injEq] at h2
      rw [← h2]
      simp
    | false =>
      simp only [Bool.false_eq_true, if_false, Option.some.injEq] at h2
      rw [← h2]
      cases st1
      simp only [TreeState.mk.injEq, true_and] at hs ⊢
      simp [hs]
  unfold reconstruct_last at h3
  cases b with
  | true =>
    simp only [if_true] at h3
    rw [hst2] at h3
    simp only [Option.some.injEq] at h3
    rw [← h3]
    refine ⟨rfl, by simp, ?_, fun h => absurd h (by simp)⟩
    dsimp only
    generalize (top ++ if c = true then [some i] else []) = T
    by_cases hlen : T.length = 0
    · rw [if_pos hlen, List.length_eq_zero.1 hlen]
      rfl
    · rw [if_neg hlen]
      rfl
  | false =>
    simp only [Bool.false_eq_true, if_false, Option.some.injEq] at h3
    rw [← h3, hst2]
    exact ⟨rfl, by simp, rfl, fun _ => rfl⟩

/-- The block `if (first)` at the start of a sibling group: the front of the top deque
becomes `current_parent`, and a new empty deque is pushed over what is left. -/
theorem reconstruct_first_shape {st st1 : TreeState} (hf : st.first = true)
    (h1 : reconstruct_first st = some st1) :
    ∃ below', st1.stack = [] :: below' ∧ st1.first = false ∧
      st.stack.flatten = st1.current_parent :: below'.flatten := by
  unfold reconstruct_first at h1
  rw [if_pos hf] at h1
  cases hs : st.stack with
  | nil => rw [hs] at h1; exact absurd h1 (by simp)
  | cons top below =>
    rw [hs] at h1
    dsimp only at h1
    cases top with
    | nil => exact absurd h1 (by simp)
    | cons front top' =>
      simp only [Option.some.injEq] at h1
      rw [← h1]
      refine ⟨_, rfl, rfl, ?_⟩
      dsimp only
      cases top' with
      | nil => simp
      | cons y ys => simp

theorem reconstruct_first_mid {st st1 : TreeState} (hf : st.first = false)
    (h1 : reconstruct_first st = some st1) : st1 = st := by
  unfold reconstruct_first at h1
  rw [if_neg (by rw [hf]; simp)] at h1
  simp only [Option.some.injEq] at h1
  exact h1.symm

/-- What holds between the block `if (first)` and the rest of the iteration for the entry
of index `n`. -/
theorem tree_inv_after_first {l : List parsed_dir_entry_t} {n : Nat}
    {ps : List (Option Nat)} {st st1 : TreeState} (hinv : tree_inv l n ps st)
    (h1 : reconstruct_first st = some st1) :
    ∃ top below, st1.stack = top :: below ∧ st1.first = false ∧
      (∀ y ∈ top ++ below.flatten, ∃ q, y = some q ∧ q < n ∧ nonempty_dir l q ∧
        some q ∉ ps ++ [st1.current_parent]) ∧
      (∀ q, q < n → nonempty_dir l q → some q ∉ ps ++ [st1.current_parent] →
        some q ∈ top ++ below.flatten) ∧
      (top ++ below.flatten).Pairwise (pending_before l) ∧
      (∀ y ∈ top, ∀ a, y = some a → group_of l a = group_of l n) ∧
      (∀ y ∈ below.flatten, ∀ a, y = some a → group_of l a < group_of l n) ∧
      (∀ q, some q ∈ ps ++ [st1.current_parent] → q < n) := by
  cases hf : st.first with
  | true =>
    obtain ⟨below', s1, s2, s3⟩ := reconstruct_first_shape hf h1
    have hord := hinv.ord
    rw [s3, List.pairwise_cons] at hord
    have hx : st1.current_parent ∈ st.stack.flatten := by rw [s3]; exact List.mem_cons_self _ _
    obtain ⟨a, xa, xlt, xnd, xps⟩ := hinv.sound _ hx
    have hne : ∀ q, some q ∈ below'.flatten → some q ≠ st1.current_parent := by
      intro q hq heq
      have := hord.1 (some q) hq a q xa rfl
      rw [xa] at heq
      simp only [Option.some.injEq] at heq
      subst heq
      omega
    refine ⟨[], below', s1, s2, ?_, ?_, ?_, ?_, ?_, ?_⟩
    · intro y hy
      rw [List.nil_append] at hy
      obtain ⟨q, yq, qlt, qnd, qps⟩ := hinv.sound y (by rw [s3]; exact List.mem_cons_of_mem _ hy)
      refine ⟨q, yq, qlt, qnd, ?_⟩
      intro hmem
      rw [List.mem_append, List.mem_singleton] at hmem
      rcases hmem with hmem | hmem
      · exact qps hmem
      · exact hne q (by rw [← yq]; exact hy) hmem
    · intro q qlt qnd qps
      rw [List.nil_append]
      have hq := hinv.complete q qlt qnd
        (fun hmem => qps (List.mem_append_left _ hmem))
      rw [s3, List.mem_cons] at hq
      rcases hq with hq | hq
      · exact absurd (List.mem_append_right _ (List.mem_singleton.2 hq)) qps
      · exact hq
    · rw [List.nil_append]
      exact hord.2
    · intro y hy
      exact absurd hy (List.not_mem_nil _)
    · intro y hy b yb
      obtain ⟨q, yq, qlt, _, _⟩ := hinv.sound y (by rw [s3]; exact List.mem_cons_of_mem _ hy)
      rw [yq] at yb
      simp only [Option.some.injEq] at yb
      subst yb
      exact group_of_last_lt l qlt (hinv.first_iff.1 hf)
    · intro q hq
      rw [List.mem_append, List.mem_singleton] at hq
      rcases hq with hq | hq
      · exact hinv.parents_lt q hq
      · rw [xa] at hq
        simp only [Option.some.injEq] at hq
        omega
  | false =>
    have hst := reconstruct_first_mid hf h1
    subst hst
    obtain ⟨top, rest, m1, m2, m3, m4⟩ := hinv.mid hf
    have hflat : st1.stack.flatten = top ++ rest.flatten := by rw [m1]; rfl
    refine ⟨top, rest, m1, hf, ?_, ?_, ?_, m2, m3, ?_⟩
    · intro y hy
      obtain ⟨q, yq, qlt, qnd, qps⟩ := hinv.sound y (by rw [hflat]; exact hy)
      refine ⟨q, yq, qlt, qnd, ?_⟩
      intro hmem
      rw [List.mem_append, List.mem_singleton] at hmem
      rcases hmem with hmem | hmem
      · exact qps hmem
      · rw [hmem] at qps
        exact qps m4
    · intro q qlt qnd qps
      rw [← hflat]
      exact hinv.complete q qlt qnd (fun hmem => qps (List.mem_append_left _ hmem))
    · rw [← hflat]
      exact hinv.ord
    · intro q hq
      rw [List.mem_append, List.mem_singleton] at hq
      rcases hq with hq | hq
      · exact hinv.parents_lt q hq
      · rw [← hq] at m4
        exact hinv.parents_lt q m4

/-- The invariant is kept by an iteration of the loop of `reconstruct_tree`. -/
theorem tree_inv_step {l : List parsed_dir_entry_t} {n : Nat} {ps : List (Option Nat)}
    {st st1 st2 st3 : TreeState} {e : parsed_dir_entry_t} (hinv : tree_inv l n ps st)
    (he : l[n]? = some e)
    (h1 : reconstruct_first st = some st1)
    (h2 : reconstruct_push st1 n (e.is_dir && !e.is_empty_dir) = some st2)
    (h3 : reconstruct_last st2 e.is_last_entry = some st3) :
    tree_inv l (n + 1) (ps ++ [st1.current_parent]) st3 := by
  obtain ⟨top, below, a1, a2, a3, a4, a5, a6, a7, a8⟩ := tree_inv_after_first hinv h1
  obtain ⟨t1, t2, t3, t4⟩ := tree_step_shape a1 h2 h3
  rw [a2, Bool.or_false] at t2
  have hn : n < l.length := by
    by_contra hcon
    rw [List.getElem?_eq_none (by omega)] at he
    exact absurd he (by simp)
  have hnew : ∀ y ∈ (if (e.is_dir && !e.is_empty_dir) = true then [some n] else []),
      y = some n ∧ (e.is_dir && !e.is_empty_dir) = true := by
    intro y hy
    by_cases hc : (e.is_dir && !e.is_empty_dir) = true
    · rw [if_pos hc, List.mem_singleton] at hy
      exact ⟨hy, hc⟩
    · rw [if_neg hc] at hy
      exact absurd hy (List.not_mem_nil _)
  refine ⟨?_, ⟨by omega, by omega⟩, ?_, ?_, ?_, ?_, ?_, ?_⟩
  · rw [List.length_append, hinv.len]
    rfl
  · intro q hq
    have := a8 q hq
    omega
  · rw [t2, Nat.add_sub_cancel]
    constructor
    · intro hl; exact ⟨e, he, hl⟩
    · rintro ⟨e', he', hl⟩
      rw [he] at he'
      simp only [Option.some.injEq] at he'
      rw [he']
      exact hl
  · intro y hy
    rw [t3, List.mem_append, List.mem_append] at hy
    rcases hy with (hy | hy) | hy
    · obtain ⟨q, yq, qlt, qnd, qps⟩ := a3 y (List.mem_append_left _ hy)
      exact ⟨q, yq, by omega, qnd, qps⟩
    · obtain ⟨yn, hc⟩ := hnew y hy
      refine ⟨n, yn, by omega, ⟨e, he, hc⟩, fun hmem => ?_⟩
      have := a8 n hmem
      omega
    · obtain ⟨q, yq, qlt, qnd, qps⟩ := a3 y (List.mem_append_right _ hy)
      exact ⟨q, yq, by omega, qnd, qps⟩
  · intro q qlt qnd qps
    rw [t3, List.mem_append, List.mem_append]
    by_cases hqn : q = n
    · subst hqn
      obtain ⟨e', he', hc⟩ := qnd
      rw [he] at he'
      simp only [Option.some.injEq] at he'
      subst he'
      left; right
      rw [if_pos hc]
      exact List.mem_singleton.2 rfl
    · have := a4 q (by omega) qnd qps
      rw [List.mem_append] at this
      rcases this with h | h
      · left; left; exact h
      · right; exact h
  · rw [t3]
    rw [List.pairwise_append] at a5
    obtain ⟨p1, p2, p3⟩ := a5
    rw [List.pairwise_append, List.pairwise_append]
    refine ⟨⟨p1, ?_, ?_⟩, p2, ?_⟩
    · by_cases hc : (e.is_dir && !e.is_empty_dir) = true
      · rw [if_pos hc]; exact List.pairwise_singleton _ _
      · rw [if_neg hc]; exact List.Pairwise.nil
    · intro y hy z hz a b ya zb
      obtain ⟨zn, _⟩ := hnew z hz
      rw [zn] at zb
      simp only [Option.some.injEq] at zb
      subst zb
      obtain ⟨q, yq, qlt, _, _⟩ := a3 y (List.mem_append_left _ hy)
      rw [ya] at yq
      simp only [Option.some.injEq] at yq
      subst yq
      exact Or.inl ⟨a6 y hy a ya, qlt⟩
    · intro y hy z hz
      rw [List.mem_append] at hy
      rcases hy with hy | hy
      · exact p3 y hy z hz
      · intro a b ya zb
        obtain ⟨yn, _⟩ := hnew y hy
        rw [yn] at ya
        simp only [Option.some.injEq] at ya
        subst ya
        exact Or.inr (a7 z hz b zb)
  · intro hf
    rw [t2] at hf
    have hg := group_of_not_last l n e he hf
    refine ⟨_, below, t4 hf, ?_, ?_, ?_⟩
    · intro y hy a ya
      rw [List.mem_append] at hy
      rcases hy with hy | hy
      · rw [hg]; exact a6 y hy a ya
      · obtain ⟨yn, _⟩ := hnew y hy
        rw [yn] at ya
        simp only [Option.some.injEq] at ya
        subst ya
        exact hg.symm
    · intro y hy a ya
      rw [hg]
      exact a7 y hy a ya
    · rw [t1]
      exact List.mem_append_right _ (List.mem_singleton.2 rfl)

/-- At the start of a sibling group the parent that the block `if (first)` takes is the
first pending parent in the order `pending_before`. -/
theorem tree_inv_front {l : List parsed_dir_entry_t} {n : Nat} {ps : List (Option Nat)}
    {st st1 : TreeState} (hinv : tree_inv l n ps st) (hf : st.first = true)
    (h1 : reconstruct_first st = some st1) :
    ∃ q, st1.current_parent = some q ∧ q < n ∧ nonempty_dir l q ∧ some q ∉ ps ∧
      ∀ q', q' < n → nonempty_dir l q' → some q' ∉ ps →
        group_of l q' < group_of l q ∨ (group_of l q' = group_of l q ∧ q ≤ q') := by
  obtain ⟨below', s1, s2, s3⟩ := reconstruct_first_shape hf h1
  have hord := hinv.ord
  rw [s3, List.pairwise_cons] at hord
  have hx : st1.current_parent ∈ st.stack.flatten := by rw [s3]; exact List.mem_cons_self _ _
  obtain ⟨q, xq, qlt, qnd, qps⟩ := hinv.sound _ hx
  refine ⟨q, xq, qlt, qnd, qps, ?_⟩
  intro q' qlt' qnd' qps'
  have hq' := hinv.complete q' qlt' qnd' qps'
  rw [s3, List.mem_cons] at hq'
  rcases hq' with hq' | hq'
  · rw [xq] at hq'
    simp only [Option.some.injEq] at hq'
    exact Or.inr ⟨by rw [hq'], by omega⟩
  · rcases hord.1 (some q') hq' q q' xq rfl with ⟨g1, g2⟩ | g
    · exact Or.inr ⟨g1.symm, by omega⟩
    · exact Or.inl g

/-- The invariant holds after the first iteration. -/
theorem tree_inv_base {e : parsed_dir_entry_t} {rest : List parsed_dir_entry_t}
    {st1 st2 st3 : TreeState}
    (h1 : reconstruct_first TreeState.init = some st1)
    (h2 : reconstruct_push st1 0 (e.is_dir && !e.is_empty_dir) = some st2)
    (h3 : reconstruct_last st2 e.is_last_entry = some st3) :
    st1.current_parent = none ∧ tree_inv (e :: rest) 1 [none] st3 := by
  have hst1 : st1 = ⟨none, [[]], false⟩ := by
    simp only [reconstruct_first, TreeState.init, if_true, List.isEmpty_nil,
      Option.some.injEq] at h1
    exact h1.symm
  subst hst1
  obtain ⟨t1, t2, t3, t4⟩ := @tree_step_shape _ _ _ _ _ _ [] [] rfl h2 h3
  simp only [Bool.or_false, List.nil_append, List.flatten_nil, List.append_nil] at t1 t2 t3 t4
  have he : (e :: rest)[0]? = some e := List.getElem?_cons_zero
  have hnew : ∀ y ∈ (if (e.is_dir && !e.is_empty_dir) = true then [some 0] else []),
      y = some 0 ∧ (e.is_dir && !e.is_empty_dir) = true := by
    intro y hy
    by_cases hc : (e.is_dir && !e.is_empty_dir) = true
    · rw [if_pos hc, List.mem_singleton] at hy
      exact ⟨hy, hc⟩
    · rw [if_neg hc] at hy
      exact absurd hy (List.not_mem_nil _)
  refine ⟨rfl, rfl, ⟨Nat.le_refl _, by simp⟩, ?_, ?_, ?_, ?_, ?_, ?_⟩
  · intro q hq
    simp at hq
  · rw [t2]
    constructor
    · intro hl; exact ⟨e, he, hl⟩
    · rintro ⟨e', he', hl⟩
      rw [he] at he'
      simp only [Option.some.injEq] at he'
      rw [he']
      exact hl
  · intro y hy
    rw [t3] at hy
    obtain ⟨y0, hc⟩ := hnew y hy
    exact ⟨0, y0, by omega, ⟨e, he, hc⟩, by simp⟩
  · intro q qlt qnd _
    have hq0 : q = 0 := by omega
    subst hq0
    obtain ⟨e', he', hc⟩ := qnd
    rw [he] at he'
    simp only [Option.some.injEq] at he'
    subst he'
    rw [t3, if_pos hc]
    exact List.mem_singleton.2 rfl
  · rw [t3]
    by_cases hc : (e.is_dir && !e.is_empty_dir) = true
    · rw [if_pos hc]; exact List.pairwise_singleton _ _
    · rw [if_neg hc]; exact List.Pairwise.nil
  · intro hf
    rw [t2] at hf
    have hg := group_of_not_last (e :: rest) 0 e he hf
    refine ⟨_, [], t4 hf, ?_, ?_, ?_⟩
    · intro y hy a ya
      obtain ⟨y0, _⟩ := hnew y hy
      rw [y0] at ya
      simp only [Option.some.injEq] at ya
      subst ya
      exact hg.symm
    · intro y hy
      exact absurd hy (List.not_mem_nil _)
    · rw [t1]
      exact List.mem_singleton.2 rfl

/-- The parent written at every start of a sibling group from index `n` on. -/
theorem tree_inv_loop (l : List parsed_dir_entry_t) (m : Nat) :
    ∀ (n : Nat) (ps : List (Option Nat)) (st : TreeState) (r : List parsed_dir_entry_t),
      n + m = l.length → tree_inv l n ps st →
      reconstruct_loop (l.drop n) n st = some r →
      ∀ s, n ≤ s → s < l.length → is_last_at l (s - 1) →
        ∃ q, (ps ++ r.map parsed_dir_entry_t.parent)[s]? = some (some q) ∧ q < s ∧
          nonempty_dir l q ∧ some q ∉ (ps ++ r.map parsed_dir_entry_t.parent).take s ∧
          ∀ q', q' < s → nonempty_dir l q' →
            some q' ∉ (ps ++ r.map parsed_dir_entry_t.parent).take s →
            group_of l q' < group_of l q ∨ (group_of l q' = group_of l q ∧ q ≤ q') := by
  induction m with
  | zero =>
    intro n ps st r hnm _ _ s h1 h2 _
    omega
  | succ m ih =>
    intro n ps st r hnm hinv hloop s hns hs hlast
    have hn : n < l.length := by omega
    rw [List.drop_eq_getElem_cons hn] at hloop
    obtain ⟨st1, st2, st3, r', h1, h2, h3, h4, h5⟩ := reconstruct_loop_cons hloop
    have he : l[n]? = some l[n] := List.getElem?_eq_getElem hn
    have hinv' := tree_inv_step hinv he h1 h2 h3
    have hP : ps ++ r.map parsed_dir_entry_t.parent =
        (ps ++ [st1.current_parent]) ++ r'.map parsed_dir_entry_t.parent := by
      rw [h5, List.map_cons, List.append_assoc]
      rfl
    by_cases hsn : s = n
    · subst hsn
      have hf : st.first = true := hinv.first_iff.2 hlast
      obtain ⟨q, f1, f2, f3, f4, f5⟩ := tree_inv_front hinv hf h1
      have htake : (ps ++ r.map parsed_dir_entry_t.parent).take s = ps :=
        List.take_left' hinv.len
      refine ⟨q, ?_, f2, f3, by rw [htake]; exact f4, ?_⟩
      · rw [List.getElem?_append_right (by rw [hinv.len]), hinv.len, Nat.sub_self, h5]
        simp only [List.map_cons, List.getElem?_cons_zero]
        rw [f1]
      · intro q' g1 g2 g3
        rw [htake] at g3
        exact f5 q' g1 g2 g3
    · rw [hP]
      exact ih (n + 1) _ st3 r' (by omega) hinv' h4 s (by omega) hs hlast

theorem mem_take_iff {α : Type} (l : List α) (a : α) :
    ∀ s, a ∈ l.take s ↔ ∃ j, j < s ∧ l[j]? = some a := by
  induction l with
  | nil => intro s; simp
  | cons x xs ih =>
    intro s
    cases s with
    | zero => simp
    | succ s =>
      rw [List.take_succ_cons, List.mem_cons, ih]
      constructor
      · rintro (h | ⟨j, hj, hx⟩)
        · exact ⟨0, by omega, by rw [h]; exact List.getElem?_cons_zero⟩
        · exact ⟨j + 1, by omega, by rw [List.getElem?_cons_succ]; exact hx⟩
      · rintro ⟨j, hj, hx⟩
        cases j with
        | zero =>
          simp only [List.getElem?_cons_zero, Option.some.injEq] at hx
          exact Or.inl hx.symm
        | succ j =>
          rw [List.getElem?_cons_succ] at hx
          exact Or.inr ⟨j, by omega, hx⟩

theorem used_before_iff (res : List parsed_dir_entry_t) (s q : Nat) :
    some q ∈ (res.map parsed_dir_entry_t.parent).take s ↔ used_before res s q := by
  rw [mem_take_iff]
  unfold used_before
  constructor
  · rintro ⟨j, hj, hx⟩
    rw [List.getElem?_map] at hx
    cases hr : res[j]? with
    | none => rw [hr] at hx; exact absurd hx (by simp)
    | some ej =>
      rw [hr] at hx
      simp only [Option.map_some', Option.some.injEq] at hx
      exact ⟨j, ej, hj, hr, hx⟩
  · rintro ⟨j, ej, hj, hr, hp⟩
    exact ⟨j, hj, by rw [List.getElem?_map, hr]; simp [hp]⟩

/-- The parent of a sibling group after the first one: the first non-empty directory, in
the order of the pending parents, that is not yet the parent of an entry. -/
theorem reconstruct_tree_group_parent (dirs res : List parsed_dir_entry_t)
    (h : reconstruct_tree dirs = some res) :
    ∀ (s : Nat) (es : parsed_dir_entry_t), 0 < s → is_last_at dirs (s - 1) →
      res[s]? = some es →
      ∃ q, es.parent = some q ∧ q < s ∧ nonempty_dir dirs q ∧ ¬ used_before res s q ∧
        ∀ q', q' < s → nonempty_dir dirs q' → ¬ used_before res s q' →
          group_of dirs q' < group_of dirs q ∨
            (group_of dirs q' = group_of dirs q ∧ q ≤ q') := by
  intro s es hs hlast hes
  unfold reconstruct_tree at h
  have hlen := reconstruct_loop_length _ _ _ _ h
  cases dirs with
  | nil =>
    simp only [reconstruct_loop, Option.some.injEq] at h
    rw [← h] at hes
    exact absurd hes (by simp)
  | cons e rest =>
    obtain ⟨st1, st2, st3, r', h1, h2, h3, h4, h5⟩ := reconstruct_loop_cons h
    obtain ⟨hcp, hinv⟩ := @tree_inv_base e rest _ _ _ h1 h2 h3
    have hsl : s < (e :: rest).length := by
      by_contra hcon
      rw [List.getElem?_eq_none (by omega)] at hes
      exact absurd hes (by simp)
    have hP : res.map parsed_dir_entry_t.parent =
        [none] ++ r'.map parsed_dir_entry_t.parent := by
      rw [h5, List.map_cons, hcp]
      rfl
    obtain ⟨q, g1, g2, g3, g4, g5⟩ := tree_inv_loop (e :: rest) rest.length 1 [none] st3 r'
      (by simp only [List.length_cons]; omega) hinv h4 s hs hsl hlast
    rw [← hP] at g1 g4 g5
    refine ⟨q, ?_, g2, g3, fun hu => g4 ((used_before_iff res s q).2 hu), ?_⟩
    · rw [List.getElem?_map, hes] at g1
      simp only [Option.map_some', Option.some.injEq] at g1
      exact g1
    · intro q' k1 k2 k3
      exact g5 q' k1 k2 (fun hmem => k3 ((used_before_iff res s q').1 hmem))

theorem reconstruct_tree_parent (dirs res : List parsed_dir_entry_t)
    (h : reconstruct_tree dirs = some res) :
    ∀ (k : Nat) (ek : parsed_dir_entry_t), res[k]? = some ek →
      ∀ p : Nat, ek.parent = some p → p < k ∧ nonempty_dir dirs p := by
  unfold reconstruct_tree at h
  rw [reconstruct_loop_init] at h
  intro k ek hk p hp
  have := reconstruct_loop_forest (nonempty_dir dirs) dirs 0 TreeState.started res h
    (fun k e hke hc => by rw [Nat.zero_add]; exact ⟨e, hke, hc⟩)
    (fun d hd x hx => by
      simp only [TreeState.started, List.mem_singleton] at hd
      subst hd
      exact absurd hx (by simp))
    k ek hk
  rcases this with ⟨n1, _, n3⟩ | ⟨j, g1, g2, g3⟩
  · have hnone := reconstruct_loop_group dirs 0 TreeState.started res h rfl k ek hk n1
    rw [hnone] at hp
    exact absurd hp (by simp [TreeState.started])
  · rw [hp] at g1
    simp only [Option.some.injEq] at g1
    subst g1
    exact ⟨by omega, g3⟩

theorem no_last_between_of_group (l : List parsed_dir_entry_t) {a b : Nat}
    (hg : group_of l a = group_of l b) : no_last_between l a b := by
  intro k e hak hkb hk
  by_contra hcon
  have hl : e.is_last_entry = true := by simpa using hcon
  have h1 := group_of_succ l k e hk
  rw [if_pos hl] at h1
  have h2 := group_of_mono l hak
  have h3 := group_of_mono l (show k + 1 ≤ b by omega)
  omega

theorem group_start_exists (l : List parsed_dir_entry_t) :
    ∀ j, 0 < group_of l j →
      ∃ s, 0 < s ∧ s ≤ j ∧ is_last_at l (s - 1) ∧ group_of l s = group_of l j := by
  intro j
  induction j with
  | zero =>
    intro h
    simp [group_of] at h
  | succ j ih =>
    intro h
    cases hj : l[j]? with
    | none =>
      have hg : group_of l (j + 1) = group_of l j := by
        unfold group_of
        rw [List.take_succ, hj]
        simp
      rw [hg] at h ⊢
      obtain ⟨s, s1, s2, s3, s4⟩ := ih h
      exact ⟨s, s1, by omega, s3, s4⟩
    | some e =>
      cases hl : e.is_last_entry with
      | true => exact ⟨j + 1, by omega, Nat.le_refl _, ⟨e, by simpa using hj, hl⟩, rfl⟩
      | false =>
        have hg := group_of_not_last l j e hj hl
        rw [hg] at h ⊢
        obtain ⟨s, s1, s2, s3, s4⟩ := ih h
        exact ⟨s, s1, by omega, s3, s4⟩

theorem getElem?_of_le {res : List parsed_dir_entry_t} {j s : Nat} {ej : parsed_dir_entry_t}
    (hj : res[j]? = some ej) (hs : s ≤ j) : ∃ es, res[s]? = some es := by
  have hjl : j < res.length := by
    by_contra hcon
    rw [List.getElem?_eq_none (by omega)] at hj
    exact absurd hj (by simp)
  exact ⟨res[s], List.getElem?_eq_getElem (by omega)⟩

/-- The start of the sibling group of an entry that has a parent: the entry there has the
same parent, and what `reconstruct_tree_group_parent` says of that parent. -/
theorem group_start_of_child (dirs res : List parsed_dir_entry_t)
    (h : reconstruct_tree dirs = some res) (k p : Nat) (ek : parsed_dir_entry_t)
    (hk : res[k]? = some ek) (hp : ek.parent = some p) :
    ∃ s es, 0 < s ∧ s ≤ k ∧ is_last_at dirs (s - 1) ∧ group_of dirs s = group_of dirs k ∧
      res[s]? = some es ∧ es.parent = some p ∧ p < s ∧ ¬ used_before res s p ∧
      ∀ q', q' < s → nonempty_dir dirs q' → ¬ used_before res s q' →
        group_of dirs q' < group_of dirs p ∨ (group_of dirs q' = group_of dirs p ∧ p ≤ q') := by
  have hloop : reconstruct_loop dirs 0 TreeState.started = some res := by
    rw [← reconstruct_loop_init]; exact h
  have hpos : 0 < group_of dirs k := by
    by_contra hcon
    have h0 : group_of dirs 0 = group_of dirs k := by
      have : group_of dirs 0 = 0 := by simp [group_of]
      omega
    have := reconstruct_loop_group dirs 0 TreeState.started res hloop rfl k ek hk
      (no_last_between_of_group dirs h0)
    rw [this] at hp
    exact absurd hp (by simp [TreeState.started])
  obtain ⟨s, s1, s2, s3, s4⟩ := group_start_exists dirs k hpos
  obtain ⟨es, hes⟩ := getElem?_of_le hk s2
  have hsame := reconstruct_loop_same_group dirs 0 TreeState.started res hloop s k es ek s2
    hes hk (no_last_between_of_group dirs s4)
  obtain ⟨q, g1, g2, g3, g4, g5⟩ := reconstruct_tree_group_parent dirs res h s es s1 s3 hes
  rw [hsame, hp] at g1
  simp only [Option.some.injEq] at g1
  subst g1
  exact ⟨s, es, s1, s2, s3, s4, hes, by rw [hsame, hp], g2, g4, g5⟩

/-- A non-empty directory is the parent of the entries of one sibling group only. -/
theorem same_parent_same_group (dirs res : List parsed_dir_entry_t)
    (h : reconstruct_tree dirs = some res) :
    ∀ (j1 j2 q : Nat) (e1 e2 : parsed_dir_entry_t), res[j1]? = some e1 →
      res[j2]? = some e2 → e1.parent = some q → e2.parent = some q →
      group_of dirs j1 = group_of dirs j2 := by
  have aux : ∀ (j1 j2 q : Nat) (e1 e2 : parsed_dir_entry_t), res[j1]? = some e1 →
      res[j2]? = some e2 → e1.parent = some q → e2.parent = some q →
      ¬ group_of dirs j1 < group_of dirs j2 := by
    intro j1 j2 q e1 e2 h1 h2 p1 p2 hlt
    obtain ⟨s, es, s1, s2, s3, s4, s5, s6, s7, s8, _⟩ :=
      group_start_of_child dirs res h j2 q e2 h2 p2
    have hj1 : j1 < s := by
      by_contra hcon
      have := group_of_mono dirs (show s ≤ j1 by omega)
      omega
    exact s8 ⟨j1, e1, hj1, h1, p1⟩
  intro j1 j2 q e1 e2 h1 h2 p1 p2
  have a1 := aux j1 j2 q e1 e2 h1 h2 p1 p2
  have a2 := aux j2 j1 q e2 e1 h2 h1 p2 p1
  omega

/-- The sibling group of an entry comes after the one of its parent. -/
theorem group_of_parent_lt (dirs res : List parsed_dir_entry_t)
    (h : reconstruct_tree dirs = some res) (k p : Nat) (ek : parsed_dir_entry_t)
    (hk : res[k]? = some ek) (hp : ek.parent = some p) :
    group_of dirs p < group_of dirs k := by
  obtain ⟨s, es, s1, s2, s3, s4, s5, s6, s7, _, _⟩ :=
    group_start_of_child dirs res h k p ek hk hp
  have := group_of_last_lt dirs s7 s3
  omega

/-- The descendants of a non-empty directory `A` come before the children of a non-empty
directory `B` that follows `A` in the same sibling group. -/
theorem descendants_before_children (dirs res : List parsed_dir_entry_t)
    (h : reconstruct_tree dirs = some res) (A B c : Nat) (ec : parsed_dir_entry_t)
    (hAB : A < B) (hg : group_of dirs A = group_of dirs B) (hA : nonempty_dir dirs A)
    (hc : res[c]? = some ec) (hcB : ec.parent = some B) :
    ∀ (m d : Nat), ancestor (res.map parsed_dir_entry_t.parent) (m + 1) d = some A →
      d < c := by
  obtain ⟨s, es, s1, s2, s3, s4, s5, s6, s7, s8, s9⟩ :=
    group_start_of_child dirs res h c B ec hc hcB
  have hused : ∀ e, e < s → nonempty_dir dirs e →
      (group_of dirs B < group_of dirs e ∨ (group_of dirs e = group_of dirs B ∧ e < B)) →
      used_before res s e := by
    intro e he hnd hcase
    by_contra hcon
    have := s9 e he hnd hcon
    omega
  have hchild : ∀ (d e : Nat) (ed : parsed_dir_entry_t), res[d]? = some ed →
      ed.parent = some e → used_before res s e → d < s := by
    intro d e ed hd hpe ⟨j, ej, hj, hrj, hpj⟩
    have hsame := same_parent_same_group dirs res h d j e ed ej hd hrj hpe hpj
    have hlt := group_of_last_lt dirs hj s3
    by_contra hcon
    have := group_of_mono dirs (show s ≤ d by omega)
    omega
  have key : ∀ (m d : Nat), ancestor (res.map parsed_dir_entry_t.parent) (m + 1) d = some A →
      d < s ∧ group_of dirs A < group_of dirs d := by
    intro m
    induction m with
    | zero =>
      intro d hd
      simp only [ancestor] at hd
      cases hr : res[d]? with
      | none =>
        rw [List.getD_eq_getElem?_getD, List.getElem?_map, hr] at hd
        simp at hd
      | some ed =>
        rw [map_parent_getD res d ed hr] at hd
        cases hp : ed.parent with
        | none => rw [hp] at hd; simp at hd
        | some p =>
          rw [hp] at hd
          simp only [Option.some.injEq] at hd
          subst hd
          exact ⟨hchild d p ed hr hp (hused p (by omega) hA (Or.inr ⟨hg, hAB⟩)),
            group_of_parent_lt dirs res h d p ed hr hp⟩
    | succ m ih =>
      intro d hd
      rw [ancestor] at hd
      cases hr : res[d]? with
      | none =>
        rw [List.getD_eq_getElem?_getD, List.getElem?_map, hr] at hd
        simp at hd
      | some ed =>
        rw [map_parent_getD res d ed hr] at hd
        cases hp : ed.parent with
        | none => rw [hp] at hd; simp at hd
        | some p =>
          rw [hp] at hd
          dsimp only at hd
          obtain ⟨i1, i2⟩ := ih p hd
          have hnd := (reconstruct_tree_parent dirs res h d ed hr p hp).2
          have hgd := group_of_parent_lt dirs res h d p ed hr hp
          exact ⟨hchild d p ed hr hp (hused p i1 hnd (Or.inl (by omega))), by omega⟩
  intro m d hd
  have := (key m d hd).1
  omega

/-! ## The occurrences that `search_binary_substring` returns -/

theorem occurrences_in_mem (needle : List Nat) (range : List Nat) :
    ∀ it i, i ∈ occurrences_in needle range it ↔
      it ≤ i ∧ i < it + range.length ∧ (range.drop (i - it)).take needle.length = needle := by
  induction range with
  | nil => intro it i; simp [occurrences_in]; omega
  | cons b rest ih =>
    intro it i
    have hrec : i ∈ occurrences_in needle rest (it + 1) ↔
        it < i ∧ i < it + (b :: rest).length ∧
          ((b :: rest).drop (i - it)).take needle.length = needle := by
      rw [ih (it + 1) i, List.length_cons]
      constructor
      · rintro ⟨h1, h2, h3⟩
        refine ⟨h1, by omega, ?_⟩
        rw [show i - it = (i - (it + 1)) + 1 by omega, List.drop_succ_cons]
        exact h3
      · rintro ⟨h1, h2, h3⟩
        refine ⟨h1, by omega, ?_⟩
        rw [show i - it = (i - (it + 1)) + 1 by omega, List.drop_succ_cons] at h3
        exact h3
    simp only [occurrences_in]
    by_cases hm : (b :: rest).take needle.length = needle
    · rw [if_pos hm, List.mem_cons, hrec]
      constructor
      · rintro (h | ⟨h1, h2, h3⟩)
        · subst h
          refine ⟨Nat.le_refl _, by simp, ?_⟩
          rw [Nat.sub_self, List.drop_zero]
          exact hm
        · exact ⟨by omega, h2, h3⟩
      · rintro ⟨h1, h2, h3⟩
        by_cases he : i = it
        · exact Or.inl he
        · exact Or.inr ⟨by omega, h2, h3⟩
    · rw [if_neg hm, hrec]
      constructor
      · rintro ⟨h1, h2, h3⟩
        exact ⟨by omega, h2, h3⟩
      · rintro ⟨h1, h2, h3⟩
        by_cases he : i = it
        · subst he
          rw [Nat.sub_self, List.drop_zero] at h3
          exact absurd h3 hm
        · exact ⟨by omega, h2, h3⟩

theorem occurrences_in_sorted (needle : List Nat) (range : List Nat) :
    ∀ it, (occurrences_in needle range it).Pairwise (fun a b => a < b) := by
  induction range with
  | nil => intro it; simp [occurrences_in]
  | cons b rest ih =>
    intro it
    simp only [occurrences_in]
    split
    · rw [List.pairwise_cons]
      refine ⟨?_, ih (it + 1)⟩
      intro a ha
      have := ((occurrences_in_mem needle rest (it + 1) a).mp ha).1
      omega
    · exact ih (it + 1)

/-- The call `std::search` finds the first of the occurrences that are left. -/
theorem std_search_occurrences (needle : List Nat) (range : List Nat) :
    ∀ it,
      (std_search needle range it = it + range.length ∧ occurrences_in needle range it = []) ∨
      (std_search needle range it < it + range.length ∧
        occurrences_in needle range it =
          std_search needle range it ::
            occurrences_in needle (range.drop (std_search needle range it - it + 1))
              (std_search needle range it + 1)) := by
  induction range with
  | nil => intro it; left; simp [std_search, occurrences_in]
  | cons b rest ih =>
    intro it
    simp only [std_search, occurrences_in]
    by_cases hm : (b :: rest).take needle.length = needle
    · rw [if_pos hm, if_pos hm]
      right
      refine ⟨by simp, ?_⟩
      rw [Nat.sub_self, Nat.zero_add, List.drop_succ_cons, List.drop_zero]
    · rw [if_neg hm, if_neg hm]
      have hb := std_search_bounds needle rest (it + 1)
      rcases ih (it + 1) with ⟨h1, h2⟩ | ⟨h1, h2⟩
      · left
        refine ⟨by rw [h1, List.length_cons]; omega, h2⟩
      · right
        refine ⟨by rw [List.length_cons]; omega, ?_⟩
        rw [show std_search needle rest (it + 1) - it + 1 =
          (std_search needle rest (it + 1) - (it + 1) + 1) + 1 by omega, List.drop_succ_cons]
        exact h2

/-- The loop of `search_binary_substring` appends the occurrences that are left. -/
theorem search_binary_substring_loop_eq (haystack needle : List Nat) (fuel : Nat) :
    ∀ (it : Nat) (occurrences : List Nat), it ≤ haystack.length →
      haystack.length - it + 2 ≤ fuel →
      search_binary_substring_loop haystack needle fuel it occurrences =
        Exec.ret (occurrences ++ occurrences_in needle (haystack.drop it) it) := by
  induction fuel with
  | zero => intro _ _ _ h; omega
  | succ fuel ih =>
    intro it occurrences hle hfuel
    simp only [search_binary_substring_loop]
    by_cases hit : it = haystack.length
    · subst hit
      simp [occurrences_in]
    · rw [if_pos hit]
      have hb := std_search_bounds needle (haystack.drop it) it
      have hs := std_search_occurrences needle (haystack.drop it) it
      rw [List.length_drop] at hb hs
      rw [show it + (haystack.length - it) = haystack.length by omega] at hs
      rcases hs with ⟨h1, h2⟩ | ⟨h1, h2⟩
      · rw [h1]
        simp only [ne_eq, not_true_eq_false, if_false]
        rw [ih _ _ (Nat.le_refl _) (by omega), h2, List.drop_length]
        rfl
      · rw [if_pos (Nat.ne_of_lt h1), ih _ _ (by omega) (by omega), h2, List.drop_drop,
          List.append_assoc]
        rw [show it + (std_search needle (List.drop it haystack) it - it + 1) =
          std_search needle (List.drop it haystack) it + 1 by omega]
        rfl

theorem search_binary_substring_eq (haystack needle : List Nat) :
    search_binary_substring haystack needle =
      Exec.ret (if needle.length = 0 ∨ haystack.length < needle.length then []
        else occurrences_in needle haystack 0) := by
  unfold search_binary_substring
  split
  · rfl
  · rw [search_binary_substring_loop_eq haystack needle _ 0 [] (Nat.zero_le _) (by omega)]
    rfl

theorem le_bytes_dat_sig : le_bytes 4 DAT_SIG = [0xCC, 0x33, 0xCC, 0x33] := by decide

/-- The check `check_sig` succeeds where the four bytes of `DAT_SIG` lie. -/
theorem check_sig_dat_sig (file_data : SafeArray) (hs : file_data.size < 2 ^ 64) (o : Nat)
    (h : (file_data.m_buffer.drop o).take 4 = le_bytes 4 DAT_SIG) :
    check_sig file_data o DAT_SIG = Exec.ret true := by
  have hlen : o + 4 ≤ file_data.size := by
    have := congrArg List.length h
    rw [List.length_take, List.length_drop, le_bytes_dat_sig] at this
    unfold SafeArray.size
    simp only [List.length_cons, List.length_nil] at this
    omega
  unfold check_sig SafeArray.get_typed SafeArray.deref
  rw [Nat.mod_eq_of_lt (show o + 4 < 2 ^ 64 by omega), if_neg (by omega)]
  dsimp only
  rw [if_pos hlen, h]
  rfl

/-! ## The window of `decompress` before its first byte -/

theorem window_inv_create (out : List Nat) : window_inv (HistoryBuffer.create out) out [] := by
  refine ⟨ring_inv_create out, ?_⟩
  intro i _ hi
  unfold HistoryBuffer.create
  dsimp only
  rw [List.getD_eq_getElem?_getD, List.getElem?_replicate, if_pos hi]
  rfl

theorem flush_if_full_history (h : HistoryBuffer) :
    h.flush_if_full.m_history = h.m_history := by
  unfold HistoryBuffer.flush_if_full HistoryBuffer.flush
  split <;> rfl

theorem window_inv_flush_if_full (h : HistoryBuffer) (out0 produced : List Nat)
    (hi : window_inv h out0 produced) :
    window_inv h.flush_if_full out0 produced ∧ h.flush_if_full.m_offset < 2048 := by
  obtain ⟨a, b⟩ := ring_inv_flush_if_full h out0 produced hi.1
  refine ⟨⟨a, ?_⟩, b⟩
  rw [flush_if_full_history]
  exact hi.2

theorem window_inv_store (h : HistoryBuffer) (out0 produced : List Nat) (byte : Nat)
    (hi : window_inv h out0 produced) (hlt : h.m_offset < 2048) :
    window_inv (h.store byte) out0 (produced ++ [byte]) := by
  refine ⟨ring_inv_store h out0 produced byte hi.1 hlt, ?_⟩
  intro i h1 h2
  rw [List.length_append, List.length_singleton] at h1
  obtain ⟨⟨_, _, a3, _, _, _⟩, hz⟩ := hi
  unfold HistoryBuffer.store
  dsimp only
  rw [getD_set_ne _ _ _ _ (by omega)]
  exact hz i (by omega) h2

theorem window_inv_put (h : HistoryBuffer) (out0 produced : List Nat) (byte : Nat)
    (hi : window_inv h out0 produced) :
    window_inv (h.put byte) out0 (produced ++ [byte]) := by
  obtain ⟨a, b⟩ := window_inv_flush_if_full h out0 produced hi
  exact window_inv_store _ _ _ _ a b

theorem window_inv_put_ref (offset : Nat) (ho1 : 1 ≤ offset) (ho2 : offset ≤ 2047)
    (length : Nat) :
    ∀ (h : HistoryBuffer) (out0 produced : List Nat), window_inv h out0 produced →
      window_inv (h.put_ref offset length) out0 (window_copy offset length produced) := by
  induction length with
  | zero => intro h out0 produced hi; exact hi
  | succ length ih =>
    intro h out0 produced hi
    obtain ⟨a, b⟩ := window_inv_flush_if_full h out0 produced hi
    simp only [HistoryBuffer.put_ref, window_copy]
    have hbyte : h.flush_if_full.m_history.getD
        ((if h.flush_if_full.m_offset ≥ offset then h.flush_if_full.m_offset - offset
          else h.flush_if_full.m_offset + 2048 - offset) % 2048) 0 =
        window_byte produced offset := by
      obtain ⟨⟨_, _, a3, a4, _, a6⟩, az⟩ := a
      unfold window_byte
      by_cases hle : offset ≤ produced.length
      · rw [if_pos hle]
        have hj := a6 (produced.length - offset) (by omega) (by omega)
        rw [← hj]
        congr 1
        by_cases hge : h.flush_if_full.m_offset ≥ offset
        · rw [if_pos hge]; omega
        · rw [if_neg hge]; omega
      · rw [if_neg hle]
        have hm : h.flush_if_full.m_offset = produced.length := by omega
        rw [if_neg (by omega), Nat.mod_eq_of_lt (by omega)]
        exact az _ (by omega) (by omega)
    rw [hbyte]
    exact ih _ _ _ (window_inv_store _ _ _ _ a b)

theorem window_inv_foldl (ts : List Token) :
    ∀ (h : HistoryBuffer) (out0 produced : List Nat), window_inv h out0 produced →
      offsets_in_window ts →
      window_inv (ts.foldl HistoryBuffer.apply h) out0 (window_expand ts produced) := by
  induction ts with
  | nil => intro h out0 produced hi _; exact hi
  | cons t ts ih =>
    intro h out0 produced hi hw
    cases t with
    | literal byte =>
      simp only [List.foldl_cons, HistoryBuffer.apply, window_expand]
      simp only [offsets_in_window] at hw
      exact ih _ _ _ (window_inv_put h out0 produced byte hi) hw
    | backref offset length =>
      simp only [List.foldl_cons, HistoryBuffer.apply, window_expand]
      simp only [offsets_in_window] at hw
      exact ih _ _ _ (window_inv_put_ref offset hw.1 hw.2.1 length h out0 produced hi) hw.2.2

theorem window_copy_length (offset length : Nat) :
    ∀ produced : List Nat,
      (window_copy offset length produced).length = produced.length + length := by
  induction length with
  | zero => intro produced; rfl
  | succ length ih =>
    intro produced
    simp only [window_copy]
    rw [ih, List.length_append, List.length_singleton]
    omega

theorem window_expand_length (ts : List Token) :
    ∀ produced : List Nat,
      (window_expand ts produced).length =
        produced.length + (literal_count ts + backref_length_sum ts) := by
  induction ts with
  | nil => intro produced; rfl
  | cons t ts ih =>
    intro produced
    cases t with
    | literal byte =>
      simp only [window_expand, literal_count, backref_length_sum]
      rw [ih, List.length_append, List.length_singleton]
      omega
    | backref offset length =>
      simp only [window_expand, literal_count, backref_length_sum]
      rw [ih, window_copy_length]
      omega

/-- What `decompress` appends is the reference expansion of the tokens it has read, whatever
it returns. -/
theorem decompress_window (input : SafeArray) (out : List Nat) :
    ∃ ts sl b, tokens_of input = Run.done (ts, sl, b) ∧
      decompress input out = Run.done (b, out ++ window_expand ts []) := by
  obtain ⟨⟨ts, sl, b⟩, ht⟩ := tokens_of_total input
  refine ⟨ts, sl, b, ht, ?_⟩
  rw [decompress_eq, ht]
  have hw := reads_to_offsets_in_window ts _ _ ((tokens_of_iff input ts sl b).mp ht).1
  have hi := window_inv_foldl ts (HistoryBuffer.create out) out [] (window_inv_create out) hw
  have hf := ring_inv_flush _ _ _ hi.1
  simp only [HistoryBuffer.flush]
  rw [hf]

/-! ## The pending parents are enough -/

theorem nonempty_dir_count_succ (l : List parsed_dir_entry_t) (k : Nat)
    (e : parsed_dir_entry_t) (hk : l[k]? = some e) :
    nonempty_dir_count l (k + 1) =
      nonempty_dir_count l k + if (e.is_dir && !e.is_empty_dir) = true then 1 else 0 := by
  unfold nonempty_dir_count
  rw [List.take_succ, hk, List.countP_append]
  simp [List.countP_cons]

theorem pending_inv_init (l : List parsed_dir_entry_t) : pending_inv l 0 TreeState.init := by
  refine ⟨?_, ?_, ?_, ?_⟩
  · simp [TreeState.init, group_of, nonempty_dir_count]
  · simp [TreeState.init]
  · intro _ d hd
    simp only [TreeState.init, List.mem_singleton] at hd
    rw [hd]
    simp
  · intro h
    simp [TreeState.init] at h

/-- The block `if (first)` on a stack whose top deque is not empty. -/
theorem reconstruct_first_defined {st : TreeState} (hf : st.first = true)
    {front : Option Nat} {top : List (Option Nat)} {below : List (List (Option Nat))}
    (hs : st.stack = (front :: top) :: below) (hne : ∀ d ∈ below, d ≠ []) :
    ∃ below', reconstruct_first st = some ⟨front, [] :: below', false⟩ ∧
      below'.flatten.length + 1 = st.stack.flatten.length ∧ ∀ d ∈ below', d ≠ [] := by
  unfold reconstruct_first
  rw [if_pos hf, hs]
  dsimp only
  refine ⟨_, rfl, ?_, ?_⟩
  · cases top with
    | nil => simp
    | cons y ys => simp
  · cases top with
    | nil => simpa using hne
    | cons y ys =>
      intro d hd
      simp only [List.isEmpty_cons, Bool.false_eq_true, if_false, List.mem_cons] at hd
      rcases hd with hd | hd
      · rw [hd]; simp
      · exact hne d hd

/-- The statement that pushes the entry and the block `if (is_last_entry)` on a stack that
is not empty. -/
theorem reconstruct_push_last_defined {st1 : TreeState} {top : List (Option Nat)}
    {below : List (List (Option Nat))} (hs : st1.stack = top :: below)
    (hne : ∀ d ∈ below, d ≠ []) (i : Nat) (c b : Bool) :
    ∃ st2 st3, reconstruct_push st1 i c = some st2 ∧ reconstruct_last st2 b = some st3 ∧
      st3.first = (b || st1.first) ∧
      st3.stack.flatten.length =
        top.length + (if c = true then 1 else 0) + below.flatten.length ∧
      (b = true → ∀ d ∈ st3.stack, d ≠ []) ∧
      (b = false → ∃ top', st3.stack = top' :: below) := by
  have hpush : ∃ st2, reconstruct_push st1 i c = some st2 := by
    unfold reconstruct_push
    rw [hs]
    cases c <;> simp
  obtain ⟨st2, h2⟩ := hpush
  have hlast : ∃ st3, reconstruct_last st2 b = some st3 := by
    have hs2 : ∃ t, st2.stack = t :: below := by
      unfold reconstruct_push at h2
      rw [hs] at h2
      cases c with
      | true =>
        simp only [if_true, Option.some.injEq] at h2
        rw [← h2]
        exact ⟨_, rfl⟩
      | false =>
        simp only [Bool.false_eq_true, if_false, Option.some.injEq] at h2
        rw [← h2]
        exact ⟨_, hs⟩
    obtain ⟨t, ht⟩ := hs2
    unfold reconstruct_last
    rw [ht]
    cases b <;> simp
  obtain ⟨st3, h3⟩ := hlast
  obtain ⟨_, a2, a3, a4⟩ := tree_step_shape hs h2 h3
  refine ⟨st2, st3, h2, h3, a2, ?_, ?_, ?_⟩
  · rw [a3, List.length_append, List.length_append]
    cases c <;> simp
  · intro hb
    subst hb
    have hst2 : st2.stack = (top ++ if c = true then [some i] else []) :: below := by
      unfold reconstruct_push at h2
      rw [hs] at h2
      cases c with
      | true =>
        simp only [if_true, Option.some.injEq] at h2
        rw [← h2]
        simp
      | false =>
        simp only [Bool.false_eq_true, if_false, Option.some.injEq] at h2
        rw [← h2, hs]
        simp
    unfold reconstruct_last at h3
    rw [hst2] at h3
    simp only [if_true, Option.some.injEq] at h3
    rw [← h3]
    dsimp only
    intro d hd
    by_cases hl : (top ++ if c = true then [some i] else []).length = 0
    · rw [if_pos hl] at hd
      exact hne d hd
    · rw [if_neg hl, List.mem_cons] at hd
      rcases hd with hd | hd
      · rw [hd]
        intro h0
        rw [h0] at hl
        exact hl rfl
      · exact hne d hd
  · intro hb
    exact ⟨_, a4 hb⟩

theorem is_last_at_iff {l : List parsed_dir_entry_t} {n : Nat} {e : parsed_dir_entry_t}
    (he : l[n]? = some e) : is_last_at l n ↔ e.is_last_entry = true := by
  unfold is_last_at
  constructor
  · rintro ⟨e', h1, h2⟩
    rw [he] at h1
    simp only [Option.some.injEq] at h1
    rw [h1]
    exact h2
  · intro h
    exact ⟨e, he, h⟩

/-- One iteration of the loop of `reconstruct_tree` from a state that satisfies
`pending_inv`: no block of the iteration meets an empty stack or an empty deque. -/
theorem pending_inv_step {l : List parsed_dir_entry_t} {n : Nat} {st : TreeState}
    {e : parsed_dir_entry_t} (hinv : pending_inv l n st) (he : l[n]? = some e)
    (hyp : 0 < n → is_last_at l (n - 1) → group_of l n ≤ nonempty_dir_count l n) :
    (st.first = true → ∃ front top below, st.stack = (front :: top) :: below) ∧
    (st.first = false → ∃ top below, st.stack = top :: below) ∧
    ∃ st1 st2 st3, reconstruct_first st = some st1 ∧
      reconstruct_push st1 n (e.is_dir && !e.is_empty_dir) = some st2 ∧
      reconstruct_last st2 e.is_last_entry = some st3 ∧ pending_inv l (n + 1) st3 := by
  have hg := group_of_succ l n e he
  have hN := nonempty_dir_count_succ l n e he
  have hcount := hinv.count
  have hlast := is_last_at_iff he
  cases hf : st.first with
  | false =>
    obtain ⟨top, below, hs, hne⟩ := hinv.shape_mid hf
    refine ⟨fun h => absurd h (by simp), fun _ => ⟨top, below, hs⟩, ?_⟩
    have h1 : reconstruct_first st = some st := by
      unfold reconstruct_first
      rw [hf]
      rfl
    obtain ⟨st2, st3, h2, h3, a1, a2, a3, a4⟩ :=
      reconstruct_push_last_defined hs hne n (e.is_dir && !e.is_empty_dir) e.is_last_entry
    refine ⟨st, st2, st3, h1, h2, h3, ?_⟩
    rw [hf, Bool.or_false] at a1
    rw [hf, hs, List.flatten_cons, List.length_append] at hcount
    simp only [Bool.false_eq_true, if_false] at hcount
    refine ⟨?_, ?_, ?_, ?_⟩
    · rw [a2, hg, hN, a1]
      by_cases hb : e.is_last_entry = true
      · simp only [if_pos hb]; omega
      · simp only [if_neg hb]; omega
    · rw [a1, Nat.add_sub_cancel, hlast]
      simp
    · intro hb
      rw [a1] at hb
      exact a3 hb
    · intro hb
      rw [a1] at hb
      obtain ⟨top', ht⟩ := a4 hb
      exact ⟨top', below, ht, hne⟩
  | true =>
    rw [hf] at hcount
    simp only [if_true, Nat.add_zero] at hcount
    have hpos : 1 ≤ st.stack.flatten.length := by
      by_cases hn : n = 0
      · subst hn
        have : group_of l 0 = 0 := by simp [group_of]
        omega
      · rcases (hinv.first_iff.mp hf) with h0 | h0
        · exact absurd h0 hn
        · have := hyp (by omega) h0
          omega
    have hshape := hinv.shape_first hf
    cases hs : st.stack with
    | nil =>
      rw [hs] at hpos
      simp at hpos
    | cons top below =>
      rw [hs] at hshape
      have hne : ∀ d ∈ below, d ≠ [] := fun d hd => hshape d (List.mem_cons_of_mem _ hd)
      cases top with
      | nil => exact absurd rfl (hshape [] (List.mem_cons_self _ _))
      | cons front top =>
        refine ⟨fun _ => ⟨front, top, below, rfl⟩, fun h => absurd h (by simp), ?_⟩
        obtain ⟨below', h1, hlen, hne'⟩ := reconstruct_first_defined hf hs hne
        obtain ⟨st2, st3, h2, h3, a1, a2, a3, a4⟩ :=
          @reconstruct_push_last_defined ⟨front, [] :: below', false⟩ [] below' rfl hne' n
            (e.is_dir && !e.is_empty_dir) e.is_last_entry
        refine ⟨_, st2, st3, h1, h2, h3, ?_⟩
        rw [Bool.or_false] at a1
        rw [List.length_nil, Nat.zero_add] at a2
        refine ⟨?_, ?_, ?_, ?_⟩
        · rw [a2, hg, hN, a1]
          by_cases hb : e.is_last_entry = true
          · simp only [if_pos hb]; omega
          · simp only [if_neg hb]; omega
        · rw [a1, Nat.add_sub_cancel, hlast]
          simp
        · intro hb
          rw [a1] at hb
          exact a3 hb
        · intro hb
          rw [a1] at hb
          obtain ⟨top', ht⟩ := a4 hb
          exact ⟨top', below', ht, hne'⟩

theorem reconstruct_loop_defined (l : List parsed_dir_entry_t)
    (hyp : ∀ n, 0 < n → n < l.length → is_last_at l (n - 1) →
      group_of l n ≤ nonempty_dir_count l n) (m : Nat) :
    ∀ (n : Nat) (st : TreeState), n + m = l.length → pending_inv l n st →
      ∃ r, reconstruct_loop (l.drop n) n st = some r := by
  induction m with
  | zero =>
    intro n st hn _
    rw [List.drop_of_length_le (by omega)]
    exact ⟨[], rfl⟩
  | succ m ih =>
    intro n st hnm hinv
    have hn : n < l.length := by omega
    have he : l[n]? = some l[n] := List.getElem?_eq_getElem hn
    obtain ⟨_, _, st1, st2, st3, h1, h2, h3, hinv'⟩ :=
      pending_inv_step hinv he (fun h0 hl => hyp n h0 hn hl)
    obtain ⟨r', hr⟩ := ih (n + 1) st3 (by omega) hinv'
    rw [List.drop_eq_getElem_cons hn]
    simp only [reconstruct_loop]
    rw [h1]
    dsimp only
    rw [h2]
    dsimp only
    rw [h3]
    dsimp only
    rw [hr]
    exact ⟨_, rfl⟩

theorem reconstruct_state_defined (l : List parsed_dir_entry_t)
    (hyp : ∀ n, 0 < n → n < l.length → is_last_at l (n - 1) →
      group_of l n ≤ nonempty_dir_count l n) :
    ∀ n, n ≤ l.length → ∃ st, reconstruct_state l n = some st ∧ pending_inv l n st := by
  intro n
  induction n with
  | zero => intro _; exact ⟨_, rfl, pending_inv_init l⟩
  | succ n ih =>
    intro hn
    obtain ⟨st, hst, hinv⟩ := ih (by omega)
    have hlt : n < l.length := by omega
    have he : l[n]? = some l[n] := List.getElem?_eq_getElem hlt
    obtain ⟨_, _, st1, st2, st3, h1, h2, h3, hinv'⟩ :=
      pending_inv_step hinv he (fun h0 hl => hyp n h0 hlt hl)
    refine ⟨st3, ?_, hinv'⟩
    simp only [reconstruct_state]
    rw [hst, he]
    dsimp only
    rw [h1]
    dsimp only
    rw [h2]
    exact h3

/-! ## The claims -/

/-- C1: whenever `decompress` returns true, the output vector is its previous contents
followed by appended bytes whose number is the number of literal tokens plus the sum of
the decoded lengths of the back-reference tokens read before the terminator; and on the
10-byte input of `test_decompress` it returns true and appends exactly 16 bytes. -/
theorem decompress_appends_token_sizes :
    (∀ (input : SafeArray) (out out' : List Nat),
        decompress input out = Run.done (true, out') →
        ∃ ts sl appended, tokens_of input = Run.done (ts, sl, true) ∧ out' = out ++ appended ∧
          appended.length = literal_count ts + backref_length_sum ts) ∧
    (∀ out : List Nat, ∃ appended,
        decompress test_compressed out = Run.done (true, out ++ appended) ∧
        appended.length = 16) := by
  refine ⟨fun input out out' h => decompress_length input out out' true h, ?_⟩
  intro out
  have hd := decompress_eq test_compressed out
  rw [test_compressed_tokens] at hd
  dsimp only at hd
  obtain ⟨ts, sl, appended, ht, ho, hl⟩ := decompress_length test_compressed out _ true hd
  rw [test_compressed_tokens] at ht
  simp only [Run.done.injEq, Prod.mk.injEq] at ht
  refine ⟨appended, ?_, ?_⟩
  · rw [← ho]; exact hd
  · rw [hl, ← ht.1]
    rfl

/-- Witness of C1 on the input of `test_decompress`, decompressed into an empty vector. -/
theorem decompress_appends_token_sizes_witness :
    decompress test_compressed [] =
        Run.done (true, [65, 66, 65, 65, 65, 65, 65, 65, 67, 65, 66, 65, 66, 65, 66, 65]) ∧
      ∃ ts sl appended, tokens_of test_compressed = Run.done (ts, sl, true) ∧
        [65, 66, 65, 65, 65, 65, 65, 65, 67, 65, 66, 65, 66, 65, 66, 65] = [] ++ appended ∧
        appended.length = literal_count ts + backref_length_sum ts :=
  ⟨by decide!, decompress_appends_token_sizes.1 test_compressed [] _ (by decide!)⟩

/-- C10, as amended: on a `BitStream` over the one-byte buffer `0xAB` eight successive
1-bit reads succeed and yield 1,0,1,0,1,0,1,1 (the first seven being 1,0,1,0,1,0,1), and
the ninth read fails. -/
theorem bitstream_0xAB_reads :
    read_bits 7 (BitStream.create [0xAB]) = some ([1, 0, 1, 0, 1, 0, 1], ⟨[0xAB], 7⟩) ∧
    read_bits 8 (BitStream.create [0xAB]) = some ([1, 0, 1, 0, 1, 0, 1, 1], ⟨[0xAB], 8⟩) ∧
    BitStream.get_next_bit ⟨[0xAB], 8⟩ = none ∧
    read_bits 9 (BitStream.create [0xAB]) = none := by
  decide

/-- C10, counterexample: after the seven reads of `0xAB` the eighth read does not fail,
it returns the bit 1. -/
theorem bitstream_0xAB_eighth_read_succeeds :
    read_bits 7 (BitStream.create [0xAB]) = some ([1, 0, 1, 0, 1, 0, 1], ⟨[0xAB], 7⟩) ∧
    BitStream.get_next_bit ⟨[0xAB], 7⟩ = some (1, ⟨[0xAB], 8⟩) ∧
    ¬ (∃ s7, read_bits 7 (BitStream.create [0xAB]) = some ([1, 0, 1, 0, 1, 0, 1], s7) ∧
        s7.get_next_bit = none) := by
  refine ⟨by decide, by decide, ?_⟩
  rintro ⟨s7, h1, h2⟩
  have h3 : read_bits 7 (BitStream.create [0xAB]) = some ([1, 0, 1, 0, 1, 0, 1], ⟨[0xAB], 7⟩) := by
    decide
  rw [h3] at h1
  simp only [Option.some.injEq, Prod.mk.injEq, true_and] at h1
  rw [← h1] at h2
  exact absurd h2 (by decide)

/-- C6, the code at the failing input: on a view of 29695 bytes, `get<cseg_head_t>` (8 bytes)
at offset `2 ^ 64 - 1` returns a non-null pointer although the range is outside the view. -/
theorem safe_array_get_wraps :
    SafeArray.get_typed ⟨List.replicate 29695 0⟩ 8 (2 ^ 64 - 1) = some (2 ^ 64 - 1) ∧
    SafeArray.get ⟨List.replicate 29695 0⟩ (2 ^ 64 - 1) 8 = some (2 ^ 64 - 1) ∧
    ¬ (2 ^ 64 - 1 + 8 ≤ SafeArray.size ⟨List.replicate 29695 0⟩) := by
  simp only [SafeArray.get_typed, SafeArray.get, SafeArray.size, List.length_replicate]
  norm_num

/-- C7: for every input byte sequence `decompress` terminates; it returns false exactly
when, after some complete tokens, the bits run out inside the next token (in its flag bit,
literal byte, offset field or length field), and it returns true exactly when, after some
complete tokens, the next token is a terminator. -/
theorem decompress_terminates_and_reports (input : SafeArray) (out : List Nat) :
    ∃ b out', decompress input out = Run.done (b, out') ∧
      (b = false ↔
        ∃ ts sl, reads_to (BitStream.create input.m_buffer) ts sl ∧ field_exhausted sl) ∧
      (b = true ↔
        ∃ ts sl, reads_to (BitStream.create input.m_buffer) ts sl ∧ terminator_at sl) := by
  obtain ⟨r, hr⟩ := tokens_of_total input
  obtain ⟨ts, sl, b⟩ := r
  have hd := decompress_eq input out
  rw [hr] at hd
  dsimp only at hd
  refine ⟨b, _, hd, ?_, ?_⟩
  · constructor
    · intro hb
      subst hb
      obtain ⟨h1, h2⟩ := (tokens_of_iff input ts sl false).mp hr
      exact ⟨ts, sl, h1, (next_token_exhausted sl).mp (by simpa using h2)⟩
    · rintro ⟨ts', sl', h1, h2⟩
      have h3 := (tokens_of_iff input ts' sl' false).mpr
        ⟨h1, by simpa using (next_token_exhausted sl').mpr h2⟩
      rw [hr] at h3
      simp only [Run.done.injEq, Prod.mk.injEq] at h3
      exact h3.2.2
  · constructor
    · intro hb
      subst hb
      obtain ⟨h1, h2⟩ := (tokens_of_iff input ts sl true).mp hr
      exact ⟨ts, sl, h1, (next_token_terminator sl).mp (by simpa using h2)⟩
    · rintro ⟨ts', sl', h1, h2⟩
      have h3 := (tokens_of_iff input ts' sl' true).mpr
        ⟨h1, by simpa using (next_token_terminator sl').mpr h2⟩
      rw [hr] at h3
      simp only [Run.done.injEq, Prod.mk.injEq] at h3
      exact h3.2.2

/-- C8, as amended: an offset read in the short form (is_short bit set, 7 further bits) is
in 0..127 and one read in the long form is in 0..2047; an offset of 0 read in either form
ends the stream successfully: when the flag bit of a token is set and the 7 or 11 bits
after the is_short bit are all zero, `decompress` returns true at that token. Both forms
occur: `C0 00` ends with the 7-bit form and `80 00` with the 11-bit form. -/
theorem offset_zero_terminates_in_either_form :
    (∀ (s s' : BitStream) (offset : Nat), get_offset s = some (offset, s') →
        offset ≤ 2047 ∧ (bit_at s.m_buffer s.m_bit_pos ≠ 0 → offset ≤ 127)) ∧
    (∀ (fuel : Nat) (s s1 s2 s3 : BitStream) (h : HistoryBuffer) (f g : Nat),
        s.get_next_bit = some (f, s1) → f ≠ 0 →
        s1.get_next_bit = some (g, s2) →
        s2.get_next_bits 16 (if g ≠ 0 then 7 else 11) = some (0, s3) →
        decompress_loop (fuel + 1) s h = Run.done (true, h)) ∧
    decompress ⟨[0xC0, 0x00]⟩ [] = Run.done (true, []) ∧
    decompress ⟨[0x80, 0x00]⟩ [] = Run.done (true, []) := by
  refine ⟨?_, ?_, by decide!, by decide!⟩
  · intro s s' offset h
    obtain ⟨_, _, _, h1, h2⟩ := get_offset_some h
    exact ⟨by omega, fun hb => by have := h2 hb; omega⟩
  · intro fuel s s1 s2 s3 h f g h1 hf h2 h3
    have ho : get_offset s1 = some (0, s3) := by
      unfold get_offset
      rw [h2]
      dsimp only
      by_cases hg : g ≠ 0
      · rw [if_pos hg] at h3 ⊢; exact h3
      · rw [if_neg hg] at h3 ⊢; exact h3
    simp only [decompress_loop, h1]
    rw [if_pos hf, ho]
    dsimp only
    rw [if_pos rfl]

/-- Witness of C8 on the stream `C0 00`: flag bit 1, is_short bit 1, seven zero bits. -/
theorem offset_zero_terminates_in_either_form_witness :
    BitStream.get_next_bit ⟨[0xC0, 0x00], 0⟩ = some (1, ⟨[0xC0, 0x00], 1⟩) ∧
    BitStream.get_next_bit ⟨[0xC0, 0x00], 1⟩ = some (1, ⟨[0xC0, 0x00], 2⟩) ∧
    BitStream.get_next_bits 16 ⟨[0xC0, 0x00], 2⟩ 7 = some (0, ⟨[0xC0, 0x00], 9⟩) ∧
    decompress_loop (16 + 1) ⟨[0xC0, 0x00], 0⟩ (HistoryBuffer.create []) =
      Run.done (true, HistoryBuffer.create []) :=
  ⟨by decide, by decide, by decide,
    offset_zero_terminates_in_either_form.2.1 16 ⟨[0xC0, 0x00], 0⟩ ⟨[0xC0, 0x00], 1⟩
      ⟨[0xC0, 0x00], 2⟩ ⟨[0xC0, 0x00], 9⟩ (HistoryBuffer.create []) 1 1
      (by decide) (by decide) (by decide) (by decide)⟩

/-- C8, counterexample: on the stream `C0 00` the offset read in the short form (is_short
bit set) is 0, not in 1..127, and `decompress` reports successful termination although
the terminating token uses the 7-bit form. -/
theorem short_form_offset_zero_terminates :
    bit_at [0xC0, 0x00] 1 = 1 ∧
    get_offset ⟨[0xC0, 0x00], 1⟩ = some (0, ⟨[0xC0, 0x00], 9⟩) ∧
    decompress ⟨[0xC0, 0x00]⟩ [] = Run.done (true, []) := by
  refine ⟨by decide, by decide, by decide!⟩

/-- C9, as amended: whenever `get_length` succeeds, the decoded length is `v + 2` when the
first 2-bit group `v` is below 3, `5 + v` when the first group is 3 and the second 2-bit
group `v` is below 3, and `8 + 15 * k + v` reduced modulo `2 ^ 32` when both 2-bit groups
are 3 and are followed by `k` 4-bit groups equal to 15 and a 4-bit group `v` below 15.
The length is at least 2 in the first two cases, and in the third one whenever
`8 + 15 * k + v` is below `2 ^ 32`, where it is `8 + 15 * k + v` itself. -/
theorem get_length_decoded_value (s s' : BitStream) (length : Nat)
    (h : get_length s = Run.done (some (length, s'))) :
    (∃ v, s.get_next_bits 8 2 = some (v, s') ∧ v < 3 ∧ length = v + 2 ∧ 2 ≤ length) ∨
    (∃ s1 v, s.get_next_bits 8 2 = some (3, s1) ∧ s1.get_next_bits 8 2 = some (v, s') ∧
      v < 3 ∧ length = 5 + v ∧ 2 ≤ length) ∨
    (∃ s1 s2 k s3 v, s.get_next_bits 8 2 = some (3, s1) ∧
      s1.get_next_bits 8 2 = some (3, s2) ∧ skip_groups 4 15 k s2 = some s3 ∧
      s3.get_next_bits 8 4 = some (v, s') ∧ v < 15 ∧
      length = (8 + 15 * k + v) % 2 ^ 32 ∧
      (8 + 15 * k + v < 2 ^ 32 → length = 8 + 15 * k + v ∧ 2 ≤ length)) := by
  obtain ⟨r, hr, hc⟩ := get_length_code s
  rw [h] at hr
  simp only [Run.done.injEq] at hr
  subst hr
  generalize hx : some (length, s') = x at hc
  cases hc with
  | fail1 h1 => exact absurd hx (by simp)
  | fail2 s1 h1 h2 => exact absurd hx (by simp)
  | fail3 k s1 s2 s3 h1 h2 h3 h4 => exact absurd hx (by simp)
  | short v s1 h1 hv =>
    simp only [Option.some.injEq, Prod.mk.injEq] at hx
    obtain ⟨e1, e2⟩ := hx
    subst e1 e2
    exact Or.inl ⟨v, h1, hv, rfl, by omega⟩
  | medium v s1 s2 h1 h2 hv =>
    simp only [Option.some.injEq, Prod.mk.injEq] at hx
    obtain ⟨e1, e2⟩ := hx
    subst e1 e2
    exact Or.inr (Or.inl ⟨s1, v, h1, h2, hv, rfl, by omega⟩)
  | long k v s1 s2 s3 s4 h1 h2 h3 h4 hv =>
    simp only [Option.some.injEq, Prod.mk.injEq] at hx
    obtain ⟨e1, e2⟩ := hx
    subst e1 e2
    refine Or.inr (Or.inr ⟨s1, s2, k, s3, v, h1, h2, h3, h4, hv, rfl, ?_⟩)
    intro hlt
    rw [Nat.mod_eq_of_lt hlt]
    exact ⟨rfl, by omega⟩

/-- Witness of C9 on the stream `FF 70`: the groups 3, 3, 15, 7 decode to 8 + 15 + 7. -/
theorem get_length_decoded_value_witness :
    get_length ⟨[0xFF, 0x70], 0⟩ = Run.done (some (30, ⟨[0xFF, 0x70], 12⟩)) ∧
    ((∃ v, BitStream.get_next_bits 8 ⟨[0xFF, 0x70], 0⟩ 2 = some (v, ⟨[0xFF, 0x70], 12⟩) ∧
        v < 3 ∧ 30 = v + 2 ∧ 2 ≤ 30) ∨
    (∃ s1 v, BitStream.get_next_bits 8 ⟨[0xFF, 0x70], 0⟩ 2 = some (3, s1) ∧
      s1.get_next_bits 8 2 = some (v, ⟨[0xFF, 0x70], 12⟩) ∧ v < 3 ∧ 30 = 5 + v ∧ 2 ≤ 30) ∨
    (∃ s1 s2 k s3 v, BitStream.get_next_bits 8 ⟨[0xFF, 0x70], 0⟩ 2 = some (3, s1) ∧
      s1.get_next_bits 8 2 = some (3, s2) ∧ skip_groups 4 15 k s2 = some s3 ∧
      s3.get_next_bits 8 4 = some (v, ⟨[0xFF, 0x70], 12⟩) ∧ v < 15 ∧
      30 = (8 + 15 * k + v) % 2 ^ 32 ∧
      (8 + 15 * k + v < 2 ^ 32 → 30 = 8 + 15 * k + v ∧ 2 ≤ 30))) :=
  ⟨by decide, get_length_decoded_value ⟨[0xFF, 0x70], 0⟩ ⟨[0xFF, 0x70], 12⟩ 30 (by decide)⟩

/-- C9, counterexample: on the stream of 143165576 bytes `FF` followed by the byte `F8`
both 2-bit groups are 3 and are followed by 286331152 4-bit groups equal to 15 and the
4-bit group 8, and `get_length` succeeds with the length 0, which is neither
`8 + 15 * 286331152 + 8` nor at least 2. -/
theorem get_length_wraps_to_zero :
    BitStream.get_next_bits 8 ⟨List.replicate 143165576 255 ++ [0xF8], 0⟩ 2 =
      some (3, ⟨List.replicate 143165576 255 ++ [0xF8], 2⟩) ∧
    BitStream.get_next_bits 8 ⟨List.replicate 143165576 255 ++ [0xF8], 2⟩ 2 =
      some (3, ⟨List.replicate 143165576 255 ++ [0xF8], 4⟩) ∧
    skip_groups 4 15 286331152 ⟨List.replicate 143165576 255 ++ [0xF8], 4⟩ =
      some ⟨List.replicate 143165576 255 ++ [0xF8], 1145324612⟩ ∧
    BitStream.get_next_bits 8 ⟨List.replicate 143165576 255 ++ [0xF8], 1145324612⟩ 4 =
      some (8, ⟨List.replicate 143165576 255 ++ [0xF8], 1145324616⟩) ∧
    get_length ⟨List.replicate 143165576 255 ++ [0xF8], 0⟩ =
      Run.done (some (0, ⟨List.replicate 143165576 255 ++ [0xF8], 1145324616⟩)) ∧
    ¬ (0 = 8 + 15 * 286331152 + 8) ∧ ¬ (2 ≤ 0) := by
  have h1 := get_next_bits_ones 143165576 0 2 3 (by norm_num) (by norm_num) (by norm_num)
    (by norm_num)
  have h2 := get_next_bits_ones 143165576 2 2 3 (by norm_num) (by norm_num) (by norm_num)
    (by norm_num)
  have h3 := skip_groups_ones_all 143165576
  have h4 := get_next_bits_ones_last 143165576
  have h5 := get_length_ones 143165576
  exact ⟨h1, h2, h3, h4, h5, by norm_num, by norm_num⟩

/-- C5: for every `N` in 1..32 and every `v < 2 ^ N`, when the `N` bits of `v` are written
most-significant-bit first into a byte buffer, `get_next_bits` with a 32-bit target and
count `N` succeeds with the value `v`; and when a sequence `(N_1, v_1), ..., (N_k, v_k)`
is written back to back, the successive reads with counts `N_1, ..., N_k` all succeed and
return `v_1, ..., v_k` in order. -/
theorem bit_reader_round_trip :
    (∀ N v : Nat, 1 ≤ N → N ≤ 32 → v < 2 ^ N →
      (BitStream.create (pack_bits (bits_msb N v))).get_next_bits 32 N =
        some (v, ⟨pack_bits (bits_msb N v), N⟩)) ∧
    (∀ ws : List (Nat × Nat), (∀ w ∈ ws, 1 ≤ w.1 ∧ w.1 ≤ 32 ∧ w.2 < 2 ^ w.1) →
      read_all 32 (ws.map Prod.fst) (BitStream.create (pack_bits (write_all ws))) =
        some (ws.map Prod.snd, ⟨pack_bits (write_all ws), (write_all ws).length⟩)) := by
  have hseq : ∀ ws : List (Nat × Nat), (∀ w ∈ ws, 1 ≤ w.1 ∧ w.1 ≤ 32 ∧ w.2 < 2 ^ w.1) →
      read_all 32 (ws.map Prod.fst) (BitStream.create (pack_bits (write_all ws))) =
        some (ws.map Prod.snd, ⟨pack_bits (write_all ws), (write_all ws).length⟩) := by
    intro ws hws
    exact read_all_write_all ws [] (write_all ws) rfl (by intro b hb; simp at hb) hws
  refine ⟨?_, hseq⟩
  intro N v h1 h2 hv
  have h := hseq [(N, v)] (by
    intro w hw
    simp only [List.mem_singleton] at hw
    subst hw
    exact ⟨h1, h2, hv⟩)
  simp only [List.map_cons, List.map_nil, read_all, write_all, List.append_nil,
    bits_msb_length] at h
  cases hg : (BitStream.create (pack_bits (bits_msb N v))).get_next_bits 32 N with
  | none => rw [hg] at h; exact absurd h (by simp)
  | some r =>
    obtain ⟨v', s'⟩ := r
    rw [hg] at h
    simp only [Option.some.injEq, Prod.mk.injEq, List.cons.injEq, and_true] at h
    rw [h.1, h.2]

/-- Witness of C5: the writes (3, 5), (7, 100), (32, 0xDEADBEEF) are read back in order. -/
theorem bit_reader_round_trip_witness :
    pack_bits (write_all [(3, 5), (7, 100), (32, 0xDEADBEEF)]) = [185, 55, 171, 111, 187, 192] ∧
    read_all 32 [3, 7, 32] (BitStream.create [185, 55, 171, 111, 187, 192]) =
      some ([5, 100, 0xDEADBEEF], ⟨[185, 55, 171, 111, 187, 192], 42⟩) ∧
    read_all 32 ([(3, 5), (7, 100), (32, 0xDEADBEEF)].map Prod.fst)
        (BitStream.create (pack_bits (write_all [(3, 5), (7, 100), (32, 0xDEADBEEF)]))) =
      some ([(3, 5), (7, 100), (32, 0xDEADBEEF)].map Prod.snd,
        ⟨pack_bits (write_all [(3, 5), (7, 100), (32, 0xDEADBEEF)]),
          (write_all [(3, 5), (7, 100), (32, 0xDEADBEEF)]).length⟩) :=
  ⟨by decide!, by decide!,
    bit_reader_round_trip.2 [(3, 5), (7, 100), (32, 0xDEADBEEF)] (by decide)⟩

/-- C2, counterexample: on `group_without_parent` the first sibling group holds one file,
so no parent is pending when the second group starts. At the head of the iteration for the
index 1 the stack is empty, the block `if (first)` calls `top()` on it, which is undefined
behaviour, and the two entries of the second group get no parent. -/
theorem reconstruct_tree_second_group_without_parent :
    no_last_between group_without_parent 1 2 ∧
    reconstruct_state group_without_parent 1 = some ⟨none, [], true⟩ ∧
    reconstruct_first ⟨none, [], true⟩ = none ∧
    reconstruct_state group_without_parent 2 = none ∧
    reconstruct_tree group_without_parent = none ∧
    parents_of group_without_parent = none := by
  refine ⟨?_, by decide, by decide, by decide, by decide, by decide⟩
  intro k e h1 h2 he
  have hk : k = 1 := by omega
  subst hk
  have h : group_without_parent[1]? = some ({} : parsed_dir_entry_t) := by decide
  rw [h] at he
  simp only [Option.some.injEq] at he
  rw [← he]

/-- C2, as amended: on every entry list on which `reconstruct_tree` runs to completion, it
gives the same parent to every two entries of one sibling group (entries `a ≤ b` with no
`is_last_entry` at the indices `a .. b - 1`) and the parent of the first group is null; on
the 13 entries of the unit test it runs to completion and the parents by index are
[null, 0, 0, 0, 1, 1, 4, 5, 5, 5, 8, 9, 3]. -/
theorem reconstruct_tree_sibling_groups :
    (∀ dirs res : List parsed_dir_entry_t, reconstruct_tree dirs = some res →
      res.length = dirs.length ∧
      (∀ a b ea eb, a ≤ b → res[a]? = some ea → res[b]? = some eb →
        no_last_between dirs a b → ea.parent = eb.parent) ∧
      (∀ j ej, res[j]? = some ej → no_last_between dirs 0 j → ej.parent = none)) ∧
    parents_of test_entries =
      some [none, some 0, some 0, some 0, some 1, some 1, some 4, some 5, some 5, some 5,
        some 8, some 9, some 3] := by
  refine ⟨?_, by decide⟩
  intro dirs res h
  unfold reconstruct_tree at h
  refine ⟨reconstruct_loop_length _ _ _ _ h, reconstruct_loop_same_group _ _ _ _ h, ?_⟩
  intro j ej hj hn
  rw [reconstruct_loop_init] at h
  exact reconstruct_loop_group dirs 0 TreeState.started res h rfl j ej hj hn

/-- Witness of C2 on the entries of the unit test. -/
theorem reconstruct_tree_sibling_groups_witness :
    reconstruct_tree test_entries = some test_result ∧
    (test_result.length = test_entries.length ∧
      (∀ a b ea eb, a ≤ b → test_result[a]? = some ea → test_result[b]? = some eb →
        no_last_between test_entries a b → ea.parent = eb.parent) ∧
      (∀ j ej, test_result[j]? = some ej → no_last_between test_entries 0 j →
        ej.parent = none)) :=
  ⟨by decide, reconstruct_tree_sibling_groups.1 test_entries test_result (by decide)⟩

/-- C4: when `reconstruct_tree` runs to completion the result is a forest: every entry of
the first sibling group has a null parent, every other entry has a parent that is an entry
of the same list at a strictly lower index and is a non-empty directory (`is_dir` set,
`is_empty_dir` clear), and from every entry following `parent` at most as many times as
its index reaches an entry whose parent is null. -/
theorem reconstruct_tree_forest (dirs res : List parsed_dir_entry_t)
    (h : reconstruct_tree dirs = some res) :
    ∀ k ek, res[k]? = some ek →
      (no_last_between dirs 0 k → ek.parent = none) ∧
      (¬ no_last_between dirs 0 k →
        ∃ p ep, ek.parent = some p ∧ p < k ∧ dirs[p]? = some ep ∧
          ep.is_dir = true ∧ ep.is_empty_dir = false) ∧
      ∃ n r er, n ≤ k ∧ ancestor (res.map parsed_dir_entry_t.parent) n k = some r ∧
        res[r]? = some er ∧ er.parent = none := by
  unfold reconstruct_tree at h
  rw [reconstruct_loop_init] at h
  have hlen := reconstruct_loop_length _ _ _ _ h
  have hforest : ∀ k ek, res[k]? = some ek →
      (no_last_between dirs 0 k ∧ ek.parent = none) ∨
        ∃ p ep, ek.parent = some p ∧ p < k ∧ dirs[p]? = some ep ∧
          ep.is_dir = true ∧ ep.is_empty_dir = false := by
    intro k ek hk
    have := reconstruct_loop_forest
      (fun j => ∃ ep, dirs[j]? = some ep ∧ ep.is_dir = true ∧ ep.is_empty_dir = false)
      dirs 0 TreeState.started res h
      (fun k e hke hc => by
        rw [Nat.zero_add]
        simp only [Bool.and_eq_true, Bool.not_eq_true'] at hc
        exact ⟨e, hke, hc.1, hc.2⟩)
      (fun d hd p hp => by
        simp only [TreeState.started, List.mem_singleton] at hd
        subst hd
        exact absurd hp (by simp))
      k ek hk
    rcases this with ⟨n1, _, n3⟩ | ⟨j, g1, g2, ep, g3, g4, g5⟩
    · exact Or.inl ⟨n1, n3⟩
    · exact Or.inr ⟨j, ep, g1, by omega, g3, g4, g5⟩
  intro k ek hk
  refine ⟨fun hn => reconstruct_loop_group dirs 0 TreeState.started res h rfl k ek hk hn, ?_, ?_⟩
  · intro hn
    rcases hforest k ek hk with ⟨n1, _⟩ | hg
    · exact absurd n1 hn
    · exact hg
  · apply ancestor_reaches_root res _ k ek hk
    intro k' ek' hk'
    rcases hforest k' ek' hk' with ⟨_, n2⟩ | ⟨p, ep, g1, g2, g3, _, _⟩
    · exact Or.inl n2
    · have hk'lt : k' < res.length := by
        by_contra hcon
        rw [List.getElem?_eq_none (by omega)] at hk'
        exact absurd hk' (by simp)
      have hp : p < res.length := by omega
      exact Or.inr ⟨p, res[p], g1, g2, List.getElem?_eq_getElem hp⟩

/-- Witness of C4 on the entries of the unit test. -/
theorem reconstruct_tree_forest_witness :
    reconstruct_tree test_entries = some test_result ∧
    ∀ k ek, test_result[k]? = some ek →
      (no_last_between test_entries 0 k → ek.parent = none) ∧
      (¬ no_last_between test_entries 0 k →
        ∃ p ep, ek.parent = some p ∧ p < k ∧ test_entries[p]? = some ep ∧
          ep.is_dir = true ∧ ep.is_empty_dir = false) ∧
      ∃ n r er, n ≤ k ∧ ancestor (test_result.map parsed_dir_entry_t.parent) n k = some r ∧
        test_result[r]? = some er ∧ er.parent = none :=
  ⟨by decide, reconstruct_tree_forest test_entries test_result (by decide)⟩

/-- C3: whenever `decompress` returns true on an input in which every back-reference has
an offset that is at most the number of bytes already produced by this call, the bytes it
appended (through the 2048-byte ring, flushed on wrap and at the end) are the reference
LZ77 expansion of the tokens over an unbounded output list, in which a literal appends its
byte and a back-reference (offset, length) appends, length times, the byte located offset
positions before the current end of the output. -/
theorem decompress_refines_lz77 (input : SafeArray) (out out' : List Nat) (ts : List Token)
    (sl : BitStream)
    (hd : decompress input out = Run.done (true, out'))
    (ht : tokens_of input = Run.done (ts, sl, true))
    (ho : offsets_within ts 0) :
    out' = out ++ lz77_expand ts [] :=
  decompress_refines input out out' ts sl true hd ht ho

/-- Witness of C3 on the input of `test_decompress`, decompressed after the bytes 1, 2. -/
theorem decompress_refines_lz77_witness :
    decompress test_compressed [1, 2] =
      Run.done (true, [1, 2, 65, 66, 65, 65, 65, 65, 65, 65, 67, 65, 66, 65, 66, 65, 66, 65]) ∧
    tokens_of test_compressed =
      Run.done ([Token.literal 65, Token.literal 66, Token.literal 65, Token.backref 1 5,
        Token.literal 67, Token.backref 9 3, Token.backref 2 4],
        ⟨test_compressed.m_buffer, 71⟩, true) ∧
    offsets_within [Token.literal 65, Token.literal 66, Token.literal 65, Token.backref 1 5,
        Token.literal 67, Token.backref 9 3, Token.backref 2 4] 0 ∧
    [1, 2, 65, 66, 65, 65, 65, 65, 65, 65, 67, 65, 66, 65, 66, 65, 66, 65] =
      [1, 2] ++ lz77_expand [Token.literal 65, Token.literal 66, Token.literal 65,
        Token.backref 1 5, Token.literal 67, Token.backref 9 3, Token.backref 2 4] [] :=
  ⟨by decide!, by decide!, by simp [offsets_within],
    decompress_refines_lz77 test_compressed [1, 2] _ _ ⟨test_compressed.m_buffer, 71⟩
      (by decide!) (by decide!) (by simp [offsets_within])⟩

/-- C11, as amended: for every entry list whose flags are the 13-entry sequence of the
tree-reconstruction scenario, `reconstruct_tree` yields the 13 parents
[null, 0, 0, 0, 1, 1, 4, 5, 5, 5, 8, 9, 3]. -/
theorem reconstruct_tree_scenario_parents (dirs : List parsed_dir_entry_t)
    (h : flags_of dirs = test_flags) :
    parents_of dirs =
      some [none, some 0, some 0, some 0, some 1, some 1, some 4, some 5, some 5, some 5,
        some 8, some 9, some 3] := by
  unfold parents_of reconstruct_tree
  rw [parents_loop_eq, h]
  decide

/-- Witness of C11 on the entries of the unit test. -/
theorem reconstruct_tree_scenario_parents_witness :
    flags_of test_entries = test_flags ∧
    parents_of test_entries =
      some [none, some 0, some 0, some 0, some 1, some 1, some 4, some 5, some 5, some 5,
        some 8, some 9, some 3] :=
  ⟨by decide, reconstruct_tree_scenario_parents test_entries (by decide)⟩

/-- C11, counterexample: the entries of the unit test have the flags of the scenario, and
`reconstruct_tree` does not yield the 14 parents
[null, 0, 0, 0, 1, 1, 1, 4, 5, 5, 5, 8, 9, 3] on them: it yields 13 parents, and the
parent of the entry of index 6 is the entry of index 4. -/
theorem reconstruct_tree_scenario_not_14_parents :
    flags_of test_entries = test_flags ∧
    parents_of test_entries ≠
      some [none, some 0, some 0, some 0, some 1, some 1, some 1, some 4, some 5, some 5,
        some 5, some 8, some 9, some 3] := by
  refine ⟨by decide, by decide⟩

/-- C12, counterexample: on a buffer of 94 zero bytes `read_dir_entry` succeeds at cursor 0
with `nm_len = 0` and `dos_len = 0`, and `dir_data_length` is 94, not 64 + 0 + 23 + 0. -/
theorem dir_data_length_is_not_64_based :
    read_dir_entry ⟨List.replicate 94 0⟩ 0 {} =
      Exec.ret (some (94, record_entry ⟨List.replicate 94 0⟩ 0 {})) ∧
    (record_entry ⟨List.replicate 94 0⟩ 0 {}).dir_data_length = 94 ∧
    (record_d1 ⟨List.replicate 94 0⟩ 0).nm_len = 0 ∧
    record_dos_len ⟨List.replicate 94 0⟩ 0 = 0 ∧
    ¬ (94 = 64 + (record_d1 ⟨List.replicate 94 0⟩ 0).nm_len + 23 +
        record_dos_len ⟨List.replicate 94 0⟩ 0) := by
  refine ⟨by decide, by decide, by decide, by decide, by decide⟩

/-- C12, as amended: whenever `read_dir_entry` succeeds at cursor `c`, the returned cursor
is `c + dir_data_length` and `dir_data_length = 71 + nm_len + 23 + dos_len`, where the
first fixed part `ms_dir_fixed_t` occupies 71 bytes, the second one 23 bytes, `nm_len` is
the long-name byte length and `dos_len` is `nm_len2` if `nm_len2 ≠ 0` and `nm_len`
otherwise. -/
theorem read_dir_entry_cursor (buffer : SafeArray) (c c' : Nat) (entry e : parsed_dir_entry_t)
    (hs : buffer.size < 2 ^ 63)
    (h : read_dir_entry buffer c entry = Exec.ret (some (c', e))) :
    c' = c + e.dir_data_length ∧
    e.dir_data_length =
      71 + (record_d1 buffer c).nm_len + 23 +
        (if (record_d2 buffer c).nm_len ≠ 0 then (record_d2 buffer c).nm_len
         else (record_d1 buffer c).nm_len) ∧
    sizeof_ms_dir_fixed_t = 71 ∧ sizeof_ms_dir_fixed2_t = 23 := by
  obtain ⟨_, h2, h3⟩ := read_dir_entry_ok buffer c c' entry e hs h
  have hl : e.dir_data_length = record_length buffer c := by rw [h3]; rfl
  refine ⟨by rw [hl]; exact h2, ?_, rfl, rfl⟩
  rw [hl]
  unfold record_length record_dos_len
  rw [sizeof_ms_dir_fixed_t_eq, sizeof_ms_dir_fixed2_t_eq]
  by_cases hz : (record_d2 buffer c).nm_len = 0
  · rw [if_pos hz, if_neg (by simpa using hz)]
  · rw [if_neg hz, if_pos hz]

/-- Witness of C12 on the record `record_A_B`. -/
theorem read_dir_entry_cursor_witness :
    (read_dir_entry ⟨record_A_B⟩ 0 {} =
      Exec.ret (some (98, record_entry ⟨record_A_B⟩ 0 {}))) ∧
    (98 = 0 + (record_entry ⟨record_A_B⟩ 0 {}).dir_data_length ∧
      (record_entry ⟨record_A_B⟩ 0 {}).dir_data_length =
        71 + (record_d1 ⟨record_A_B⟩ 0).nm_len + 23 +
          (if (record_d2 ⟨record_A_B⟩ 0).nm_len ≠ 0 then (record_d2 ⟨record_A_B⟩ 0).nm_len
           else (record_d1 ⟨record_A_B⟩ 0).nm_len) ∧
      sizeof_ms_dir_fixed_t = 71 ∧ sizeof_ms_dir_fixed2_t = 23) :=
  ⟨by decide, read_dir_entry_cursor ⟨record_A_B⟩ 0 98 {} _ (by decide) (by decide)⟩

/-- C13, counterexample: on `record_A_B`, whose `nm_len2` is 0, `read_dir_entry` succeeds
with the long name `A` and the short name `B`. -/
theorem short_name_is_not_long_name :
    (record_d2 ⟨record_A_B⟩ 0).nm_len = 0 ∧
    read_dir_entry ⟨record_A_B⟩ 0 {} =
      Exec.ret (some (98, record_entry ⟨record_A_B⟩ 0 {})) ∧
    (record_entry ⟨record_A_B⟩ 0 {}).long_name = "A" ∧
    (record_entry ⟨record_A_B⟩ 0 {}).short_name = "B" ∧
    (record_entry ⟨record_A_B⟩ 0 {}).short_name ≠ (record_entry ⟨record_A_B⟩ 0 {}).long_name := by
  refine ⟨by decide, by decide, by decide, by decide, by decide⟩

/-- C13, as amended: for every record on which `read_dir_entry` succeeds and whose
short-name length field `nm_len2` is 0, the long name's length is reused for the short
name, not its text: when `nm_len > 0` the short name is converted from the `nm_len` bytes
that follow the second fixed part, as the long name is converted from the `nm_len` bytes
that follow the first one, and the cursor moves past both; when `nm_len = 0` both names
are left as they were. So the short name equals the long name when those two byte ranges
hold the same bytes. -/
theorem short_name_reuses_long_name_length (buffer : SafeArray) (c c' : Nat)
    (entry e : parsed_dir_entry_t) (hs : buffer.size < 2 ^ 63)
    (h : read_dir_entry buffer c entry = Exec.ret (some (c', e)))
    (h0 : (record_d2 buffer c).nm_len = 0) :
    (0 < (record_d1 buffer c).nm_len →
      e.long_name = utf16_to_utf8 (buffer.slice (c + 71) (record_d1 buffer c).nm_len) ∧
      e.short_name =
        utf16_to_utf8 (buffer.slice (c + 71 + (record_d1 buffer c).nm_len + 23)
          (record_d1 buffer c).nm_len) ∧
      c' = c + 71 + (record_d1 buffer c).nm_len + 23 + (record_d1 buffer c).nm_len ∧
      (buffer.slice (c + 71 + (record_d1 buffer c).nm_len + 23) (record_d1 buffer c).nm_len =
          buffer.slice (c + 71) (record_d1 buffer c).nm_len →
        e.short_name = e.long_name)) ∧
    ((record_d1 buffer c).nm_len = 0 →
      e.long_name = entry.long_name ∧ e.short_name = entry.short_name) := by
  obtain ⟨_, h2, h3⟩ := read_dir_entry_ok buffer c c' entry e hs h
  have hdos : record_dos_len buffer c = (record_d1 buffer c).nm_len := by
    unfold record_dos_len; rw [if_pos h0]
  have hl : e.long_name = if (record_d1 buffer c).nm_len > 0 then
      utf16_to_utf8 (buffer.slice (c + sizeof_ms_dir_fixed_t) (record_d1 buffer c).nm_len)
      else entry.long_name := by rw [h3]; rfl
  have hsn : e.short_name = if record_dos_len buffer c > 0 then
      utf16_to_utf8 (buffer.slice
        (c + sizeof_ms_dir_fixed_t + (record_d1 buffer c).nm_len + sizeof_ms_dir_fixed2_t)
        (record_dos_len buffer c))
      else entry.short_name := by rw [h3]; rfl
  rw [hdos, sizeof_ms_dir_fixed_t_eq, sizeof_ms_dir_fixed2_t_eq] at hsn
  rw [sizeof_ms_dir_fixed_t_eq] at hl
  constructor
  · intro hpos
    rw [if_pos hpos] at hl hsn
    refine ⟨hl, hsn, ?_, ?_⟩
    · rw [h2]; unfold record_length; rw [hdos, sizeof_ms_dir_fixed_t_eq, sizeof_ms_dir_fixed2_t_eq]
      omega
    · intro heq
      rw [hl, hsn, heq]
  · intro hz
    rw [if_neg (by omega)] at hl hsn
    exact ⟨hl, hsn⟩

/-- Witness of C13 on the record `record_A_B`. -/
theorem short_name_reuses_long_name_length_witness :
    (read_dir_entry ⟨record_A_B⟩ 0 {} =
      Exec.ret (some (98, record_entry ⟨record_A_B⟩ 0 {}))) ∧
    (record_d2 ⟨record_A_B⟩ 0).nm_len = 0 ∧
    (record_entry ⟨record_A_B⟩ 0 {}).short_name =
      utf16_to_utf8 (SafeArray.slice ⟨record_A_B⟩ (0 + 71 + 2 + 23) 2) := by
  have hw := short_name_reuses_long_name_length ⟨record_A_B⟩ 0 98 {}
    (record_entry ⟨record_A_B⟩ 0 {}) (by decide) (by decide) (by decide)
  have hn : (record_d1 ⟨record_A_B⟩ 0).nm_len = 2 := by decide
  rw [hn] at hw
  exact ⟨by decide, by decide, (hw.1 (by decide)).2.1⟩

/-- C14: `read_dir_entries` terminates; whenever it returns true, the entries it appended
are the consecutive records of the buffer from offset 0 on, in buffer order, the last one
has `is_dir_end` set and no earlier one has it; and it returns false exactly when, after
consecutive records none of which has `is_dir_end`, the next record does not lie inside
the buffer. -/
theorem read_dir_entries_reads_until_dir_end (buffer : SafeArray)
    (dirs : List parsed_dir_entry_t) (hs : buffer.size < 2 ^ 63) :
    ∃ b dirs', read_dir_entries buffer dirs = Exec.ret (b, dirs') ∧
      (b = true →
        ∃ es o, dirs' = dirs ++ (es ++ [record_entry buffer o {}]) ∧
          records_from buffer 0 (es ++ [record_entry buffer o {}])
            (o + record_length buffer o) ∧
          (∀ x ∈ es, x.is_dir_end = false) ∧
          (record_entry buffer o {}).is_dir_end = true) ∧
      (b = false ↔
        ∃ es o, records_from buffer 0 es o ∧ (∀ x ∈ es, x.is_dir_end = false) ∧
          ¬ record_fits buffer o) := by
  obtain ⟨es, o, r1, r2, r3⟩ := read_dir_entries_loop_spec buffer hs (buffer.size + 1) 0 dirs
    (Nat.zero_le _) (by omega)
  unfold read_dir_entries
  rcases r3 with ⟨n1, n2⟩ | ⟨n1, n2, n3⟩
  · refine ⟨false, _, n2, fun h => absurd h (by simp), ?_⟩
    exact ⟨fun _ => ⟨es, o, r1, r2, n1⟩, fun _ => rfl⟩
  · refine ⟨true, _, n3, fun _ => ⟨es, o, by rw [List.append_assoc],
      records_from_snoc buffer es 0 o r1 n1, r2, n2⟩, ?_⟩
    constructor
    · intro h; exact absurd h (by simp)
    · rintro ⟨es', o', s1, s2, s3⟩
      obtain ⟨_, e2⟩ := records_from_unique buffer es 0 o o' es' r1 r2 (fun _ => n2) s1 s2
        (fun hf => absurd hf s3)
      rw [e2] at n1
      exact absurd n1 s3

/-- Witness of C14 on the two records of `two_records`. -/
theorem read_dir_entries_reads_until_dir_end_witness :
    read_dir_entries ⟨two_records⟩ [] =
      Exec.ret (true, [record_entry ⟨two_records⟩ 0 {}, record_entry ⟨two_records⟩ 98 {}]) ∧
    ∃ b dirs', read_dir_entries ⟨two_records⟩ [] = Exec.ret (b, dirs') ∧
      (b = true →
        ∃ es o, dirs' = [] ++ (es ++ [record_entry ⟨two_records⟩ o {}]) ∧
          records_from ⟨two_records⟩ 0 (es ++ [record_entry ⟨two_records⟩ o {}])
            (o + record_length ⟨two_records⟩ o) ∧
          (∀ x ∈ es, x.is_dir_end = false) ∧
          (record_entry ⟨two_records⟩ o {}).is_dir_end = true) ∧
      (b = false ↔
        ∃ es o, records_from ⟨two_records⟩ 0 es o ∧ (∀ x ∈ es, x.is_dir_end = false) ∧
          ¬ record_fits ⟨two_records⟩ o) :=
  ⟨by decide!, read_dir_entries_reads_until_dir_end ⟨two_records⟩ [] (by decide!)⟩

/-- C15: on a file that holds, from `start_offset` on, a data region of well-formed
segments followed by a header and a frame whose masked size is zero, `read_data_segment`
returns true, provided every compressed segment decompresses successfully, and the buffer
it leaves is the one that `data_region_output` describes: in segment order, the payload
verbatim of each segment whose bit `0x8000` is set and the decompression of the payload of
each segment whose bit is clear. The bytes `tail` after the zero-size frame are arbitrary:
nothing of them is read. -/
theorem read_data_segment_appends_segments (pre tail : List Nat) (segs : List data_segment)
    (end_head : List Nat) (end_raw : Nat) (buffer out : List Nat)
    (hfile : (pre ++ data_region_bytes segs end_head end_raw ++ tail).length < 2 ^ 63)
    (hsegs : ∀ s ∈ segs, s.well_formed) (hend : end_head.length = 8)
    (hraw : end_raw < 65536) (hzero : end_raw &&& 0x7FFF = 0)
    (hout : data_region_output segs buffer = some out) :
    read_data_segment ⟨pre ++ data_region_bytes segs end_head end_raw ++ tail⟩ pre.length
      buffer = Exec.ret (true, out) := by
  unfold read_data_segment
  have hz : end_raw % 2 ^ 15 = 0 := by
    have h := Nat.and_pow_two_sub_one_eq_mod end_raw 15
    have h7 : (0x7FFF : Nat) = 2 ^ 15 - 1 := by decide
    rw [h7] at hzero
    rw [← h]
    exact hzero
  apply read_data_segment_loop_region end_head end_raw hend hraw hz segs pre tail buffer out _
    hsegs hfile _ hout
  have hl := data_region_bytes_length end_head end_raw segs hsegs
  unfold SafeArray.size
  simp only [List.length_append]
  omega

/-- Witness of C15 on the two segments of `test_segments`, followed by two bytes that are
not read. -/
theorem read_data_segment_appends_segments_witness :
    read_data_segment
        ⟨[] ++ data_region_bytes test_segments (List.replicate 8 0) 0 ++ [9, 9]⟩
        ([] : List Nat).length [] =
      Exec.ret (true, [1, 2, 3, 65, 66, 65, 65, 65, 65, 65, 65, 67, 65, 66, 65, 66, 65, 66,
        65]) :=
  read_data_segment_appends_segments [] [9, 9] test_segments (List.replicate 8 0) 0 [] _
    (by decide) (by decide) (by decide) (by decide) (by decide) (by decide!)

/-- C16: whenever `read_catalog` returns true, the bytes it appended to `buffer` are the
concatenation, in order, of the payloads of the raw segments it read, which lie one after
the other in the file, and they are exactly `size` bytes: a sequence of segments whose
sizes overshoot `size` does not yield success. -/
theorem read_catalog_reads_exactly_size (file : SafeArray) (start_offset size : Nat)
    (buffer buffer' : List Nat) (hs : file.size < 2 ^ 63) (hsize : size < 2 ^ 64)
    (h : read_catalog file start_offset size buffer = Exec.ret (true, buffer')) :
    ∃ payloads, raw_frames_from file ((start_offset + 8) % 2 ^ 64) payloads ∧
      buffer' = buffer ++ payloads.flatten ∧
      (payloads.map List.length).sum = size ∧
      buffer'.length = buffer.length + size := by
  obtain ⟨payloads, r1, r2, r3, _⟩ :=
    read_catalog_loop_ok file hs _ start_offset size buffer buffer' hsize h
  refine ⟨payloads, r1, r2, ?_, ?_⟩
  · rw [← r3, List.length_flatten]
  · rw [r2, List.length_append, r3]

/-- Witness of C16 on `test_catalog`. -/
theorem read_catalog_reads_exactly_size_witness :
    read_catalog test_catalog 0 5 [] = Exec.ret (true, [1, 2, 3, 4, 5]) ∧
    ∃ payloads, raw_frames_from test_catalog ((0 + 8) % 2 ^ 64) payloads ∧
      [1, 2, 3, 4, 5] = [] ++ payloads.flatten ∧
      (payloads.map List.length).sum = 5 ∧
      [1, 2, 3, 4, 5].length = ([] : List Nat).length + 5 :=
  ⟨by decide, read_catalog_reads_exactly_size test_catalog 0 5 [] [1, 2, 3, 4, 5]
    (by decide) (by decide) (by decide)⟩

/-- C17, failing input: on a file of 8 bytes read from offset 0, the `cseg_head_t` passes
its bounds check, `get<cframe_head_t>(8)` returns null, and both functions read
`frame_head->segment_size` through that null pointer instead of returning false. On a file
of 7 bytes, where the `cseg_head_t` itself is out of bounds, both return false. -/
theorem frame_head_is_read_unchecked :
    read_catalog ⟨List.replicate 8 0⟩ 0 1 [] = Exec.undefined ∧
    read_data_segment ⟨List.replicate 8 0⟩ 0 [] = Exec.undefined ∧
    (SafeArray.mk (List.replicate 8 0)).get_typed sizeof_cseg_head_t 0 = some 0 ∧
    (SafeArray.mk (List.replicate 8 0)).get_typed sizeof_cframe_head_t 8 = none ∧
    read_catalog ⟨List.replicate 7 0⟩ 0 1 [] = Exec.ret (false, []) ∧
    read_data_segment ⟨List.replicate 7 0⟩ 0 [] = Exec.ret (false, []) := by
  decide

/-- C18: every entry that `recover_files` appends comes from an occurrence found by the
search for `DAT_SIG`: the record parsed 4 bytes after that occurrence has `is_dir` clear,
the offset of the entry is 6 bytes after the position that follows the record and its
path, and the four bytes at `entry.offset - 6` are inside the buffer and are the
little-endian `EDAT_SIG`. An occurrence whose record is a directory, or after whose record
the check of `EDAT_SIG` fails, appends no entry, and the loop goes on with the next
occurrence. -/
theorem recover_files_entries_follow_edat_sig (file_data : SafeArray)
    (recovered_files recovered_files' : List recovered_file_entry_t) (b : Bool)
    (hs : file_data.size < 2 ^ 63)
    (h : recover_files file_data recovered_files = Exec.ret (b, recovered_files')) :
    (∃ occurrences appended,
      search_binary_substring file_data.m_buffer (le_bytes 4 DAT_SIG) =
        Exec.ret occurrences ∧
      recovered_files' = recovered_files ++ appended ∧
      ∀ e ∈ appended, ∃ o ∈ occurrences, ∃ c' d,
        read_dir_entry file_data (o + 4) {} = Exec.ret (some (c', d)) ∧
        d.is_dir = false ∧ e.offset = c' + d.path_len + 6 ∧
        e.offset - 6 + 4 ≤ file_data.size ∧
        le_uint (file_data.slice (e.offset - 6) 4) % 2 ^ 32 = EDAT_SIG) ∧
    (∀ (o : Nat) (rest : List Nat) (recovered : List recovered_file_entry_t) (c' : Nat)
      (d : parsed_dir_entry_t),
      check_sig file_data o DAT_SIG = Exec.ret true →
      read_dir_entry file_data ((o + 4) % 2 ^ 64) {} = Exec.ret (some (c', d)) →
      (d.is_dir = true ∨
        check_sig file_data ((c' + d.path_len) % 2 ^ 64) EDAT_SIG = Exec.ret false) →
      recover_files_loop file_data (o :: rest) recovered =
        recover_files_loop file_data rest recovered) := by
  refine ⟨?_, fun o rest recovered c' d h1 h2 h3 =>
    recover_files_loop_skip file_data o rest recovered c' d h1 h2 h3⟩
  unfold recover_files at h
  obtain ⟨occurrences, hocc⟩ :=
    search_binary_substring_total file_data.m_buffer (le_bytes 4 DAT_SIG)
  rw [hocc] at h
  dsimp only at h
  obtain ⟨appended, a1, a2⟩ := recover_files_loop_spec file_data hs occurrences _ _ _ h
  exact ⟨occurrences, appended, hocc, a1, a2⟩

/-- Witness of C18 on `one_file_and_a_directory`: of the two occurrences of `DAT_SIG`, the
first one gives an entry and the second one, a directory, gives none. -/
theorem recover_files_entries_follow_edat_sig_witness :
    search_binary_substring one_file_and_a_directory (le_bytes 4 DAT_SIG) =
      Exec.ret [0, 107] ∧
    recover_files ⟨one_file_and_a_directory⟩ [] = Exec.ret (true, [one_file_entry]) ∧
    (SafeArray.mk one_file_and_a_directory).slice (104 - 6) 4 = [0x99, 0x66, 0x99, 0x66] ∧
    ∃ occurrences appended,
      search_binary_substring (SafeArray.mk one_file_and_a_directory).m_buffer
        (le_bytes 4 DAT_SIG) = Exec.ret occurrences ∧
      [one_file_entry] = [] ++ appended ∧
      ∀ e ∈ appended, ∃ o ∈ occurrences, ∃ c' d,
        read_dir_entry ⟨one_file_and_a_directory⟩ (o + 4) {} = Exec.ret (some (c', d)) ∧
        d.is_dir = false ∧ e.offset = c' + d.path_len + 6 ∧
        e.offset - 6 + 4 ≤ (SafeArray.mk one_file_and_a_directory).size ∧
        le_uint ((SafeArray.mk one_file_and_a_directory).slice (e.offset - 6) 4) % 2 ^ 32 =
          EDAT_SIG :=
  ⟨by decide!, by decide!, by decide!,
    (recover_files_entries_follow_edat_sig ⟨one_file_and_a_directory⟩ [] [one_file_entry]
      true (by decide!) (by decide!)).1⟩

/-- C19, failing input: on the buffer `overlapping_signature` the search finds `DAT_SIG` at
the offsets 0 and 25; the entry of the first occurrence has the payload start 130, beyond
the next occurrence, `has_guessed_size` is true, and `guessed_size` is `25 - 130` computed
in `size_t`, that is `2 ^ 64 - 105`; `get(130, 2 ^ 64 - 105)`, the call of `extract_file`,
does not return null although the buffer has 130 bytes. -/
theorem guessed_size_wraps :
    search_binary_substring overlapping_signature (le_bytes 4 DAT_SIG) = Exec.ret [0, 25] ∧
    recover_files ⟨overlapping_signature⟩ [] =
      Exec.ret (true,
        [{ path := "///////////////", offset := 130, has_guessed_size := true,
           guessed_size := 2 ^ 64 - 105, mtime := get_time 0, atime := get_time 0 }]) ∧
    (SafeArray.mk overlapping_signature).size = 130 ∧
    (SafeArray.mk overlapping_signature).get 130 (2 ^ 64 - 105) = some 130 := by
  decide!

/-- C20: in an iteration of the reconciliation loop for a recovered file whose path is in
the catalog map, with a recovered size that is positive and differs from the catalog
size, the entry handed to `extract_file` is the recovered entry with its size unchanged
and `may_be_corrupted` set, and `error_count` grows by exactly one. -/
theorem main_reconcile_marks_corrupted (m_file_map : String → Option parsed_dir_entry_t)
    (file : recovered_file_entry_t) (error_count : Int) (it : parsed_dir_entry_t)
    (hfind : m_file_map file.path = some it) (hr : file.guessed_size > 0)
    (hne : file.guessed_size ≠ it.file_size) :
    ∃ final_entry,
      main_reconcile m_file_map file error_count = (error_count + 1, some final_entry) ∧
      final_entry.guessed_size = file.guessed_size ∧
      final_entry.may_be_corrupted = true ∧
      final_entry = { file with may_be_corrupted := true } := by
  unfold main_reconcile
  rw [hfind]
  dsimp only
  rw [if_pos (fun h => hne h.symm), if_neg (by omega)]
  exact ⟨_, rfl, rfl, rfl, rfl⟩

/-- Witness of C20: catalog size 100, recovered size 80. -/
theorem main_reconcile_marks_corrupted_witness :
    main_reconcile test_file_map
        { path := "/DIR/f.txt", offset := 10, has_guessed_size := true, guessed_size := 80 } 0 =
      (1, some { path := "/DIR/f.txt", offset := 10, has_guessed_size := true,
                 guessed_size := 80, may_be_corrupted := true }) ∧
    ∃ final_entry,
      main_reconcile test_file_map
          { path := "/DIR/f.txt", offset := 10, has_guessed_size := true, guessed_size := 80 }
          0 = (0 + 1, some final_entry) ∧
      final_entry.guessed_size = 80 ∧
      final_entry.may_be_corrupted = true ∧
      final_entry = { path := "/DIR/f.txt", offset := 10, has_guessed_size := true,
                      guessed_size := 80, may_be_corrupted := true } :=
  ⟨by decide, main_reconcile_marks_corrupted test_file_map
    { path := "/DIR/f.txt", offset := 10, has_guessed_size := true, guessed_size := 80 } 0
    { long_name := "f.txt", file_size := 100 } (by decide) (by decide) (by decide)⟩

/-- C21: in an iteration of the reconciliation loop for a recovered file whose path is in
the catalog map and whose recovered size equals the catalog size, the entry handed to
`extract_file` is the recovered entry unchanged: its size is the catalog size,
`may_be_corrupted` stays false, and `error_count` is not incremented. -/
theorem main_reconcile_equal_sizes (m_file_map : String → Option parsed_dir_entry_t)
    (file : recovered_file_entry_t) (error_count : Int) (it : parsed_dir_entry_t)
    (hfind : m_file_map file.path = some it) (heq : file.guessed_size = it.file_size)
    (hfalse : file.may_be_corrupted = false) :
    ∃ final_entry,
      main_reconcile m_file_map file error_count = (error_count, some final_entry) ∧
      final_entry.guessed_size = it.file_size ∧
      final_entry.may_be_corrupted = false ∧
      final_entry = file := by
  unfold main_reconcile
  rw [hfind]
  dsimp only
  rw [if_neg (fun h => h heq.symm)]
  exact ⟨_, rfl, heq, hfalse, rfl⟩

/-- Witness of C21: the entry that `recover_files` appends on `one_file_and_a_directory`,
of recovered size 3, against a catalog entry of size 3. -/
theorem main_reconcile_equal_sizes_witness :
    main_reconcile one_file_map one_file_entry 0 = (0, some one_file_entry) ∧
    ∃ final_entry,
      main_reconcile one_file_map one_file_entry 0 = (0, some final_entry) ∧
      final_entry.guessed_size = 3 ∧
      final_entry.may_be_corrupted = false ∧
      final_entry = one_file_entry :=
  ⟨by decide, main_reconcile_equal_sizes one_file_map one_file_entry 0 { file_size := 3 }
    (by decide) (by decide) (by decide)⟩

/-- C22: in an iteration of the reconciliation loop, a recovered file whose path is in the
catalog map, whose recovered size is 0 and whose catalog size is positive is handed to
`extract_file` with the catalog size, `may_be_corrupted` stays false, and `error_count`
grows by one; a recovered file whose path is not in the map is not handed to
`extract_file`, and `error_count` grows by one. -/
theorem main_reconcile_substitutes_catalog_size
    (m_file_map : String → Option parsed_dir_entry_t) (file : recovered_file_entry_t)
    (error_count : Int) :
    (∀ it : parsed_dir_entry_t, m_file_map file.path = some it → file.guessed_size = 0 →
      0 < it.file_size → file.may_be_corrupted = false →
      ∃ final_entry,
        main_reconcile m_file_map file error_count = (error_count + 1, some final_entry) ∧
        final_entry.guessed_size = it.file_size ∧
        final_entry.may_be_corrupted = false ∧
        final_entry = { file with guessed_size := it.file_size }) ∧
    (m_file_map file.path = none →
      main_reconcile m_file_map file error_count = (error_count + 1, none)) := by
  constructor
  · intro it hfind h0 hpos hfalse
    unfold main_reconcile
    rw [hfind]
    dsimp only
    rw [if_pos (by omega), if_pos h0]
    exact ⟨_, rfl, rfl, hfalse, rfl⟩
  · intro hfind
    unfold main_reconcile
    rw [hfind]

/-- Witness of C22: a recovered size 0 against the catalog size 100, and a path that the
catalog does not list. -/
theorem main_reconcile_substitutes_catalog_size_witness :
    (∃ final_entry,
      main_reconcile test_file_map { path := "/DIR/f.txt", offset := 10 } 0 =
        (0 + 1, some final_entry) ∧
      final_entry.guessed_size = 100 ∧
      final_entry.may_be_corrupted = false ∧
      final_entry = { path := "/DIR/f.txt", offset := 10, guessed_size := 100 }) ∧
    main_reconcile test_file_map { path := "/DIR/g.txt", offset := 10, guessed_size := 5 } 0 =
      (0 + 1, none) :=
  ⟨(main_reconcile_substitutes_catalog_size test_file_map
      { path := "/DIR/f.txt", offset := 10 } 0).1
      { long_name := "f.txt", file_size := 100 } (by decide) (by decide) (by decide)
      (by decide),
    (main_reconcile_substitutes_catalog_size test_file_map
      { path := "/DIR/g.txt", offset := 10, guessed_size := 5 } 0).2 (by decide)⟩

/-- C23: after `reconstruct_tree`, `update_times_for_dirs` returns; the paths it
processes are the paths of the directories, sorted so that a path with more `/` comes
first and, among paths with as many `/`, the greater string comes first; hence a path that
is another path followed by `/` and further text is processed strictly before that other
path. -/
theorem update_times_for_dirs_deepest_first (dirs entries : List parsed_dir_entry_t)
    (h : reconstruct_tree dirs = some entries) :
    ∃ by_path sorted_paths,
      update_times_collect entries 0 entries [] [] = Exec.ret (by_path, sorted_paths) ∧
      update_times_for_dirs entries =
        Exec.ret ((std_sort deeper_first sorted_paths).map fun path =>
          ("." ++ path, (by_path_entry by_path path).mtime,
            (by_path_entry by_path path).atime)) ∧
      (std_sort deeper_first sorted_paths).Perm sorted_paths ∧
      (std_sort deeper_first sorted_paths).Pairwise (fun a b =>
        count_slash a > count_slash b ∨
          (count_slash a = count_slash b ∧ string_less a.data b.data = false)) ∧
      ∀ (x y : Nat) (a t : String),
        (std_sort deeper_first sorted_paths)[x]? = some a →
        (std_sort deeper_first sorted_paths)[y]? = some (a ++ "/" ++ t) → y < x := by
  have hlt := reconstruct_tree_parent_lt dirs entries h
  have htotal : ∀ k, k < 0 + entries.length → ∃ path,
      get_recursive_path entries k = Exec.ret path := by
    intro k hk
    obtain ⟨init, hc⟩ := parent_chain_exists entries hlt k (by omega)
    exact ⟨_, get_recursive_path_chain entries hlt k (by omega) init hc⟩
  obtain ⟨⟨by_path, sorted_paths⟩, hr⟩ := update_times_collect_total entries entries 0 [] []
    htotal
  have hsorted := std_sort_sorted deeper_first deeper_first_asymm deeper_first_neg_trans
    sorted_paths
  refine ⟨by_path, sorted_paths, hr, ?_, std_sort_perm _ _, ?_, ?_⟩
  · unfold update_times_for_dirs
    rw [hr]
  · refine hsorted.imp ?_
    intro a b hab
    unfold deeper_first at hab
    dsimp only at hab
    by_cases hc : count_slash b = count_slash a
    · rw [if_neg (by simp [hc])] at hab
      exact Or.inr ⟨hc.symm, hab⟩
    · rw [if_pos hc] at hab
      simp only [decide_eq_false_iff_not] at hab
      left
      omega
  · intro x y a t hx hy
    by_contra hcon
    have hxy : x ≤ y := by omega
    rcases Nat.lt_or_eq_of_le hxy with hlt' | heq
    · have := pairwise_getElem? _ hsorted x y a (a ++ "/" ++ t) hlt' hx hy
      rw [deeper_first_descendant] at this
      exact absurd this (by simp)
    · subst heq
      rw [hx] at hy
      simp only [Option.some.injEq] at hy
      have hcount := congrArg count_slash hy
      rw [count_slash_append, count_slash_append] at hcount
      have h1 : count_slash "/" = 1 := rfl
      omega

/-- Witness of C23 on the tree of the unit test: the eight directories in the order in
which they are processed. -/
theorem update_times_for_dirs_deepest_first_witness :
    reconstruct_tree test_entries = some test_result ∧
    update_times_for_dirs test_result =
      Exec.ret [(".//COMEXE/LANGUAGE/C", {}, {}), (".//COMEXE/LANGUAGE/BASIC", {}, {}),
        (".//COMEXE/LANGUAGE/APL", {}, {}), (".//COMEXE/STUFF", {}, {}),
        (".//COMEXE/LANGUAGE", {}, {}), (".//TEXT", {}, {}), (".//COMEXE", {}, {}),
        ("./", {}, {})] ∧
    ∃ by_path sorted_paths,
      update_times_collect test_result 0 test_result [] [] =
        Exec.ret (by_path, sorted_paths) ∧
      update_times_for_dirs test_result =
        Exec.ret ((std_sort deeper_first sorted_paths).map fun path =>
          ("." ++ path, (by_path_entry by_path path).mtime,
            (by_path_entry by_path path).atime)) ∧
      (std_sort deeper_first sorted_paths).Perm sorted_paths ∧
      (std_sort deeper_first sorted_paths).Pairwise (fun a b =>
        count_slash a > count_slash b ∨
          (count_slash a = count_slash b ∧ string_less a.data b.data = false)) ∧
      ∀ (x y : Nat) (a t : String),
        (std_sort deeper_first sorted_paths)[x]? = some a →
        (std_sort deeper_first sorted_paths)[y]? = some (a ++ "/" ++ t) → y < x :=
  ⟨by decide, by decide!,
    update_times_for_dirs_deepest_first test_entries test_result (by decide)⟩

/-- C24, failing input: `get_time 0` has the day of the month 0, not 1; the hour, minute
and second are the claimed ones for every input and the year is 1970 for every input below
`365 * 86400`, but the day of the month is the number of whole days since the start of
the year: `31 * 86400`, which is 1 February 1970, gives 31 January, and `364 * 86400`,
which is 31 December 1970, gives 29 December. -/
theorem get_time_epoch_is_day_zero :
    (∀ s : Nat,
      (get_time s).tm_hour = ((s / 3600 % 24 : Nat) : Int) ∧
      (get_time s).tm_min = ((s / 60 % 60 : Nat) : Int) ∧
      (get_time s).tm_sec = ((s % 60 : Nat) : Int)) ∧
    (∀ s : Nat, (get_time (s % (365 * 86400))).tm_year = 70) ∧
    get_time 0 = { tm_mday := 0, tm_mon := 1, tm_year := 70 } ∧
    get_time (31 * 86400) = { tm_mday := 31, tm_mon := 1, tm_year := 70 } ∧
    get_time (364 * 86400) = { tm_mday := 29, tm_mon := 12, tm_year := 70 } := by
  refine ⟨fun s => ?_, fun s => ?_, by decide, by decide, by decide⟩
  · obtain ⟨f1, f2, f3, _⟩ := get_time_fields s
    exact ⟨f3, f2, f1⟩
  · obtain ⟨_, _, _, f4, _⟩ := get_time_fields (s % (365 * 86400))
    obtain ⟨_, _, _, _, _, y6⟩ := get_time_years_spec (s % (365 * 86400) / 60 / 60 / 24) 1970
      (s % (365 * 86400) / 60 / 60 / 24) (by omega)
    rw [f4]
    have hlt : s % (365 * 86400) < 365 * 86400 := Nat.mod_lt _ (by norm_num)
    have hdate : s % (365 * 86400) / 60 / 60 / 24 < 365 := by omega
    have := y6 (by omega)
    omega

/-- C25, failing input: for `790 * 86400`, day 60 of 1972, the loop over the years leaves
the year 1972 with the flag `lpyr` of 1971, so that February is counted as 28 days in a
year with `Y % 100 != 0` and `Y % 4 == 0`: the result is 1 March. For `1156 * 86400`, day
60 of 1973, the flag is that of 1972 and February is counted as 29 days in a year with
`Y % 4 != 0`: the result is 29 February 1973. -/
theorem get_time_leap_flag_is_stale :
    get_time_years 790 1970 790 (by omega) = (1972, 60, 365, 0) ∧
    get_time (790 * 86400) = { tm_mday := 1, tm_mon := 3, tm_year := 72 } ∧
    (1972 % 100 ≠ 0 ∧ 1972 % 4 = 0) ∧
    get_time_years 1156 1970 1156 (by omega) = (1973, 60, 366, 1) ∧
    get_time (1156 * 86400) = { tm_mday := 29, tm_mon := 2, tm_year := 73 } ∧
    ¬ (1973 % 100 ≠ 0 ∧ 1973 % 4 = 0) := by
  refine ⟨by decide, by decide, by decide, by decide, by decide, by decide⟩

/-- C26, failing input: `get_time 0` has the day of the month 0, outside 1..31. For every
32-bit input the month is in 1..12, the day of the month is at most 31, the hour, minute
and second are in range and the year field is at least 70; the day of the month is 0
exactly for the inputs below 86400. -/
theorem get_time_day_of_month_zero :
    (get_time 0).tm_mday = 0 ∧
    ∀ s : Nat,
      1 ≤ (get_time (s % 2 ^ 32)).tm_mon ∧ (get_time (s % 2 ^ 32)).tm_mon ≤ 12 ∧
      0 ≤ (get_time (s % 2 ^ 32)).tm_mday ∧ (get_time (s % 2 ^ 32)).tm_mday ≤ 31 ∧
      0 ≤ (get_time (s % 2 ^ 32)).tm_hour ∧ (get_time (s % 2 ^ 32)).tm_hour ≤ 23 ∧
      0 ≤ (get_time (s % 2 ^ 32)).tm_min ∧ (get_time (s % 2 ^ 32)).tm_min ≤ 59 ∧
      0 ≤ (get_time (s % 2 ^ 32)).tm_sec ∧ (get_time (s % 2 ^ 32)).tm_sec ≤ 59 ∧
      70 ≤ (get_time (s % 2 ^ 32)).tm_year ∧
      ((get_time (s % 2 ^ 32)).tm_mday = 0 ↔ s % 2 ^ 32 < 86400) :=
  ⟨by decide, fun s => get_time_ranges (s % 2 ^ 32) (Nat.mod_lt _ (by norm_num))⟩

/-- C27, failing input: the table `mondays` gives September 31 days, October 30 and
November 31, where the standard table has 30, 31 and 30: `274 * 86400` is split into the
31st day of month 9 and `335 * 86400` into the 31st day of month 11. -/
theorem mondays_is_not_the_standard_table :
    mondays = [31, 28, 31, 30, 31, 30, 31, 31, 31, 30, 31, 31] ∧
    mondays ≠ [31, 28, 31, 30, 31, 30, 31, 31, 30, 31, 30, 31] ∧
    get_time (274 * 86400) = { tm_mday := 31, tm_mon := 9, tm_year := 70 } ∧
    get_time (335 * 86400) = { tm_mday := 31, tm_mon := 11, tm_year := 70 } := by
  refine ⟨rfl, by decide, by decide, by decide⟩

/-- C28: after `reconstruct_tree`, every entry is the last one of a parent chain that
starts at an entry with a null parent; for every such chain `e_0, ..., e_k` that ends at
the entry, `get_recursive_path` returns the concatenation of a `/` and the long name of
`e_0`, a `/` and the long name of `e_1`, and so on up to the entry itself; the walk over
the parents terminates. -/
theorem get_recursive_path_follows_parents (dirs entries : List parsed_dir_entry_t)
    (i : Nat) (h : reconstruct_tree dirs = some entries) (hi : i < entries.length) :
    (∃ init, parent_chain entries none (init ++ [i])) ∧
    (∀ init, parent_chain entries none (init ++ [i]) →
      get_recursive_path entries i = Exec.ret (path_of_chain entries (init ++ [i]))) ∧
    ∃ path, get_recursive_path entries i = Exec.ret path := by
  have hlt := reconstruct_tree_parent_lt dirs entries h
  obtain ⟨init, hc⟩ := parent_chain_exists entries hlt i hi
  exact ⟨⟨init, hc⟩, fun init' hc' => get_recursive_path_chain entries hlt i hi init' hc',
    ⟨_, get_recursive_path_chain entries hlt i hi init hc⟩⟩

/-- Witness of C28 on the tree of the unit test: the entry 6, `stuff.dat`, has the chain
0, 1, 4, 6, whose names are the empty name, `COMEXE`, `STUFF` and `stuff.dat`. -/
theorem get_recursive_path_follows_parents_witness :
    reconstruct_tree test_entries = some test_result ∧
    path_of_chain test_result ([0, 1, 4] ++ [6]) = "//COMEXE/STUFF/stuff.dat" ∧
    get_recursive_path test_result 6 = Exec.ret (path_of_chain test_result ([0, 1, 4] ++ [6])) :=
  ⟨by decide, by decide,
    (get_recursive_path_follows_parents test_entries test_result 6 (by decide) (by decide)).2.1
      [0, 1, 4]
      ⟨⟨_, rfl, rfl⟩, ⟨_, rfl, rfl⟩, ⟨_, rfl, rfl⟩, ⟨_, rfl, rfl⟩, trivial⟩⟩

/-- C29: when `reconstruct_tree` completes, the parent of every sibling group after the
first one is a non-empty directory `q` before the group that is not yet the parent of an
earlier entry, and every other such directory `q'` is either in an earlier sibling group
than `q`, or in the sibling group of `q` at a higher index: `q` is the lowest-index unused
non-empty directory of the most recent group that still has one. Hence the entries that
have a given parent are all in one sibling group, and for two non-empty directories `A`
before `B` in one sibling group every descendant of `A` has a lower index than every child
of `B`. -/
theorem reconstruct_tree_parents_are_taken_in_order (dirs res : List parsed_dir_entry_t)
    (h : reconstruct_tree dirs = some res) :
    (∀ (s : Nat) (es : parsed_dir_entry_t), 0 < s → is_last_at dirs (s - 1) →
      res[s]? = some es →
      ∃ q, es.parent = some q ∧ q < s ∧ nonempty_dir dirs q ∧ ¬ used_before res s q ∧
        ∀ q', q' < s → nonempty_dir dirs q' → ¬ used_before res s q' →
          group_of dirs q' < group_of dirs q ∨
            (group_of dirs q' = group_of dirs q ∧ q ≤ q')) ∧
    (∀ (j1 j2 q : Nat) (e1 e2 : parsed_dir_entry_t), res[j1]? = some e1 →
      res[j2]? = some e2 → e1.parent = some q → e2.parent = some q →
      group_of dirs j1 = group_of dirs j2) ∧
    (∀ (A B c d m : Nat) (ec : parsed_dir_entry_t), A < B →
      group_of dirs A = group_of dirs B → nonempty_dir dirs A → nonempty_dir dirs B →
      res[c]? = some ec → ec.parent = some B →
      ancestor (res.map parsed_dir_entry_t.parent) (m + 1) d = some A → d < c) :=
  ⟨reconstruct_tree_group_parent dirs res h, same_parent_same_group dirs res h,
    fun A B c d m ec hAB hg hA _ hc hcB hd =>
      descendants_before_children dirs res h A B c ec hAB hg hA hc hcB m d hd⟩

/-- Witness of C29 on the entries of the unit test: the sibling groups start at the
indices 0, 1, 4, 6, 7, 10, 11 and 12, the directories 1 and 3 are in one group, the
descendants of 1 are the entries 4 to 11 and the child of 3 is the entry 12. -/
theorem reconstruct_tree_parents_are_taken_in_order_witness :
    reconstruct_tree test_entries = some test_result ∧
    (List.range 13).map (group_of test_entries) = [0, 1, 1, 1, 2, 2, 3, 4, 4, 4, 5, 6, 7] ∧
    test_result.map parsed_dir_entry_t.parent = test_parents ∧
    ((∀ (s : Nat) (es : parsed_dir_entry_t), 0 < s → is_last_at test_entries (s - 1) →
      test_result[s]? = some es →
      ∃ q, es.parent = some q ∧ q < s ∧ nonempty_dir test_entries q ∧
        ¬ used_before test_result s q ∧
        ∀ q', q' < s → nonempty_dir test_entries q' → ¬ used_before test_result s q' →
          group_of test_entries q' < group_of test_entries q ∨
            (group_of test_entries q' = group_of test_entries q ∧ q ≤ q')) ∧
    (∀ (j1 j2 q : Nat) (e1 e2 : parsed_dir_entry_t), test_result[j1]? = some e1 →
      test_result[j2]? = some e2 → e1.parent = some q → e2.parent = some q →
      group_of test_entries j1 = group_of test_entries j2) ∧
    (∀ (A B c d m : Nat) (ec : parsed_dir_entry_t), A < B →
      group_of test_entries A = group_of test_entries B → nonempty_dir test_entries A →
      nonempty_dir test_entries B →
      test_result[c]? = some ec → ec.parent = some B →
      ancestor (test_result.map parsed_dir_entry_t.parent) (m + 1) d = some A → d < c)) :=
  ⟨by decide, by decide, by decide,
    reconstruct_tree_parents_are_taken_in_order test_entries test_result (by decide)⟩

/-- C30: on a fresh stream over a buffer of `len` bytes, the call of `get_next_bit` that
follows `k` earlier calls succeeds if and only if `k < 8 * len`; when it succeeds it
returns bit `7 - k mod 8` of byte `k div 8`, bit 0 being the least significant one, and
moves the cursor from `k` to `k + 1`; a call that fails leaves the stream, and so the
cursor, as it was: the cursor after `k` calls is the smaller of `k` and `8 * len`, and
every call after the first `8 * len` ones leaves the stream unchanged. -/
theorem get_next_bit_kth_call (buf : List Nat) (k : Nat) :
    ((BitStream.create buf).after_calls k).get_next_bit =
      (if k < 8 * buf.length then
        some (buf.getD (k / 8) 0 / 2 ^ (7 - k % 8) % 2, ⟨buf, k + 1⟩)
      else none) ∧
    (((BitStream.create buf).after_calls k).get_next_bit = none ↔ 8 * buf.length ≤ k) ∧
    ((BitStream.create buf).after_calls k).m_bit_pos = min k (8 * buf.length) ∧
    (BitStream.create buf).after_calls (8 * buf.length + k + 1) =
      (BitStream.create buf).after_calls (8 * buf.length + k) := by
  have hcall : ((BitStream.create buf).after_calls k).get_next_bit =
      (if k < 8 * buf.length then
        some (buf.getD (k / 8) 0 / 2 ^ (7 - k % 8) % 2, ⟨buf, k + 1⟩)
      else none) := by
    rw [after_calls_spec, get_next_bit_eq]
    dsimp only
    by_cases h : k < 8 * buf.length
    · rw [if_pos h, if_pos (by rw [Nat.min_eq_left (by omega)]; omega),
        Nat.min_eq_left (by omega), bit_at_eq]
    · rw [if_neg h, if_neg (by rw [Nat.min_eq_right (by omega)]; omega)]
  refine ⟨hcall, ?_, ?_, ?_⟩
  · rw [hcall]
    by_cases h : k < 8 * buf.length
    · rw [if_pos h]
      constructor
      · intro hn; exact absurd hn (by simp)
      · intro hn; omega
    · rw [if_neg h]
      exact ⟨fun _ => by omega, fun _ => rfl⟩
  · rw [after_calls_spec, Nat.mul_comm]
  · rw [after_calls_spec, after_calls_spec, Nat.min_eq_right (by omega),
      Nat.min_eq_right (by omega)]

/-- C31: `search_binary_substring` returns, and the list it returns is strictly increasing
and holds exactly the offsets `i` with `i + needle_size ≤ haystack_size` at which the bytes
of the haystack equal the needle (overlapping occurrences included) when the needle is not
empty; the list is empty when `needle_size` is 0 or the haystack is shorter than the
needle. With the four bytes of `DAT_SIG` as the needle, the loop of `recover_files` runs
over that list and the check `check_sig(file_data, offset, DAT_SIG)` succeeds at every
offset of it. -/
theorem search_binary_substring_finds_all_occurrences (haystack needle : List Nat) :
    ∃ occurrences, search_binary_substring haystack needle = Exec.ret occurrences ∧
      occurrences.Pairwise (fun a b => a < b) ∧
      (∀ i, i ∈ occurrences ↔
        needle.length ≠ 0 ∧ i + needle.length ≤ haystack.length ∧
          (haystack.drop i).take needle.length = needle) ∧
      (needle.length = 0 ∨ haystack.length < needle.length → occurrences = []) ∧
      (needle = le_bytes 4 DAT_SIG → haystack.length < 2 ^ 64 →
        (∀ recovered_files, recover_files ⟨haystack⟩ recovered_files =
          recover_files_loop ⟨haystack⟩ occurrences recovered_files) ∧
        ∀ o ∈ occurrences, check_sig ⟨haystack⟩ o DAT_SIG = Exec.ret true) := by
  refine ⟨_, search_binary_substring_eq haystack needle, ?_, ?_, ?_, ?_⟩
  · split
    · exact List.Pairwise.nil
    · exact occurrences_in_sorted needle haystack 0
  · intro i
    by_cases hg : needle.length = 0 ∨ haystack.length < needle.length
    · rw [if_pos hg]
      simp only [List.not_mem_nil, false_iff]
      rintro ⟨h1, h2, _⟩
      omega
    · rw [if_neg hg, occurrences_in_mem, Nat.sub_zero]
      constructor
      · rintro ⟨_, h2, h3⟩
        have hl := congrArg List.length h3
        rw [List.length_take, List.length_drop] at hl
        exact ⟨by omega, by omega, h3⟩
      · rintro ⟨h1, h2, h3⟩
        exact ⟨Nat.zero_le _, by omega, h3⟩
  · intro hg
    rw [if_pos hg]
  · intro hn hs
    constructor
    · intro recovered_files
      unfold recover_files
      rw [← hn, search_binary_substring_eq]
    · intro o ho
      have hg : ¬ (needle.length = 0 ∨ haystack.length < needle.length) := by
        intro hg
        rw [if_pos hg] at ho
        exact absurd ho (List.not_mem_nil _)
      rw [if_neg hg, occurrences_in_mem, Nat.sub_zero] at ho
      apply check_sig_dat_sig ⟨haystack⟩ hs o
      rw [← hn]
      have h3 := ho.2.2
      rw [hn] at h3 ⊢
      exact h3

/-- Witness of C31 on `overlapping_occurrences`: the occurrences of the bytes of `DAT_SIG`
at the offsets 0 and 2 overlap, both are returned and both pass `check_sig`. -/
theorem search_binary_substring_finds_all_occurrences_witness :
    search_binary_substring overlapping_occurrences (le_bytes 4 DAT_SIG) = Exec.ret [0, 2] ∧
    check_sig ⟨overlapping_occurrences⟩ 0 DAT_SIG = Exec.ret true ∧
    check_sig ⟨overlapping_occurrences⟩ 2 DAT_SIG = Exec.ret true ∧
    search_binary_substring [1, 2, 3] [] = Exec.ret [] ∧
    search_binary_substring [0xCC, 0x33, 0xCC] (le_bytes 4 DAT_SIG) = Exec.ret [] := by
  obtain ⟨occ, h1, _, _, _, h5⟩ :=
    search_binary_substring_finds_all_occurrences overlapping_occurrences (le_bytes 4 DAT_SIG)
  have e : search_binary_substring overlapping_occurrences (le_bytes 4 DAT_SIG) =
      Exec.ret [0, 2] := by decide
  rw [e] at h1
  simp only [Exec.ret.injEq] at h1
  subst h1
  obtain ⟨_, h6⟩ := h5 rfl (by decide)
  exact ⟨e, h6 0 (by decide), h6 2 (by decide), by decide, by decide⟩

/-- C32: when `decompress` returns false, the tokens `ts` that it has read completely
before the token on which a read fails have all been applied, and the window has been
flushed: the output buffer is its previous contents followed by the expansion of `ts`,
whose length is the number of literals of `ts` plus the sum of the lengths of its
back-references. -/
theorem decompress_failure_keeps_partial_output (input : SafeArray) (out out' : List Nat)
    (h : decompress input out = Run.done (false, out')) :
    ∃ ts sl, reads_to (BitStream.create input.m_buffer) ts sl ∧
      next_token sl = Run.done Step.exhausted ∧
      out' = (ts.foldl HistoryBuffer.apply (HistoryBuffer.create out)).flush.m_out ∧
      out' = out ++ window_expand ts [] ∧
      (window_expand ts []).length = literal_count ts + backref_length_sum ts := by
  obtain ⟨ts, sl, b, ht, hd⟩ := decompress_window input out
  have he := decompress_eq input out
  rw [ht] at he
  dsimp only at he
  rw [h] at hd he
  simp only [Run.done.injEq, Prod.mk.injEq] at hd he
  obtain ⟨hb, ho⟩ := hd
  subst hb
  obtain ⟨g1, g2⟩ := (tokens_of_iff input ts sl false).mp ht
  refine ⟨ts, sl, g1, g2, he.2, ho, ?_⟩
  rw [window_expand_length]
  exact Nat.zero_add _

/-- Witness of C32 on `truncated_stream`: the byte 7 that the output held is kept, the four
bytes of the two complete tokens follow it, and `read_data_segment` hands that buffer to
its caller with the result false. -/
theorem decompress_failure_keeps_partial_output_witness :
    decompress ⟨truncated_stream⟩ [7] = Run.done (false, [7, 0x41, 0, 0x41, 0]) ∧
    read_data_segment truncated_segment 0 [7] = Exec.ret (false, [7, 0x41, 0, 0x41, 0]) ∧
    ∃ ts sl, reads_to (BitStream.create truncated_stream) ts sl ∧
      next_token sl = Run.done Step.exhausted ∧
      [7, 0x41, 0, 0x41, 0] =
        (ts.foldl HistoryBuffer.apply (HistoryBuffer.create [7])).flush.m_out ∧
      [7, 0x41, 0, 0x41, 0] = [7] ++ window_expand ts [] ∧
      (window_expand ts []).length = literal_count ts + backref_length_sum ts :=
  ⟨by decide!, by decide!,
    decompress_failure_keeps_partial_output ⟨truncated_stream⟩ [7] [7, 0x41, 0, 0x41, 0]
      (by decide!)⟩

/-- C33: a call of `decompress` starts with a window of 2048 bytes 0x00, whatever the
output buffer holds, and what it appends is the expansion of the tokens of its input in
which a back-reference that reaches before the start of the bytes produced by this call
copies 0x00: the appended bytes are the same for every output buffer. On the stream
`backref_before_start` the call returns true and appends the two bytes 00 00. -/
theorem decompress_starts_from_zero_window (input : SafeArray) :
    ∃ ts sl b, tokens_of input = Run.done (ts, sl, b) ∧
      (∀ out : List Nat,
        (HistoryBuffer.create out).m_history = List.replicate 2048 0 ∧
        (HistoryBuffer.create out).m_offset = 0 ∧
        decompress input out = Run.done (b, out ++ window_expand ts [])) ∧
      (∀ (produced : List Nat) (k : Nat), window_byte produced (produced.length + k + 1) = 0) ∧
      tokens_of ⟨backref_before_start⟩ =
        Run.done ([Token.backref 1 2], ⟨backref_before_start, 11⟩, true) ∧
      ∀ out : List Nat,
        decompress ⟨backref_before_start⟩ out = Run.done (true, out ++ [0, 0]) := by
  obtain ⟨⟨ts, sl, b⟩, ht⟩ := tokens_of_total input
  have hex : tokens_of ⟨backref_before_start⟩ =
      Run.done ([Token.backref 1 2], ⟨backref_before_start, 11⟩, true) := by decide!
  refine ⟨ts, sl, b, ht, ?_, ?_, hex, ?_⟩
  · intro out
    refine ⟨rfl, rfl, ?_⟩
    obtain ⟨ts', sl', b', ht', hd⟩ := decompress_window input out
    rw [ht] at ht'
    simp only [Run.done.injEq, Prod.mk.injEq] at ht'
    obtain ⟨e1, _, e3⟩ := ht'
    subst e1 e3
    exact hd
  · intro produced k
    unfold window_byte
    rw [if_neg (by omega)]
  · intro out
    obtain ⟨ts', sl', b', ht', hd⟩ := decompress_window ⟨backref_before_start⟩ out
    rw [hex] at ht'
    simp only [Run.done.injEq, Prod.mk.injEq] at ht'
    obtain ⟨e1, _, e3⟩ := ht'
    subst e1 e3
    exact hd

/-- C34: when, at every start `n > 0` of a sibling group, the number of sibling groups
before `n` is at most the number of non-empty directories before `n`, `reconstruct_tree`
runs without undefined behaviour: at the head of every iteration that starts a sibling
group the stack is not empty and its top deque is not empty, at the head of every other
iteration the stack is not empty, and the call returns. -/
theorem reconstruct_tree_never_meets_empty_stack (dirs : List parsed_dir_entry_t)
    (h : ∀ n, 0 < n → n < dirs.length → is_last_at dirs (n - 1) →
      group_of dirs n ≤ nonempty_dir_count dirs n) :
    (∃ res, reconstruct_tree dirs = some res) ∧
    ∀ n, n < dirs.length → ∃ st, reconstruct_state dirs n = some st ∧
      (st.first = true ↔ (n = 0 ∨ is_last_at dirs (n - 1))) ∧
      (st.first = true → ∃ front top below, st.stack = (front :: top) :: below) ∧
      (st.first = false → ∃ top below, st.stack = top :: below) := by
  constructor
  · exact reconstruct_loop_defined dirs h dirs.length 0 TreeState.init (Nat.zero_add _)
      (pending_inv_init dirs)
  · intro n hn
    obtain ⟨st, hst, hinv⟩ := reconstruct_state_defined dirs h n (by omega)
    have he : dirs[n]? = some dirs[n] := List.getElem?_eq_getElem hn
    obtain ⟨a, b, _⟩ := pending_inv_step hinv he (fun h0 hl => h n h0 hn hl)
    exact ⟨st, hst, hinv.first_iff, a, b⟩

/-- Witness of C34 on the entries of the unit test, with the state at the start of the
sibling group of index 4; on `two_lone_files`, which has no non-empty directory, the
second sibling group starts on an empty stack. -/
theorem reconstruct_tree_never_meets_empty_stack_witness :
    ((∃ res, reconstruct_tree test_entries = some res) ∧
      ∀ n, n < test_entries.length → ∃ st, reconstruct_state test_entries n = some st ∧
        (st.first = true ↔ (n = 0 ∨ is_last_at test_entries (n - 1))) ∧
        (st.first = true → ∃ front top below, st.stack = (front :: top) :: below) ∧
        (st.first = false → ∃ top below, st.stack = top :: below)) ∧
    reconstruct_state test_entries 4 = some ⟨some 0, [[some 1, some 3]], true⟩ ∧
    reconstruct_state two_lone_files 1 = some ⟨none, [], true⟩ ∧
    reconstruct_tree two_lone_files = none := by
  refine ⟨reconstruct_tree_never_meets_empty_stack test_entries ?_, by decide, by decide,
    by decide⟩
  intro n h0 hn _
  have hlen : test_entries.length = 13 := by decide
  rw [hlen] at hn
  interval_cases n <;> decide

end QIC
